import Mathlib

/-!
# nGraph: placement assignment, graph splitting and hybrid execution

A shallow embedding of the parts of the nGraph fragment that the placement /
partition tests exercise (`test/graph_partition.cpp`), of the operation `Pad`, of
the ONNXIFI weight and backend classes and of the CPU builder of `op::Lstm`.

* Nodes live in an arena: a node is identified by its index in the list of
  nodes of its function, and an input edge is the index of the producer. The
  arena is stored in dependency order (`Function::get_ordered_ops`).
* `HybridBackend` and `HybridExecutable` are translated from the test file.
* `pass::AssignPlacement`, `split_function_by_placement`,
  `get_colocated_function_placement` and the `Placement` enumeration are not
  part of the available sources; they are modelled from the specification and
  every such definition says so in its documentation. The same holds for the
  helpers `read_vector`, `copy_data` (`util/test_tools.hpp`),
  `subtract_or_zero` (`ngraph/util.hpp`) and `insert_result_parameter_split`.
  The splitter groups the nodes by placement and level (`level_labels`), which
  on `hybrid_abc` gives the partition that `hybrid_abc_manual` builds by hand.
* The constructor of `op::Pad` is translated from `src/ngraph/op/pad.cpp`, with
  `size_t` arithmetic reduced modulo 2^64.
* To tell the caller's function from its clone, the constructor of
  `HybridExecutable` is translated a second time over a store of node objects,
  with the graph library it calls as a parameter.
* `onnxifi::Weight` and `onnxifi::Backend` are translated from
  `src/ngraph/frontend/onnxifi/weight.hpp` and `backend.hpp`; the constants of
  `onnxifi.h` and the nGraph runtime behind the backend are parameters.
* The CPU builder of `op::Lstm` is translated from
  `src/ngraph/runtime/cpu/builder/lstm.cpp`.
-/

namespace ngraph

/-! ## Data model -/

/-- Modelled from the spec: the `Placement` enumeration of `ngraph/placement.hpp`
(missing from the sources). The spec lists `DEFAULT` (unassigned) and the concrete
device classes `CPU`, `INTERPRETER`, `GPU`; the tests use the first three. -/
inductive Placement where
  | DEFAULT
  | INTERPRETER
  | CPU
  | GPU
  deriving DecidableEq, Repr

/-- The element types named in the sources (`element::f32` in the partition tests,
the others in `onnxifi/weight.hpp`). -/
inductive ElementType where
  | f32 | f64 | i8 | i16 | i32 | i64 | u8 | u16 | u32 | u64
  deriving DecidableEq, Repr

/-- The operations the partition tests build: `op::Parameter`, `A + B` (`op::Add`),
`A * B` (`op::Multiply`) and `op::Result`. -/
inductive OpKind where
  | Parameter
  | Add
  | Multiply
  | Result
  deriving DecidableEq, Repr

/-- The name of the operation, as `Node::description()` returns it. -/
def OpKind.description : OpKind → String
  | .Parameter => "Parameter"
  | .Add => "Add"
  | .Multiply => "Multiply"
  | .Result => "Result"

/-- A graph node: its operation, its input edges (arena indices of the producers,
in argument order), the element type and shape of its single output, and its
mutable placement tag. -/
structure Node where
  op : OpKind
  args : List Nat
  element_type : ElementType
  shape : List Nat
  placement : Placement
  deriving DecidableEq, Repr

/-- Translation of `Node::description()`. -/
def Node.description (n : Node) : String := n.op.description

/-- Translation of `Node::set_placement`. -/
def Node.set_placement (n : Node) (p : Placement) : Node := { n with placement := p }

/-- A function: the arena of its nodes in dependency order, and the arena indices
of its parameter nodes and result nodes (`get_parameters`, `get_results`). -/
structure Function where
  nodes : List Node
  parameters : List Nat
  results : List Nat
  deriving DecidableEq, Repr

/-- Translation of `Function::get_ordered_ops`: every node of the function, in dependency order. -/
def Function.get_ordered_ops (f : Function) : List Nat := List.range f.nodes.length

/-- The placement tag of node `i` of an arena (`DEFAULT` outside the arena). -/
def placementOf (nodes : List Node) (i : Nat) : Placement :=
  match nodes[i]? with
  | some n => n.placement
  | none => Placement.DEFAULT

/-- The input edges of node `i` of an arena. -/
def argsOf (nodes : List Node) (i : Nat) : List Nat :=
  match nodes[i]? with
  | some n => n.args
  | none => []

/-- A function is well formed when every input edge points to an earlier node of the
arena (the arena is a DAG stored in dependency order). -/
def Function.WellFormed (f : Function) : Prop :=
  ∀ (c : Nat) (n : Node), f.nodes[c]? = some n → ∀ o ∈ n.args, o < c

instance (f : Function) : Decidable f.WellFormed := by
  have h : f.WellFormed ↔
      ∀ c ∈ List.range f.nodes.length, ∀ o ∈ argsOf f.nodes c, o < c := by
    constructor
    · intro hw c _ o ho
      unfold argsOf at ho
      cases hn : f.nodes[c]? with
      | none => simp [hn] at ho
      | some n => rw [hn] at ho; exact hw c n hn o ho
    · intro hw c n hn o ho
      have hc : c < f.nodes.length := (List.getElem?_eq_some.1 hn).1
      apply hw c (List.mem_range.2 hc) o
      unfold argsOf
      rw [hn]; exact ho
  exact decidable_of_iff _ h.symm

/-! ## Placement assignment -/

/-- The test policy `int_with_cpu_mul_policy`: `Multiply` goes to `CPU`, every other
node to `INTERPRETER`. -/
def int_with_cpu_mul_policy (node : Node) : Placement :=
  if node.description = "Multiply" then Placement.CPU else Placement.INTERPRETER

/-- The policy of `placement_all_cpu_policy`: every node goes to `CPU`. -/
def all_cpu_policy (_node : Node) : Placement := Placement.CPU

/-- Modelled from the spec: `pass::AssignPlacement::run_on_node` (the pass is missing
from the sources). The node's tag is set to `policy(node)`. -/
def AssignPlacement.run_on_node (policy : Node → Placement) (nodes : List Node) (i : Nat) :
    List Node :=
  match nodes[i]? with
  | some n => nodes.set i (n.set_placement (policy n))
  | none => nodes

/-- Modelled from the spec: running the `AssignPlacement` pass through the pass
manager (missing from the sources): it visits every node of the function's ordered
op list once and sets its placement tag to `policy(node)`. -/
def AssignPlacement.run_on_function (policy : Node → Placement) (f : Function) : Function :=
  { f with nodes := f.get_ordered_ops.foldl (AssignPlacement.run_on_node policy) f.nodes }

/-! ## Backends, tensors and compiled handles -/

/-- The failures of the hybrid backend: each constructor is one place where the C++
code throws (or, for `index_out_of_bounds`, indexes a vector past its end). -/
inductive Error where
  /-- The call `runtime::Backend::create` failed for the requested placement. -/
  | backend_unavailable
  /-- A backend's `compile` found an op without a kernel. -/
  | compile_failed
  /-- The lookup `m_map_parameter_to_result.at(parameter_node)` found no entry. -/
  | parameter_not_in_boundary_map
  /-- The lookup `map_node_to_tensor_view.at(result_node)` found no entry. -/
  | result_tensor_not_bound
  /-- The lookup `m_handle_map.at(sub_function)` found no entry. -/
  | handle_not_found
  /-- The index `get_parameters()[i]` or `get_results()[i]` is past the end. -/
  | index_out_of_bounds
  /-- A tensor pointer does not designate a live tensor. -/
  | invalid_tensor
  /-- The handle's `validate_and_execute` failed. -/
  | execution_failed
  /-- The helper `read_vector<float>` was given a tensor whose elements are not `f32`. -/
  | element_type_mismatch
  deriving DecidableEq, Repr

/-- A `runtime::Backend` instance: `id` tells instances apart (it is the number of
backends created before it), `type` is the placement whose name it was created from. -/
structure Backend where
  id : Nat
  type : Placement
  deriving DecidableEq, Repr

/-- A `runtime::Tensor`: element type, shape, the backend that created it and its
contents (a flat vector, as `read_vector` returns it). -/
structure Tensor (α : Type) where
  element_type : ElementType
  shape : List Nat
  owner : Backend
  data : List α
  deriving DecidableEq, Repr

/-- What the external runtime library provides: which backend names
`runtime::Backend::create` can construct, and which ops a backend of a given kind has
a kernel for (its `compile` fails on the others). -/
structure Registry where
  available : Placement → Bool
  has_kernel : Placement → OpKind → Bool

/-- The state of the runtime outside the hybrid backend: how many backends
`runtime::Backend::create` has constructed, and the live tensors. A
`shared_ptr<runtime::Tensor>` is an index into `tensors`. -/
structure Runtime (α : Type) where
  backends_created : Nat
  tensors : List (Tensor α)
  deriving DecidableEq, Repr

/-- Translation of `runtime::Backend::create(placement_to_string(placement))`: a new
backend instance, or failure when the name is not registered. -/
def Backend.create {α : Type} (reg : Registry) (rt : Runtime α) (placement : Placement) :
    Except Error (Backend × Runtime α) :=
  if reg.available placement then
    .ok ({ id := rt.backends_created, type := placement },
      { rt with backends_created := rt.backends_created + 1 })
  else .error Error.backend_unavailable

/-- Translation of `Backend::create_tensor(element_type, shape)`: a fresh tensor owned by
the backend, with one (default) element per position of the shape. Returns its pointer. -/
def Backend.create_tensor {α : Type} [Inhabited α] (be : Backend) (rt : Runtime α)
    (element_type : ElementType) (shape : List Nat) : Nat × Runtime α :=
  (rt.tensors.length,
    { rt with tensors := rt.tensors ++
        [{ element_type := element_type, shape := shape, owner := be,
           data := List.replicate (shape.foldl (fun x y => x * y) 1) default }] })

/-- The contents of a tensor as the backend that runs a kernel reads them, whatever the
element type. -/
def read_tensor {α : Type} (rt : Runtime α) (tv : Nat) : Except Error (List α) :=
  match rt.tensors[tv]? with
  | some t => .ok t.data
  | none => .error Error.invalid_tensor

/-- Modelled from the spec: the test helper `read_vector<float>(tv)` is declared in
`util/test_tools.hpp`, which is not among the sources. It yields the contents of an
`f32` tensor as a `vector<float>`. The contents of a tensor of another element type are
no vector of floats: such a read is the fatal "cross-boundary copy failure" (type
mismatch) of section 7 of the specification. -/
def read_vector {α : Type} (rt : Runtime α) (tv : Nat) : Except Error (List α) :=
  match rt.tensors[tv]? with
  | some t =>
    if t.element_type = ElementType.f32 then .ok t.data
    else .error Error.element_type_mismatch
  | none => .error Error.invalid_tensor

/-- Modelled from the spec: the test helper `copy_data(tv, data)` is declared in
`util/test_tools.hpp`, which is not among the sources. It overwrites the contents of a
tensor with the data ("copy the data from the producer's tensor"). -/
def copy_data {α : Type} (rt : Runtime α) (tv : Nat) (data : List α) :
    Except Error (Runtime α) :=
  match rt.tensors[tv]? with
  | some t => .ok { rt with tensors := rt.tensors.set tv { t with data := data } }
  | none => .error Error.invalid_tensor

/-- A sub-function produced by the splitter: the arena indices of its nodes in
dependency order, of its parameters and of its results. The arena is the one of the
function that was split (nodes are shared, as the `shared_ptr<Node>`s are). -/
structure SubFunction where
  ops : List Nat
  parameters : List Nat
  results : List Nat
  deriving DecidableEq, Repr

/-- Modelled from the spec: `get_colocated_function_placement` (missing from the
sources): "a component's placement tag is the common tag of its members"; the tag of
the first node is returned, `DEFAULT` for a function without nodes. -/
def get_colocated_function_placement (nodes : List Node) (sub : SubFunction) : Placement :=
  match sub.ops with
  | [] => Placement.DEFAULT
  | i :: _ => placementOf nodes i

/-- A compiled handle (`runtime::Executable` of one backend): the backend that compiled
it, and what `validate_and_execute` does with the contents of the parameter tensors:
`none` when the call throws, otherwise the Boolean it returns together with the
contents it leaves in the result tensors. -/
structure Executable (α : Type) where
  backend : Backend
  call : List (List α) → Option (Bool × List (List α))

/-- The value a backend kernel computes for node `i`, given the values `env` of the
nodes computed so far: `Add` and `Multiply` are elementwise, `Result` forwards its
argument, a `Parameter` has the value it was bound to. -/
def eval_node {α : Type} [Add α] [Mul α] (nodes : List Node) (env : List (Nat × List α))
    (i : Nat) : Option (List α) :=
  match nodes[i]? with
  | none => none
  | some n =>
    match n.op, n.args with
    | .Parameter, _ => env.lookup i
    | .Add, [a, b] =>
      match env.lookup a, env.lookup b with
      | some x, some y => some (List.zipWith (fun u v => u + v) x y)
      | _, _ => none
    | .Multiply, [a, b] =>
      match env.lookup a, env.lookup b with
      | some x, some y => some (List.zipWith (fun u v => u * v) x y)
      | _, _ => none
    | .Result, [a] => env.lookup a
    | _, _ => none

/-- Evaluate the nodes `ops` in order, extending the environment. -/
def eval_ops {α : Type} [Add α] [Mul α] (nodes : List Node) :
    List Nat → List (Nat × List α) → Option (List (Nat × List α))
  | [], env => some env
  | i :: rest, env =>
    match eval_node nodes env i with
    | some v => eval_ops nodes rest ((i, v) :: env)
    | none => none

/-- The values of the nodes `results` in an environment, if all are there. -/
def read_results {α : Type} (env : List (Nat × List α)) : List Nat → Option (List (List α))
  | [] => some []
  | r :: rest =>
    match env.lookup r, read_results env rest with
    | some v, some vs => some (v :: vs)
    | _, _ => none

/-- What a call of a compiled (sub-)function computes: the parameters are bound to the
inputs, the nodes are evaluated in dependency order, the values of the results are
returned. It fails when the number of inputs is wrong or a value is missing. -/
def SubFunction.call {α : Type} [Add α] [Mul α] (nodes : List Node) (sub : SubFunction)
    (inputs : List (List α)) : Option (List (List α)) :=
  if inputs.length = sub.parameters.length then
    match eval_ops nodes sub.ops (List.zip sub.parameters inputs) with
    | some env => read_results env sub.results
    | none => none
  else none

/-- The `validate_and_execute` of the handle a backend compiles for a (sub-)function:
it reports `true` with the values `SubFunction.call` computes. -/
def SubFunction.validate_and_execute {α : Type} [Add α] [Mul α] (nodes : List Node)
    (sub : SubFunction) (inputs : List (List α)) : Option (Bool × List (List α)) :=
  (SubFunction.call nodes sub inputs).map (fun outputs => (true, outputs))

/-- The value of a function's original, unsplit graph on the given inputs. -/
def Function.evaluate {α : Type} [Add α] [Mul α] (f : Function) (inputs : List (List α)) :
    Option (List (List α)) :=
  SubFunction.call f.nodes
    { ops := f.get_ordered_ops, parameters := f.parameters, results := f.results } inputs

/-- Translation of `Backend::compile(sub_function)` for the backends the hybrid backend
glues together: it fails when the backend kind lacks a kernel for one of the ops, and
otherwise yields a handle that evaluates the sub-function. -/
def Backend.compile {α : Type} [Add α] [Mul α] (reg : Registry) (be : Backend)
    (nodes : List Node) (sub : SubFunction) : Except Error (Executable α) :=
  if sub.ops.all (fun i =>
      match nodes[i]? with
      | some n => reg.has_kernel be.type n.op
      | none => false) then
    .ok { backend := be, call := SubFunction.validate_and_execute nodes sub }
  else .error Error.compile_failed

/-! ## HybridBackend and HybridExecutable (`test/graph_partition.cpp`) -/

/-- The class `HybridBackend`: its cache of backends per placement and the placement
policy it was constructed with. -/
structure HybridBackend where
  m_cached_backends : List (Placement × Backend)
  m_placement_policy : Node → Placement

/-- The constructor `HybridBackend(placement_policy)`: an empty cache. -/
def HybridBackend.new (placement_policy : Node → Placement) : HybridBackend :=
  { m_cached_backends := [], m_placement_policy := placement_policy }

/-- Translation of `HybridBackend::get_cached_backend`: the cached backend of the
placement, created (and cached) first when the cache has none. -/
def HybridBackend.get_cached_backend {α : Type} (reg : Registry) (hb : HybridBackend)
    (rt : Runtime α) (placement : Placement) :
    Except Error (Backend × HybridBackend × Runtime α) :=
  match hb.m_cached_backends.lookup placement with
  | some be => .ok (be, hb, rt)
  | none =>
    match Backend.create reg rt placement with
    | .error e => .error e
    | .ok (be, rt1) =>
      .ok (be, { hb with m_cached_backends := (placement, be) :: hb.m_cached_backends }, rt1)

/-- Translation of `HybridBackend::create_tensor(element_type, shape)`: a tensor of the
cached `INTERPRETER` backend. -/
def HybridBackend.create_tensor {α : Type} [Inhabited α] (reg : Registry)
    (hb : HybridBackend) (rt : Runtime α) (element_type : ElementType) (shape : List Nat) :
    Except Error (Nat × HybridBackend × Runtime α) :=
  match hb.get_cached_backend reg rt Placement.INTERPRETER with
  | .error e => .error e
  | .ok (be, hb1, rt1) =>
    match be.create_tensor rt1 element_type shape with
    | (tv, rt2) => .ok (tv, hb1, rt2)

/-- The members of `HybridExecutable`. `m_function` is the placed clone whose nodes the
splitter re-linked (its arena holds the synthetic boundary nodes too); a sub-function
is identified in `m_handle_map` by its position in `m_sub_functions`. -/
structure HybridExecutable (α : Type) where
  m_function : Function
  m_sub_functions : List SubFunction
  m_map_parameter_to_result : List (Nat × Nat)
  m_handle_map : List (Nat × Executable α)

/-- The element type of node `i` of an arena (`get_element_type`). -/
def elementTypeOf (nodes : List Node) (i : Nat) : ElementType :=
  match nodes[i]? with
  | some n => n.element_type
  | none => ElementType.f32

/-- The shape of node `i` of an arena (`get_shape`). -/
def shapeOf (nodes : List Node) (i : Nat) : List Nat :=
  match nodes[i]? with
  | some n => n.shape
  | none => []

/-- The two loops that open `execute`: `map_node_to_tensor_view[nodes[i]] = tvs[i]` for
every `i < tvs.size()`. An entry at the head of the association list shadows older
ones, as assignment through `operator[]` overwrites. -/
def bind_tensors : List Nat → List Nat → List (Nat × Nat) → Except Error (List (Nat × Nat))
  | _, [], m => .ok m
  | [], _ :: _, _ => .error Error.index_out_of_bounds
  | n :: ns, t :: ts, m => bind_tensors ns ts ((n, t) :: m)

/-- The loop "Prepare parameter TensorViews" of `execute` over the parameters of one
sub-function: a bound parameter contributes its tensor; an unbound one is looked up in
`m_map_parameter_to_result`, its result's tensor is looked up in
`map_node_to_tensor_view`, a new tensor is created on the sub-function's backend,
filled from the result's tensor and bound to the parameter. Returns `parameter_tvs`,
the map and the runtime state. (`live_list` only keeps the new tensors alive; the
runtime state keeps every tensor, so it has no counterpart here.) -/
def prepare_parameters {α : Type} [Inhabited α] (exe : HybridExecutable α) (backend : Backend) :
    List Nat → List (Nat × Nat) → Runtime α →
      Except Error (List Nat × List (Nat × Nat) × Runtime α)
  | [], m, rt => .ok ([], m, rt)
  | parameter_node :: rest, m, rt =>
    match m.lookup parameter_node with
    | some tv =>
      match prepare_parameters exe backend rest m rt with
      | .ok (tvs, m1, rt1) => .ok (tv :: tvs, m1, rt1)
      | .error e => .error e
    | none =>
      match exe.m_map_parameter_to_result.lookup parameter_node with
      | none => .error Error.parameter_not_in_boundary_map
      | some result_node =>
        match m.lookup result_node with
        | none => .error Error.result_tensor_not_bound
        | some result_tv =>
          match backend.create_tensor rt (elementTypeOf exe.m_function.nodes parameter_node)
              (shapeOf exe.m_function.nodes parameter_node) with
          | (parameter_tv, rt1) =>
            match read_vector rt1 result_tv with
            | .error e => .error e
            | .ok data =>
              match copy_data rt1 parameter_tv data with
              | .error e => .error e
              | .ok rt2 =>
                match prepare_parameters exe backend rest
                    ((parameter_node, parameter_tv) :: m) rt2 with
                | .ok (tvs, m1, rt3) => .ok (parameter_tv :: tvs, m1, rt3)
                | .error e => .error e

/-- The loop "Prepare result TensorViews" of `execute` over the results of one
sub-function: a bound result contributes its tensor, for an unbound one a new tensor is
created on the sub-function's backend and bound to it. -/
def prepare_results {α : Type} [Inhabited α] (exe : HybridExecutable α) (backend : Backend) :
    List Nat → List (Nat × Nat) → Runtime α → List Nat × List (Nat × Nat) × Runtime α
  | [], m, rt => ([], m, rt)
  | result_node :: rest, m, rt =>
    match m.lookup result_node with
    | some tv =>
      match prepare_results exe backend rest m rt with
      | (tvs, m1, rt1) => (tv :: tvs, m1, rt1)
    | none =>
      match backend.create_tensor rt (elementTypeOf exe.m_function.nodes result_node)
          (shapeOf exe.m_function.nodes result_node) with
      | (result_tv, rt1) =>
        match prepare_results exe backend rest ((result_node, result_tv) :: m) rt1 with
        | (tvs, m1, rt2) => (result_tv :: tvs, m1, rt2)

/-- The contents of a list of tensors. -/
def read_vectors {α : Type} (rt : Runtime α) : List Nat → Except Error (List (List α))
  | [] => .ok []
  | tv :: rest =>
    match read_tensor rt tv, read_vectors rt rest with
    | .ok d, .ok ds => .ok (d :: ds)
    | .error e, _ => .error e
    | _, .error e => .error e

/-- Store the outputs of a call into the result tensors. -/
def write_vectors {α : Type} (rt : Runtime α) : List Nat → List (List α) →
    Except Error (Runtime α)
  | [], _ => .ok rt
  | _ :: _, [] => .error Error.execution_failed
  | tv :: rest, d :: ds =>
    match copy_data rt tv d with
    | .ok rt1 => write_vectors rt1 rest ds
    | .error e => .error e

/-- The statement `m_handle_map.at(sub_function)->validate_and_execute(result_tvs,
parameter_tvs)` for the sub-function at position `i`; the Boolean the handle returns
is dropped, as in the source. -/
def call_handle {α : Type} (exe : HybridExecutable α) (i : Nat)
    (result_tvs parameter_tvs : List Nat) (rt : Runtime α) : Except Error (Runtime α) :=
  match exe.m_handle_map.lookup i with
  | none => .error Error.handle_not_found
  | some handle =>
    match read_vectors rt parameter_tvs with
    | .error e => .error e
    | .ok inputs =>
      match handle.call inputs with
      | none => .error Error.execution_failed
      | some rc_outputs => write_vectors rt result_tvs rc_outputs.2

/-- The loop "Call subfunctions" of `execute`, from the sub-function at position `i`
on. -/
def call_sub_functions {α : Type} [Inhabited α] (reg : Registry) (exe : HybridExecutable α) :
    Nat → List SubFunction → HybridBackend → List (Nat × Nat) → Runtime α →
      Except Error (HybridBackend × List (Nat × Nat) × Runtime α)
  | _, [], hb, m, rt => .ok (hb, m, rt)
  | i, sub_function :: rest, hb, m, rt =>
    match hb.get_cached_backend reg rt
        (get_colocated_function_placement exe.m_function.nodes sub_function) with
    | .error e => .error e
    | .ok (backend, hb1, rt1) =>
      match prepare_parameters exe backend sub_function.parameters m rt1 with
      | .error e => .error e
      | .ok (parameter_tvs, m2, rt2) =>
        match prepare_results exe backend sub_function.results m2 rt2 with
        | (result_tvs, m3, rt3) =>
          match call_handle exe i result_tvs parameter_tvs rt3 with
          | .error e => .error e
          | .ok rt4 => call_sub_functions reg exe (i + 1) rest hb1 m3 rt4

/-- Translation of `HybridExecutable::execute(outputs, inputs)`. The tensors are given
by their pointers; the result is `rc` with the new state of the hybrid backend and of
the runtime, or the failure that ended the call. -/
def HybridExecutable.execute {α : Type} [Inhabited α] (reg : Registry)
    (exe : HybridExecutable α) (hb : HybridBackend) (rt : Runtime α)
    (outputs inputs : List Nat) : Except Error (Bool × HybridBackend × Runtime α) :=
  match bind_tensors exe.m_function.parameters inputs [] with
  | .error e => .error e
  | .ok m1 =>
    match bind_tensors exe.m_function.results outputs m1 with
    | .error e => .error e
    | .ok m2 =>
      match call_sub_functions reg exe 0 exe.m_sub_functions hb m2 rt with
      | .error e => .error e
      | .ok (hb1, _, rt1) => .ok (true, hb1, rt1)

/-! ## The graph splitter (modelled from the specification) -/

/-- Modelled from the spec: the edges of the graph (the splitter, missing from the
sources, walks them): the pairs (producer, consumer), consumers in dependency order
and the inputs of a consumer in argument order. -/
def edges_from : Nat → List Node → List (Nat × Nat)
  | _, [] => []
  | c, n :: rest => n.args.map (fun o => (o, c)) ++ edges_from (c + 1) rest

/-- Modelled from the spec: every edge of the arena (see `edges_from`). -/
def edges (nodes : List Node) : List (Nat × Nat) := edges_from 0 nodes

/-- Modelled from the spec: step 2 of the splitter (missing from the sources): an
edge is a cut edge when `placement(producer) != placement(consumer)`. -/
def is_cut_edge (nodes : List Node) (e : Nat × Nat) : Bool :=
  decide (placementOf nodes e.1 ≠ placementOf nodes e.2)

/-- Append an element to a list unless the list has it already. -/
def insert_new {β : Type} [DecidableEq β] (l : List β) (b : β) : List β :=
  if b ∈ l then l else l ++ [b]

/-- The position of the first occurrence of a key in a list of keys (the length of the
list when it has none). -/
def key_index (key : Nat × Placement) : List (Nat × Placement) → Nat
  | [] => 0
  | k :: rest => if k = key then 0 else key_index key rest + 1

/-- Modelled from the spec: the consumers of node `x`, one for every edge that leaves
`x`, in the order of the edges. -/
def consumers (nodes : List Node) (x : Nat) : List Nat :=
  ((edges nodes).filter (fun e => decide (e.1 = x))).map Prod.snd

/-- Modelled from the spec: one step of the computation of the levels (see
`level_labels`): given the levels of the nodes after node `x`, the level of `x` is the
largest, over its consumers `c`, of the level of `c`, plus one when the edge to `c` is a
cut edge; it is 0 for a node without consumers. -/
def level_step (nodes : List Node) (x : Nat) (levels : List Nat) : List Nat :=
  ((consumers nodes x).map (fun c =>
    levels.getD (c - x - 1) 0 + if is_cut_edge nodes (x, c) then 1 else 0)).foldl max 0 ::
    levels

/-- Modelled from the spec: step 4 of the splitter (missing from the sources), the
grouping of the nodes. The spec groups "by connected components restricted to edges
that are not cut edges"; it also lays down that "a wholly single-placement graph yields
exactly one sub-function" and that the "dependency order between sub-functions is a
DAG", and the partition that the test `hybrid_abc_manual` builds by hand puts the
parameter `C` into one function with `A`, `B` and `D = A + B`, to which no edge joins
it. Components in the literal sense meet none of these three: two unconnected sums of
one placement are two components; in `hybrid_back_and_forth` the component of `B` and
`E = D + B` and the component of `D = A * B` need each other's values; and `C` is a
component of its own. The grouping modelled here meets them all: the level of a node is
the largest number of cut edges on a path of edges that starts in it, and a sub-function
holds the nodes of one placement and one level. On `hybrid_abc` it yields the three
functions that `hybrid_abc_manual` builds by hand, and in the graphs of `hybrid_abc`,
`hybrid_abcd`, `hybrid_multi_middle_nodes` and `hybrid_no_split` every edge between two
groups is a cut edge (`split_edges_of_test_graphs`). The list gives every node its
level. -/
def level_labels (nodes : List Node) : List Nat :=
  (List.range nodes.length).foldr (level_step nodes) []

/-- Modelled from the spec: the level of node `x` (see `level_labels`). -/
def level_of (nodes : List Node) (x : Nat) : Nat := (level_labels nodes).getD x 0

/-- Modelled from the spec: the level and the placement of every node, in the order of
the nodes. -/
def group_keys (nodes : List Node) : List (Nat × Placement) :=
  (List.range nodes.length).map (fun x => (level_of nodes x, placementOf nodes x))

/-- Modelled from the spec: the group of node `x`, named by the first node of the same
level and placement. (An index that is not a node names a group of its own.) -/
def group_of (nodes : List Node) (x : Nat) : Nat :=
  if x < nodes.length then
    key_index (level_of nodes x, placementOf nodes x) (group_keys nodes)
  else x

/-- Modelled from the spec: the groups, in the order of their first node. -/
def groups (nodes : List Node) : List Nat :=
  ((List.range nodes.length).map (group_of nodes)).foldl insert_new []

/-- Modelled from the spec: an edge whose two ends lie in different groups. Every cut
edge is one. So is an edge between two nodes of equal placement and different level;
among the graphs of the tests there is one, `B → E` in `hybrid_back_and_forth`
(`D = A * B` on `CPU`, `E = D + B` on `INTERPRETER`): `B` is computed before `D` and `E`
after it, so one sub-function cannot hold both `B` and `E` when the sub-functions are
called one after the other. A sub-function is compiled and called as a function of its
own and takes the values of other sub-functions through its parameters only (`execute`,
"Prepare parameter TensorViews"), so the value of such an edge travels through a
boundary pair as well. -/
def is_split_edge (nodes : List Node) (e : Nat × Nat) : Bool :=
  decide (group_of nodes e.1 ≠ group_of nodes e.2)

/-- Modelled from the spec: step 3 of the splitter (missing from the sources): one
boundary pair per (producer output, consumer placement) that occurs on an edge between
two groups, in the order in which these edges are met; a pair that exists already is
reused. -/
def boundary_keys (nodes : List Node) : List (Nat × Placement) :=
  (((edges nodes).filter (is_split_edge nodes)).map
    (fun e => (e.1, placementOf nodes e.2))).foldl insert_new []

/-- Modelled from the spec: the arena index of the synthetic Result (sink) of the
`k`-th boundary pair; the synthetic nodes follow the `n` original nodes. -/
def sink_id (n k : Nat) : Nat := n + 2 * k

/-- Modelled from the spec: the arena index of the synthetic Parameter (source) of the
`k`-th boundary pair. -/
def source_id (n k : Nat) : Nat := n + 2 * k + 1

/-- Modelled from the spec: the consumer `c` with an input edge from `o` that leaves the
group of `o` reads the source of the pair of (`o`, placement of `c`) instead; other
inputs are unchanged. -/
def relink_node (nodes : List Node) (keys : List (Nat × Placement)) (c : Nat) (n : Node) :
    Node :=
  { n with args := n.args.map (fun o =>
      if is_split_edge nodes (o, c) then
        source_id nodes.length (key_index (o, placementOf nodes c) keys)
      else o) }

/-- Modelled from the spec: the two synthetic nodes of a boundary pair: "one sink node
wrapping the producer's output and one source node of matching type/shape"; the sink
has the producer's placement, the source the consumers' placement. -/
def boundary_nodes (nodes : List Node) (key : Nat × Placement) : List Node :=
  [{ op := .Result, args := [key.1], element_type := elementTypeOf nodes key.1,
     shape := shapeOf nodes key.1, placement := placementOf nodes key.1 },
   { op := .Parameter, args := [], element_type := elementTypeOf nodes key.1,
     shape := shapeOf nodes key.1, placement := key.2 }]

/-- Modelled from the spec: the arena after the cut: the original nodes with the inputs
that leave their group re-linked, followed by the sink and the source of every boundary
pair. -/
def split_nodes (nodes : List Node) : List Node :=
  nodes.mapIdx (relink_node nodes (boundary_keys nodes)) ++
    (boundary_keys nodes).flatMap (boundary_nodes nodes)

/-- Modelled from the spec: the boundary map, synthetic source to synthetic sink, one
entry per boundary pair. -/
def boundary_map (n : Nat) (keys : List (Nat × Placement)) : List (Nat × Nat) :=
  (List.range keys.length).map (fun k => (source_id n k, sink_id n k))

/-- Modelled from the spec: the boundary pairs (by position in `boundary_keys`) whose
source feeds a consumer of group `r`. -/
def sources_of (nodes : List Node) (r : Nat) : List Nat :=
  (List.range (boundary_keys nodes).length).filter (fun k =>
    ((edges nodes).filter (is_split_edge nodes)).any (fun e =>
      decide ((boundary_keys nodes)[k]? = some (e.1, placementOf nodes e.2)) &&
        decide (group_of nodes e.2 = r)))

/-- Modelled from the spec: the boundary pairs whose sink wraps an output of group
`r`. -/
def sinks_of (nodes : List Node) (r : Nat) : List Nat :=
  (List.range (boundary_keys nodes).length).filter (fun k =>
    match (boundary_keys nodes)[k]? with
    | some key => decide (group_of nodes key.1 = r)
    | none => false)

/-- Modelled from the spec: the sub-function of group `r`: each group, "together with
any boundary nodes attached to it, becomes one sub-function"; "its parameter set
includes both original parameters and synthetic sources, its result set includes both
original results and synthetic sinks". -/
def sub_function_of (f : Function) (r : Nat) : SubFunction :=
  { ops :=
      (sources_of f.nodes r).map (source_id f.nodes.length) ++
      (List.range f.nodes.length).filter (fun x => decide (group_of f.nodes x = r)) ++
      (sinks_of f.nodes r).map (sink_id f.nodes.length),
    parameters :=
      f.parameters.filter (fun x => decide (group_of f.nodes x = r)) ++
      (sources_of f.nodes r).map (source_id f.nodes.length),
    results :=
      f.results.filter (fun x => decide (group_of f.nodes x = r)) ++
      (sinks_of f.nodes r).map (sink_id f.nodes.length) }

/-- Modelled from the spec: the groups that group `r` depends on: those of the producers
of the boundary pairs whose source feeds `r`. -/
def dependencies (nodes : List Node) (r : Nat) : List Nat :=
  (sources_of nodes r).map (fun k =>
    match (boundary_keys nodes)[k]? with
    | some key => group_of nodes key.1
    | none => r)

/-- Modelled from the spec: step 5 of the splitter (missing from the sources): "a
topological sort over the inter-component dependency graph (edges = boundary pairs);
ties may be broken by original node order": the first remaining group all of whose
dependencies are done is taken next. (Should no remaining group be ready, the remaining
ones follow in their original order; with the grouping by level this does not occur.) -/
def sort_components (deps : Nat → List Nat) : Nat → List Nat → List Nat → List Nat
  | 0, remaining, done => done ++ remaining
  | fuel + 1, remaining, done =>
    match remaining.find? (fun r => (deps r).all (fun d => decide (d ∈ done))) with
    | some r => sort_components deps fuel (remaining.erase r) (done ++ [r])
    | none => done ++ remaining

/-- What `split_function_by_placement` leaves behind: the arena of the re-linked and
synthetic nodes, and the pair it returns, the ordered sub-functions and the map from
each synthetic Parameter to its paired synthetic Result. -/
structure SplitResult where
  nodes : List Node
  sub_functions : List SubFunction
  map_parameter_to_result : List (Nat × Nat)
  deriving DecidableEq, Repr

/-- Modelled from the spec: `split_function_by_placement` (missing from the sources),
the five steps of section 4.2 of the specification, with the grouping of step 4 by
placement and level (see `level_labels`). -/
def split_function_by_placement (f : Function) : SplitResult :=
  { nodes := split_nodes f.nodes,
    sub_functions :=
      (sort_components (dependencies f.nodes) (groups f.nodes).length
        (groups f.nodes) []).map (sub_function_of f),
    map_parameter_to_result := boundary_map f.nodes.length (boundary_keys f.nodes) }

/-! ## Compilation by the hybrid backend (`test/graph_partition.cpp`) -/

/-- Translation of `clone_function(*func)`: an independent copy of the function. -/
def clone_function (func : Function) : Function := func

/-- The loop "Compile subfunctions in corresponding backends" of the constructor of
`HybridExecutable`, from the sub-function at position `i` on. -/
def compile_sub_functions {α : Type} [Add α] [Mul α] (reg : Registry) (nodes : List Node) :
    Nat → List SubFunction → HybridBackend → Runtime α → List (Nat × Executable α) →
      Except Error (List (Nat × Executable α) × HybridBackend × Runtime α)
  | _, [], hb, rt, handle_map => .ok (handle_map, hb, rt)
  | i, sub_function :: rest, hb, rt, handle_map =>
    match hb.get_cached_backend reg rt
        (get_colocated_function_placement nodes sub_function) with
    | .error e => .error e
    | .ok (be, hb1, rt1) =>
      match be.compile reg nodes sub_function with
      | .error e => .error e
      | .ok h => compile_sub_functions reg nodes (i + 1) rest hb1 rt1 ((i, h) :: handle_map)

/-- The constructor `HybridExecutable(backend, func, enable_performance_collection)`:
clone the function, run the placement pass with `int_with_cpu_mul_policy`, split the
clone by placement and compile every sub-function on the cached backend of its
placement. The flag `enable_performance_collection` is not used by the constructor, and
the bookkeeping call `set_parameters_and_results` has no counterpart here. -/
def HybridExecutable.new {α : Type} [Add α] [Mul α] (reg : Registry) (hb : HybridBackend)
    (rt : Runtime α) (func : Function) :
    Except Error (HybridExecutable α × HybridBackend × Runtime α) :=
  match compile_sub_functions reg
      (split_function_by_placement
        (AssignPlacement.run_on_function int_with_cpu_mul_policy (clone_function func))).nodes
      0
      (split_function_by_placement
        (AssignPlacement.run_on_function int_with_cpu_mul_policy
          (clone_function func))).sub_functions
      hb rt [] with
  | .error e => .error e
  | .ok (handle_map, hb1, rt1) =>
    .ok ({ m_function :=
             { nodes := (split_function_by_placement
                 (AssignPlacement.run_on_function int_with_cpu_mul_policy
                   (clone_function func))).nodes,
               parameters := (clone_function func).parameters,
               results := (clone_function func).results },
           m_sub_functions := (split_function_by_placement
             (AssignPlacement.run_on_function int_with_cpu_mul_policy
               (clone_function func))).sub_functions,
           m_map_parameter_to_result := (split_function_by_placement
             (AssignPlacement.run_on_function int_with_cpu_mul_policy
               (clone_function func))).map_parameter_to_result,
           m_handle_map := handle_map }, hb1, rt1)

/-- Translation of `HybridBackend::compile(function, enable_performance_collection)`. -/
def HybridBackend.compile {α : Type} [Add α] [Mul α] (reg : Registry) (hb : HybridBackend)
    (rt : Runtime α) (function : Function) :
    Except Error (HybridExecutable α × HybridBackend × Runtime α) :=
  HybridExecutable.new reg hb rt function

/-- Create one tensor per list of contents on the hybrid backend and fill it
(`backend->create_tensor(element::f32, shape)` followed by `copy_data`). Returns the
pointers. -/
def create_filled_tensors (reg : Registry) :
    List (List Int) → HybridBackend → Runtime Int →
      Except Error (List Nat × HybridBackend × Runtime Int)
  | [], hb, rt => .ok ([], hb, rt)
  | data :: rest, hb, rt =>
    match hb.create_tensor reg rt ElementType.f32 [2, 2] with
    | .error e => .error e
    | .ok (tv, hb1, rt1) =>
      match copy_data rt1 tv data with
      | .error e => .error e
      | .ok rt2 =>
        match create_filled_tensors reg rest hb1 rt2 with
        | .error e => .error e
        | .ok (tvs, hb3, rt3) => .ok (tv :: tvs, hb3, rt3)

/-- The body shared by the tests `hybrid_abcd`, `hybrid_back_and_forth`,
`hybrid_multi_middle_nodes` and `hybrid_no_split`: make a hybrid backend, compile the
function, create and fill the input tensors, create the output tensor, execute, and
read the output tensor. The test `hybrid_abc` does the same steps but creates its
tensors before it compiles. -/
def hybrid_test (reg : Registry) (f : Function) (inputs : List (List Int)) :
    Except Error (Bool × List Int) :=
  match (HybridBackend.new int_with_cpu_mul_policy).compile reg
      { backends_created := 0, tensors := [] } f with
  | .error e => .error e
  | .ok (handle, hb1, rt1) =>
    match create_filled_tensors reg inputs hb1 rt1 with
    | .error e => .error e
    | .ok (input_tvs, hb2, rt2) =>
      match hb2.create_tensor reg rt2 ElementType.f32 [2, 2] with
      | .error e => .error e
      | .ok (r, hb3, rt3) =>
        match handle.execute reg hb3 rt3 [r] input_tvs with
        | .error e => .error e
        | .ok (rc, _, rt4) =>
          match read_vector rt4 r with
          | .error e => .error e
          | .ok data => .ok (rc, data)

/-! ## The graphs of the partition tests -/

/-- A 2x2 `f32` parameter, `make_shared<op::Parameter>(element::f32, Shape{2, 2})`. -/
def parameter_2x2 : Node :=
  { op := .Parameter, args := [], element_type := .f32, shape := [2, 2],
    placement := .DEFAULT }

/-- The node `a + b` over 2x2 `f32` arguments. -/
def add_2x2 (a b : Nat) : Node :=
  { op := .Add, args := [a, b], element_type := .f32, shape := [2, 2],
    placement := .DEFAULT }

/-- The node `a * b` over 2x2 `f32` arguments. -/
def multiply_2x2 (a b : Nat) : Node :=
  { op := .Multiply, args := [a, b], element_type := .f32, shape := [2, 2],
    placement := .DEFAULT }

/-- The node `make_shared<op::Result>(a)` over a 2x2 `f32` argument. -/
def result_2x2 (a : Nat) : Node :=
  { op := .Result, args := [a], element_type := .f32, shape := [2, 2],
    placement := .DEFAULT }

/-- The function of `hybrid_abc`: `D = A + B`, `E = D * C`, result `R`.
Nodes: A=0, B=1, C=2, D=3, E=4, R=5. -/
def graph_abc : Function :=
  { nodes := [parameter_2x2, parameter_2x2, parameter_2x2, add_2x2 0 1, multiply_2x2 3 2,
      result_2x2 4],
    parameters := [0, 1, 2],
    results := [5] }

/-- The function of `hybrid_abcd`: `E = A * B`, `F = C + E`, `G = E + D`, `H = F + G`.
Nodes: A=0, B=1, C=2, D=3, E=4, F=5, G=6, H=7, R=8. -/
def graph_abcd : Function :=
  { nodes := [parameter_2x2, parameter_2x2, parameter_2x2, parameter_2x2, multiply_2x2 0 1,
      add_2x2 2 4, add_2x2 4 3, add_2x2 5 6, result_2x2 7],
    parameters := [0, 1, 2, 3],
    results := [8] }

/-- The function of `hybrid_back_and_forth`: `D = A * B`, `E = D + B`, `F = E * C`.
Nodes: A=0, B=1, C=2, D=3, E=4, F=5, R=6. -/
def graph_back_and_forth : Function :=
  { nodes := [parameter_2x2, parameter_2x2, parameter_2x2, multiply_2x2 0 1, add_2x2 3 1,
      multiply_2x2 4 2, result_2x2 5],
    parameters := [0, 1, 2],
    results := [6] }

/-- The function of `hybrid_multi_middle_nodes`: `D = A + B`, `E = B + C`, `F = D * E`,
`G = E * C`, `H = F + G`. Nodes: A=0, B=1, C=2, D=3, E=4, F=5, G=6, H=7, R=8. -/
def graph_multi_middle_nodes : Function :=
  { nodes := [parameter_2x2, parameter_2x2, parameter_2x2, add_2x2 0 1, add_2x2 1 2,
      multiply_2x2 3 4, multiply_2x2 4 2, add_2x2 5 6, result_2x2 7],
    parameters := [0, 1, 2],
    results := [8] }

/-- The function of `hybrid_no_split`: `C = A + B`. Nodes: A=0, B=1, C=2, R=3. -/
def graph_no_split : Function :=
  { nodes := [parameter_2x2, parameter_2x2, add_2x2 0 1, result_2x2 2],
    parameters := [0, 1],
    results := [3] }

/-- The arena of `hybrid_abc_manual` after the pass and the three calls of
`insert_result_parameter_split`: A=0, B=1, C=2, D=3, E=4, R=5, R0=6, P0=7, R1=8, P1=9,
R2=10, P2=11. -/
def manual_abc_nodes : List Node :=
  [parameter_2x2.set_placement .INTERPRETER, parameter_2x2.set_placement .INTERPRETER,
    parameter_2x2.set_placement .INTERPRETER, (add_2x2 0 1).set_placement .INTERPRETER,
    (multiply_2x2 7 9).set_placement .CPU, (result_2x2 11).set_placement .INTERPRETER,
    (result_2x2 3).set_placement .INTERPRETER, parameter_2x2.set_placement .CPU,
    (result_2x2 2).set_placement .INTERPRETER, parameter_2x2.set_placement .CPU,
    (result_2x2 4).set_placement .CPU, parameter_2x2.set_placement .INTERPRETER]

/-- The sub-functions `f0`, `f1`, `f2` of `hybrid_abc_manual`. -/
def manual_abc_sub_functions : List SubFunction :=
  [{ ops := [0, 1, 2, 3, 6, 8], parameters := [0, 1, 2], results := [6, 8] },
    { ops := [7, 9, 4, 10], parameters := [7, 9], results := [10] },
    { ops := [11, 5], parameters := [11], results := [5] }]

/-- A hybrid executable over the partition of `hybrid_abc_manual`: the boundary map
pairs P0 with R0, P1 with R1 and P2 with R2; the handles evaluate the sub-functions. -/
def manual_abc_executable : HybridExecutable Int :=
  { m_function := { nodes := manual_abc_nodes, parameters := [0, 1, 2], results := [5] },
    m_sub_functions := manual_abc_sub_functions,
    m_map_parameter_to_result := [(7, 6), (9, 8), (11, 10)],
    m_handle_map :=
      [(0, { backend := { id := 0, type := .INTERPRETER },
             call := SubFunction.validate_and_execute manual_abc_nodes
               { ops := [0, 1, 2, 3, 6, 8], parameters := [0, 1, 2], results := [6, 8] } }),
        (1, { backend := { id := 1, type := .CPU },
              call := SubFunction.validate_and_execute manual_abc_nodes
                { ops := [7, 9, 4, 10], parameters := [7, 9], results := [10] } }),
        (2, { backend := { id := 0, type := .INTERPRETER },
              call := SubFunction.validate_and_execute manual_abc_nodes
                { ops := [11, 5], parameters := [11], results := [5] } })] }

/-- A registry in which every backend is available and has every kernel. -/
def full_registry : Registry :=
  { available := fun _ => true, has_kernel := fun _ _ => true }

/-- A hybrid backend whose cache already holds the `INTERPRETER` and `CPU` backends. -/
def warm_hybrid_backend : HybridBackend :=
  { m_cached_backends :=
      [(.CPU, { id := 1, type := .CPU }), (.INTERPRETER, { id := 0, type := .INTERPRETER })],
    m_placement_policy := int_with_cpu_mul_policy }

/-- A 2x2 `f32` tensor of the `INTERPRETER` backend with the given contents. -/
def tensor_2x2 (data : List Int) : Tensor Int :=
  { element_type := .f32, shape := [2, 2], owner := { id := 0, type := .INTERPRETER },
    data := data }

/-- The runtime state of the tests with three inputs: tensors `a`, `b`, `c` (pointers
0, 1, 2) hold [[1,2],[3,4]], [[5,6],[7,8]], [[9,10],[11,12]]; tensor `r` (pointer 3) is
the output. -/
def runtime_abc : Runtime Int :=
  { backends_created := 2,
    tensors := [tensor_2x2 [1, 2, 3, 4], tensor_2x2 [5, 6, 7, 8], tensor_2x2 [9, 10, 11, 12],
      tensor_2x2 [0, 0, 0, 0]] }

/-- The contents of tensor `tv` after a call of `execute`, with the value of `rc`; or
the failure. -/
def outcome {α : Type} (tv : Nat) (x : Except Error (Bool × HybridBackend × Runtime α)) :
    Except Error (Bool × Option (List α)) :=
  match x with
  | .ok (rc, _, rt) => .ok (rc, (rt.tensors[tv]?).map (fun t => t.data))
  | .error e => .error e

/-! ## Conditions on a hybrid executable -/

/-- A node is bound in `map_node_to_tensor_view`. -/
def Bound (m : List (Nat × Nat)) (k : Nat) : Prop := (m.lookup k).isSome = true

/-- The sub-function list is topologically ordered with respect to the boundary map:
for every position `j`, every parameter `p` of the sub-function at `j` and the result
`r` the boundary map pairs with `p`, a sub-function at an earlier position has `r`
among its results. -/
def TopologicallyOrdered (sub_functions : List SubFunction) (map : List (Nat × Nat)) : Prop :=
  ∀ j ∈ List.range sub_functions.length,
    ∀ p ∈ (sub_functions.getD j { ops := [], parameters := [], results := [] }).parameters,
      ∀ r ∈ (map.lookup p).toList,
        ∃ s ∈ sub_functions.take j, r ∈ s.results

instance (sub_functions : List SubFunction) (map : List (Nat × Nat)) :
    Decidable (TopologicallyOrdered sub_functions map) := by
  unfold TopologicallyOrdered
  infer_instance

/-- The members `m_sub_functions` and `m_map_parameter_to_result` of a hybrid
executable are topologically ordered. -/
def HybridExecutable.TopologicallyOrdered {α : Type} (exe : HybridExecutable α) : Prop :=
  ngraph.TopologicallyOrdered exe.m_sub_functions exe.m_map_parameter_to_result

instance {α : Type} (exe : HybridExecutable α) : Decidable exe.TopologicallyOrdered := by
  unfold HybridExecutable.TopologicallyOrdered
  infer_instance

/-- Every parameter of a sub-function that is not a parameter of the original function
is a key of the boundary map. -/
def HybridExecutable.BoundaryParametersMapped {α : Type} (exe : HybridExecutable α) : Prop :=
  ∀ s ∈ exe.m_sub_functions, ∀ p ∈ s.parameters, p ∉ exe.m_function.parameters →
    (exe.m_map_parameter_to_result.lookup p).isSome = true

instance {α : Type} (exe : HybridExecutable α) : Decidable exe.BoundaryParametersMapped := by
  unfold HybridExecutable.BoundaryParametersMapped
  infer_instance

/-- Every element of the list is preceded by the elements it depends on. -/
def DependenciesFirst (deps : Nat → List Nat) (l : List Nat) : Prop :=
  ∀ i r, l[i]? = some r → ∀ d ∈ deps r, d ∈ l.take i

/-! ## Connectivity along non-cut edges -/

/-- Undo the re-linking of one input: an input that is a synthetic Parameter (a key of
the boundary map) is replaced by the producer feeding its paired Result. -/
def restore_input (sr : SplitResult) (a : Nat) : Nat :=
  match sr.map_parameter_to_result.lookup a with
  | some r => (argsOf sr.nodes r).headD a
  | none => a

/-- The reconstruction: the union of the operations of all sub-functions, without the
synthetic Result/Parameter boundary nodes (the keys and values of the boundary map),
every remaining node with its inputs restored. Each node comes with its identity (its
arena index). -/
def reconstruct (sr : SplitResult) : List (Nat × Node) :=
  (((sr.sub_functions.flatMap (fun s => s.ops)).dedup).filter (fun i =>
      decide (i ∉ sr.map_parameter_to_result.map Prod.fst ∧
        i ∉ sr.map_parameter_to_result.map Prod.snd))).filterMap (fun i =>
    (sr.nodes[i]?).map (fun n => (i, { n with args := n.args.map (restore_input sr) })))

/-- A function with two sums that share nothing: `E = A + B`, `F = C + D`, results
`Result(E)` and `Result(F)`. Nodes: A=0, B=1, C=2, D=3, E=4, F=5, R1=6, R2=7. -/
def graph_two_sums : Function :=
  { nodes := [parameter_2x2, parameter_2x2, parameter_2x2, parameter_2x2, add_2x2 0 1,
      add_2x2 2 3, result_2x2 4, result_2x2 5],
    parameters := [0, 1, 2, 3],
    results := [6, 7] }

/-- The function after the placement pass the hybrid backend runs on it. -/
def placed (f : Function) : Function :=
  AssignPlacement.run_on_function int_with_cpu_mul_policy f

/-! ## The backend cache and failed calls (`test/graph_partition.cpp`) -/

/-- The order in which the two operands of the assignment
`m_cached_backends[placement] = runtime::Backend::create(...)` are evaluated. C++17
evaluates the right operand first (`create_first`); the earlier standards leave the
order open, so that `operator[]` may run first (`subscript_first`). The sources do not
say which standard they are compiled for. -/
inductive OperandOrder where
  | create_first
  | subscript_first
  deriving DecidableEq, Repr

/-- Translation of `HybridBackend::get_cached_backend` that keeps the state a failed
call leaves behind. The cache is the C++ map: an entry may hold a null pointer (`none`),
which is what `operator[]` inserts for a missing key, and `at` returns an entry as it
is. In the statement `m_cached_backends[placement] = runtime::Backend::create(...)` the
operands are evaluated in the given order: with `create_first` nothing was inserted when
`create` throws, with `subscript_first` the null entry that `operator[]` inserted is
there when `create` throws. Returns what the call returns or throws, and the cache and
the runtime state after the call. -/
def get_cached_backend_outcome {α : Type} (order : OperandOrder) (reg : Registry)
    (cache : List (Placement × Option Backend)) (rt : Runtime α) (placement : Placement) :
    Except Error (Option Backend) × List (Placement × Option Backend) × Runtime α :=
  match cache.lookup placement with
  | some entry => (.ok entry, cache, rt)
  | none =>
    match order with
    | .create_first =>
      match Backend.create reg rt placement with
      | .error e => (.error e, cache, rt)
      | .ok (be, rt1) => (.ok (some be), (placement, some be) :: cache, rt1)
    | .subscript_first =>
      match Backend.create reg rt placement with
      | .error e => (.error e, (placement, none) :: cache, rt)
      | .ok (be, rt1) => (.ok (some be), (placement, some be) :: cache, rt1)

/-- The cache of a hybrid backend as the C++ map: every entry holds a backend. -/
def HybridBackend.raw_cache (hb : HybridBackend) : List (Placement × Option Backend) :=
  hb.m_cached_backends.map (fun e => (e.1, some e.2))

/-- A registry whose runtime cannot create a `CPU` backend. -/
def registry_without_cpu : Registry :=
  { available := fun p => decide (p ≠ Placement.CPU), has_kernel := fun _ _ => true }

/-- A registry whose `CPU` backend has no kernel for `Multiply`. -/
def registry_without_multiply : Registry :=
  { available := fun _ => true,
    has_kernel := fun p op => decide (¬ (p = Placement.CPU ∧ op = OpKind.Multiply)) }

/-- The runtime state before any backend or tensor was created. -/
def empty_runtime : Runtime Int := { backends_created := 0, tensors := [] }

/-- Every tensor pointer held by `map_node_to_tensor_view` designates a live tensor. -/
def Live {α : Type} (m : List (Nat × Nat)) (rt : Runtime α) : Prop :=
  ∀ e ∈ m, e.2 < rt.tensors.length

instance {α : Type} (m : List (Nat × Nat)) (rt : Runtime α) : Decidable (Live m rt) := by
  unfold Live
  infer_instance

/-- The arena of `hybrid_abc_manual` with every node of element type `i64`. -/
def manual_abc_nodes_i64 : List Node :=
  manual_abc_nodes.map (fun n => { n with element_type := ElementType.i64 })

/-- The hybrid executable of `hybrid_abc_manual` over `i64` nodes. -/
def manual_abc_executable_i64 : HybridExecutable Int :=
  { manual_abc_executable with
    m_function := { nodes := manual_abc_nodes_i64, parameters := [0, 1, 2], results := [5] } }

/-- The runtime state of the tests with three inputs, the four tensors of element type
`i64`. -/
def runtime_abc_i64 : Runtime Int :=
  { backends_created := 2,
    tensors := runtime_abc.tensors.map (fun t => { t with element_type := ElementType.i64 }) }

/-- The node-to-tensor map of `execute` on the partition of `hybrid_abc_manual` when the
loop reaches the second sub-function: `R` and the parameters are bound to the caller's
tensors 3, 0, 1, 2, and the results `R0` (node 6) and `R1` (node 8) of the first
sub-function to the tensors 4 and 5. -/
def map_after_f0 : List (Nat × Nat) := [(8, 5), (6, 4), (5, 3), (2, 2), (1, 1), (0, 0)]

/-- The runtime state at that point: tensor 4 holds `A + B` and tensor 5 holds `C`. -/
def runtime_after_f0 : Runtime Int :=
  { backends_created := 2,
    tensors := runtime_abc.tensors ++ [tensor_2x2 [6, 8, 10, 12], tensor_2x2 [9, 10, 11, 12]] }

/-! ## The operation `Pad` (`src/ngraph/op/pad.cpp`) -/

/-- The value of an expression of type `size_t` (64 bits): arithmetic wraps modulo
2^64. -/
def wrap_size_t (n : Nat) : Nat := n % 2 ^ 64

/-- Modelled from the spec: `subtract_or_zero` is declared in `ngraph/util.hpp`, which
is not among the sources: "0 if y > x and x - y otherwise". -/
def subtract_or_zero (x y : Nat) : Nat := if y > x then 0 else x - y

/-- The element type and the shape of the single output of an argument node
(`get_input_element_type(i)`, `get_input_shape(i)`). -/
structure ValueType where
  element_type : ElementType
  shape : List Nat
  deriving DecidableEq, Repr

/-- How the constructor of `op::Pad` can fail: one value per `NODE_VALIDATION_ASSERT`,
in the order of the source, and one for an index past the end of a vector in the loop
that computes the shape. -/
inductive PadError where
  | element_types_do_not_match
  | padding_value_not_scalar
  | padding_below_rank
  | padding_above_rank
  | padding_interior_rank
  | index_out_of_bounds
  deriving DecidableEq, Repr

/-- The expression pushed onto `result_shape` for axis `i`:
`padding_below[i] + subtract_or_zero(arg_shape[i] * (padding_interior[i] + 1),
padding_interior[i]) + padding_above[i]`, in `size_t` arithmetic. -/
def op.Pad.extent (arg_shape padding_below padding_above padding_interior : List Nat)
    (i : Nat) : Except PadError Nat :=
  match padding_below[i]?, arg_shape[i]?, padding_interior[i]?, padding_above[i]? with
  | some b, some d, some p, some a =>
    .ok (wrap_size_t (wrap_size_t (b +
      subtract_or_zero (wrap_size_t (d * wrap_size_t (p + 1))) p) + a))
  | _, _, _, _ => .error PadError.index_out_of_bounds

/-- The loop `for (size_t i = 0; i < arg_shape.size(); i++) result_shape.push_back(...)`
over the indices still to visit. -/
def op.Pad.result_shape (arg_shape padding_below padding_above padding_interior : List Nat) :
    List Nat → Except PadError (List Nat)
  | [] => .ok []
  | i :: rest =>
    match op.Pad.extent arg_shape padding_below padding_above padding_interior i with
    | .error e => .error e
    | .ok x =>
      match op.Pad.result_shape arg_shape padding_below padding_above padding_interior rest with
      | .error e => .error e
      | .ok xs => .ok (x :: xs)

/-- Translation of the constructor `op::Pad::Pad(arg, arg_pad_value, padding_below,
padding_above, padding_interior)`: the five `NODE_VALIDATION_ASSERT`s in the order of
the source (a failed one throws), the loop over the axes, and
`set_output_type(0, get_input_element_type(0), result_shape)`. Returns the type of
output 0. The arguments are given by the type of their single output, so
`check_single_output_args` has nothing to reject; `constructor_validate_and_infer_types`
runs the `validate_and_infer_types` of the base class, which `op::Pad` does not
override here. -/
def op.Pad.new (arg arg_pad_value : ValueType)
    (padding_below padding_above padding_interior : List Nat) : Except PadError ValueType :=
  if arg.element_type ≠ arg_pad_value.element_type then
    .error PadError.element_types_do_not_match
  else if arg_pad_value.shape ≠ [] then .error PadError.padding_value_not_scalar
  else if arg.shape.length ≠ padding_below.length then .error PadError.padding_below_rank
  else if arg.shape.length ≠ padding_above.length then .error PadError.padding_above_rank
  else if arg.shape.length ≠ padding_interior.length then
    .error PadError.padding_interior_rank
  else
    match op.Pad.result_shape arg.shape padding_below padding_above padding_interior
        (List.range arg.shape.length) with
    | .error e => .error e
    | .ok result_shape => .ok { element_type := arg.element_type, shape := result_shape }

/-- The extent of a padded axis as a natural number: `b + a` for an empty axis, and
`b + d + (d - 1) * p + a` for an axis of `d >= 1` elements. -/
def padded_extent (d b a p : Nat) : Nat :=
  if d = 0 then b + a else b + d + (d - 1) * p + a

/-! ## A policy that reads the placement tag -/

/-- A policy that reads the placement tag the node carries: a node tagged `CPU` goes to
`INTERPRETER`, every other node to `CPU`. It has no state and no effect: its value is a
function of the node it is given. -/
def alternating_policy (node : Node) : Placement :=
  if node.placement = Placement.CPU then Placement.INTERPRETER else Placement.CPU

/-! ## Two runs of `execute` -/

/-- The contents of the tensor a pointer designates (`none` for a pointer that
designates no live tensor). -/
def contents {α : Type} (rt : Runtime α) (tv : Nat) : Option (List α) :=
  (rt.tensors[tv]?).map (fun t => t.data)

/-- A list of pairs of tensor pointers, one component per call, is a matching: two
pairs have the same first component exactly when they have the same second one. For
the pairs of corresponding arguments of two calls this says that the two calls alias
their tensors alike. -/
def Matching (R : List (Nat × Nat)) : Prop :=
  ∀ x ∈ R, ∀ y ∈ R, (x.1 = y.1 ↔ x.2 = y.2)

instance (R : List (Nat × Nat)) : Decidable (Matching R) := by
  unfold Matching
  infer_instance

/-- The results of the original function are pairwise distinct, each of them is a
result of a sub-function, and no parameter of a sub-function is one of them. -/
def HybridExecutable.ResultsProduced {α : Type} (exe : HybridExecutable α) : Prop :=
  exe.m_function.results.Nodup ∧
  (∀ r ∈ exe.m_function.results, ∃ s ∈ exe.m_sub_functions, r ∈ s.results) ∧
  (∀ s ∈ exe.m_sub_functions, ∀ p ∈ s.parameters, p ∉ exe.m_function.results)

instance {α : Type} (exe : HybridExecutable α) : Decidable exe.ResultsProduced := by
  unfold HybridExecutable.ResultsProduced
  infer_instance

/-- The states of two runs of `execute` correspond: a node is bound in one run exactly
when it is bound in the other, and then to a pair of tensors of `R`; `R` is a matching
of live tensors; and for every node satisfying `G` the two tensors bound to it have
equal contents. -/
structure Corresponds {α : Type} (R : List (Nat × Nat)) (G : Nat → Prop)
    (m m' : List (Nat × Nat)) (rt rt' : Runtime α) : Prop where
  lookups : ∀ k, (m.lookup k = none ∧ m'.lookup k = none) ∨
    ∃ a a', m.lookup k = some a ∧ m'.lookup k = some a' ∧ (a, a') ∈ R
  matching : Matching R
  live : ∀ x ∈ R, x.1 < rt.tensors.length ∧ x.2 < rt'.tensors.length
  agree : ∀ k a a', m.lookup k = some a → m'.lookup k = some a' → G k →
    contents rt a = contents rt' a'

/-- The contents of the tensors bound to node `k` agree once the sub-functions before
position `i` have run: `k` is no result of the original function, or it is a result of
one of those sub-functions. -/
def Produced {α : Type} (exe : HybridExecutable α) (i : Nat) (k : Nat) : Prop :=
  k ∉ exe.m_function.results ∨
    ∃ j, j < i ∧ ∃ s, exe.m_sub_functions[j]? = some s ∧ k ∈ s.results

/-- The runtime state a call of `execute` leaves behind; the state before the call when
the call failed. -/
def state_after {α : Type} (rt : Runtime α)
    (x : Except Error (Bool × HybridBackend × Runtime α)) : Runtime α :=
  match x with
  | .ok (_, _, rt1) => rt1
  | .error _ => rt

/-- The runtime state of the tests with three inputs after a first call of `execute` on
the partition of `hybrid_abc_manual`: the caller's four tensors and the six boundary
tensors of that call. -/
def runtime_abc_second : Runtime Int :=
  state_after runtime_abc
    (manual_abc_executable.execute full_registry warm_hybrid_backend runtime_abc [3] [0, 1, 2])

/-- The arena of a function with two results, `E = A + B` and `F = A + A`, every node
on `INTERPRETER`: A=0, B=1, E=2, F=3, R1=4, R2=5. -/
def two_results_nodes : List Node :=
  [parameter_2x2.set_placement .INTERPRETER, parameter_2x2.set_placement .INTERPRETER,
    (add_2x2 0 1).set_placement .INTERPRETER, (add_2x2 0 0).set_placement .INTERPRETER,
    (result_2x2 2).set_placement .INTERPRETER, (result_2x2 3).set_placement .INTERPRETER]

/-- A hybrid executable for that function: nothing is cut, the only sub-function is the
function itself. -/
def two_results_executable : HybridExecutable Int :=
  { m_function := { nodes := two_results_nodes, parameters := [0, 1], results := [4, 5] },
    m_sub_functions := [{ ops := [0, 1, 2, 3, 4, 5], parameters := [0, 1], results := [4, 5] }],
    m_map_parameter_to_result := [],
    m_handle_map :=
      [(0, { backend := { id := 0, type := .INTERPRETER },
             call := SubFunction.validate_and_execute two_results_nodes
               { ops := [0, 1, 2, 3, 4, 5], parameters := [0, 1], results := [4, 5] } })] }

/-- The handle that behaves as `handle`, except that its `validate_and_execute`
returns the Boolean `rc inputs`. -/
def Executable.returning {α : Type} (handle : Executable α) (rc : List (List α) → Bool) :
    Executable α :=
  { backend := handle.backend,
    call := fun inputs => (handle.call inputs).map (fun r => (rc inputs, r.2)) }

/-- The executable whose handles behave as those of `exe`, except that the handle of
the sub-function at position `i` returns the Boolean `rc i inputs`. -/
def HybridExecutable.with_handle_results {α : Type} (exe : HybridExecutable α)
    (rc : Nat → List (List α) → Bool) : HybridExecutable α :=
  { m_function := exe.m_function,
    m_sub_functions := exe.m_sub_functions,
    m_map_parameter_to_result := exe.m_map_parameter_to_result,
    m_handle_map := exe.m_handle_map.map (fun e => (e.1, e.2.returning (rc e.1))) }

/-- The hybrid backend `hb` as it would be had its constructor been given the placement
policy `policy`: the member `m_placement_policy` replaced, the cache as it is. -/
def HybridBackend.with_policy (hb : HybridBackend) (policy : Node → Placement) :
    HybridBackend :=
  { m_cached_backends := hb.m_cached_backends, m_placement_policy := policy }

/-! ## Splitting one edge (`hybrid_abc_manual`, modelled from the specification) -/

/-- Modelled from the spec: `insert_result_parameter_split(src_node, dst_node)` (the test
`hybrid_abc_manual` calls it; its body is missing from the sources): "returns a pair
(R, P) where R is a Result node whose input is src's output, P is a Parameter node with
the same element type and shape as that output, dst's input that read src now reads P,
and no other edge of the graph changes". The two new nodes follow the nodes of the
arena; R gets the placement of `src_node` and P that of `dst_node`. Returns the arena
after the call with the indices of R and P. -/
def insert_result_parameter_split (nodes : List Node) (src_node dst_node : Nat) :
    List Node × Nat × Nat :=
  (nodes.mapIdx (fun i n =>
      if i = dst_node then
        { n with args := n.args.map (fun a => if a = src_node then nodes.length + 1 else a) }
      else n) ++
    [{ op := .Result, args := [src_node], element_type := elementTypeOf nodes src_node,
       shape := shapeOf nodes src_node, placement := placementOf nodes src_node },
     { op := .Parameter, args := [], element_type := elementTypeOf nodes src_node,
       shape := shapeOf nodes src_node, placement := placementOf nodes dst_node }],
   nodes.length, nodes.length + 1)

/-- The arena of `hybrid_abc_manual` after the pass and the calls
`insert_result_parameter_split(D, E)`, `(C, E)` and `(E, R)`. -/
def manual_split_nodes : List Node :=
  (insert_result_parameter_split
    (insert_result_parameter_split
      (insert_result_parameter_split (placed graph_abc).nodes 3 4).1 2 4).1 4 5).1

/-! ## The caller's function and the clone (`test/graph_partition.cpp`)

The translation of the constructor above works on values, so it cannot tell a node of
the caller's function from its copy. Here the node objects are explicit: a store holds
every node object alive, a `shared_ptr<Node>` is an index into the store, and a
`Function` object is a `SubFunction` over the store (the pointers to its nodes, its
parameters and its results). The functions of the graph library that the constructor
calls are not among the sources; they are parameters. -/

/-- The functions the constructor of `HybridExecutable` calls whose bodies are not among
the sources, each with the store of node objects made explicit: `clone_function`, the
pass manager running `AssignPlacement` with a policy, `split_function_by_placement`
(sub-functions and the parameter-to-result map), a backend's `compile`, which may
rewrite the graph it is given and throw, and `set_parameters_and_results` of the base
class `runtime::Executable`. -/
structure GraphLibrary (α : Type) where
  clone_function : List Node → SubFunction → List Node × SubFunction
  run_passes : (Node → Placement) → List Node → SubFunction → List Node
  split_function_by_placement :
    List Node → SubFunction → List Node × List SubFunction × List (Nat × Nat)
  compile : Backend → List Node → SubFunction → List Node × Except Error (Executable α)
  set_parameters_and_results : List Node → SubFunction → List Node

/-- The frame conditions of the library: `clone_function` returns a function made of new
node objects and leaves the existing ones as they are; the pass manager writes to the
nodes of the function it is given only; the splitter writes to the nodes of the function
it is given and to new ones only, and its sub-functions are made of such nodes; a
backend's `compile` and `set_parameters_and_results` write to the nodes of the function
they are given and to new ones only. -/
structure GraphLibrary.Framed {α : Type} (lib : GraphLibrary α) : Prop where
  clone_frame : ∀ (store : List Node) (f : SubFunction) (a : Nat), a < store.length →
    (lib.clone_function store f).1[a]? = store[a]?
  clone_fresh : ∀ (store : List Node) (f : SubFunction),
    ∀ a ∈ (lib.clone_function store f).2.ops, store.length ≤ a
  pass_frame : ∀ (policy : Node → Placement) (store : List Node) (g : SubFunction) (a : Nat),
    a < store.length → a ∉ g.ops → (lib.run_passes policy store g)[a]? = store[a]?
  split_frame : ∀ (store : List Node) (g : SubFunction) (a : Nat),
    a < store.length → a ∉ g.ops →
    (lib.split_function_by_placement store g).1[a]? = store[a]?
  split_nodes : ∀ (store : List Node) (g : SubFunction),
    ∀ sub ∈ (lib.split_function_by_placement store g).2.1,
      ∀ a ∈ sub.ops, a ∈ g.ops ∨ store.length ≤ a
  compile_frame : ∀ (be : Backend) (store : List Node) (sub : SubFunction) (a : Nat),
    a < store.length → a ∉ sub.ops → (lib.compile be store sub).1[a]? = store[a]?
  bookkeeping_frame : ∀ (store : List Node) (g : SubFunction) (a : Nat),
    a < store.length → a ∉ g.ops → (lib.set_parameters_and_results store g)[a]? = store[a]?

/-- The loop "Compile subfunctions in corresponding backends" of the constructor of
`HybridExecutable` over the store. The store is returned also when the loop throws. -/
def compile_sub_functions_shared {α : Type} (lib : GraphLibrary α) (reg : Registry) :
    Nat → List SubFunction → List Node → HybridBackend → Runtime α →
      List (Nat × Executable α) →
      List Node × Except Error (List (Nat × Executable α) × HybridBackend × Runtime α)
  | _, [], store, hb, rt, handle_map => (store, .ok (handle_map, hb, rt))
  | i, sub_function :: rest, store, hb, rt, handle_map =>
    match hb.get_cached_backend reg rt
        (get_colocated_function_placement store sub_function) with
    | .error e => (store, .error e)
    | .ok (be, hb1, rt1) =>
      match lib.compile be store sub_function with
      | (store1, .error e) => (store1, .error e)
      | (store1, .ok h) =>
        compile_sub_functions_shared lib reg (i + 1) rest store1 hb1 rt1
          ((i, h) :: handle_map)

/-- The constructor `HybridExecutable(backend, func, enable_performance_collection)`
over the store: `m_function = clone_function(*func)`, the pass manager with
`AssignPlacement(int_with_cpu_mul_policy)` runs on `m_function`,
`split_function_by_placement(m_function)` gives the sub-functions, which are compiled,
and `set_parameters_and_results(*m_function)` ends the constructor. Returns the store
after the call (also when the constructor throws) and the executable. -/
def HybridExecutable.new_shared {α : Type} (lib : GraphLibrary α) (reg : Registry)
    (hb : HybridBackend) (rt : Runtime α) (store : List Node) (func : SubFunction) :
    List Node × Except Error (HybridExecutable α × HybridBackend × Runtime α) :=
  match lib.clone_function store func with
  | (store1, m_function) =>
    match lib.split_function_by_placement
        (lib.run_passes int_with_cpu_mul_policy store1 m_function) m_function with
    | (store3, m_sub_functions, m_map_parameter_to_result) =>
      match compile_sub_functions_shared lib reg 0 m_sub_functions store3 hb rt [] with
      | (store4, .error e) => (store4, .error e)
      | (store4, .ok (handle_map, hb1, rt1)) =>
        (lib.set_parameters_and_results store4 m_function,
          .ok ({ m_function :=
                          { nodes := lib.set_parameters_and_results store4 m_function,
                            parameters := m_function.parameters,
                            results := m_function.results },
                        m_sub_functions := m_sub_functions,
                        m_map_parameter_to_result := m_map_parameter_to_result,
                        m_handle_map := handle_map }, hb1, rt1))

/-- Translation of `HybridBackend::compile(function, enable_performance_collection)` over
the store: `make_shared<HybridExecutable>(this, function, ...)`. -/
def HybridBackend.compile_shared {α : Type} (lib : GraphLibrary α) (reg : Registry)
    (hb : HybridBackend) (rt : Runtime α) (store : List Node) (function : SubFunction) :
    List Node × Except Error (HybridExecutable α × HybridBackend × Runtime α) :=
  HybridExecutable.new_shared lib reg hb rt store function

/-- The position of the first occurrence of `a` in a list of pointers (the length of the
list when it has none). -/
def position_of (a : Nat) : List Nat → Nat
  | [] => 0
  | b :: rest => if b = a then 0 else position_of a rest + 1

/-- A library that meets the frame conditions: `clone_function` appends a copy of every
node of the function, the inputs of a copy being the copies; the pass sets the tag of
every node of the function it is given; the splitter is the trivial one, which returns
the function as its single sub-function; `compile` is that of the backends above and
rewrites nothing, nor does `set_parameters_and_results`. -/
def reference_library (reg : Registry) : GraphLibrary Int :=
  { clone_function := fun store f =>
      (store ++ f.ops.filterMap (fun a => (store[a]?).map (fun n =>
          { n with args := n.args.map (fun b => store.length + position_of b f.ops) })),
       { ops := f.ops.map (fun a => store.length + position_of a f.ops),
         parameters := f.parameters.map (fun a => store.length + position_of a f.ops),
         results := f.results.map (fun a => store.length + position_of a f.ops) }),
    run_passes := fun policy store g => g.ops.foldl (AssignPlacement.run_on_node policy) store,
    split_function_by_placement := fun store g => (store, [g], []),
    compile := fun be store sub => (store, be.compile reg store sub),
    set_parameters_and_results := fun store _ => store }

/-- The function object of `hybrid_abc` over the store that holds its six nodes. -/
def graph_abc_object : SubFunction :=
  { ops := [0, 1, 2, 3, 4, 5], parameters := [0, 1, 2], results := [5] }

/-! ## ONNXIFI weights (`src/ngraph/frontend/onnxifi/weight.hpp`) -/

/-- The constants of the header `onnxifi.h` that `weight.hpp` names. The header is not
among the sources, so their values are parameters. -/
structure onnxifi.Constants where
  ONNXIFI_TAG_TENSOR_DESCRIPTOR_V1 : Nat
  ONNXIFI_DATATYPE_FLOAT16 : Nat
  ONNXIFI_DATATYPE_FLOAT32 : Nat
  ONNXIFI_DATATYPE_FLOAT64 : Nat
  ONNXIFI_DATATYPE_INT8 : Nat
  ONNXIFI_DATATYPE_INT16 : Nat
  ONNXIFI_DATATYPE_INT32 : Nat
  ONNXIFI_DATATYPE_INT64 : Nat
  ONNXIFI_DATATYPE_UINT8 : Nat
  ONNXIFI_DATATYPE_UINT16 : Nat
  ONNXIFI_DATATYPE_UINT32 : Nat
  ONNXIFI_DATATYPE_UINT64 : Nat
  ONNXIFI_DATATYPE_COMPLEX64 : Nat
  ONNXIFI_DATATYPE_COMPLEX128 : Nat
  ONNXIFI_MEMORY_TYPE_CPU : Nat
  ONNXIFI_MEMORY_TYPE_CUDA_BUFFER : Nat
  ONNXIFI_MEMORY_TYPE_OPENCL_BUFFER : Nat
  ONNXIFI_MEMORY_TYPE_OPENGLES_TEXTURE_2D : Nat
  ONNXIFI_MEMORY_TYPE_D3D_RESOURCE : Nat

/-- The data type codes that `_get_type` maps to an element type, in the order of its
`case` labels. -/
def onnxifi.Constants.supported_datatypes (K : onnxifi.Constants) : List Nat :=
  [K.ONNXIFI_DATATYPE_FLOAT32, K.ONNXIFI_DATATYPE_FLOAT64, K.ONNXIFI_DATATYPE_INT8,
    K.ONNXIFI_DATATYPE_INT16, K.ONNXIFI_DATATYPE_INT32, K.ONNXIFI_DATATYPE_INT64,
    K.ONNXIFI_DATATYPE_UINT8, K.ONNXIFI_DATATYPE_UINT16, K.ONNXIFI_DATATYPE_UINT32,
    K.ONNXIFI_DATATYPE_UINT64]

/-- The data type codes for which `_get_type` throws `invalid_datatype`. -/
def onnxifi.Constants.invalid_datatypes (K : onnxifi.Constants) : List Nat :=
  [K.ONNXIFI_DATATYPE_FLOAT16, K.ONNXIFI_DATATYPE_COMPLEX64, K.ONNXIFI_DATATYPE_COMPLEX128]

/-- The memory type codes for which the constructor throws `invalid_memory_type`. -/
def onnxifi.Constants.invalid_memory_types (K : onnxifi.Constants) : List Nat :=
  [K.ONNXIFI_MEMORY_TYPE_CUDA_BUFFER, K.ONNXIFI_MEMORY_TYPE_OPENCL_BUFFER,
    K.ONNXIFI_MEMORY_TYPE_OPENGLES_TEXTURE_2D, K.ONNXIFI_MEMORY_TYPE_D3D_RESOURCE]

/-- The `case` labels of each of the two `switch` statements of `weight.hpp` are
pairwise distinct, as the language requires of a `switch`. -/
def onnxifi.Constants.Distinct (K : onnxifi.Constants) : Prop :=
  (K.supported_datatypes ++ K.invalid_datatypes).Nodup ∧
  (K.ONNXIFI_MEMORY_TYPE_CPU :: K.invalid_memory_types).Nodup

instance (K : onnxifi.Constants) : Decidable K.Distinct := by
  unfold onnxifi.Constants.Distinct
  infer_instance

/-- The values that the header `onnxifi.h` of ONNX gives the constants. -/
def onnxifi.header : onnxifi.Constants :=
  { ONNXIFI_TAG_TENSOR_DESCRIPTOR_V1 := 0x43DFBF69,
    ONNXIFI_DATATYPE_FLOAT16 := 10,
    ONNXIFI_DATATYPE_FLOAT32 := 1,
    ONNXIFI_DATATYPE_FLOAT64 := 11,
    ONNXIFI_DATATYPE_INT8 := 3,
    ONNXIFI_DATATYPE_INT16 := 5,
    ONNXIFI_DATATYPE_INT32 := 6,
    ONNXIFI_DATATYPE_INT64 := 7,
    ONNXIFI_DATATYPE_UINT8 := 2,
    ONNXIFI_DATATYPE_UINT16 := 4,
    ONNXIFI_DATATYPE_UINT32 := 12,
    ONNXIFI_DATATYPE_UINT64 := 13,
    ONNXIFI_DATATYPE_COMPLEX64 := 14,
    ONNXIFI_DATATYPE_COMPLEX128 := 15,
    ONNXIFI_MEMORY_TYPE_CPU := 0,
    ONNXIFI_MEMORY_TYPE_CUDA_BUFFER := 1,
    ONNXIFI_MEMORY_TYPE_OPENCL_BUFFER := 2,
    ONNXIFI_MEMORY_TYPE_OPENGLES_TEXTURE_2D := 4,
    ONNXIFI_MEMORY_TYPE_D3D_RESOURCE := 8 }

/-- The exceptions `status::...` (declared in `exceptions.hpp`) that `weight.hpp` and
`backend.hpp` throw. -/
inductive onnxifi.Status where
  | unsupported_tag
  | invalid_name
  | invalid_memory_type
  | unsupported_memory_type
  | null_pointer
  | invalid_size
  | invalid_shape
  | invalid_memory_location
  | invalid_datatype
  | unsupported_datatype
  | backend_unavailable
  deriving DecidableEq, Repr

/-- How an operation of the ONNXIFI frontend fails: it throws a `status` exception; or
it constructs a `std::string` from a null pointer, which is undefined behaviour (no
`status` exception is thrown: the standard library throws `std::logic_error` or reads
through the null pointer); or the nGraph runtime it calls throws. -/
inductive onnxifi.Failure where
  | status (s : onnxifi.Status)
  | string_from_null
  | runtime_error (what : String)
  deriving DecidableEq, Repr

/-- The fields of `::onnxTensorDescriptorV1` that the constructor of `Weight` reads. A
pointer is `none` when it is null; otherwise it is given by what it designates: `name`
by the string, `shape` by the array of 64-bit extents (`shape i` is element `i`), and
`buffer` by the bytes at that address (`buffer i` is byte `i`). The memory designated
is taken to be readable as far as the constructor reads it. -/
structure onnxTensorDescriptorV1 where
  tag : Nat
  name : Option String
  dataType : Nat
  memoryType : Nat
  dimensions : Nat
  shape : Option (Nat → Nat)
  buffer : Option (Nat → Nat)

/-- The members of `onnxifi::Weight`, in the order of their declarations. -/
structure onnxifi.Weight where
  m_name : String
  m_shape : List Nat
  m_size : Nat
  m_type : ElementType
  m_buffer : List Nat
  deriving DecidableEq, Repr

/-- Translation of `Weight::_get_type`. -/
def onnxifi.Weight._get_type (K : onnxifi.Constants) (type : Nat) :
    Except onnxifi.Status ElementType :=
  if type = K.ONNXIFI_DATATYPE_FLOAT32 then .ok ElementType.f32
  else if type = K.ONNXIFI_DATATYPE_FLOAT64 then .ok ElementType.f64
  else if type = K.ONNXIFI_DATATYPE_INT8 then .ok ElementType.i8
  else if type = K.ONNXIFI_DATATYPE_INT16 then .ok ElementType.i16
  else if type = K.ONNXIFI_DATATYPE_INT32 then .ok ElementType.i32
  else if type = K.ONNXIFI_DATATYPE_INT64 then .ok ElementType.i64
  else if type = K.ONNXIFI_DATATYPE_UINT8 then .ok ElementType.u8
  else if type = K.ONNXIFI_DATATYPE_UINT16 then .ok ElementType.u16
  else if type = K.ONNXIFI_DATATYPE_UINT32 then .ok ElementType.u32
  else if type = K.ONNXIFI_DATATYPE_UINT64 then .ok ElementType.u64
  else if type = K.ONNXIFI_DATATYPE_FLOAT16 ∨ type = K.ONNXIFI_DATATYPE_COMPLEX64 ∨
      type = K.ONNXIFI_DATATYPE_COMPLEX128 then .error onnxifi.Status.invalid_datatype
  else .error onnxifi.Status.unsupported_datatype

/-- The statement `switch (weight.memoryType)` of the constructor: the exception it
throws, if any. -/
def onnxifi.Weight.switch_memory_type (K : onnxifi.Constants) (memoryType : Nat) :
    Option onnxifi.Status :=
  if memoryType = K.ONNXIFI_MEMORY_TYPE_CPU then none
  else if memoryType = K.ONNXIFI_MEMORY_TYPE_CUDA_BUFFER ∨
      memoryType = K.ONNXIFI_MEMORY_TYPE_OPENCL_BUFFER ∨
      memoryType = K.ONNXIFI_MEMORY_TYPE_OPENGLES_TEXTURE_2D ∨
      memoryType = K.ONNXIFI_MEMORY_TYPE_D3D_RESOURCE then
    some onnxifi.Status.invalid_memory_type
  else some onnxifi.Status.unsupported_memory_type

/-- The loop `for (const auto& value : shape)` of the constructor over the extents that
remain, with the `m_shape` and `m_size` built so far; `m_size` is a `size_t`. -/
def onnxifi.Weight.read_shape :
    List Nat → List Nat → Nat → Except onnxifi.Status (List Nat × Nat)
  | [], m_shape, m_size => .ok (m_shape, m_size)
  | value :: rest, m_shape, m_size =>
    if value = 0 then .error onnxifi.Status.invalid_shape
    else onnxifi.Weight.read_shape rest (m_shape ++ [value]) (wrap_size_t (m_size * value))

/-- The statement `if (weight.shape == nullptr) { m_shape = {1}; } else { ... }` of the
constructor, entered with an empty `m_shape` and `m_size` 1: the `m_shape` and `m_size`
it leaves, or the exception of the loop. -/
def onnxifi.Weight.build_shape (weight : onnxTensorDescriptorV1) :
    Except onnxifi.Status (List Nat × Nat) :=
  match weight.shape with
  | none => .ok ([1], 1)
  | some shape =>
    onnxifi.Weight.read_shape ((List.range weight.dimensions).map shape) [] 1

/-- Translation of the constructor `Weight(const ::onnxTensorDescriptorV1& weight)`.
The members are initialised in the order of their declarations, so `m_name{weight.name}`
comes first, then `m_size{1}`, then `m_type{_get_type(weight.dataType)}`; the body
follows. `element_size` is `element::Type::size()`, which is not among the sources. -/
def onnxifi.Weight.new (K : onnxifi.Constants) (element_size : ElementType → Nat)
    (weight : onnxTensorDescriptorV1) : Except onnxifi.Failure onnxifi.Weight :=
  match weight.name with
  | none => .error onnxifi.Failure.string_from_null
  | some m_name =>
    match onnxifi.Weight._get_type K weight.dataType with
    | .error s => .error (onnxifi.Failure.status s)
    | .ok m_type =>
      if weight.tag ≠ K.ONNXIFI_TAG_TENSOR_DESCRIPTOR_V1 then
        .error (onnxifi.Failure.status .unsupported_tag)
      else if weight.name.isNone then .error (onnxifi.Failure.status .invalid_name)
      else
        match onnxifi.Weight.switch_memory_type K weight.memoryType with
        | some s => .error (onnxifi.Failure.status s)
        | none =>
          if weight.dimensions ≠ 0 ∧ weight.shape.isNone then
            .error (onnxifi.Failure.status .null_pointer)
          else if weight.shape.isSome ∧ weight.dimensions = 0 then
            .error (onnxifi.Failure.status .invalid_size)
          else
            match onnxifi.Weight.build_shape weight with
            | .error s => .error (onnxifi.Failure.status s)
            | .ok (m_shape, m_size) =>
              match weight.buffer with
              | none => .error (onnxifi.Failure.status .invalid_memory_location)
              | some buffer =>
                .ok { m_name := m_name, m_shape := m_shape, m_size := m_size,
                      m_type := m_type,
                      m_buffer := (List.range
                        (wrap_size_t (m_size * element_size m_type))).map buffer }

/-- Translation of `Weight::data`. -/
def onnxifi.Weight.data (w : onnxifi.Weight) : List Nat := w.m_buffer

/-- Translation of `Weight::size`. -/
def onnxifi.Weight.size (w : onnxifi.Weight) : Nat := w.m_size

/-- Translation of `Weight::shape`. -/
def onnxifi.Weight.shape (w : onnxifi.Weight) : List Nat := w.m_shape

/-- Translation of `Weight::name`. -/
def onnxifi.Weight.name (w : onnxifi.Weight) : String := w.m_name

/-- Translation of `Weight::type`. -/
def onnxifi.Weight.type (w : onnxifi.Weight) : ElementType := w.m_type

/-- The checks of the constructor of `Weight` as a specification lists them, each with
the status it raises when it fails, in the fixed order: data type, tag, name, memory
type, dimensions without shape, shape without dimensions, zero extent, null buffer. -/
def onnxifi.Weight.checks (K : onnxifi.Constants) (weight : onnxTensorDescriptorV1) :
    List (Option onnxifi.Status) :=
  [ if weight.dataType ∈ K.invalid_datatypes then some .invalid_datatype
    else if weight.dataType ∈ K.supported_datatypes then none
    else some .unsupported_datatype,
    if weight.tag ≠ K.ONNXIFI_TAG_TENSOR_DESCRIPTOR_V1 then some .unsupported_tag else none,
    if weight.name.isNone then some .invalid_name else none,
    if weight.memoryType ∈ K.invalid_memory_types then some .invalid_memory_type
    else if weight.memoryType = K.ONNXIFI_MEMORY_TYPE_CPU then none
    else some .unsupported_memory_type,
    if weight.dimensions ≠ 0 ∧ weight.shape.isNone then some .null_pointer else none,
    if weight.shape.isSome ∧ weight.dimensions = 0 then some .invalid_size else none,
    match weight.shape with
    | none => none
    | some shape =>
      if 0 ∈ (List.range weight.dimensions).map shape then some .invalid_shape else none,
    if weight.buffer.isNone then some .invalid_memory_location else none ]

/-- The status of the first check that fails, if any. -/
def onnxifi.Weight.first_failing_check (K : onnxifi.Constants)
    (weight : onnxTensorDescriptorV1) : Option onnxifi.Status :=
  (onnxifi.Weight.checks K weight).findSome? id

/-- The byte size of the elements of a type (`element::Type::size()`, which is not among
the sources): the bit width in the name of the type, in bytes. -/
def element_byte_size : ElementType → Nat
  | .f32 => 4 | .f64 => 8 | .i8 => 1 | .i16 => 2 | .i32 => 4 | .i64 => 8
  | .u8 => 1 | .u16 => 2 | .u32 => 4 | .u64 => 8

/-- A descriptor of a 2x3 `FLOAT32` tensor named "w" in CPU memory; byte `i` of its
buffer is `i`. -/
def descriptor_2x3 : onnxTensorDescriptorV1 :=
  { tag := 0x43DFBF69, name := some "w", dataType := 1, memoryType := 0, dimensions := 2,
    shape := some (fun i => if i = 0 then 2 else 3), buffer := some (fun i => i) }

/-- The descriptor `descriptor_2x3` with a null `name`. -/
def descriptor_null_name : onnxTensorDescriptorV1 :=
  { descriptor_2x3 with name := none }

/-- A descriptor with one extent `2^61` of `FLOAT64` elements. -/
def descriptor_huge : onnxTensorDescriptorV1 :=
  { tag := 0x43DFBF69, name := some "w", dataType := 11, memoryType := 0, dimensions := 1,
    shape := some (fun _ => 2 ^ 61), buffer := some (fun i => i) }

/-! ## The ONNXIFI backend (`src/ngraph/frontend/onnxifi/backend.hpp`)

The class guards its members with a mutex; the translation is that of one thread, in
which every member function runs from its first statement to its last. -/

/-- A `runtime::Backend` object as the class `onnxifi::Backend` sees it: its address,
which is what `m_backend.get()` returns. -/
structure onnxifi.RuntimeBackend where
  address : Nat
  deriving DecidableEq, Repr

/-- The nGraph runtime that the class calls, whose code is not among the sources, over a
state `σ` of its own: `runtime::Backend::create(type)` yields a backend or throws;
`compile(function)` yields a handle or throws; `call(handle, outputs, inputs)` yields a
Boolean or throws. Functions, handles and tensors are given by their pointers, an
exception by its message. -/
structure onnxifi.Runtime (σ : Type) where
  create : String → σ → Except String (onnxifi.RuntimeBackend × σ)
  compile : onnxifi.RuntimeBackend → Nat → σ → Except String (Nat × σ)
  call : onnxifi.RuntimeBackend → Nat → List Nat → List Nat → σ → Except String (Bool × σ)

/-- The members of `onnxifi::Backend` (without the mutex): the type string, the shared
pointer to the runtime backend (`none` when null) and the handle, which is an address
(`none` when null). -/
structure onnxifi.Backend where
  m_type : String
  m_backend : Option onnxifi.RuntimeBackend
  m_handle : Option Nat
  deriving DecidableEq, Repr

/-- The constructor `Backend(std::string type)`: `m_backend` and `m_handle` take their
default member initialisers, `nullptr`. -/
def onnxifi.Backend.new (type : String) : onnxifi.Backend :=
  { m_type := type, m_backend := none, m_handle := none }

/-- Translation of the private `Backend::get`. -/
def onnxifi.Backend.get (b : onnxifi.Backend) : Except onnxifi.Failure onnxifi.RuntimeBackend :=
  match b.m_backend with
  | none => .error (onnxifi.Failure.status onnxifi.Status.backend_unavailable)
  | some backend => .ok backend

/-- Translation of `Backend::compile(function)`: `get().compile(function)`. -/
def onnxifi.Backend.compile {σ : Type} (R : onnxifi.Runtime σ) (b : onnxifi.Backend)
    (function : Nat) (s : σ) : Except onnxifi.Failure (Nat × σ) :=
  match b.get with
  | .error e => .error e
  | .ok backend =>
    match R.compile backend function s with
    | .error what => .error (onnxifi.Failure.runtime_error what)
    | .ok r => .ok r

/-- Translation of `Backend::call(handle, inputs, outputs)`:
`get().call(handle, outputs, inputs)`. -/
def onnxifi.Backend.call {σ : Type} (R : onnxifi.Runtime σ) (b : onnxifi.Backend)
    (handle : Nat) (inputs outputs : List Nat) (s : σ) : Except onnxifi.Failure (Bool × σ) :=
  match b.get with
  | .error e => .error e
  | .ok backend =>
    match R.call backend handle outputs inputs s with
    | .error what => .error (onnxifi.Failure.runtime_error what)
    | .ok r => .ok r

/-- Translation of `Backend::init_handle`: when `m_backend` is null, the runtime backend
is created, stored in `m_backend`, and its address is stored in `m_handle`; `m_handle`
is returned. Returns the handle, the object and the state of the runtime; when `create`
throws, the object is as it was. -/
def onnxifi.Backend.init_handle {σ : Type} (R : onnxifi.Runtime σ) (b : onnxifi.Backend)
    (s : σ) : Except onnxifi.Failure (Option Nat × onnxifi.Backend × σ) :=
  match b.m_backend with
  | none =>
    match R.create b.m_type s with
    | .error what => .error (onnxifi.Failure.runtime_error what)
    | .ok (backend, s1) =>
      .ok (some backend.address,
        { m_type := b.m_type, m_backend := some backend, m_handle := some backend.address },
        s1)
  | some _ => .ok (b.m_handle, b, s)

/-- Translation of `Backend::get_handle`. -/
def onnxifi.Backend.get_handle (b : onnxifi.Backend) : Option Nat := b.m_handle

/-- Translation of `Backend::operator==(::onnxBackend other)`: the address of the
runtime backend held (null when none is held) is compared with `other`. -/
def onnxifi.Backend.eq_handle (b : onnxifi.Backend) (other : Option Nat) : Bool :=
  decide (b.m_backend.map (fun backend => backend.address) = other)

/-- The state in which a move leaves the object moved from: its shared pointer is null,
its string is in a valid state that the language leaves open (`residue`), and its
`m_handle`, which the move constructor and the move assignment copy, is as it was. -/
def onnxifi.Backend.moved_from (other : onnxifi.Backend) (residue : String) :
    onnxifi.Backend :=
  { m_type := residue, m_backend := none, m_handle := other.m_handle }

/-- Translation of the move constructor `Backend(Backend&& other)`: the new object. -/
def onnxifi.Backend.move (other : onnxifi.Backend) : onnxifi.Backend :=
  { m_type := other.m_type, m_backend := other.m_backend, m_handle := other.m_handle }

/-- Translation of `Backend::operator=(Backend&& other)` for `&other != this`: the
object assigned to. (For `&other == this` nothing is done.) -/
def onnxifi.Backend.move_assign (_this other : onnxifi.Backend) : onnxifi.Backend :=
  { m_type := other.m_type, m_backend := other.m_backend, m_handle := other.m_handle }

/-- The objects of class `onnxifi::Backend` alive, with the state of the runtime, that a
program reaches from the runtime state `s0` through the constructor from a type string,
`init_handle`, the move constructor and the move assignment. -/
inductive onnxifi.Backend.Reachable {σ : Type} (R : onnxifi.Runtime σ) (s0 : σ) :
    List onnxifi.Backend → σ → Prop where
  | start : onnxifi.Backend.Reachable R s0 [] s0
  | construct (objects : List onnxifi.Backend) (s : σ) (type : String) :
    onnxifi.Backend.Reachable R s0 objects s →
    onnxifi.Backend.Reachable R s0 (objects ++ [onnxifi.Backend.new type]) s
  | init_handle (objects : List onnxifi.Backend) (s : σ) (i : Nat) (b b1 : onnxifi.Backend)
      (handle : Option Nat) (s1 : σ) :
    onnxifi.Backend.Reachable R s0 objects s →
    objects[i]? = some b → b.init_handle R s = .ok (handle, b1, s1) →
    onnxifi.Backend.Reachable R s0 (objects.set i b1) s1
  | move (objects : List onnxifi.Backend) (s : σ) (j : Nat) (other : onnxifi.Backend)
      (residue : String) :
    onnxifi.Backend.Reachable R s0 objects s →
    objects[j]? = some other →
    onnxifi.Backend.Reachable R s0
      (objects.set j (other.moved_from residue) ++ [other.move]) s
  | move_assign (objects : List onnxifi.Backend) (s : σ) (i j : Nat)
      (this other : onnxifi.Backend) (residue : String) :
    onnxifi.Backend.Reachable R s0 objects s →
    objects[i]? = some this → objects[j]? = some other → i ≠ j →
    onnxifi.Backend.Reachable R s0
      ((objects.set i (this.move_assign other)).set j (other.moved_from residue)) s

/-- A runtime whose state counts the backends created: `create` yields the backend at
address `4096 + 64 * n` for the types "CPU" and "INTERPRETER" and throws for any other;
`compile` yields the function pointer as handle and `call` yields `true`. -/
def onnxifi.test_runtime : onnxifi.Runtime Nat :=
  { create := fun type n =>
      if type = "CPU" ∨ type = "INTERPRETER" then .ok ({ address := 4096 + 64 * n }, n + 1)
      else .error "backend not registered",
    compile := fun _ function n => .ok (function, n),
    call := fun _ _ _ _ n => .ok (true, n) }

/-- The backend of type "CPU" after its first `init_handle` on `test_runtime`: it holds
the runtime backend at address 4096. -/
def onnxifi.initialised_backend : onnxifi.Backend :=
  { m_type := "CPU", m_backend := some { address := 4096 }, m_handle := some 4096 }

/-- The handle of the object is the address of the runtime backend it holds, or null when
it holds none. -/
def onnxifi.Backend.Consistent (b : onnxifi.Backend) : Prop :=
  b.get_handle = b.m_backend.map (fun backend => backend.address)

instance (b : onnxifi.Backend) : Decidable b.Consistent := by
  unfold onnxifi.Backend.Consistent
  infer_instance

/-! ## The CPU builder of `op::Lstm` (`src/ngraph/runtime/cpu/builder/lstm.cpp`) -/

/-- How the builder ends when it does not return: it throws `ngraph_error` with a
message, it indexes the vector `out` past its end, or the MKLDNN emitter throws. -/
inductive BuildFailure where
  | ngraph_error (what : String)
  | index_out_of_bounds
  | emitter_failed (what : String)
  deriving DecidableEq, Repr

/-- A `TensorViewWrapper`, of which the builder reads the name only (`get_name`). -/
structure TensorViewWrapper where
  name : String
  deriving DecidableEq, Repr

/-- The closure `functor` that the builder of `op::Lstm` creates: it captures the index of
the MKLDNN primitive by value and, by reference, the primitive's dependencies and the
seven tensor data slots. -/
structure LstmFunctor where
  lstm_index : Nat
  deps : List Nat
  src_layer_tensor : Nat
  src_iter_tensor : Nat
  weights_layer_tensor : Nat
  weights_iter_tensor : Nat
  bias_tensor : Nat
  dst_layer_tensor : Nat
  dst_iter_tensor : Nat
  deriving DecidableEq, Repr

/-- What the builder reads of its surroundings, none of which is among the sources:
whether `mkldnn_utils::use_mkldnn_kernel(node)` holds; the data slot that
`external_function->get_tensor_data(name)` returns; the index that
`mkldnn_emitter->build_rnn<op::Lstm>(node, args, out)` returns, or the message of what
it throws; and the dependencies `mkldnn_emitter->get_primitive_deps(index)`. -/
structure LstmBuildContext where
  use_mkldnn_kernel : Bool
  get_tensor_data : String → Nat
  build_rnn : List TensorViewWrapper → List TensorViewWrapper → Except String Nat
  get_primitive_deps : Nat → List Nat

/-- Translation of `Builder::BUILDER_DECL(ngraph::op::Lstm)`: `functors` is the functor
list of the external function before the call, the result is the list after it. The
size of `args` is checked before `args[0]` to `args[4]` are read; `out[0]` and `out[1]`
are read without a check. -/
def build_lstm (ctx : LstmBuildContext) (functors : List LstmFunctor)
    (args out : List TensorViewWrapper) : Except BuildFailure (List LstmFunctor) :=
  if !ctx.use_mkldnn_kernel then
    .error (BuildFailure.ngraph_error
      "Lstm is supported only through MKLDNN and doesnt have reference INTERPRETER implementation")
  else if args.length ≠ 5 then
    .error (BuildFailure.ngraph_error
      "Lstm op doesnt have the required number of inputs to create MKLDNN kernel")
  else
    match args, out with
    | [a0, a1, a2, a3, a4], o0 :: o1 :: _ =>
      match ctx.build_rnn args out with
      | .error what => .error (BuildFailure.emitter_failed what)
      | .ok lstm_index =>
        .ok (functors ++
          [{ lstm_index := lstm_index,
             deps := ctx.get_primitive_deps lstm_index,
             src_layer_tensor := ctx.get_tensor_data a0.name,
             src_iter_tensor := ctx.get_tensor_data a1.name,
             weights_layer_tensor := ctx.get_tensor_data a2.name,
             weights_iter_tensor := ctx.get_tensor_data a3.name,
             bias_tensor := ctx.get_tensor_data a4.name,
             dst_layer_tensor := ctx.get_tensor_data o0.name,
             dst_iter_tensor := ctx.get_tensor_data o1.name }])
    | _, _ => .error BuildFailure.index_out_of_bounds

/-- A context in which the node is selected for MKLDNN, the data slot of a tensor is the
length of its name, and the emitter returns the index 3 with the dependencies 0 to 8. -/
def lstm_context : LstmBuildContext :=
  { use_mkldnn_kernel := true,
    get_tensor_data := fun name => name.length,
    build_rnn := fun _ _ => .ok 3,
    get_primitive_deps := fun _ => List.range 9 }

/-- The five inputs of an `op::Lstm` node. -/
def lstm_args : List TensorViewWrapper :=
  [{ name := "a" }, { name := "bb" }, { name := "ccc" }, { name := "dddd" },
    { name := "eeeee" }]

/-- The two outputs of an `op::Lstm` node. -/
def lstm_out : List TensorViewWrapper := [{ name := "ffffff" }, { name := "ggggggg" }]

/-! ## The values a compiled function computes -/

/-- The lists of a function name nodes of its arena: the parameters are pairwise
distinct `Parameter` nodes and the results pairwise distinct `Result` nodes. -/
def Function.Valid (f : Function) : Prop :=
  f.parameters.Nodup ∧ f.results.Nodup ∧
  (∀ p ∈ f.parameters, (f.nodes[p]?).map (fun n => n.op) = some OpKind.Parameter) ∧
  (∀ r ∈ f.results, (f.nodes[r]?).map (fun n => n.op) = some OpKind.Result)

instance (f : Function) : Decidable f.Valid := by
  unfold Function.Valid
  infer_instance

/-- The value of node `y` of the arena the splitter leaves behind, given the values
`env` of the nodes of the original graph: an original node has its value, the Result and
the Parameter of a boundary pair have the value of the producer the pair was made
for. -/
def split_value {α : Type} (nodes : List Node) (env : List (Nat × List α)) (y : Nat) :
    List α :=
  if y < nodes.length then (env.lookup y).getD []
  else (env.lookup ((boundary_keys nodes).getD ((y - nodes.length) / 2)
    (0, Placement.DEFAULT)).1).getD []

/-- Node `y` is a result of one of the sub-functions. -/
def HybridExecutable.IsResult {α : Type} (exe : HybridExecutable α) (y : Nat) : Prop :=
  ∃ (i : Nat) (s : SubFunction), exe.m_sub_functions[i]? = some s ∧ y ∈ s.results

/-- Node `y` is a result of one of the sub-functions before position `j`. -/
def HybridExecutable.Done {α : Type} (exe : HybridExecutable α) (j y : Nat) : Prop :=
  ∃ (i : Nat) (s : SubFunction), i < j ∧ exe.m_sub_functions[i]? = some s ∧ y ∈ s.results

/-- The sub-functions of a hybrid executable compute the values `W` of the nodes: the
handle of a sub-function, given the values of its parameters, returns the values of its
results; a parameter of a sub-function that is no parameter of the function is paired
with a result of an earlier sub-function, of element type `f32` and of the same value;
every result of the function is a result of a sub-function; no node is a result of two
sub-functions or twice a result of one, and no parameter is a result. -/
structure HybridExecutable.Computes {α : Type} (exe : HybridExecutable α)
    (W : Nat → List α) : Prop where
  results_nodup : exe.m_function.results.Nodup
  results_produced : ∀ r ∈ exe.m_function.results, exe.IsResult r
  parameters_apart : ∀ p ∈ exe.m_function.parameters, ¬ exe.IsResult p
  sub_parameters_apart : ∀ s ∈ exe.m_sub_functions, ∀ p ∈ s.parameters, ¬ exe.IsResult p
  sub_results_nodup : ∀ s ∈ exe.m_sub_functions, s.results.Nodup
  sub_results_apart : ∀ (i j : Nat) (si sj : SubFunction),
    exe.m_sub_functions[i]? = some si → exe.m_sub_functions[j]? = some sj →
    ∀ r ∈ si.results, r ∈ sj.results → i = j
  boundary : ∀ (j : Nat) (s : SubFunction), exe.m_sub_functions[j]? = some s →
    ∀ p ∈ s.parameters, p ∉ exe.m_function.parameters →
      ∃ r, exe.m_map_parameter_to_result.lookup p = some r ∧ W p = W r ∧
        elementTypeOf exe.m_function.nodes r = ElementType.f32 ∧
        r ∉ exe.m_function.results ∧ exe.Done j r
  handles : ∀ (j : Nat) (s : SubFunction), exe.m_sub_functions[j]? = some s →
    ∃ (h : Executable α) (rc : Bool), exe.m_handle_map.lookup j = some h ∧
      h.call (s.parameters.map W) = some (rc, s.results.map W)

/-- The state of `execute` when the loop reaches the sub-function at position `j`: the
parameters and results of the function are bound, the results to the tensors `outputs`;
the results of the earlier sub-functions are bound and those of the later ones are not,
unless they are results of the function; a tensor bound to another node is none of
`outputs`; the tensor of a result of a sub-function that is no result of the function
has the element type of the node; and the tensor bound to a node other than a result
still to be computed holds the value `W` of the node. -/
structure ExecuteState {α : Type} (exe : HybridExecutable α) (W : Nat → List α)
    (outputs : List Nat) (j : Nat) (m : List (Nat × Nat)) (rt : Runtime α) : Prop where
  live : Live m rt
  outputs_live : ∀ tv ∈ outputs, tv < rt.tensors.length
  parameters_bound : ∀ p ∈ exe.m_function.parameters, ∃ tv, m.lookup p = some tv
  results_bound : ∀ (i r : Nat), exe.m_function.results[i]? = some r →
    ∃ tv, outputs[i]? = some tv ∧ m.lookup r = some tv
  done_bound : ∀ y, exe.Done j y → ∃ tv, m.lookup y = some tv
  pending_unbound : ∀ y, exe.IsResult y → ¬ exe.Done j y → y ∉ exe.m_function.results →
    m.lookup y = none
  apart : ∀ y tv, m.lookup y = some tv → y ∉ exe.m_function.results → tv ∉ outputs
  typed : ∀ y tv, m.lookup y = some tv → exe.IsResult y → y ∉ exe.m_function.results →
    ∃ t, rt.tensors[tv]? = some t ∧
      t.element_type = elementTypeOf exe.m_function.nodes y
  holds : ∀ y tv, m.lookup y = some tv → (exe.IsResult y → exe.Done j y) →
    contents rt tv = some (W y)

/-- The function of `hybrid_abc` over parameters of element type `i64`. -/
def graph_abc_i64 : Function :=
  { graph_abc with
    nodes := graph_abc.nodes.map (fun n => { n with element_type := ElementType.i64 }) }

/-- A function with two results, `E = A + B` and `F = A + A`: A=0, B=1, E=2, F=3, R1=4,
R2=5. -/
def graph_two_results : Function :=
  { nodes := [parameter_2x2, parameter_2x2, add_2x2 0 1, add_2x2 0 0, result_2x2 2,
      result_2x2 3],
    parameters := [0, 1],
    results := [4, 5] }

/-- The runtime state of a test with two inputs and two outputs: the tensors 0 and 1 hold
[[1,2],[3,4]] and [[5,6],[7,8]], the tensors 2 and 3 are the outputs. -/
def runtime_two_results : Runtime Int :=
  { backends_created := 1,
    tensors := [tensor_2x2 [1, 2, 3, 4], tensor_2x2 [5, 6, 7, 8], tensor_2x2 [0, 0, 0, 0],
      tensor_2x2 [0, 0, 0, 0]] }

/-! ## Theorems: placement assignment -/

theorem AssignPlacement.run_on_node_getElem? (policy : Node → Placement) (nodes : List Node)
    (i j : Nat) :
    (AssignPlacement.run_on_node policy nodes i)[j]? =
      if j = i then (nodes[i]?).map (fun n => n.set_placement (policy n)) else nodes[j]? := by
  unfold AssignPlacement.run_on_node
  cases hn : nodes[i]? with
  | none =>
    by_cases hji : j = i
    · subst hji; simp [hn]
    · simp [hji]
  | some n =>
    have hi : i < nodes.length := (List.getElem?_eq_some.1 hn).1
    by_cases hji : j = i
    · subst hji; simp [hi]
    · have hij : i ≠ j := fun h => hji h.symm
      simp [hji, List.getElem?_set_ne hij]

theorem AssignPlacement.foldl_range_getElem? (policy : Node → Placement) (nodes : List Node)
    (k j : Nat) :
    ((List.range k).foldl (AssignPlacement.run_on_node policy) nodes)[j]? =
      if j < k then (nodes[j]?).map (fun n => n.set_placement (policy n)) else nodes[j]? := by
  induction k with
  | zero => simp
  | succ k ih =>
    rw [List.range_succ, List.foldl_append]
    simp only [List.foldl_cons, List.foldl_nil]
    rw [AssignPlacement.run_on_node_getElem?]
    by_cases hjk : j = k
    · subst hjk
      rw [ih]
      simp
    · rw [ih]
      by_cases hlt : j < k
      · have : j < k + 1 := by omega
        simp [hjk, hlt, this]
      · have : ¬ j < k + 1 := by omega
        simp [hjk, hlt, this]

theorem AssignPlacement.run_on_function_getElem? (policy : Node → Placement) (f : Function)
    (j : Nat) :
    (AssignPlacement.run_on_function policy f).nodes[j]? =
      (f.nodes[j]?).map (fun n => n.set_placement (policy n)) := by
  unfold AssignPlacement.run_on_function Function.get_ordered_ops
  simp only
  rw [AssignPlacement.foldl_range_getElem?]
  by_cases h : j < f.nodes.length
  · simp [h]
  · have h2 : f.nodes[j]? = none := List.getElem?_eq_none (by omega)
    simp [h, h2]

/-- C10. After the `AssignPlacement` pass has run with policy `P`, the function has the
same node list length, parameters and results; every node `n` is the node it was with
only its placement tag replaced by `P n` (whatever the tag was before); and when `P`
does not read the placement tag, every node `n'` of the result satisfies
`n'.placement = P n'`. -/
theorem assign_placement_sets_policy_tag (policy : Node → Placement) (f : Function) :
    (AssignPlacement.run_on_function policy f).nodes.length = f.nodes.length ∧
    (AssignPlacement.run_on_function policy f).parameters = f.parameters ∧
    (AssignPlacement.run_on_function policy f).results = f.results ∧
    (AssignPlacement.run_on_function policy f).get_ordered_ops = f.get_ordered_ops ∧
    (∀ (i : Nat) (n : Node), f.nodes[i]? = some n →
      (AssignPlacement.run_on_function policy f).nodes[i]? =
        some (n.set_placement (policy n)) ∧
      placementOf (AssignPlacement.run_on_function policy f).nodes i = policy n) ∧
    ((∀ (n : Node) (p : Placement), policy (n.set_placement p) = policy n) →
      ∀ i ∈ (AssignPlacement.run_on_function policy f).get_ordered_ops,
        ∀ n', (AssignPlacement.run_on_function policy f).nodes[i]? = some n' →
          n'.placement = policy n') := by
  have hget := AssignPlacement.run_on_function_getElem? policy f
  have hlen : (AssignPlacement.run_on_function policy f).nodes.length = f.nodes.length := by
    apply Nat.le_antisymm
    · by_contra hlt
      have h1 : f.nodes.length < (AssignPlacement.run_on_function policy f).nodes.length := by
        omega
      have h2 := hget f.nodes.length
      rw [List.getElem?_eq_getElem h1] at h2
      simp at h2
    · by_contra hlt
      have h1 : (AssignPlacement.run_on_function policy f).nodes.length < f.nodes.length := by
        omega
      have h2 := hget (AssignPlacement.run_on_function policy f).nodes.length
      rw [List.getElem?_eq_getElem h1] at h2
      simp at h2
  refine ⟨hlen, rfl, rfl, ?_, ?_, ?_⟩
  · unfold Function.get_ordered_ops
    rw [hlen]
  · intro i n hn
    have h := hget i
    rw [hn] at h
    refine ⟨h, ?_⟩
    unfold placementOf
    rw [h]
    rfl
  · intro hpure i _ n' hn'
    have h := hget i
    rw [hn'] at h
    cases hn : f.nodes[i]? with
    | none => rw [hn] at h; simp at h
    | some n =>
      rw [hn] at h
      simp only [Option.map_some', Option.some.injEq] at h
      rw [h, hpure]
      rfl

/-- C10, at the tests' inputs: on `D = A + B`, `E = D * C` the constant-CPU policy tags
every node `CPU`, and the CPU-multiply policy tags exactly the `Multiply` node `CPU`. -/
theorem assign_placement_sets_policy_tag_witness :
    (graph_abc.nodes.map (fun n => n.placement) = List.replicate 6 Placement.DEFAULT) ∧
    ((AssignPlacement.run_on_function all_cpu_policy graph_abc).nodes.map
      (fun n => n.placement) = List.replicate 6 Placement.CPU) ∧
    ((AssignPlacement.run_on_function int_with_cpu_mul_policy graph_abc).nodes[4]? =
        some ((multiply_2x2 3 2).set_placement Placement.CPU) ∧
      placementOf (AssignPlacement.run_on_function int_with_cpu_mul_policy graph_abc).nodes 4
        = Placement.CPU) ∧
    ((AssignPlacement.run_on_function int_with_cpu_mul_policy graph_abc).nodes.map
      (fun n => n.placement) =
      [Placement.INTERPRETER, Placement.INTERPRETER, Placement.INTERPRETER,
        Placement.INTERPRETER, Placement.CPU, Placement.INTERPRETER]) ∧
    (∀ i ∈ (AssignPlacement.run_on_function int_with_cpu_mul_policy graph_abc).get_ordered_ops,
      ∀ n', (AssignPlacement.run_on_function int_with_cpu_mul_policy graph_abc).nodes[i]?
          = some n' →
        n'.placement = int_with_cpu_mul_policy n') :=
  ⟨by decide, by decide,
    (assign_placement_sets_policy_tag int_with_cpu_mul_policy graph_abc).2.2.2.2.1 4
      (multiply_2x2 3 2) (by decide),
    by decide,
    (assign_placement_sets_policy_tag int_with_cpu_mul_policy graph_abc).2.2.2.2.2
      (fun _ _ => rfl)⟩

/-! ## Theorems: the lookups of `execute` -/

theorem Bound.cons {m : List (Nat × Nat)} {k : Nat} (h : Bound m k) (k' v : Nat) :
    Bound ((k', v) :: m) k := by
  unfold Bound at *
  rw [List.lookup_cons]
  cases hk : (k == k') <;> simp [h]

theorem Bound.cons_self (m : List (Nat × Nat)) (k v : Nat) : Bound ((k, v) :: m) k := by
  unfold Bound
  simp [List.lookup_cons]

theorem bind_tensors_spec (ns tvs : List Nat) (m : List (Nat × Nat)) :
    (bind_tensors ns tvs m = .error Error.index_out_of_bounds ∧ ns.length < tvs.length) ∨
    (∃ m1, bind_tensors ns tvs m = .ok m1 ∧ (∀ k, Bound m k → Bound m1 k) ∧
      (tvs.length = ns.length → ∀ k ∈ ns, Bound m1 k)) := by
  induction ns generalizing tvs m with
  | nil =>
    cases tvs with
    | nil => right; exact ⟨m, rfl, fun k h => h, fun _ k hk => by simp at hk⟩
    | cons t ts => left; exact ⟨rfl, by simp⟩
  | cons n ns ih =>
    cases tvs with
    | nil => right; exact ⟨m, rfl, fun k h => h, fun h => by simp at h⟩
    | cons t ts =>
      rcases ih ts ((n, t) :: m) with ⟨h1, h2⟩ | ⟨m1, h1, h2, h3⟩
      · left; exact ⟨h1, by simpa using h2⟩
      · right
        refine ⟨m1, h1, fun k hk => h2 k (hk.cons n t), ?_⟩
        intro hlen k hk
        rcases List.mem_cons.1 hk with rfl | hk
        · exact h2 _ (Bound.cons_self m _ t)
        · exact h3 (by simpa using hlen) k hk

theorem prepare_parameters_spec {α : Type} [Inhabited α] (exe : HybridExecutable α)
    (backend : Backend) (ps : List Nat) (m : List (Nat × Nat)) (rt : Runtime α)
    (h : ∀ p ∈ ps, ¬ Bound m p →
      ∃ r, exe.m_map_parameter_to_result.lookup p = some r ∧ Bound m r) :
    (∃ e, prepare_parameters exe backend ps m rt = .error e ∧
      e ≠ Error.parameter_not_in_boundary_map ∧ e ≠ Error.result_tensor_not_bound) ∨
    (∃ tvs m1 rt1, prepare_parameters exe backend ps m rt = .ok (tvs, m1, rt1) ∧
      ∀ k, Bound m k → Bound m1 k) := by
  induction ps generalizing m rt with
  | nil => right; exact ⟨[], m, rt, rfl, fun k hk => hk⟩
  | cons p ps ih =>
    have hrest : ∀ q ∈ ps, ¬ Bound m q →
        ∃ r, exe.m_map_parameter_to_result.lookup q = some r ∧ Bound m r :=
      fun q hq => h q (List.mem_cons_of_mem _ hq)
    unfold prepare_parameters
    cases hp : m.lookup p with
    | some tv =>
      simp only
      rcases ih m rt hrest with ⟨e, he, hne⟩ | ⟨tvs, m1, rt1, hok, hext⟩
      · left; exact ⟨e, by rw [he], hne⟩
      · right; exact ⟨tv :: tvs, m1, rt1, by rw [hok], hext⟩
    | none =>
      simp only
      have hnb : ¬ Bound m p := by unfold Bound; rw [hp]; simp
      obtain ⟨r, hr, hbr⟩ := h p (List.mem_cons_self _ _) hnb
      rw [hr]
      simp only
      unfold Bound at hbr
      cases hmr : m.lookup r with
      | none => rw [hmr] at hbr; simp at hbr
      | some result_tv =>
        simp only
        cases hct : backend.create_tensor rt (elementTypeOf exe.m_function.nodes p)
            (shapeOf exe.m_function.nodes p) with
        | mk parameter_tv rt1 =>
          simp only
          cases hread : read_vector rt1 result_tv with
          | error e =>
            left
            refine ⟨e, rfl, ?_⟩
            unfold read_vector at hread
            split at hread
            · split at hread
              · cases hread
              · cases hread; exact ⟨by decide, by decide⟩
            · cases hread; exact ⟨by decide, by decide⟩
          | ok data =>
            simp only
            cases hcopy : copy_data rt1 parameter_tv data with
            | error e =>
              left
              refine ⟨e, rfl, ?_⟩
              unfold copy_data at hcopy
              split at hcopy
              · cases hcopy
              · cases hcopy; exact ⟨by decide, by decide⟩
            | ok rt2 =>
              simp only
              have hrest2 : ∀ q ∈ ps, ¬ Bound ((p, parameter_tv) :: m) q →
                  ∃ r, exe.m_map_parameter_to_result.lookup q = some r ∧
                    Bound ((p, parameter_tv) :: m) r := by
                intro q hq hnq
                have hnq2 : ¬ Bound m q := fun hb => hnq (hb.cons _ _)
                obtain ⟨r2, hr2, hb2⟩ := hrest q hq hnq2
                exact ⟨r2, hr2, hb2.cons _ _⟩
              rcases ih ((p, parameter_tv) :: m) rt2 hrest2 with
                ⟨e, he, hne⟩ | ⟨tvs, m1, rt3, hok, hext⟩
              · left; exact ⟨e, by rw [he], hne⟩
              · right
                exact ⟨parameter_tv :: tvs, m1, rt3, by rw [hok],
                  fun k hk => hext k (hk.cons _ _)⟩

theorem prepare_results_spec {α : Type} [Inhabited α] (exe : HybridExecutable α)
    (backend : Backend) (rs : List Nat) (m : List (Nat × Nat)) (rt : Runtime α) :
    (∀ k, Bound m k → Bound (prepare_results exe backend rs m rt).2.1 k) ∧
    (∀ r ∈ rs, Bound (prepare_results exe backend rs m rt).2.1 r) := by
  induction rs generalizing m rt with
  | nil => exact ⟨fun k hk => hk, fun r hr => by simp at hr⟩
  | cons r rs ih =>
    unfold prepare_results
    cases hr : m.lookup r with
    | some tv =>
      simp only
      refine ⟨(ih m rt).1, ?_⟩
      intro q hq
      rcases List.mem_cons.1 hq with rfl | hq
      · apply (ih m rt).1
        unfold Bound; rw [hr]; rfl
      · exact (ih m rt).2 q hq
    | none =>
      simp only
      cases hct : backend.create_tensor rt (elementTypeOf exe.m_function.nodes r)
          (shapeOf exe.m_function.nodes r) with
      | mk result_tv rt1 =>
        simp only
        refine ⟨fun k hk => (ih _ _).1 k (hk.cons _ _), ?_⟩
        intro q hq
        rcases List.mem_cons.1 hq with rfl | hq
        · exact (ih _ _).1 _ (Bound.cons_self _ _ _)
        · exact (ih _ _).2 q hq

theorem write_vectors_error {α : Type} (tvs : List Nat) (ds : List (List α)) (rt : Runtime α)
    (e : Error) (h : write_vectors rt tvs ds = .error e) :
    e ≠ Error.parameter_not_in_boundary_map ∧ e ≠ Error.result_tensor_not_bound := by
  induction tvs generalizing ds rt with
  | nil => simp [write_vectors] at h
  | cons tv tvs ih =>
    cases ds with
    | nil => simp [write_vectors] at h; subst h; exact ⟨by decide, by decide⟩
    | cons d ds =>
      unfold write_vectors at h
      cases hc : copy_data rt tv d with
      | ok rt1 => rw [hc] at h; exact ih ds rt1 h
      | error e1 =>
        rw [hc] at h
        simp only [Except.error.injEq] at h
        subst h
        unfold copy_data at hc
        split at hc
        · cases hc
        · cases hc; exact ⟨by decide, by decide⟩

theorem read_vectors_error {α : Type} (tvs : List Nat) (rt : Runtime α)
    (e : Error) (h : read_vectors rt tvs = .error e) : e = Error.invalid_tensor := by
  induction tvs with
  | nil => simp [read_vectors] at h
  | cons tv tvs ih =>
    unfold read_vectors at h
    cases h1 : read_tensor rt tv with
    | error e1 =>
      rw [h1] at h
      simp only [Except.error.injEq] at h
      subst h
      unfold read_tensor at h1
      split at h1
      · cases h1
      · cases h1; rfl
    | ok d =>
      rw [h1] at h
      cases h2 : read_vectors rt tvs with
      | error e2 =>
        rw [h2] at h
        simp only [Except.error.injEq] at h
        subst h
        exact ih h2
      | ok ds => rw [h2] at h; simp at h

theorem call_handle_error {α : Type} (exe : HybridExecutable α) (i : Nat)
    (result_tvs parameter_tvs : List Nat) (rt : Runtime α) (e : Error)
    (h : call_handle exe i result_tvs parameter_tvs rt = .error e) :
    e ≠ Error.parameter_not_in_boundary_map ∧ e ≠ Error.result_tensor_not_bound := by
  unfold call_handle at h
  cases hh : exe.m_handle_map.lookup i with
  | none => rw [hh] at h; simp only [Except.error.injEq] at h; subst h; exact ⟨by decide, by decide⟩
  | some handle =>
    rw [hh] at h
    simp only at h
    cases hr : read_vectors rt parameter_tvs with
    | error e1 =>
      rw [hr] at h
      simp only [Except.error.injEq] at h
      subst h
      rw [read_vectors_error _ _ _ hr]
      exact ⟨by decide, by decide⟩
    | ok inputs =>
      rw [hr] at h
      simp only at h
      cases hc : handle.call inputs with
      | none => rw [hc] at h; simp only [Except.error.injEq] at h; subst h; exact ⟨by decide, by decide⟩
      | some outputs => rw [hc] at h; exact write_vectors_error _ _ _ _ h

theorem get_cached_backend_error {α : Type} (reg : Registry) (hb : HybridBackend)
    (rt : Runtime α) (placement : Placement) (e : Error)
    (h : hb.get_cached_backend reg rt placement = .error e) :
    e = Error.backend_unavailable := by
  unfold HybridBackend.get_cached_backend at h
  cases hl : hb.m_cached_backends.lookup placement with
  | some be => rw [hl] at h; cases h
  | none =>
    rw [hl] at h
    simp only at h
    unfold Backend.create at h
    by_cases hav : reg.available placement = true
    · rw [if_pos hav] at h; cases h
    · rw [if_neg hav] at h
      simp only [Except.error.injEq] at h
      exact h.symm

theorem call_sub_functions_spec {α : Type} [Inhabited α] (reg : Registry)
    (exe : HybridExecutable α) (hord : exe.TopologicallyOrdered)
    (hmapped : exe.BoundaryParametersMapped) (rest : List SubFunction) :
    ∀ (i : Nat) (hb : HybridBackend) (m : List (Nat × Nat)) (rt : Runtime α),
      exe.m_sub_functions.drop i = rest →
      (∀ p ∈ exe.m_function.parameters, Bound m p) →
      (∀ s ∈ exe.m_sub_functions.take i, ∀ r ∈ s.results, Bound m r) →
      ∀ e, call_sub_functions reg exe i rest hb m rt = .error e →
        e ≠ Error.parameter_not_in_boundary_map ∧ e ≠ Error.result_tensor_not_bound := by
  induction rest with
  | nil => intro i hb m rt _ _ _ e h; simp [call_sub_functions] at h
  | cons sub rest ih =>
    intro i hb m rt hdrop hparams hdone e h
    have hlt : i < exe.m_sub_functions.length := by
      by_contra hge
      rw [List.drop_of_length_le (by omega)] at hdrop
      cases hdrop
    rw [List.drop_eq_getElem_cons hlt] at hdrop
    have hsub : exe.m_sub_functions[i] = sub := (List.cons.inj hdrop).1
    have hrest : exe.m_sub_functions.drop (i + 1) = rest := (List.cons.inj hdrop).2
    have hmem : sub ∈ exe.m_sub_functions := hsub ▸ List.getElem_mem hlt
    have htake : exe.m_sub_functions.take (i + 1) = exe.m_sub_functions.take i ++ [sub] := by
      rw [List.take_succ, List.getElem?_eq_getElem hlt, hsub]; rfl
    have hgetD : exe.m_sub_functions.getD i { ops := [], parameters := [], results := [] }
        = sub := by
      rw [List.getD_eq_getElem?_getD, List.getElem?_eq_getElem hlt, hsub]; rfl
    unfold call_sub_functions at h
    cases hbe : hb.get_cached_backend reg rt
        (get_colocated_function_placement exe.m_function.nodes sub) with
    | error e1 =>
      rw [hbe] at h
      simp only [Except.error.injEq] at h
      subst h
      rw [get_cached_backend_error _ _ _ _ _ hbe]
      exact ⟨by decide, by decide⟩
    | ok res =>
      obtain ⟨backend, hb1, rt1⟩ := res
      rw [hbe] at h
      simp only at h
      have hpre : ∀ p ∈ sub.parameters, ¬ Bound m p →
          ∃ r, exe.m_map_parameter_to_result.lookup p = some r ∧ Bound m r := by
        intro p hp hnb
        have hnotorig : p ∉ exe.m_function.parameters := fun hin => hnb (hparams p hin)
        have hkey := hmapped sub hmem p hp hnotorig
        cases hl : exe.m_map_parameter_to_result.lookup p with
        | none => rw [hl] at hkey; simp at hkey
        | some r =>
          refine ⟨r, rfl, ?_⟩
          obtain ⟨s, hs, hrs⟩ := hord i (List.mem_range.2 hlt) p (by rw [hgetD]; exact hp) r
            (by rw [hl]; simp)
          exact hdone s hs r hrs
      rcases prepare_parameters_spec exe backend sub.parameters m rt1 hpre with
        ⟨e1, he1, hne⟩ | ⟨tvs, m2, rt2, hok, hext⟩
      · rw [he1] at h
        simp only [Except.error.injEq] at h
        subst h
        exact hne
      · rw [hok] at h
        simp only at h
        have hres := prepare_results_spec exe backend sub.results m2 rt2
        cases hpr : prepare_results exe backend sub.results m2 rt2 with
        | mk result_tvs rest3 =>
        obtain ⟨m3, rt3⟩ := rest3
        rw [hpr] at h hres
        simp only at h hres
        cases hcall : call_handle exe i result_tvs tvs rt3 with
        | error e1 =>
          rw [hcall] at h
          simp only [Except.error.injEq] at h
          subst h
          exact call_handle_error _ _ _ _ _ _ hcall
        | ok rt4 =>
          rw [hcall] at h
          simp only at h
          refine ih (i + 1) hb1 _ rt4 hrest ?_ ?_ e h
          · intro p hp
            exact hres.1 p (hext p (hparams p hp))
          · intro s hs r hr
            rw [htake] at hs
            rcases List.mem_append.1 hs with hs | hs
            · exact hres.1 r (hext r (hdone s hs r hr))
            · rw [List.mem_singleton] at hs
              subst hs
              exact hres.2 r hr

/-- C9 (as amended). In `HybridExecutable::execute`, if the caller passes one input
tensor per parameter of the original function, the sub-function list is topologically
ordered with respect to the boundary map and every non-original parameter of a
sub-function is a key of the map, then neither `m_map_parameter_to_result.at(parameter)`
nor `map_node_to_tensor_view.at(result)` fails, whatever the handles and backends do. -/
theorem execute_boundary_lookups_succeed {α : Type} [Inhabited α] (reg : Registry)
    (exe : HybridExecutable α) (hb : HybridBackend) (rt : Runtime α)
    (outputs inputs : List Nat)
    (hinputs : inputs.length = exe.m_function.parameters.length)
    (hord : exe.TopologicallyOrdered)
    (hmapped : exe.BoundaryParametersMapped) :
    exe.execute reg hb rt outputs inputs ≠ .error Error.parameter_not_in_boundary_map ∧
    exe.execute reg hb rt outputs inputs ≠ .error Error.result_tensor_not_bound := by
  have key : ∀ e, exe.execute reg hb rt outputs inputs = .error e →
      e ≠ Error.parameter_not_in_boundary_map ∧ e ≠ Error.result_tensor_not_bound := by
    intro e h
    unfold HybridExecutable.execute at h
    rcases bind_tensors_spec exe.m_function.parameters inputs [] with
      ⟨_, hlt⟩ | ⟨m1, h1, _, hall⟩
    · omega
    · rw [h1] at h
      simp only at h
      rcases bind_tensors_spec exe.m_function.results outputs m1 with
        ⟨h2, _⟩ | ⟨m2, h2, hext, _⟩
      · rw [h2] at h
        simp only [Except.error.injEq] at h
        subst h
        exact ⟨by decide, by decide⟩
      · rw [h2] at h
        simp only at h
        cases hc : call_sub_functions reg exe 0 exe.m_sub_functions hb m2 rt with
        | error e1 =>
          rw [hc] at h
          simp only [Except.error.injEq] at h
          subst h
          refine call_sub_functions_spec reg exe hord hmapped exe.m_sub_functions 0 hb m2 rt
            (by simp) ?_ ?_ _ hc
          · intro p hp
            exact hext p (hall hinputs p hp)
          · intro s hs
            simp at hs
        | ok res =>
          rw [hc] at h
          obtain ⟨hb1, _, rt1⟩ := res
          simp at h
  exact ⟨fun h => (key _ h).1 rfl, fun h => (key _ h).2 rfl⟩

/-- C9 (as amended), at the partition of `hybrid_abc_manual` with the three input
tensors of the test: the hypotheses hold, no lookup fails, and the call returns `true`
with [[54,80],[110,144]] in the output tensor. -/
theorem execute_boundary_lookups_succeed_witness :
    (manual_abc_executable.execute full_registry warm_hybrid_backend runtime_abc [3] [0, 1, 2]
        ≠ .error Error.parameter_not_in_boundary_map ∧
      manual_abc_executable.execute full_registry warm_hybrid_backend runtime_abc [3] [0, 1, 2]
        ≠ .error Error.result_tensor_not_bound) ∧
    outcome 3 (manual_abc_executable.execute full_registry warm_hybrid_backend runtime_abc
      [3] [0, 1, 2]) = .ok (true, some [54, 80, 110, 144]) :=
  ⟨execute_boundary_lookups_succeed full_registry manual_abc_executable warm_hybrid_backend
      runtime_abc [3] [0, 1, 2] (by decide)
      (by decide) (by decide),
    by rfl⟩

/-- C9, as stated, fails: the partition of `hybrid_abc_manual` is topologically ordered
and maps every boundary parameter, yet `execute` called with no input tensor leaves the
original parameter `A` unbound and `m_map_parameter_to_result.at(A)` fails. -/
theorem execute_lookup_fails_without_inputs :
    manual_abc_executable.TopologicallyOrdered ∧
    manual_abc_executable.BoundaryParametersMapped ∧
    manual_abc_executable.execute full_registry warm_hybrid_backend runtime_abc [3] [] =
      .error Error.parameter_not_in_boundary_map :=
  ⟨by decide, by decide, by rfl⟩

/-! ## Theorems: the splitter -/

theorem mem_edges_from (o c k : Nat) (ns : List Node) :
    (o, c) ∈ edges_from k ns ↔ k ≤ c ∧ ∃ n, ns[c - k]? = some n ∧ o ∈ n.args := by
  induction ns generalizing k with
  | nil => simp [edges_from]
  | cons n ns ih =>
    unfold edges_from
    rw [List.mem_append, ih]
    constructor
    · rintro (h | ⟨hk, m, hm, ho⟩)
      · rw [List.mem_map] at h
        obtain ⟨o', ho', heq⟩ := h
        cases heq
        exact ⟨le_refl _, n, by simp, ho'⟩
      · refine ⟨by omega, m, ?_, ho⟩
        have : c - k = (c - (k + 1)) + 1 := by omega
        rw [this, List.getElem?_cons_succ]
        exact hm
    · rintro ⟨hk, m, hm, ho⟩
      by_cases hck : c = k
      · left
        subst hck
        simp at hm
        subst hm
        exact List.mem_map.2 ⟨o, ho, rfl⟩
      · right
        refine ⟨by omega, m, ?_, ho⟩
        have : c - k = (c - (k + 1)) + 1 := by omega
        rw [this, List.getElem?_cons_succ] at hm
        exact hm

theorem mem_edges (nodes : List Node) (o c : Nat) :
    (o, c) ∈ edges nodes ↔ ∃ n, nodes[c]? = some n ∧ o ∈ n.args := by
  unfold edges
  rw [mem_edges_from]
  simp

theorem mem_foldl_insert_new {β : Type} [DecidableEq β] (l acc : List β) (x : β) :
    x ∈ l.foldl insert_new acc ↔ x ∈ acc ∨ x ∈ l := by
  induction l generalizing acc with
  | nil => simp
  | cons b l ih =>
    rw [List.foldl_cons, ih]
    unfold insert_new
    by_cases hb : b ∈ acc
    · rw [if_pos hb]
      constructor
      · rintro (h | h)
        · exact Or.inl h
        · exact Or.inr (List.mem_cons_of_mem _ h)
      · rintro (h | h)
        · exact Or.inl h
        · rcases List.mem_cons.1 h with rfl | h
          · exact Or.inl hb
          · exact Or.inr h
    · rw [if_neg hb]
      simp only [List.mem_append, List.mem_singleton, List.mem_cons]
      tauto

theorem nodup_foldl_insert_new {β : Type} [DecidableEq β] (l acc : List β)
    (h : acc.Nodup) : (l.foldl insert_new acc).Nodup := by
  induction l generalizing acc with
  | nil => simpa
  | cons b l ih =>
    rw [List.foldl_cons]
    apply ih
    unfold insert_new
    by_cases hb : b ∈ acc
    · rw [if_pos hb]; exact h
    · rw [if_neg hb]
      rw [List.nodup_append]
      refine ⟨h, List.nodup_singleton b, ?_⟩
      intro x hx hx'
      rw [List.mem_singleton] at hx'
      subst hx'
      exact hb hx

theorem nodup_boundary_keys (nodes : List Node) : (boundary_keys nodes).Nodup :=
  nodup_foldl_insert_new _ _ List.nodup_nil

theorem mem_boundary_keys (nodes : List Node) (o : Nat) (t : Placement) :
    (o, t) ∈ boundary_keys nodes ↔
      ∃ c, (o, c) ∈ edges nodes ∧ is_split_edge nodes (o, c) = true ∧
        placementOf nodes c = t := by
  unfold boundary_keys
  rw [mem_foldl_insert_new]
  simp only [List.not_mem_nil, false_or, List.mem_map, List.mem_filter, Prod.mk.injEq]
  constructor
  · rintro ⟨⟨o', c⟩, ⟨he, hcut⟩, ho, ht⟩
    simp only at ho ht
    subst ho
    exact ⟨c, he, hcut, ht⟩
  · rintro ⟨c, he, hcut, ht⟩
    exact ⟨(o, c), ⟨he, hcut⟩, rfl, ht⟩


theorem length_flatMap_boundary_nodes (nodes : List Node) (keys : List (Nat × Placement)) :
    (keys.flatMap (boundary_nodes nodes)).length = 2 * keys.length := by
  induction keys with
  | nil => rfl
  | cons key keys ih =>
    have hlen : (boundary_nodes nodes key).length = 2 := rfl
    rw [List.flatMap_cons, List.length_append, ih, hlen]
    simp only [List.length_cons]
    omega

theorem getElem?_flatMap_boundary_nodes (nodes : List Node) (keys : List (Nat × Placement))
    (k : Nat) (key : Nat × Placement) (h : keys[k]? = some key) :
    (keys.flatMap (boundary_nodes nodes))[2 * k]? =
        some { op := .Result, args := [key.1], element_type := elementTypeOf nodes key.1,
               shape := shapeOf nodes key.1, placement := placementOf nodes key.1 } ∧
    (keys.flatMap (boundary_nodes nodes))[2 * k + 1]? =
        some { op := .Parameter, args := [], element_type := elementTypeOf nodes key.1,
               shape := shapeOf nodes key.1, placement := key.2 } := by
  induction keys generalizing k with
  | nil => simp at h
  | cons key0 keys ih =>
    rw [List.flatMap_cons]
    cases k with
    | zero =>
      simp only [List.getElem?_cons_zero, Option.some.injEq] at h
      subst h
      refine ⟨?_, ?_⟩ <;> simp [boundary_nodes]
    | succ k =>
      rw [List.getElem?_cons_succ] at h
      have hlen : (boundary_nodes nodes key0).length = 2 := rfl
      have h1 : 2 * (k + 1) = 2 * k + (boundary_nodes nodes key0).length := by
        rw [hlen]; omega
      have h2 : 2 * (k + 1) + 1 = 2 * k + 1 + (boundary_nodes nodes key0).length := by
        rw [hlen]; omega
      constructor
      · rw [h1, List.getElem?_append_right (by omega)]
        simp only [Nat.add_sub_cancel]
        exact (ih k h).1
      · rw [h2, List.getElem?_append_right (by omega)]
        simp only [Nat.add_sub_cancel]
        exact (ih k h).2

theorem length_split_nodes (nodes : List Node) :
    (split_nodes nodes).length = nodes.length + 2 * (boundary_keys nodes).length := by
  unfold split_nodes
  rw [List.length_append, List.length_mapIdx, length_flatMap_boundary_nodes]

theorem getElem?_split_nodes_original (nodes : List Node) (c : Nat) (h : c < nodes.length) :
    (split_nodes nodes)[c]? =
      (nodes[c]?).map (relink_node nodes (boundary_keys nodes) c) := by
  unfold split_nodes
  rw [List.getElem?_append_left (by rw [List.length_mapIdx]; exact h), List.getElem?_mapIdx]

theorem getElem?_split_nodes_sink (nodes : List Node) (k : Nat) (key : Nat × Placement)
    (h : (boundary_keys nodes)[k]? = some key) :
    (split_nodes nodes)[sink_id nodes.length k]? =
      some { op := .Result, args := [key.1], element_type := elementTypeOf nodes key.1,
             shape := shapeOf nodes key.1, placement := placementOf nodes key.1 } := by
  unfold split_nodes sink_id
  rw [List.getElem?_append_right (by rw [List.length_mapIdx]; omega), List.length_mapIdx]
  simp only [Nat.add_sub_cancel_left]
  exact (getElem?_flatMap_boundary_nodes nodes _ k key h).1

theorem getElem?_split_nodes_source (nodes : List Node) (k : Nat) (key : Nat × Placement)
    (h : (boundary_keys nodes)[k]? = some key) :
    (split_nodes nodes)[source_id nodes.length k]? =
      some { op := .Parameter, args := [], element_type := elementTypeOf nodes key.1,
             shape := shapeOf nodes key.1, placement := key.2 } := by
  unfold split_nodes source_id
  rw [List.getElem?_append_right (by rw [List.length_mapIdx]; omega), List.length_mapIdx]
  have : nodes.length + 2 * k + 1 - nodes.length = 2 * k + 1 := by omega
  rw [this]
  exact (getElem?_flatMap_boundary_nodes nodes _ k key h).2

theorem mem_boundary_map (n : Nat) (keys : List (Nat × Placement)) (p r : Nat) :
    (p, r) ∈ boundary_map n keys ↔ ∃ k, k < keys.length ∧ p = source_id n k ∧ r = sink_id n k := by
  unfold boundary_map
  simp only [List.mem_map, List.mem_range, Prod.mk.injEq]
  constructor
  · rintro ⟨k, hk, h1, h2⟩; exact ⟨k, hk, h1.symm, h2.symm⟩
  · rintro ⟨k, hk, h1, h2⟩; exact ⟨k, hk, h1.symm, h2.symm⟩

theorem lookup_map_range (n : Nat) (m k : Nat) (hk : k < m) :
    ((List.range m).map (fun k => (source_id n k, sink_id n k))).lookup (source_id n k) =
      some (sink_id n k) := by
  induction m with
  | zero => omega
  | succ m ih =>
    rw [List.range_succ, List.map_append]
    by_cases hkm : k < m
    · rw [List.lookup_append, ih hkm]
      rfl
    · have : k = m := by omega
      subst this
      rw [List.lookup_append]
      have hnone : ((List.range k).map (fun k => (source_id n k, sink_id n k))).lookup
          (source_id n k) = none := by
        rw [List.lookup_eq_none_iff]
        intro x hx
        rw [List.mem_map] at hx
        obtain ⟨j, hj, rfl⟩ := hx
        rw [List.mem_range] at hj
        simp [source_id]
        omega
      rw [hnone]
      simp [List.lookup_cons]

theorem lookup_boundary_map_source (n : Nat) (keys : List (Nat × Placement)) (k : Nat)
    (hk : k < keys.length) :
    (boundary_map n keys).lookup (source_id n k) = some (sink_id n k) :=
  lookup_map_range n keys.length k hk

theorem lookup_boundary_map_eq_some (n : Nat) (keys : List (Nat × Placement)) (p r : Nat)
    (h : (boundary_map n keys).lookup p = some r) :
    ∃ k, k < keys.length ∧ p = source_id n k ∧ r = sink_id n k := by
  have hmem : (p, r) ∈ boundary_map n keys := by
    obtain ⟨l1, l2, heq, _⟩ := List.lookup_eq_some_iff.1 h
    rw [heq]
    simp
  exact (mem_boundary_map n keys p r).1 hmem


theorem edge_bounds (f : Function) (hw : f.WellFormed) (o c : Nat)
    (h : (o, c) ∈ edges f.nodes) : o < c ∧ c < f.nodes.length := by
  obtain ⟨n, hn, ho⟩ := (mem_edges f.nodes o c).1 h
  exact ⟨hw c n hn o ho, (List.getElem?_eq_some.1 hn).1⟩

theorem sort_components_perm (deps : Nat → List Nat) (fuel : Nat) :
    ∀ (remaining done : List Nat),
      (sort_components deps fuel remaining done).Perm (done ++ remaining) := by
  induction fuel with
  | zero => intro remaining done; exact List.Perm.refl _
  | succ fuel ih =>
    intro remaining done
    unfold sort_components
    cases hfind : remaining.find? (fun r => (deps r).all (fun d => decide (d ∈ done))) with
    | none => exact List.Perm.refl _
    | some r =>
      simp only
      have hmem : r ∈ remaining := List.mem_of_find?_eq_some hfind
      refine (ih (remaining.erase r) (done ++ [r])).trans ?_
      rw [List.append_assoc]
      exact List.Perm.append_left done (List.perm_cons_erase hmem).symm

theorem mem_split_sub_functions (f : Function) (s : SubFunction) :
    s ∈ (split_function_by_placement f).sub_functions ↔
      ∃ r ∈ groups f.nodes, s = sub_function_of f r := by
  unfold split_function_by_placement
  simp only [List.mem_map]
  have hperm := sort_components_perm (dependencies f.nodes) (groups f.nodes).length
    (groups f.nodes) []
  rw [List.nil_append] at hperm
  constructor
  · rintro ⟨r, hr, rfl⟩
    exact ⟨r, hperm.mem_iff.1 hr, rfl⟩
  · rintro ⟨r, hr, rfl⟩
    exact ⟨r, hperm.mem_iff.2 hr, rfl⟩

theorem length_split_sub_functions (f : Function) :
    (split_function_by_placement f).sub_functions.length = (groups f.nodes).length := by
  unfold split_function_by_placement
  simp only [List.length_map]
  have hperm := sort_components_perm (dependencies f.nodes) (groups f.nodes).length
    (groups f.nodes) []
  rw [List.nil_append] at hperm
  exact hperm.length_eq

theorem foldl_max_le (l : List Nat) :
    ∀ (a b : Nat), a ≤ b → (∀ x ∈ l, x ≤ b) → l.foldl max a ≤ b := by
  induction l with
  | nil => intro a b h _; exact h
  | cons y l ih =>
    intro a b h hl
    rw [List.foldl_cons]
    exact ih (max a y) b (max_le h (hl y (List.mem_cons_self _ _)))
      (fun x hx => hl x (List.mem_cons_of_mem _ hx))

theorem le_foldl_max (l : List Nat) :
    ∀ (a : Nat), a ≤ l.foldl max a ∧ ∀ x ∈ l, x ≤ l.foldl max a := by
  induction l with
  | nil => intro a; exact ⟨le_refl _, fun x hx => by cases hx⟩
  | cons y l ih =>
    intro a
    rw [List.foldl_cons]
    obtain ⟨h1, h2⟩ := ih (max a y)
    refine ⟨le_trans (le_max_left a y) h1, ?_⟩
    intro x hx
    rcases List.mem_cons.1 hx with rfl | hx
    · exact le_trans (le_max_right a x) h1
    · exact h2 x hx

theorem mem_consumers (nodes : List Node) (x c : Nat) :
    c ∈ consumers nodes x ↔ (x, c) ∈ edges nodes := by
  unfold consumers
  simp only [List.mem_map, List.mem_filter, decide_eq_true_eq]
  constructor
  · rintro ⟨⟨o, c2⟩, ⟨he, ho⟩, hc⟩
    simp only at ho hc
    subst ho hc
    exact he
  · intro h
    exact ⟨(x, c), ⟨h, rfl⟩, rfl⟩

theorem length_level_step (nodes : List Node) (x : Nat) (levels : List Nat) :
    (level_step nodes x levels).length = levels.length + 1 := by
  unfold level_step
  simp

/-- The levels computed for the nodes `s`, ..., `n - 1`: there is one per node, none
exceeds the number of these nodes, and the level of a node is the largest, over its
consumers, of the level of the consumer plus one for a cut edge. -/
theorem foldr_level_step (nodes : List Node)
    (hw : ∀ o c, (o, c) ∈ edges nodes → o < c) :
    ∀ (len s : Nat),
      ((List.range' s len).foldr (level_step nodes) []).length = len ∧
      (∀ i, ((List.range' s len).foldr (level_step nodes) []).getD i 0 ≤ len) ∧
      (∀ x, s ≤ x → x < s + len →
        ((List.range' s len).foldr (level_step nodes) []).getD (x - s) 0 =
          ((consumers nodes x).map (fun c =>
            ((List.range' s len).foldr (level_step nodes) []).getD (c - s) 0 +
              if is_cut_edge nodes (x, c) then 1 else 0)).foldl max 0) := by
  intro len
  induction len with
  | zero =>
    intro s
    refine ⟨rfl, fun i => by simp, fun x h1 h2 => by omega⟩
  | succ len ih =>
    intro s
    obtain ⟨h1, h2, h3⟩ := ih (s + 1)
    rw [List.range'_succ, List.foldr_cons]
    generalize (List.range' (s + 1) len).foldr (level_step nodes) [] = L at h1 h2 h3
    have hhead : ∀ x, s ≤ x → ∀ c ∈ consumers nodes x,
        (level_step nodes s L).getD (c - s) 0 = L.getD (c - (s + 1)) 0 := by
      intro x hx c hc
      have hxc : x < c := hw x c ((mem_consumers nodes x c).1 hc)
      unfold level_step
      have : c - s = (c - (s + 1)) + 1 := by omega
      rw [this, List.getD_cons_succ]
    refine ⟨by rw [length_level_step, h1], ?_, ?_⟩
    · intro i
      cases i with
      | zero =>
        unfold level_step
        rw [List.getD_cons_zero]
        apply foldl_max_le _ 0 _ (Nat.zero_le _)
        intro v hv
        obtain ⟨c, _, rfl⟩ := List.mem_map.1 hv
        have := h2 (c - s - 1)
        split <;> omega
      | succ i =>
        unfold level_step
        rw [List.getD_cons_succ]
        have := h2 i
        omega
    · intro x hx1 hx2
      by_cases hxs : x = s
      · subst hxs
        rw [Nat.sub_self]
        have hmap : (consumers nodes x).map (fun c =>
            (level_step nodes x L).getD (c - x) 0 +
              if is_cut_edge nodes (x, c) then 1 else 0) =
            (consumers nodes x).map (fun c =>
              L.getD (c - x - 1) 0 + if is_cut_edge nodes (x, c) then 1 else 0) := by
          apply List.map_congr_left
          intro c hc
          rw [hhead x (le_refl _) c hc]
          rfl
        rw [hmap]
        unfold level_step
        rw [List.getD_cons_zero]
      · have hmap : (consumers nodes x).map (fun c =>
            (level_step nodes s L).getD (c - s) 0 +
              if is_cut_edge nodes (x, c) then 1 else 0) =
            (consumers nodes x).map (fun c =>
              L.getD (c - (s + 1)) 0 + if is_cut_edge nodes (x, c) then 1 else 0) := by
          apply List.map_congr_left
          intro c hc
          rw [hhead x hx1 c hc]
        rw [hmap, ← h3 x (by omega) (by omega)]
        unfold level_step
        have : x - s = (x - (s + 1)) + 1 := by omega
        rw [this, List.getD_cons_succ]

theorem length_foldr_level_step (nodes : List Node) (l : List Nat) :
    (l.foldr (level_step nodes) []).length = l.length := by
  induction l with
  | nil => rfl
  | cons x l ih => rw [List.foldr_cons, length_level_step, ih, List.length_cons]

theorem length_level_labels (nodes : List Node) :
    (level_labels nodes).length = nodes.length := by
  unfold level_labels
  rw [length_foldr_level_step, List.length_range]

theorem level_of_le (f : Function) (hw : f.WellFormed) (x : Nat) :
    level_of f.nodes x ≤ f.nodes.length := by
  unfold level_of level_labels
  rw [List.range_eq_range']
  exact (foldr_level_step f.nodes (fun o c h => (edge_bounds f hw o c h).1)
    f.nodes.length 0).2.1 x

/-- The level of a node is the largest, over its consumers, of the level of the consumer
plus one for a cut edge. -/
theorem level_of_eq (f : Function) (hw : f.WellFormed) (x : Nat) (hx : x < f.nodes.length) :
    level_of f.nodes x = ((consumers f.nodes x).map (fun c =>
      level_of f.nodes c + if is_cut_edge f.nodes (x, c) then 1 else 0)).foldl max 0 := by
  have h := (foldr_level_step f.nodes (fun o c h => (edge_bounds f hw o c h).1)
    f.nodes.length 0).2.2 x (Nat.zero_le _) (by omega)
  rw [← List.range_eq_range'] at h
  simp only [Nat.sub_zero] at h
  exact h

/-- Along an edge the level does not increase, and it decreases along a cut edge. -/
theorem level_of_edge (f : Function) (hw : f.WellFormed) (o c : Nat)
    (he : (o, c) ∈ edges f.nodes) :
    level_of f.nodes c ≤ level_of f.nodes o ∧
    (is_cut_edge f.nodes (o, c) = true → level_of f.nodes c < level_of f.nodes o) := by
  have hb := edge_bounds f hw o c he
  rw [level_of_eq f hw o (by omega)]
  have hmem : level_of f.nodes c + (if is_cut_edge f.nodes (o, c) then 1 else 0) ∈
      (consumers f.nodes o).map (fun c => level_of f.nodes c +
        if is_cut_edge f.nodes (o, c) then 1 else 0) :=
    List.mem_map.2 ⟨c, (mem_consumers f.nodes o c).2 he, rfl⟩
  have h := (le_foldl_max _ 0).2 _ hmem
  refine ⟨by omega, ?_⟩
  intro hcut
  rw [if_pos hcut] at h
  omega

theorem level_of_ge (nodes : List Node) (x : Nat) (hx : nodes.length ≤ x) :
    level_of nodes x = 0 := by
  unfold level_of
  rw [List.getD_eq_getElem?_getD, List.getElem?_eq_none]
  · rfl
  · rw [length_level_labels]
    exact hx

theorem key_index_spec (key : Nat × Placement) (keys : List (Nat × Placement))
    (h : key ∈ keys) : key_index key keys < keys.length ∧ keys[key_index key keys]? = some key := by
  induction keys with
  | nil => simp at h
  | cons k rest ih =>
    unfold key_index
    by_cases hk : k = key
    · rw [if_pos hk]
      subst hk
      exact ⟨by simp, by simp⟩
    · rw [if_neg hk]
      have hrest : key ∈ rest := by
        rcases List.mem_cons.1 h with h | h
        · exact absurd h.symm hk
        · exact h
      obtain ⟨h1, h2⟩ := ih hrest
      refine ⟨by simp only [List.length_cons]; omega, ?_⟩
      rw [List.getElem?_cons_succ]
      exact h2

theorem getElem?_group_keys (nodes : List Node) (x : Nat) (hx : x < nodes.length) :
    (group_keys nodes)[x]? = some (level_of nodes x, placementOf nodes x) := by
  unfold group_keys
  rw [List.getElem?_map, List.getElem?_range hx]
  rfl

theorem length_group_keys (nodes : List Node) : (group_keys nodes).length = nodes.length := by
  unfold group_keys
  simp

/-- The group of a node is named by a node of the same level and placement. -/
theorem group_of_spec (nodes : List Node) (x : Nat) (hx : x < nodes.length) :
    group_of nodes x < nodes.length ∧
    level_of nodes (group_of nodes x) = level_of nodes x ∧
    placementOf nodes (group_of nodes x) = placementOf nodes x := by
  have hmem : (level_of nodes x, placementOf nodes x) ∈ group_keys nodes := by
    have := getElem?_group_keys nodes x hx
    obtain ⟨hlt, hget⟩ := List.getElem?_eq_some.1 this
    rw [← hget]
    exact List.getElem_mem hlt
  obtain ⟨h1, h2⟩ := key_index_spec _ _ hmem
  unfold group_of
  rw [if_pos hx]
  rw [length_group_keys] at h1
  rw [getElem?_group_keys nodes _ h1] at h2
  simp only [Option.some.injEq, Prod.mk.injEq] at h2
  exact ⟨h1, h2.1, h2.2⟩

theorem group_of_eq_iff (nodes : List Node) (x y : Nat) (hx : x < nodes.length)
    (hy : y < nodes.length) :
    group_of nodes x = group_of nodes y ↔
      level_of nodes x = level_of nodes y ∧ placementOf nodes x = placementOf nodes y := by
  constructor
  · intro h
    obtain ⟨_, h1, h2⟩ := group_of_spec nodes x hx
    obtain ⟨_, h3, h4⟩ := group_of_spec nodes y hy
    rw [h] at h1 h2
    exact ⟨h1.symm.trans h3, h2.symm.trans h4⟩
  · rintro ⟨h1, h2⟩
    unfold group_of
    rw [if_pos hx, if_pos hy, h1, h2]

theorem group_of_ge (nodes : List Node) (x : Nat) (hx : nodes.length ≤ x) :
    group_of nodes x = x := by
  unfold group_of
  rw [if_neg (by omega)]

theorem placement_eq_of_group_eq (nodes : List Node) (x y : Nat) (hx : x < nodes.length)
    (hy : y < nodes.length) (h : group_of nodes x = group_of nodes y) :
    placementOf nodes x = placementOf nodes y :=
  ((group_of_eq_iff nodes x y hx hy).1 h).2

theorem mem_groups_iff (nodes : List Node) (r : Nat) :
    r ∈ groups nodes ↔ ∃ x, x < nodes.length ∧ group_of nodes x = r := by
  unfold groups
  rw [mem_foldl_insert_new]
  simp only [List.not_mem_nil, false_or, List.mem_map, List.mem_range]

theorem nodup_groups (nodes : List Node) : (groups nodes).Nodup :=
  nodup_foldl_insert_new _ _ List.nodup_nil

theorem group_of_eq_lt (nodes : List Node) (x r : Nat)
    (hr : r ∈ groups nodes) (h : group_of nodes x = r) : x < nodes.length := by
  by_contra hge
  rw [group_of_ge nodes x (by omega)] at h
  obtain ⟨y, hy, hyr⟩ := (mem_groups_iff nodes r).1 hr
  have := (group_of_spec nodes y hy).1
  omega

/-- An edge between nodes of different placement joins two groups. -/
theorem is_split_edge_of_placement_ne (nodes : List Node) (o c : Nat)
    (hc : c < nodes.length) (hne : placementOf nodes o ≠ placementOf nodes c) :
    is_split_edge nodes (o, c) = true := by
  unfold is_split_edge
  simp only [ne_eq, decide_eq_true_eq]
  intro h
  by_cases ho : o < nodes.length
  · exact hne (placement_eq_of_group_eq nodes o c ho hc h)
  · rw [group_of_ge nodes o (by omega)] at h
    have := (group_of_spec nodes c hc).1
    omega

/-- In the graphs of `hybrid_abc`, `hybrid_abcd`, `hybrid_multi_middle_nodes` and
`hybrid_no_split` the edges between two groups are the cut edges; in
`hybrid_back_and_forth` there is one more, from `B` to `E`. -/
theorem split_edges_of_test_graphs :
    (∀ g ∈ [graph_abc, graph_abcd, graph_multi_middle_nodes, graph_no_split],
      ∀ e ∈ edges (placed g).nodes,
        is_split_edge (placed g).nodes e = is_cut_edge (placed g).nodes e) ∧
    (edges (placed graph_back_and_forth).nodes).filter (fun e =>
      is_split_edge (placed graph_back_and_forth).nodes e &&
        !is_cut_edge (placed graph_back_and_forth).nodes e) = [(1, 4)] := by
  decide

/-- Along an edge between two groups the level decreases. -/
theorem level_of_split_edge (f : Function) (hw : f.WellFormed) (o c : Nat)
    (he : (o, c) ∈ edges f.nodes) (hsplit : is_split_edge f.nodes (o, c) = true) :
    level_of f.nodes c < level_of f.nodes o := by
  have hb := edge_bounds f hw o c he
  obtain ⟨hle, hcut⟩ := level_of_edge f hw o c he
  by_cases hpl : placementOf f.nodes o = placementOf f.nodes c
  · have hne : level_of f.nodes o ≠ level_of f.nodes c := by
      intro heq
      unfold is_split_edge at hsplit
      simp only [ne_eq, decide_eq_true_eq] at hsplit
      exact hsplit ((group_of_eq_iff f.nodes o c (by omega) hb.2).2 ⟨heq, hpl⟩)
    omega
  · apply hcut
    unfold is_cut_edge
    simpa using hpl

theorem mem_sources_of (nodes : List Node) (r k : Nat) :
    k ∈ sources_of nodes r ↔
      ∃ o c, (o, c) ∈ edges nodes ∧ is_split_edge nodes (o, c) = true ∧
        (boundary_keys nodes)[k]? = some (o, placementOf nodes c) ∧
        group_of nodes c = r := by
  unfold sources_of
  simp only [List.mem_filter, List.mem_range, List.any_eq_true, Bool.and_eq_true,
    decide_eq_true_eq]
  constructor
  · rintro ⟨_, ⟨o, c⟩, ⟨he, hcut⟩, hk, hc⟩
    exact ⟨o, c, he, hcut, hk, hc⟩
  · rintro ⟨o, c, he, hcut, hk, hc⟩
    refine ⟨?_, (o, c), ⟨he, hcut⟩, hk, hc⟩
    exact (List.getElem?_eq_some.1 hk).1

theorem mem_sinks_of (nodes : List Node) (r k : Nat) :
    k ∈ sinks_of nodes r ↔
      ∃ key, (boundary_keys nodes)[k]? = some key ∧ group_of nodes key.1 = r := by
  unfold sinks_of
  simp only [List.mem_filter, List.mem_range]
  constructor
  · rintro ⟨hk, h⟩
    cases hkey : (boundary_keys nodes)[k]? with
    | none => rw [hkey] at h; simp at h
    | some key => rw [hkey] at h; exact ⟨key, rfl, by simpa using h⟩
  · rintro ⟨key, hkey, hc⟩
    refine ⟨(List.getElem?_eq_some.1 hkey).1, ?_⟩
    rw [hkey]; simpa using hc


theorem placementOf_split_original (nodes : List Node) (c : Nat) (h : c < nodes.length) :
    placementOf (split_nodes nodes) c = placementOf nodes c := by
  unfold placementOf
  rw [getElem?_split_nodes_original nodes c h, List.getElem?_eq_getElem h]
  rfl

theorem argsOf_split_original (nodes : List Node) (c : Nat) (h : c < nodes.length) :
    argsOf (split_nodes nodes) c =
      (argsOf nodes c).map (fun o =>
        if is_split_edge nodes (o, c) then
          source_id nodes.length (key_index (o, placementOf nodes c) (boundary_keys nodes))
        else o) := by
  unfold argsOf
  rw [getElem?_split_nodes_original nodes c h, List.getElem?_eq_getElem h]
  rfl

theorem placementOf_split_sink (nodes : List Node) (k : Nat) (key : Nat × Placement)
    (h : (boundary_keys nodes)[k]? = some key) :
    placementOf (split_nodes nodes) (sink_id nodes.length k) = placementOf nodes key.1 := by
  unfold placementOf
  rw [getElem?_split_nodes_sink nodes k key h]
  rfl

theorem argsOf_split_sink (nodes : List Node) (k : Nat) (key : Nat × Placement)
    (h : (boundary_keys nodes)[k]? = some key) :
    argsOf (split_nodes nodes) (sink_id nodes.length k) = [key.1] := by
  unfold argsOf
  rw [getElem?_split_nodes_sink nodes k key h]

theorem placementOf_split_source (nodes : List Node) (k : Nat) (key : Nat × Placement)
    (h : (boundary_keys nodes)[k]? = some key) :
    placementOf (split_nodes nodes) (source_id nodes.length k) = key.2 := by
  unfold placementOf
  rw [getElem?_split_nodes_source nodes k key h]

theorem key_producer_lt (f : Function) (hw : f.WellFormed) (k : Nat) (key : Nat × Placement)
    (h : (boundary_keys f.nodes)[k]? = some key) : key.1 < f.nodes.length := by
  have hmem : key ∈ boundary_keys f.nodes := by
    obtain ⟨hk, hget⟩ := List.getElem?_eq_some.1 h
    rw [← hget]
    exact List.getElem_mem hk
  obtain ⟨c, he, _, _⟩ := (mem_boundary_keys f.nodes key.1 key.2).1 hmem
  have := edge_bounds f hw key.1 c he
  omega

theorem mem_sub_function_ops (f : Function) (r x : Nat) :
    x ∈ (sub_function_of f r).ops ↔
      (∃ k ∈ sources_of f.nodes r, x = source_id f.nodes.length k) ∨
      (x < f.nodes.length ∧ group_of f.nodes x = r) ∨
      (∃ k ∈ sinks_of f.nodes r, x = sink_id f.nodes.length k) := by
  unfold sub_function_of
  simp only [List.mem_append, List.mem_map, List.mem_filter, List.mem_range,
    decide_eq_true_eq, or_assoc]
  constructor
  · rintro (⟨k, hk, rfl⟩ | h | ⟨k, hk, rfl⟩)
    · exact Or.inl ⟨k, hk, rfl⟩
    · exact Or.inr (Or.inl h)
    · exact Or.inr (Or.inr ⟨k, hk, rfl⟩)
  · rintro (⟨k, hk, rfl⟩ | h | ⟨k, hk, rfl⟩)
    · exact Or.inl ⟨k, hk, rfl⟩
    · exact Or.inr (Or.inl h)
    · exact Or.inr (Or.inr ⟨k, hk, rfl⟩)

theorem mem_sub_function_parameters (f : Function) (r x : Nat) :
    x ∈ (sub_function_of f r).parameters ↔
      (x ∈ f.parameters ∧ group_of f.nodes x = r) ∨
      (∃ k ∈ sources_of f.nodes r, x = source_id f.nodes.length k) := by
  unfold sub_function_of
  simp only [List.mem_append, List.mem_map, List.mem_filter, decide_eq_true_eq]
  constructor
  · rintro (h | ⟨k, hk, rfl⟩)
    · exact Or.inl h
    · exact Or.inr ⟨k, hk, rfl⟩
  · rintro (h | ⟨k, hk, rfl⟩)
    · exact Or.inl h
    · exact Or.inr ⟨k, hk, rfl⟩

theorem mem_sub_function_results (f : Function) (r x : Nat) :
    x ∈ (sub_function_of f r).results ↔
      (x ∈ f.results ∧ group_of f.nodes x = r) ∨
      (∃ k ∈ sinks_of f.nodes r, x = sink_id f.nodes.length k) := by
  unfold sub_function_of
  simp only [List.mem_append, List.mem_map, List.mem_filter, decide_eq_true_eq]
  constructor
  · rintro (h | ⟨k, hk, rfl⟩)
    · exact Or.inl h
    · exact Or.inr ⟨k, hk, rfl⟩
  · rintro (h | ⟨k, hk, rfl⟩)
    · exact Or.inl h
    · exact Or.inr ⟨k, hk, rfl⟩

/-- The placement of every node attached to group `r` is that of any member. -/
theorem placement_of_sub_function_node (f : Function) (hw : f.WellFormed) (r x0 : Nat)
    (hr : r ∈ groups f.nodes)
    (hx0 : x0 < f.nodes.length) (hc0 : group_of f.nodes x0 = r) (x : Nat)
    (hx : x ∈ (sub_function_of f r).ops ∨ x ∈ (sub_function_of f r).parameters ∨
      x ∈ (sub_function_of f r).results) :
    placementOf (split_nodes f.nodes) x = placementOf f.nodes x0 := by
  have hmember : ∀ y, group_of f.nodes y = r →
      placementOf (split_nodes f.nodes) y = placementOf f.nodes x0 := by
    intro y hy
    have hylt := group_of_eq_lt f.nodes y r hr hy
    rw [placementOf_split_original f.nodes y hylt]
    exact placement_eq_of_group_eq f.nodes y x0 hylt hx0 (hy.trans hc0.symm)
  have hsource : ∀ k ∈ sources_of f.nodes r,
      placementOf (split_nodes f.nodes) (source_id f.nodes.length k) =
        placementOf f.nodes x0 := by
    intro k hk
    obtain ⟨o, c, he, _, hkey, hc⟩ := (mem_sources_of f.nodes r k).1 hk
    rw [placementOf_split_source f.nodes k _ hkey]
    have hclt := (edge_bounds f hw o c he).2
    exact placement_eq_of_group_eq f.nodes c x0 hclt hx0 (hc.trans hc0.symm)
  have hsink : ∀ k ∈ sinks_of f.nodes r,
      placementOf (split_nodes f.nodes) (sink_id f.nodes.length k) =
        placementOf f.nodes x0 := by
    intro k hk
    obtain ⟨key, hkey, hc⟩ := (mem_sinks_of f.nodes r k).1 hk
    rw [placementOf_split_sink f.nodes k key hkey]
    exact placement_eq_of_group_eq f.nodes key.1 x0 (key_producer_lt f hw k key hkey) hx0
      (hc.trans hc0.symm)
  rcases hx with hx | hx | hx
  · rcases (mem_sub_function_ops f r x).1 hx with ⟨k, hk, rfl⟩ | ⟨_, hc⟩ | ⟨k, hk, rfl⟩
    · exact hsource k hk
    · exact hmember x hc
    · exact hsink k hk
  · rcases (mem_sub_function_parameters f r x).1 hx with ⟨_, hc⟩ | ⟨k, hk, rfl⟩
    · exact hmember x hc
    · exact hsource k hk
  · rcases (mem_sub_function_results f r x).1 hx with ⟨_, hc⟩ | ⟨k, hk, rfl⟩
    · exact hmember x hc
    · exact hsink k hk

theorem get_cached_backend_ok {α : Type} (reg : Registry) (hb hb1 : HybridBackend)
    (rt rt1 : Runtime α) (placement : Placement) (be : Backend)
    (h : hb.get_cached_backend reg rt placement = .ok (be, hb1, rt1)) :
    hb1.m_cached_backends.lookup placement = some be ∧
    (∀ p b, hb.m_cached_backends.lookup p = some b →
      hb1.m_cached_backends.lookup p = some b) := by
  unfold HybridBackend.get_cached_backend at h
  cases hl : hb.m_cached_backends.lookup placement with
  | some b0 =>
    rw [hl] at h
    simp only [Except.ok.injEq, Prod.mk.injEq] at h
    obtain ⟨rfl, rfl, _⟩ := h
    exact ⟨hl, fun p b hp => hp⟩
  | none =>
    rw [hl] at h
    simp only at h
    cases hc : Backend.create reg rt placement with
    | error e => rw [hc] at h; cases h
    | ok res =>
      obtain ⟨b1, rt2⟩ := res
      rw [hc] at h
      simp only [Except.ok.injEq, Prod.mk.injEq] at h
      obtain ⟨rfl, rfl, _⟩ := h
      refine ⟨by simp [List.lookup_cons], ?_⟩
      intro p b hp
      rw [List.lookup_cons]
      cases hpp : (p == placement) with
      | false => exact hp
      | true =>
        have : p = placement := by simpa using hpp
        subst this
        rw [hl] at hp
        cases hp

theorem get_cached_backend_hit {α : Type} (reg : Registry) (hb : HybridBackend)
    (rt : Runtime α) (placement : Placement) (be : Backend)
    (h : hb.m_cached_backends.lookup placement = some be) :
    hb.get_cached_backend reg rt placement = .ok (be, hb, rt) := by
  unfold HybridBackend.get_cached_backend
  rw [h]

theorem backend_compile_ok {α : Type} [Add α] [Mul α] (reg : Registry) (be : Backend)
    (nodes : List Node) (sub : SubFunction) (h : Executable α)
    (hc : be.compile reg nodes sub = .ok h) : h.backend = be := by
  unfold Backend.compile at hc
  split at hc
  · simp only [Except.ok.injEq] at hc
    rw [← hc]
  · cases hc

theorem compile_sub_functions_spec {α : Type} [Add α] [Mul α] (reg : Registry)
    (nodes : List Node) (subs : List SubFunction) :
    ∀ (i : Nat) (hb : HybridBackend) (rt : Runtime α) (hm : List (Nat × Executable α))
      (hm1 : List (Nat × Executable α)) (hb1 : HybridBackend) (rt1 : Runtime α),
      compile_sub_functions reg nodes i subs hb rt hm = .ok (hm1, hb1, rt1) →
      (∀ p b, hb.m_cached_backends.lookup p = some b →
        hb1.m_cached_backends.lookup p = some b) ∧
      (∀ j, j < i → hm1.lookup j = hm.lookup j) ∧
      (∀ j sub, subs[j]? = some sub → ∃ h, hm1.lookup (i + j) = some h ∧
        hb1.m_cached_backends.lookup (get_colocated_function_placement nodes sub)
          = some h.backend) := by
  induction subs with
  | nil =>
    intro i hb rt hm hm1 hb1 rt1 h
    unfold compile_sub_functions at h
    simp only [Except.ok.injEq, Prod.mk.injEq] at h
    obtain ⟨rfl, rfl, _⟩ := h
    exact ⟨fun p b hp => hp, fun j _ => rfl, fun j sub hj => by simp at hj⟩
  | cons sub rest ih =>
    intro i hb rt hm hm1 hb1 rt1 h
    unfold compile_sub_functions at h
    cases hbe : hb.get_cached_backend reg rt
        (get_colocated_function_placement nodes sub) with
    | error e => rw [hbe] at h; cases h
    | ok res =>
      obtain ⟨be, hb2, rt2⟩ := res
      rw [hbe] at h
      simp only at h
      cases hc : (be.compile reg nodes sub : Except Error (Executable α)) with
      | error e => rw [hc] at h; cases h
      | ok handle =>
        rw [hc] at h
        simp only at h
        obtain ⟨hhit, hmono⟩ := get_cached_backend_ok reg hb hb2 rt rt2 _ be hbe
        obtain ⟨ih1, ih2, ih3⟩ := ih (i + 1) hb2 rt2 ((i, handle) :: hm) hm1 hb1 rt1 h
        refine ⟨fun p b hp => ih1 p b (hmono p b hp), ?_, ?_⟩
        · intro j hj
          rw [ih2 j (by omega), List.lookup_cons]
          have : (j == i) = false := by simp; omega
          rw [this]
        · intro j s hj
          cases j with
          | zero =>
            simp only [List.getElem?_cons_zero, Option.some.injEq] at hj
            subst hj
            refine ⟨handle, ?_, ?_⟩
            · rw [Nat.add_zero, ih2 i (by omega)]
              simp [List.lookup_cons]
            · rw [backend_compile_ok reg be nodes sub handle hc]
              exact ih1 _ _ hhit
          | succ j =>
            rw [List.getElem?_cons_succ] at hj
            obtain ⟨h', hl, hbk⟩ := ih3 j s hj
            refine ⟨h', ?_, hbk⟩
            rw [← hl]
            congr 1
            omega

theorem compiled_backend_is_cached {α : Type} [Add α] [Mul α] (reg : Registry)
    (hb : HybridBackend) (rt : Runtime α) (func : Function) (exe : HybridExecutable α)
    (hb1 : HybridBackend) (rt1 : Runtime α)
    (h : HybridExecutable.new reg hb rt func = .ok (exe, hb1, rt1)) :
    exe.m_function.nodes = (split_function_by_placement (placed (clone_function func))).nodes ∧
    exe.m_sub_functions =
      (split_function_by_placement (placed (clone_function func))).sub_functions ∧
    exe.m_map_parameter_to_result =
      (split_function_by_placement (placed (clone_function func))).map_parameter_to_result ∧
    (∀ i sub, exe.m_sub_functions[i]? = some sub →
      ∃ handle, exe.m_handle_map.lookup i = some handle ∧
        ∀ (rt2 : Runtime α), hb1.get_cached_backend reg rt2
          (get_colocated_function_placement exe.m_function.nodes sub) =
            .ok (handle.backend, hb1, rt2)) := by
  unfold HybridExecutable.new at h
  cases hc : compile_sub_functions reg
      (split_function_by_placement
        (AssignPlacement.run_on_function int_with_cpu_mul_policy (clone_function func))).nodes
      0
      (split_function_by_placement
        (AssignPlacement.run_on_function int_with_cpu_mul_policy
          (clone_function func))).sub_functions
      hb rt [] with
  | error e => rw [hc] at h; cases h
  | ok res =>
    obtain ⟨hm1, hb2, rt2⟩ := res
    rw [hc] at h
    simp only [Except.ok.injEq, Prod.mk.injEq] at h
    obtain ⟨rfl, rfl, rfl⟩ := h
    refine ⟨rfl, rfl, rfl, ?_⟩
    intro i sub hi
    obtain ⟨_, _, h3⟩ := compile_sub_functions_spec reg _ _ 0 hb rt [] hm1 hb2 rt2 hc
    obtain ⟨handle, hl, hbk⟩ := h3 i sub hi
    rw [Nat.zero_add] at hl
    exact ⟨handle, hl, fun rt2 => get_cached_backend_hit reg hb2 rt2 _ _ hbk⟩

/-- C6. For every well-formed function (every input edge points to an earlier node),
every node of every sub-function returned by the splitter (its ops, its parameters and
its results, the synthetic boundary nodes included) has the placement tag that
`get_colocated_function_placement` returns for the sub-function; and when the
constructor of `HybridExecutable` has compiled a function, the cached backend that
`get_cached_backend` returns for a sub-function's placement in `execute` is the backend
of the handle the constructor stored for that sub-function (no backend is created). -/
theorem sub_functions_colocated {α : Type} [Add α] [Mul α] (f : Function)
    (hw : f.WellFormed) :
    (∀ s ∈ (split_function_by_placement f).sub_functions,
      ∀ x, (x ∈ s.ops ∨ x ∈ s.parameters ∨ x ∈ s.results) →
        placementOf (split_function_by_placement f).nodes x =
          get_colocated_function_placement (split_function_by_placement f).nodes s) ∧
    (∀ (reg : Registry) (hb : HybridBackend) (rt : Runtime α) (exe : HybridExecutable α)
      (hb1 : HybridBackend) (rt1 : Runtime α),
      HybridExecutable.new reg hb rt f = .ok (exe, hb1, rt1) →
      ∀ (i : Nat) (sub : SubFunction), exe.m_sub_functions[i]? = some sub →
        ∃ handle, exe.m_handle_map.lookup i = some handle ∧
          ∀ (rt2 : Runtime α), hb1.get_cached_backend reg rt2
            (get_colocated_function_placement exe.m_function.nodes sub) =
              .ok (handle.backend, hb1, rt2)) := by
  refine ⟨?_, fun reg hb rt exe hb1 rt1 h =>
    (compiled_backend_is_cached reg hb rt f exe hb1 rt1 h).2.2.2⟩
  intro s hs x hx
  obtain ⟨r, hr, rfl⟩ := (mem_split_sub_functions f s).1 hs
  obtain ⟨x0, hx0, hc0⟩ := (mem_groups_iff f.nodes r).1 hr
  have hall := placement_of_sub_function_node f hw r x0 hr hx0 hc0
  have hnodes : (split_function_by_placement f).nodes = split_nodes f.nodes := rfl
  rw [hnodes, hall x hx]
  have hx0mem : x0 ∈ (sub_function_of f r).ops :=
    (mem_sub_function_ops f r x0).2 (Or.inr (Or.inl ⟨hx0, hc0⟩))
  unfold get_colocated_function_placement
  cases hops : (sub_function_of f r).ops with
  | nil => rw [hops] at hx0mem; simp at hx0mem
  | cons i rest =>
    simp only
    exact (hall i (Or.inl (by rw [hops]; exact List.mem_cons_self _ _))).symm

/-- C6, on `D = A + B`, `E = D * C`: in the sub-function of `E` the synthetic
Parameter 7, the node `E` and the synthetic Result 10 all have the tag `CPU`, which is
the tag of the sub-function. -/
theorem sub_functions_colocated_witness :
    placementOf (split_function_by_placement (placed graph_abc)).nodes 7 =
      get_colocated_function_placement (split_function_by_placement (placed graph_abc)).nodes
        { ops := [7, 9, 4, 10], parameters := [7, 9], results := [10] } ∧
    placementOf (split_function_by_placement (placed graph_abc)).nodes 4 =
      get_colocated_function_placement (split_function_by_placement (placed graph_abc)).nodes
        { ops := [7, 9, 4, 10], parameters := [7, 9], results := [10] } ∧
    placementOf (split_function_by_placement (placed graph_abc)).nodes 10 =
      get_colocated_function_placement (split_function_by_placement (placed graph_abc)).nodes
        { ops := [7, 9, 4, 10], parameters := [7, 9], results := [10] } ∧
    get_colocated_function_placement (split_function_by_placement (placed graph_abc)).nodes
      { ops := [7, 9, 4, 10], parameters := [7, 9], results := [10] } = Placement.CPU :=
  ⟨(@sub_functions_colocated Int _ _ (placed graph_abc) (by decide)).1
      { ops := [7, 9, 4, 10], parameters := [7, 9], results := [10] } (by decide) 7
      (Or.inl (by decide)),
    (@sub_functions_colocated Int _ _ (placed graph_abc) (by decide)).1
      { ops := [7, 9, 4, 10], parameters := [7, 9], results := [10] } (by decide) 4
      (Or.inl (by decide)),
    (@sub_functions_colocated Int _ _ (placed graph_abc) (by decide)).1
      { ops := [7, 9, 4, 10], parameters := [7, 9], results := [10] } (by decide) 10
      (Or.inr (Or.inr (by decide))),
    by decide⟩

theorem original_mem_sub_function_ops (f : Function) (r a : Nat) (ha : a < f.nodes.length) :
    a ∈ (sub_function_of f r).ops ↔ group_of f.nodes a = r := by
  rw [mem_sub_function_ops]
  constructor
  · rintro (⟨k, _, hk⟩ | ⟨_, h⟩ | ⟨k, _, hk⟩)
    · unfold source_id at hk; omega
    · exact h
    · unfold sink_id at hk; omega
  · intro h
    exact Or.inr (Or.inl ⟨ha, h⟩)

theorem original_node_in_sub_function (f : Function) (a : Nat)
    (ha : a < f.nodes.length) :
    ∃ s ∈ (split_function_by_placement f).sub_functions, a ∈ s.ops :=
  ⟨sub_function_of f (group_of f.nodes a),
    (mem_split_sub_functions f _).2 ⟨_, (mem_groups_iff f.nodes _).2 ⟨a, ha, rfl⟩, rfl⟩,
    (original_mem_sub_function_ops f _ a ha).2 rfl⟩

theorem nodup_map_fst_boundary_map (n : Nat) (keys : List (Nat × Placement)) :
    ((boundary_map n keys).map Prod.fst).Nodup := by
  unfold boundary_map
  rw [List.map_map]
  apply List.Nodup.map _ (List.nodup_range _)
  intro a b hab
  simp only [Function.comp, source_id] at hab
  omega

theorem nodup_map_snd_boundary_map (n : Nat) (keys : List (Nat × Placement)) :
    ((boundary_map n keys).map Prod.snd).Nodup := by
  unfold boundary_map
  rw [List.map_map]
  apply List.Nodup.map _ (List.nodup_range _)
  intro a b hab
  simp only [Function.comp, sink_id] at hab
  omega

theorem opOf_split_sink (nodes : List Node) (k : Nat) (key : Nat × Placement)
    (h : (boundary_keys nodes)[k]? = some key) :
    ((split_nodes nodes)[sink_id nodes.length k]?).map (fun n => n.op) = some OpKind.Result := by
  rw [getElem?_split_nodes_sink nodes k key h]
  rfl

theorem opOf_split_source (nodes : List Node) (k : Nat) (key : Nat × Placement)
    (h : (boundary_keys nodes)[k]? = some key) :
    ((split_nodes nodes)[source_id nodes.length k]?).map (fun n => n.op) =
      some OpKind.Parameter := by
  rw [getElem?_split_nodes_source nodes k key h]
  rfl

/-- C7. In the result of the splitter the boundary map is a one-to-one pairing: every
sub-function parameter that is not a parameter of the original function is a key of the
map; the keys are pairwise distinct, each key is a synthetic Parameter and is mapped to
one synthetic Result; no two keys are mapped to the same Result; and an edge between
two original nodes of a sub-function joins nodes of equal placement in the original
graph. -/
theorem boundary_pairing (f : Function) :
    (∀ s ∈ (split_function_by_placement f).sub_functions, ∀ p ∈ s.parameters,
      p ∉ f.parameters →
        ∃ r, (split_function_by_placement f).map_parameter_to_result.lookup p = some r) ∧
    (((split_function_by_placement f).map_parameter_to_result.map Prod.fst).Nodup ∧
      ∀ p r, (p, r) ∈ (split_function_by_placement f).map_parameter_to_result →
        (split_function_by_placement f).map_parameter_to_result.lookup p = some r ∧
        f.nodes.length ≤ p ∧ f.nodes.length ≤ r ∧
        (((split_function_by_placement f).nodes[p]?).map (fun n => n.op)
          = some OpKind.Parameter) ∧
        (((split_function_by_placement f).nodes[r]?).map (fun n => n.op)
          = some OpKind.Result)) ∧
    (∀ p1 p2 r, (p1, r) ∈ (split_function_by_placement f).map_parameter_to_result →
      (p2, r) ∈ (split_function_by_placement f).map_parameter_to_result → p1 = p2) ∧
    (∀ s ∈ (split_function_by_placement f).sub_functions, ∀ x ∈ s.ops, ∀ y ∈ s.ops,
      x < f.nodes.length → y < f.nodes.length →
      x ∈ argsOf (split_function_by_placement f).nodes y →
        placementOf f.nodes x = placementOf f.nodes y) := by
  have hmap : (split_function_by_placement f).map_parameter_to_result =
      boundary_map f.nodes.length (boundary_keys f.nodes) := rfl
  have hnodes : (split_function_by_placement f).nodes = split_nodes f.nodes := rfl
  rw [hmap, hnodes]
  refine ⟨?_, ⟨nodup_map_fst_boundary_map _ _, ?_⟩, ?_, ?_⟩
  · intro s hs p hp hnot
    obtain ⟨r, _, rfl⟩ := (mem_split_sub_functions f s).1 hs
    rcases (mem_sub_function_parameters f r p).1 hp with ⟨hin, _⟩ | ⟨k, hk, rfl⟩
    · exact absurd hin hnot
    · obtain ⟨o, c, _, _, hkey, _⟩ := (mem_sources_of f.nodes r k).1 hk
      exact ⟨_, lookup_boundary_map_source _ _ k (List.getElem?_eq_some.1 hkey).1⟩
  · intro p r hpr
    obtain ⟨k, hk, rfl, rfl⟩ := (mem_boundary_map _ _ p r).1 hpr
    have hkey : (boundary_keys f.nodes)[k]? = some (boundary_keys f.nodes)[k] :=
      List.getElem?_eq_getElem hk
    exact ⟨lookup_boundary_map_source _ _ k hk, by unfold source_id; omega,
      by unfold sink_id; omega, opOf_split_source f.nodes k _ hkey,
      opOf_split_sink f.nodes k _ hkey⟩
  · intro p1 p2 r h1 h2
    obtain ⟨k1, _, rfl, hr1⟩ := (mem_boundary_map _ _ p1 r).1 h1
    obtain ⟨k2, _, rfl, hr2⟩ := (mem_boundary_map _ _ p2 r).1 h2
    have : k1 = k2 := by
      rw [hr1] at hr2
      unfold sink_id at hr2
      omega
    rw [this]
  · intro s _ x _ y _ hx hy hxy
    rw [argsOf_split_original f.nodes y hy, List.mem_map] at hxy
    obtain ⟨o, _, ho⟩ := hxy
    by_cases hcut : is_split_edge f.nodes (o, y) = true
    · rw [if_pos hcut] at ho
      unfold source_id at ho
      omega
    · rw [if_neg hcut] at ho
      subst ho
      unfold is_split_edge at hcut
      simp only [ne_eq, decide_eq_true_eq, not_not] at hcut
      exact placement_eq_of_group_eq f.nodes o y hx hy hcut


/-- C7, on `D = A + B`, `E = D * C`: the boundary map is [(7, 6), (9, 8), (11, 10)]; the
parameter 7 of the sub-function of `E` is a key of it; 7 is the only key mapped to 6;
and the edge from `A` to `D` inside the first sub-function joins equal placements. -/
theorem boundary_pairing_witness :
    (split_function_by_placement (placed graph_abc)).map_parameter_to_result =
      [(7, 6), (9, 8), (11, 10)] ∧
    (∃ r, (split_function_by_placement (placed graph_abc)).map_parameter_to_result.lookup 7
      = some r) ∧
    (∀ p2, (p2, 6) ∈ (split_function_by_placement (placed graph_abc)).map_parameter_to_result →
      7 = p2) ∧
    placementOf (placed graph_abc).nodes 0 = placementOf (placed graph_abc).nodes 3 :=
  ⟨by decide,
    (boundary_pairing (placed graph_abc)).1
      { ops := [7, 9, 4, 10], parameters := [7, 9], results := [10] } (by decide) 7
      (by decide) (by decide),
    fun p2 h => (boundary_pairing (placed graph_abc)).2.2.1 7 p2 6 (by decide) h,
    (boundary_pairing (placed graph_abc)).2.2.2
      { ops := [0, 1, 2, 3, 6, 8], parameters := [0, 1, 2], results := [6, 8] } (by decide) 0
      (by decide)
      3 (by decide) (by decide) (by decide) (by decide)⟩

theorem relinked_input (f : Function) (c : Nat) (nd : Node) (hc : f.nodes[c]? = some nd)
    (i o : Nat) (hi : nd.args[i]? = some o) :
    (argsOf (split_nodes f.nodes) c)[i]? =
      some (if is_split_edge f.nodes (o, c) then
        source_id f.nodes.length (key_index (o, nd.placement) (boundary_keys f.nodes))
      else o) := by
  have hlt : c < f.nodes.length := (List.getElem?_eq_some.1 hc).1
  have hargs : argsOf f.nodes c = nd.args := by unfold argsOf; rw [hc]
  have hpl : placementOf f.nodes c = nd.placement := by unfold placementOf; rw [hc]
  rw [argsOf_split_original f.nodes c hlt, List.getElem?_map, hargs, hi, hpl]
  rfl

theorem boundary_key_of_split_input (f : Function) (c : Nat) (nd : Node)
    (hc : f.nodes[c]? = some nd) (o : Nat) (ho : o ∈ nd.args)
    (hsplit : is_split_edge f.nodes (o, c) = true) :
    key_index (o, nd.placement) (boundary_keys f.nodes) < (boundary_keys f.nodes).length ∧
    (boundary_keys f.nodes)[key_index (o, nd.placement) (boundary_keys f.nodes)]? =
      some (o, nd.placement) := by
  have hpl : placementOf f.nodes c = nd.placement := by unfold placementOf; rw [hc]
  have hmem : (o, nd.placement) ∈ boundary_keys f.nodes :=
    (mem_boundary_keys f.nodes o nd.placement).2
      ⟨c, (mem_edges f.nodes o c).2 ⟨nd, hc, ho⟩, hsplit, hpl⟩
  exact key_index_spec _ _ hmem

theorem boundary_key_of_cut_input (f : Function) (c : Nat) (nd : Node)
    (hc : f.nodes[c]? = some nd) (o : Nat) (ho : o ∈ nd.args)
    (hcut : placementOf f.nodes o ≠ nd.placement) :
    is_split_edge f.nodes (o, c) = true ∧
    key_index (o, nd.placement) (boundary_keys f.nodes) < (boundary_keys f.nodes).length ∧
    (boundary_keys f.nodes)[key_index (o, nd.placement) (boundary_keys f.nodes)]? =
      some (o, nd.placement) := by
  have hpl : placementOf f.nodes c = nd.placement := by unfold placementOf; rw [hc]
  have hsplit : is_split_edge f.nodes (o, c) = true :=
    is_split_edge_of_placement_ne f.nodes o c (List.getElem?_eq_some.1 hc).1
      (by rw [hpl]; exact hcut)
  exact ⟨hsplit, boundary_key_of_split_input f c nd hc o ho hsplit⟩

/-- C8. For every producer output `o` and placement tag `t` the splitter creates at most
one boundary pair: two entries of the boundary map whose Results wrap the same producer
and whose Parameters have the same tag are the same entry; every consumer with a cut
input from `o` reads the Parameter of such an entry; and two consumers of equal tag with
a cut input from the same `o` read the same synthetic Parameter. -/
theorem boundary_pairs_shared (f : Function) :
    (∀ p1 r1 p2 r2, (p1, r1) ∈ (split_function_by_placement f).map_parameter_to_result →
      (p2, r2) ∈ (split_function_by_placement f).map_parameter_to_result →
      argsOf (split_function_by_placement f).nodes r1 =
        argsOf (split_function_by_placement f).nodes r2 →
      placementOf (split_function_by_placement f).nodes p1 =
        placementOf (split_function_by_placement f).nodes p2 →
      p1 = p2 ∧ r1 = r2) ∧
    (∀ (c : Nat) (nd : Node), f.nodes[c]? = some nd → ∀ (i o : Nat), nd.args[i]? = some o →
      placementOf f.nodes o ≠ nd.placement →
      ∃ p r, (p, r) ∈ (split_function_by_placement f).map_parameter_to_result ∧
        argsOf (split_function_by_placement f).nodes r = [o] ∧
        placementOf (split_function_by_placement f).nodes p = nd.placement ∧
        (argsOf (split_function_by_placement f).nodes c)[i]? = some p) ∧
    (∀ (c1 : Nat) (nd1 : Node) (c2 : Nat) (nd2 : Node), f.nodes[c1]? = some nd1 → f.nodes[c2]? = some nd2 →
      ∀ (i1 i2 o : Nat), nd1.args[i1]? = some o → nd2.args[i2]? = some o →
      placementOf f.nodes o ≠ nd1.placement → nd1.placement = nd2.placement →
      (argsOf (split_function_by_placement f).nodes c1)[i1]? =
        (argsOf (split_function_by_placement f).nodes c2)[i2]?) := by
  have hmap : (split_function_by_placement f).map_parameter_to_result =
      boundary_map f.nodes.length (boundary_keys f.nodes) := rfl
  have hnodes : (split_function_by_placement f).nodes = split_nodes f.nodes := rfl
  rw [hmap, hnodes]
  refine ⟨?_, ?_, ?_⟩
  · intro p1 r1 p2 r2 h1 h2 hargs hpl
    obtain ⟨k1, hk1, rfl, rfl⟩ := (mem_boundary_map _ _ p1 r1).1 h1
    obtain ⟨k2, hk2, rfl, rfl⟩ := (mem_boundary_map _ _ p2 r2).1 h2
    have hkey1 : (boundary_keys f.nodes)[k1]? = some (boundary_keys f.nodes)[k1] :=
      List.getElem?_eq_getElem hk1
    have hkey2 : (boundary_keys f.nodes)[k2]? = some (boundary_keys f.nodes)[k2] :=
      List.getElem?_eq_getElem hk2
    rw [argsOf_split_sink f.nodes k1 _ hkey1, argsOf_split_sink f.nodes k2 _ hkey2] at hargs
    rw [placementOf_split_source f.nodes k1 _ hkey1,
      placementOf_split_source f.nodes k2 _ hkey2] at hpl
    have heq : (boundary_keys f.nodes)[k1] = (boundary_keys f.nodes)[k2] :=
      Prod.ext (List.cons.inj hargs).1 hpl
    have hk : k1 = k2 := (List.Nodup.getElem_inj_iff (nodup_boundary_keys f.nodes)).1 heq
    subst hk
    exact ⟨rfl, rfl⟩
  · intro c nd hc i o hi hcut
    have ho : o ∈ nd.args := by
      obtain ⟨hlt, hget⟩ := List.getElem?_eq_some.1 hi
      rw [← hget]; exact List.getElem_mem hlt
    obtain ⟨hcut2, hidx, hkey⟩ := boundary_key_of_cut_input f c nd hc o ho hcut
    refine ⟨source_id f.nodes.length (key_index (o, nd.placement) (boundary_keys f.nodes)),
      sink_id f.nodes.length (key_index (o, nd.placement) (boundary_keys f.nodes)),
      (mem_boundary_map _ _ _ _).2 ⟨_, hidx, rfl, rfl⟩,
      argsOf_split_sink f.nodes _ _ hkey, placementOf_split_source f.nodes _ _ hkey, ?_⟩
    rw [relinked_input f c nd hc i o hi, if_pos hcut2]
  · intro c1 nd1 c2 nd2 hc1 hc2 i1 i2 o hi1 hi2 hcut hpl
    have ho1 : o ∈ nd1.args := by
      obtain ⟨hlt, hget⟩ := List.getElem?_eq_some.1 hi1
      rw [← hget]; exact List.getElem_mem hlt
    have ho2 : o ∈ nd2.args := by
      obtain ⟨hlt, hget⟩ := List.getElem?_eq_some.1 hi2
      rw [← hget]; exact List.getElem_mem hlt
    have h1 := (boundary_key_of_cut_input f c1 nd1 hc1 o ho1 hcut).1
    have h2 := (boundary_key_of_cut_input f c2 nd2 hc2 o ho2 (hpl ▸ hcut)).1
    rw [relinked_input f c1 nd1 hc1 i1 o hi1, relinked_input f c2 nd2 hc2 i2 o hi2,
      if_pos h1, if_pos h2, hpl]


/-- C8, on `hybrid_abcd`: `E = A * B` (node 4, `CPU`) feeds `F = C + E` (node 5) and
`G = E + D` (node 6), both `INTERPRETER`; both read the synthetic Parameter 14, the only
pair made for `E`, and `H = F + G` evaluates to [[32,48],[68,92]]. -/
theorem boundary_pairs_shared_witness :
    (argsOf (split_function_by_placement (placed graph_abcd)).nodes 5)[1]? =
      (argsOf (split_function_by_placement (placed graph_abcd)).nodes 6)[0]? ∧
    (argsOf (split_function_by_placement (placed graph_abcd)).nodes 5)[1]? = some 14 ∧
    (split_function_by_placement (placed graph_abcd)).map_parameter_to_result =
      [(10, 9), (12, 11), (14, 13)] ∧
    hybrid_test full_registry graph_abcd
      [[1, 2, 3, 4], [5, 6, 7, 8], [9, 10, 11, 12], [13, 14, 15, 16]] =
      .ok (true, [32, 48, 68, 92]) :=
  ⟨(boundary_pairs_shared (placed graph_abcd)).2.2 5
      ((add_2x2 2 4).set_placement Placement.INTERPRETER) 6
      ((add_2x2 4 3).set_placement Placement.INTERPRETER) (by decide) (by decide) 1 0 4
      (by decide) (by decide) (by decide) (by decide),
    by decide, by decide, by rfl⟩

theorem restore_relinked_input (f : Function) (hw : f.WellFormed) (c : Nat) (nd : Node)
    (hc : f.nodes[c]? = some nd) (o : Nat) (ho : o ∈ nd.args) :
    restore_input (split_function_by_placement f)
      (if is_split_edge f.nodes (o, c) then
        source_id f.nodes.length (key_index (o, placementOf f.nodes c) (boundary_keys f.nodes))
      else o) = o := by
  have hpl : placementOf f.nodes c = nd.placement := by unfold placementOf; rw [hc]
  have hmap : (split_function_by_placement f).map_parameter_to_result =
      boundary_map f.nodes.length (boundary_keys f.nodes) := rfl
  have hnodes : (split_function_by_placement f).nodes = split_nodes f.nodes := rfl
  unfold restore_input
  rw [hmap, hnodes]
  by_cases hcut : is_split_edge f.nodes (o, c) = true
  · rw [if_pos hcut, hpl]
    obtain ⟨hidx, hkey⟩ := boundary_key_of_split_input f c nd hc o ho hcut
    rw [lookup_boundary_map_source _ _ _ hidx]
    simp only
    rw [argsOf_split_sink f.nodes _ _ hkey]
    rfl
  · rw [if_neg hcut]
    have hlt : o < f.nodes.length := by
      have h1 := hw c nd hc o ho
      have h2 := (List.getElem?_eq_some.1 hc).1
      omega
    have hnone : (boundary_map f.nodes.length (boundary_keys f.nodes)).lookup o = none := by
      rw [List.lookup_eq_none_iff]
      intro p hp
      obtain ⟨k, _, h1, _⟩ := (mem_boundary_map _ _ p.1 p.2).1 hp
      simp only [bne_iff_ne, ne_eq]
      rw [h1]
      unfold source_id
      omega
    rw [hnone]

theorem restore_relinked_node (f : Function) (hw : f.WellFormed) (c : Nat) (nd : Node)
    (hc : f.nodes[c]? = some nd) :
    ((split_function_by_placement f).nodes[c]?).map (fun n =>
      (c, { n with args := n.args.map (restore_input (split_function_by_placement f)) })) =
      some (c, nd) := by
  have hlt : c < f.nodes.length := (List.getElem?_eq_some.1 hc).1
  have hnodes : (split_function_by_placement f).nodes = split_nodes f.nodes := rfl
  rw [hnodes, getElem?_split_nodes_original f.nodes c hlt, hc]
  simp only [Option.map_some', Option.some.injEq, Prod.mk.injEq, true_and]
  unfold relink_node
  simp only [List.map_map]
  have hargs : List.map (restore_input (split_function_by_placement f) ∘ fun o =>
      if is_split_edge f.nodes (o, c) then
        source_id f.nodes.length (key_index (o, placementOf f.nodes c) (boundary_keys f.nodes))
      else o) nd.args = nd.args := by
    conv_rhs => rw [← List.map_id nd.args]
    apply List.map_congr_left
    intro o ho
    exact restore_relinked_input f hw c nd hc o ho
  rw [hargs]

theorem mem_reconstruct_ids (f : Function) (i : Nat) :
    i ∈ (((split_function_by_placement f).sub_functions.flatMap (fun s => s.ops)).dedup).filter
      (fun i => decide
        (i ∉ (split_function_by_placement f).map_parameter_to_result.map Prod.fst ∧
          i ∉ (split_function_by_placement f).map_parameter_to_result.map Prod.snd)) ↔
    i < f.nodes.length := by
  have hmap : (split_function_by_placement f).map_parameter_to_result =
      boundary_map f.nodes.length (boundary_keys f.nodes) := rfl
  rw [List.mem_filter, List.mem_dedup, List.mem_flatMap, hmap]
  simp only [decide_eq_true_eq, List.mem_map, Prod.exists, exists_and_right, exists_eq_right]
  constructor
  · rintro ⟨⟨s, hs, his⟩, hnp, hnr⟩
    obtain ⟨r, _, rfl⟩ := (mem_split_sub_functions f s).1 hs
    rcases (mem_sub_function_ops f r i).1 his with ⟨k, hk, rfl⟩ | ⟨h, _⟩ | ⟨k, hk, rfl⟩
    · exfalso
      obtain ⟨o, c, _, _, hkey, _⟩ := (mem_sources_of f.nodes r k).1 hk
      exact hnp ⟨_, (mem_boundary_map _ _ _ _).2
        ⟨k, (List.getElem?_eq_some.1 hkey).1, rfl, rfl⟩⟩
    · exact h
    · exfalso
      obtain ⟨key, hkey, _⟩ := (mem_sinks_of f.nodes r k).1 hk
      exact hnr ⟨_, (mem_boundary_map _ _ _ _).2
        ⟨k, (List.getElem?_eq_some.1 hkey).1, rfl, rfl⟩⟩
  · intro hi
    obtain ⟨s, hs, his⟩ := original_node_in_sub_function f i hi
    refine ⟨⟨s, hs, his⟩, ?_, ?_⟩
    · rintro ⟨r, hpr⟩
      obtain ⟨k, _, h1, _⟩ := (mem_boundary_map _ _ _ _).1 hpr
      unfold source_id at h1; omega
    · rintro ⟨p, hpr⟩
      obtain ⟨k, _, _, h2⟩ := (mem_boundary_map _ _ _ _).1 hpr
      unfold sink_id at h2; omega

/-- C2. For every well-formed placement-annotated function, the union of the operations
of the sub-functions returned by the splitter, without the synthetic boundary nodes and
with every input that read a synthetic Parameter re-linked to the producer feeding the
paired Result, is the original graph: the same nodes under the same identities, up to
the order in which they are listed. -/
theorem split_reconstructs (f : Function) (hw : f.WellFormed) :
    (reconstruct (split_function_by_placement f)).Perm f.nodes.enum := by
  have hnd1 : (reconstruct (split_function_by_placement f)).Nodup := by
    unfold reconstruct
    apply List.Nodup.filterMap
    · intro a a' b hb hb'
      simp only [Option.mem_def, Option.map_eq_some'] at hb hb'
      obtain ⟨n, _, rfl⟩ := hb
      obtain ⟨n', _, h⟩ := hb'
      exact (Prod.mk.inj h).1.symm
    · exact List.Nodup.filter _ (List.nodup_dedup _)
  have hnd2 : f.nodes.enum.Nodup := by
    apply List.Nodup.of_map Prod.fst
    rw [List.enum_map_fst]
    exact List.nodup_range _
  rw [List.perm_ext_iff_of_nodup hnd1 hnd2]
  rintro ⟨i, nd⟩
  rw [List.mem_enum_iff_getElem?]
  unfold reconstruct
  rw [List.mem_filterMap]
  constructor
  · rintro ⟨j, hj, hjn⟩
    have hjlt := (mem_reconstruct_ids f j).1 hj
    have hget : f.nodes[j]? = some f.nodes[j] := List.getElem?_eq_getElem hjlt
    rw [restore_relinked_node f hw j _ hget] at hjn
    cases hjn
    exact hget
  · intro hi
    simp only at hi
    refine ⟨i, (mem_reconstruct_ids f i).2 (List.getElem?_eq_some.1 hi).1, ?_⟩
    exact restore_relinked_node f hw i nd hi


/-- C2, on `hybrid_abcd` and on `hybrid_back_and_forth`. -/
theorem split_reconstructs_witness :
    ((placed graph_abcd).WellFormed ∧
      (reconstruct (split_function_by_placement (placed graph_abcd))).Perm
        (placed graph_abcd).nodes.enum) ∧
    ((placed graph_back_and_forth).WellFormed ∧
      (reconstruct (split_function_by_placement (placed graph_back_and_forth))).Perm
        (placed graph_back_and_forth).nodes.enum) :=
  ⟨⟨by decide, split_reconstructs (placed graph_abcd) (by decide)⟩,
    ⟨by decide, split_reconstructs (placed graph_back_and_forth) (by decide)⟩⟩

theorem foldl_max_eq_zero (l : List Nat) (h : ∀ x ∈ l, x = 0) : l.foldl max 0 = 0 :=
  Nat.le_zero.1 (foldl_max_le l 0 0 (le_refl 0) (fun x hx => by rw [h x hx]))

theorem no_cut_edge_of_same_placement (f : Function)
    (hsame : ∀ nd ∈ f.nodes, ∀ nd' ∈ f.nodes, nd.placement = nd'.placement)
    (hw : f.WellFormed) (e : Nat × Nat) (he : e ∈ edges f.nodes) :
    is_cut_edge f.nodes e = false := by
  have hb := edge_bounds f hw e.1 e.2 he
  have h1 : e.1 < f.nodes.length := by omega
  unfold is_cut_edge placementOf
  rw [List.getElem?_eq_getElem h1, List.getElem?_eq_getElem hb.2]
  simp only [ne_eq, decide_eq_false_iff_not, not_not]
  exact hsame _ (List.getElem_mem h1) _ (List.getElem_mem hb.2)

/-- Without a cut edge every node has level 0. -/
theorem level_of_eq_zero (f : Function)
    (hsame : ∀ nd ∈ f.nodes, ∀ nd' ∈ f.nodes, nd.placement = nd'.placement)
    (hw : f.WellFormed) (x : Nat) : level_of f.nodes x = 0 := by
  by_cases hx : x < f.nodes.length
  · rw [level_of_eq f hw x hx]
    apply foldl_max_eq_zero
    intro v hv
    obtain ⟨c, hc, rfl⟩ := List.mem_map.1 hv
    have hcut := no_cut_edge_of_same_placement f hsame hw (x, c)
      ((mem_consumers f.nodes x c).1 hc)
    have hb := edge_bounds f hw x c ((mem_consumers f.nodes x c).1 hc)
    have ih := level_of_eq_zero f hsame hw c
    rw [ih, hcut]
    rfl
  · exact level_of_ge f.nodes x (by omega)
termination_by f.nodes.length - x

theorem group_of_eq_of_same_placement (f : Function)
    (hsame : ∀ nd ∈ f.nodes, ∀ nd' ∈ f.nodes, nd.placement = nd'.placement)
    (hw : f.WellFormed) (x y : Nat) (hx : x < f.nodes.length) (hy : y < f.nodes.length) :
    group_of f.nodes x = group_of f.nodes y := by
  rw [group_of_eq_iff f.nodes x y hx hy, level_of_eq_zero f hsame hw x,
    level_of_eq_zero f hsame hw y]
  refine ⟨rfl, ?_⟩
  unfold placementOf
  rw [List.getElem?_eq_getElem hx, List.getElem?_eq_getElem hy]
  exact hsame _ (List.getElem_mem hx) _ (List.getElem_mem hy)

theorem no_split_edge_of_same_placement (f : Function)
    (hsame : ∀ nd ∈ f.nodes, ∀ nd' ∈ f.nodes, nd.placement = nd'.placement)
    (hw : f.WellFormed) (e : Nat × Nat) (he : e ∈ edges f.nodes) :
    is_split_edge f.nodes e = false := by
  have hb := edge_bounds f hw e.1 e.2 he
  unfold is_split_edge
  simp only [ne_eq, decide_eq_false_iff_not, not_not]
  exact group_of_eq_of_same_placement f hsame hw e.1 e.2 (by omega) hb.2

theorem boundary_keys_eq_nil (f : Function)
    (hsame : ∀ nd ∈ f.nodes, ∀ nd' ∈ f.nodes, nd.placement = nd'.placement)
    (hw : f.WellFormed) : boundary_keys f.nodes = [] := by
  unfold boundary_keys
  have : (edges f.nodes).filter (is_split_edge f.nodes) = [] := by
    rw [List.filter_eq_nil_iff]
    intro e he
    rw [no_split_edge_of_same_placement f hsame hw e he]
    simp
  rw [this]
  rfl

theorem split_nodes_eq_self (f : Function)
    (hsame : ∀ nd ∈ f.nodes, ∀ nd' ∈ f.nodes, nd.placement = nd'.placement)
    (hw : f.WellFormed) : split_nodes f.nodes = f.nodes := by
  unfold split_nodes
  rw [boundary_keys_eq_nil f hsame hw]
  simp only [List.flatMap_nil, List.append_nil]
  apply List.ext_getElem?
  intro c
  rw [List.getElem?_mapIdx]
  cases hc : f.nodes[c]? with
  | none => rfl
  | some nd =>
    simp only [Option.map_some', Option.some.injEq]
    unfold relink_node
    have hargs : nd.args.map (fun o =>
        if is_split_edge f.nodes (o, c) then
          source_id f.nodes.length (key_index (o, placementOf f.nodes c) [])
        else o) = nd.args := by
      conv_rhs => rw [← List.map_id nd.args]
      apply List.map_congr_left
      intro o ho
      have he : (o, c) ∈ edges f.nodes := (mem_edges f.nodes o c).2 ⟨nd, hc, ho⟩
      rw [no_split_edge_of_same_placement f hsame hw (o, c) he]
      simp
    rw [hargs]

theorem length_eq_one_of_nodup_of_all_eq {l : List Nat} (hnd : l.Nodup) (a : Nat)
    (ha : a ∈ l) (hall : ∀ x ∈ l, x = a) : l.length = 1 := by
  cases l with
  | nil => simp at ha
  | cons x rest =>
    cases rest with
    | nil => rfl
    | cons y rest =>
      exfalso
      have hx := hall x (List.mem_cons_self _ _)
      have hy := hall y (List.mem_cons_of_mem _ (List.mem_cons_self _ _))
      rw [List.nodup_cons] at hnd
      apply hnd.1
      rw [hx, ← hy]
      exact List.mem_cons_self _ _

theorem sources_of_eq_nil (f : Function) (r : Nat) (h : boundary_keys f.nodes = []) :
    sources_of f.nodes r = [] := by
  unfold sources_of
  rw [h]
  rfl

theorem sinks_of_eq_nil (f : Function) (r : Nat) (h : boundary_keys f.nodes = []) :
    sinks_of f.nodes r = [] := by
  unfold sinks_of
  rw [h]
  rfl

/-- C3. For every well-formed function with at least one node in which all nodes carry
the same placement tag, the splitter returns exactly one sub-function, which holds every
node, the parameters and the results of the function, and an empty boundary map, and it
leaves the graph as it is. -/
theorem no_split_of_same_placement (f : Function) (hw : f.WellFormed)
    (hpos : 0 < f.nodes.length)
    (hsame : ∀ nd ∈ f.nodes, ∀ nd' ∈ f.nodes, nd.placement = nd'.placement) :
    (split_function_by_placement f).sub_functions =
      [{ ops := List.range f.nodes.length,
         parameters := f.parameters.filter (fun x => decide (x < f.nodes.length)),
         results := f.results.filter (fun x => decide (x < f.nodes.length)) }] ∧
    (split_function_by_placement f).map_parameter_to_result = [] ∧
    (split_function_by_placement f).nodes = f.nodes := by
  have hkeys := boundary_keys_eq_nil f hsame hw
  refine ⟨?_, ?_, split_nodes_eq_self f hsame hw⟩
  · have hlen : (split_function_by_placement f).sub_functions.length = 1 := by
      rw [length_split_sub_functions]
      apply length_eq_one_of_nodup_of_all_eq (nodup_groups f.nodes) (group_of f.nodes 0)
      · exact (mem_groups_iff f.nodes _).2 ⟨0, hpos, rfl⟩
      · intro r hr
        obtain ⟨x, hx, rfl⟩ := (mem_groups_iff f.nodes r).1 hr
        exact group_of_eq_of_same_placement f hsame hw x 0 hx hpos
    have hmem : sub_function_of f (group_of f.nodes 0) ∈
        (split_function_by_placement f).sub_functions :=
      (mem_split_sub_functions f _).2 ⟨_, (mem_groups_iff f.nodes _).2 ⟨0, hpos, rfl⟩, rfl⟩
    have hgroup : ∀ x, decide (group_of f.nodes x = group_of f.nodes 0) =
        decide (x < f.nodes.length) := by
      intro x
      by_cases hx : x < f.nodes.length
      · simp [hx, group_of_eq_of_same_placement f hsame hw x 0 hx hpos]
      · have h0 := (group_of_spec f.nodes 0 hpos).1
        rw [group_of_ge f.nodes x (by omega)]
        simp only [hx, decide_False, decide_eq_false_iff_not]
        omega
    have hsub : sub_function_of f (group_of f.nodes 0) =
        { ops := List.range f.nodes.length,
          parameters := f.parameters.filter (fun x => decide (x < f.nodes.length)),
          results := f.results.filter (fun x => decide (x < f.nodes.length)) } := by
      unfold sub_function_of
      rw [sources_of_eq_nil f _ hkeys, sinks_of_eq_nil f _ hkeys]
      simp only [List.map_nil, List.nil_append, List.append_nil, hgroup]
      congr 1
      rw [List.filter_eq_self]
      intro x hx
      simpa using hx
    rw [← hsub]
    cases hl : (split_function_by_placement f).sub_functions with
    | nil => rw [hl] at hlen; cases hlen
    | cons s rest =>
      cases rest with
      | nil =>
        rw [hl] at hmem
        rw [List.mem_singleton.1 hmem]
      | cons s2 rest => rw [hl] at hlen; simp at hlen
  · show boundary_map f.nodes.length (boundary_keys f.nodes) = []
    rw [hkeys]
    rfl

/-- C3, on `hybrid_no_split` and on two sums that share nothing: `C = A + B` under the
CPU-multiply policy gives one sub-function and an empty map, and evaluates to
[[6,8],[10,12]]; `E = A + B`, `F = C + D` gives one sub-function as well. -/
theorem no_split_of_same_placement_witness :
    (split_function_by_placement (placed graph_no_split)).sub_functions
        = [{ ops := [0, 1, 2, 3], parameters := [0, 1], results := [3] }] ∧
    (split_function_by_placement (placed graph_no_split)).map_parameter_to_result = [] ∧
    (split_function_by_placement (placed graph_no_split)).nodes =
      (placed graph_no_split).nodes ∧
    hybrid_test full_registry graph_no_split [[1, 2, 3, 4], [5, 6, 7, 8]] =
      .ok (true, [6, 8, 10, 12]) ∧
    (split_function_by_placement (placed graph_two_sums)).sub_functions
        = [{ ops := [0, 1, 2, 3, 4, 5, 6, 7], parameters := [0, 1, 2, 3], results := [6, 7] }] :=
  ⟨(no_split_of_same_placement (placed graph_no_split) (by decide) (by decide) (by decide)).1,
    (no_split_of_same_placement (placed graph_no_split) (by decide) (by decide)
      (by decide)).2.1,
    (no_split_of_same_placement (placed graph_no_split) (by decide) (by decide)
      (by decide)).2.2,
    by rfl,
    (no_split_of_same_placement (placed graph_two_sums) (by decide) (by decide)
      (by decide)).1⟩

/-! ## Theorems: the hybrid backend on the graphs of the tests -/

theorem dependenciesFirst_append (deps : Nat → List Nat) (done : List Nat) (r : Nat)
    (hdone : DependenciesFirst deps done) (hr : ∀ d ∈ deps r, d ∈ done) :
    DependenciesFirst deps (done ++ [r]) := by
  intro i x hi d hd
  by_cases hlt : i < done.length
  · rw [List.getElem?_append_left hlt] at hi
    rw [List.take_append_of_le_length (by omega)]
    exact hdone i x hi d hd
  · have hlen : (done ++ [r])[i]? = some x := hi
    have hi2 : i < (done ++ [r]).length := (List.getElem?_eq_some.1 hlen).1
    simp only [List.length_append, List.length_cons, List.length_nil] at hi2
    have hieq : i = done.length := by omega
    subst hieq
    rw [List.getElem?_append_right (le_refl _)] at hi
    simp only [Nat.sub_self, List.getElem?_cons_zero, Option.some.injEq] at hi
    subst hi
    rw [List.take_left]
    exact hr d hd

/-- With dependencies that strictly decrease a rank, `sort_components` lists every
group after the groups it depends on. -/
theorem sort_components_dependenciesFirst (deps : Nat → List Nat) (rank : Nat → Nat) :
    ∀ (fuel : Nat) (remaining done : List Nat),
      remaining.length ≤ fuel →
      (∀ r ∈ remaining, ∀ d ∈ deps r, d ∈ done ∨ (d ∈ remaining ∧ rank d < rank r)) →
      DependenciesFirst deps done →
      DependenciesFirst deps (sort_components deps fuel remaining done) := by
  have hempty : ∀ (remaining done : List Nat),
      (∀ r ∈ remaining, ∀ d ∈ deps r, d ∈ done ∨ (d ∈ remaining ∧ rank d < rank r)) →
      remaining.find? (fun r => (deps r).all (fun d => decide (d ∈ done))) = none →
      remaining = [] := by
    intro remaining done hdeps hfind
    rw [List.find?_eq_none] at hfind
    have hnone : ∀ k, ∀ r ∈ remaining, rank r = k → False := by
      intro k
      induction k using Nat.strong_induction_on with
      | _ k ih =>
        intro r hr hk
        have hnot := hfind r hr
        simp only [List.all_eq_true, decide_eq_true_eq, not_forall] at hnot
        obtain ⟨d, hd, hdn⟩ := hnot
        rcases hdeps r hr d hd with h | ⟨h1, h2⟩
        · exact hdn h
        · exact ih (rank d) (by omega) d h1 rfl
    cases remaining with
    | nil => rfl
    | cons r rest => exact (hnone (rank r) r (List.mem_cons_self _ _) rfl).elim
  intro fuel
  induction fuel with
  | zero =>
    intro remaining done hlen _ hdone
    have : remaining = [] := List.eq_nil_of_length_eq_zero (by omega)
    subst this
    unfold sort_components
    rw [List.append_nil]
    exact hdone
  | succ fuel ih =>
    intro remaining done hlen hdeps hdone
    unfold sort_components
    cases hfind : remaining.find? (fun r => (deps r).all (fun d => decide (d ∈ done))) with
    | none =>
      simp only
      rw [hempty remaining done hdeps hfind, List.append_nil]
      exact hdone
    | some r =>
      simp only
      have hmem : r ∈ remaining := List.mem_of_find?_eq_some hfind
      have hready := List.find?_some hfind
      simp only [List.all_eq_true, decide_eq_true_eq] at hready
      apply ih
      · rw [List.length_erase_of_mem hmem]
        have : 0 < remaining.length := List.length_pos_of_mem hmem
        omega
      · intro x hx d hd
        rcases hdeps x (List.mem_of_mem_erase hx) d hd with h | ⟨h1, h2⟩
        · exact Or.inl (List.mem_append_left _ h)
        · by_cases hdr : d = r
          · exact Or.inl (by rw [hdr]; simp)
          · exact Or.inr ⟨(List.mem_erase_of_ne hdr).2 h1, h2⟩
      · exact dependenciesFirst_append deps done r hdone hready

theorem mem_dependencies (f : Function) (r d : Nat)
    (hd : d ∈ dependencies f.nodes r) :
    ∃ o c k, (o, c) ∈ edges f.nodes ∧ is_split_edge f.nodes (o, c) = true ∧
      (boundary_keys f.nodes)[k]? = some (o, placementOf f.nodes c) ∧
      k ∈ sources_of f.nodes r ∧ group_of f.nodes c = r ∧ group_of f.nodes o = d := by
  unfold dependencies at hd
  obtain ⟨k, hk, hkd⟩ := List.mem_map.1 hd
  obtain ⟨o, c, he, hsplit, hkey, hc⟩ := (mem_sources_of f.nodes r k).1 hk
  rw [hkey] at hkd
  exact ⟨o, c, k, he, hsplit, hkey, hk, hc, hkd⟩

/-- The groups in the order of `sort_components`: every group comes after the groups
whose boundary pairs feed it. -/
theorem sorted_groups_dependenciesFirst (f : Function) (hw : f.WellFormed) :
    DependenciesFirst (dependencies f.nodes)
      (sort_components (dependencies f.nodes) (groups f.nodes).length (groups f.nodes) []) := by
  apply sort_components_dependenciesFirst (dependencies f.nodes)
    (fun r => f.nodes.length - level_of f.nodes r) _ _ _ (le_refl _)
  · intro r hr d hd
    obtain ⟨o, c, k, he, hsplit, _, _, hc, ho⟩ := mem_dependencies f r d hd
    have hb := edge_bounds f hw o c he
    have holt : o < f.nodes.length := by omega
    refine Or.inr ⟨(mem_groups_iff f.nodes d).2 ⟨o, holt, ho⟩, ?_⟩
    rw [← ho, ← hc, (group_of_spec f.nodes o holt).2.1, (group_of_spec f.nodes c hb.2).2.1]
    have h1 := level_of_split_edge f hw o c he hsplit
    have h2 := level_of_le f hw o
    omega
  · intro i r hi
    simp at hi

theorem lookup_boundary_map_original (n : Nat) (keys : List (Nat × Placement)) (p : Nat)
    (hp : p < n) : (boundary_map n keys).lookup p = none := by
  rw [List.lookup_eq_none_iff]
  intro q hq
  obtain ⟨k, _, h1, _⟩ := (mem_boundary_map _ _ q.1 q.2).1 hq
  simp only [bne_iff_ne, ne_eq]
  rw [h1]
  unfold source_id
  omega

theorem source_mem_sub_function_ops (f : Function) (r k : Nat) :
    source_id f.nodes.length k ∈ (sub_function_of f r).ops ↔ k ∈ sources_of f.nodes r := by
  rw [mem_sub_function_ops]
  constructor
  · rintro (⟨k2, hk2, h⟩ | ⟨h, _⟩ | ⟨k2, _, h⟩)
    · have : k = k2 := by unfold source_id at h; omega
      rw [this]; exact hk2
    · unfold source_id at h; omega
    · unfold source_id sink_id at h; omega
  · intro h
    exact Or.inl ⟨k, h, rfl⟩

theorem sink_mem_sub_function_ops (f : Function) (r k : Nat) :
    sink_id f.nodes.length k ∈ (sub_function_of f r).ops ↔ k ∈ sinks_of f.nodes r := by
  rw [mem_sub_function_ops]
  constructor
  · rintro (⟨k2, _, h⟩ | ⟨h, _⟩ | ⟨k2, hk2, h⟩)
    · unfold source_id sink_id at h; omega
    · unfold sink_id at h; omega
    · have : k = k2 := by unfold sink_id at h; omega
      rw [this]; exact hk2
  · intro h
    exact Or.inr (Or.inr ⟨k, h, rfl⟩)

/-- C4. For every well-formed function, the list of sub-functions returned by the
splitter is topologically ordered with respect to the boundary pairs: the Result that
the boundary map pairs with a parameter of a sub-function is a result of a sub-function
that stands earlier in the list; and for every entry (synthetic Parameter `p`, synthetic
Result `r`) of the boundary map some sub-function holds `r` and a later one holds `p`,
and every sub-function that holds `r` stands earlier than every sub-function that holds
`p`. -/
theorem split_topologically_ordered (f : Function) (hw : f.WellFormed) :
    TopologicallyOrdered (split_function_by_placement f).sub_functions
      (split_function_by_placement f).map_parameter_to_result ∧
    (∀ p r, (p, r) ∈ (split_function_by_placement f).map_parameter_to_result →
      (∃ (i j : Nat) (si sj : SubFunction),
        (split_function_by_placement f).sub_functions[i]? = some si ∧
        (split_function_by_placement f).sub_functions[j]? = some sj ∧
        r ∈ si.results ∧ p ∈ sj.parameters ∧ i < j) ∧
      (∀ (i j : Nat) (si sj : SubFunction),
        (split_function_by_placement f).sub_functions[i]? = some si →
        (split_function_by_placement f).sub_functions[j]? = some sj →
        r ∈ si.ops → p ∈ sj.ops → i < j)) := by
  have hsorted := sorted_groups_dependenciesFirst f hw
  have hperm := sort_components_perm (dependencies f.nodes) (groups f.nodes).length
    (groups f.nodes) []
  rw [List.nil_append] at hperm
  have hsubs : (split_function_by_placement f).sub_functions =
      (sort_components (dependencies f.nodes) (groups f.nodes).length
        (groups f.nodes) []).map (sub_function_of f) := rfl
  have hmap : (split_function_by_placement f).map_parameter_to_result =
      boundary_map f.nodes.length (boundary_keys f.nodes) := rfl
  rw [hsubs, hmap]
  generalize sort_components (dependencies f.nodes) (groups f.nodes).length
    (groups f.nodes) [] = sorted at hsorted hperm
  have hnodup : sorted.Nodup := hperm.nodup_iff.2 (nodup_groups f.nodes)
  have hpos : ∀ (i j : Nat) (ri rj : Nat), sorted[i]? = some ri → sorted[j]? = some rj →
      ri ∈ dependencies f.nodes rj → i < j := by
    intro i j ri rj hi hj hdep
    obtain ⟨i2, hi2, hget⟩ := List.mem_take_iff_getElem.1 (hsorted j rj hj ri hdep)
    have hi2j : i2 < j := (lt_min_iff.1 hi2).1
    have hi2s : i2 < sorted.length := (lt_min_iff.1 hi2).2
    obtain ⟨hil, hig⟩ := List.getElem?_eq_some.1 hi
    have : sorted[i2] = sorted[i] := by rw [hget, hig]
    have := (List.Nodup.getElem_inj_iff hnodup).1 this
    omega
  refine ⟨?_, ?_⟩
  · intro j hj p hp r hr
    rw [List.mem_range, List.length_map] at hj
    have hget : sorted[j]? = some sorted[j] := List.getElem?_eq_getElem hj
    have hgroup : sorted[j] ∈ groups f.nodes := hperm.mem_iff.1 (List.getElem_mem hj)
    rw [List.getD_eq_getElem?_getD, List.getElem?_map, hget] at hp
    simp only [Option.map_some', Option.getD_some] at hp
    rcases (mem_sub_function_parameters f _ p).1 hp with ⟨_, hpg⟩ | ⟨k, hk, rfl⟩
    · have hplt : p < f.nodes.length := group_of_eq_lt f.nodes p _ hgroup hpg
      rw [lookup_boundary_map_original _ _ p hplt] at hr
      simp at hr
    · obtain ⟨o, c, he, hsplit, hkey, hc⟩ := (mem_sources_of f.nodes _ k).1 hk
      rw [lookup_boundary_map_source _ _ k (List.getElem?_eq_some.1 hkey).1] at hr
      simp only [Option.toList_some, List.mem_singleton] at hr
      subst hr
      have hdep : group_of f.nodes o ∈ dependencies f.nodes sorted[j] := by
        unfold dependencies
        exact List.mem_map.2 ⟨k, hk, by rw [hkey]⟩
      refine ⟨sub_function_of f (group_of f.nodes o), ?_, ?_⟩
      · rw [← List.map_take]
        exact List.mem_map.2 ⟨_, hsorted j _ hget _ hdep, rfl⟩
      · exact (mem_sub_function_results f _ _).2
          (Or.inr ⟨k, (mem_sinks_of f.nodes _ k).2 ⟨_, hkey, rfl⟩, rfl⟩)
  · intro p r hpr
    obtain ⟨k, hk, rfl, rfl⟩ := (mem_boundary_map _ _ p r).1 hpr
    have hkey : (boundary_keys f.nodes)[k]? = some (boundary_keys f.nodes)[k] :=
      List.getElem?_eq_getElem hk
    obtain ⟨c, he, hsplit, hpl⟩ := (mem_boundary_keys f.nodes (boundary_keys f.nodes)[k].1
      (boundary_keys f.nodes)[k].2).1 (List.getElem_mem hk)
    have hb := edge_bounds f hw _ c he
    have hkey2 : (boundary_keys f.nodes)[k]? =
        some ((boundary_keys f.nodes)[k].1, placementOf f.nodes c) := by
      rw [hkey, hpl]
    have hsrc : k ∈ sources_of f.nodes (group_of f.nodes c) :=
      (mem_sources_of f.nodes _ k).2 ⟨_, c, he, hsplit, hkey2, rfl⟩
    have hsnk : k ∈ sinks_of f.nodes (group_of f.nodes (boundary_keys f.nodes)[k].1) :=
      (mem_sinks_of f.nodes _ k).2 ⟨_, hkey, rfl⟩
    have hdepk : ∀ rj, k ∈ sources_of f.nodes rj →
        group_of f.nodes (boundary_keys f.nodes)[k].1 ∈ dependencies f.nodes rj := by
      intro rj hrj
      unfold dependencies
      exact List.mem_map.2 ⟨k, hrj, by rw [hkey]⟩
    have hall : ∀ (i j : Nat) (si sj : SubFunction), (sorted.map (sub_function_of f))[i]? = some si →
        (sorted.map (sub_function_of f))[j]? = some sj →
        sink_id f.nodes.length k ∈ si.ops → source_id f.nodes.length k ∈ sj.ops → i < j := by
      intro i j si sj hi hj hri hpj
      rw [List.getElem?_map, Option.map_eq_some'] at hi hj
      obtain ⟨ri, hri2, rfl⟩ := hi
      obtain ⟨rj, hrj2, rfl⟩ := hj
      rw [sink_mem_sub_function_ops] at hri
      rw [source_mem_sub_function_ops] at hpj
      obtain ⟨key, hkey3, hg⟩ := (mem_sinks_of f.nodes ri k).1 hri
      rw [hkey] at hkey3
      cases hkey3
      exact hpos i j ri rj hri2 hrj2 (hg ▸ hdepk rj hpj)
    refine ⟨?_, hall⟩
    obtain ⟨j, hjl, hjg⟩ := List.getElem_of_mem (hperm.mem_iff.2
      ((mem_groups_iff f.nodes _).2 ⟨c, hb.2, rfl⟩))
    obtain ⟨i, hil, hig⟩ := List.getElem_of_mem (hperm.mem_iff.2
      ((mem_groups_iff f.nodes _).2 ⟨(boundary_keys f.nodes)[k].1, by omega, rfl⟩))
    have hi : (sorted.map (sub_function_of f))[i]? =
        some (sub_function_of f (group_of f.nodes (boundary_keys f.nodes)[k].1)) := by
      rw [List.getElem?_map, List.getElem?_eq_getElem hil, hig]; rfl
    have hj : (sorted.map (sub_function_of f))[j]? =
        some (sub_function_of f (group_of f.nodes c)) := by
      rw [List.getElem?_map, List.getElem?_eq_getElem hjl, hjg]; rfl
    exact ⟨i, j, _, _, hi, hj,
      (mem_sub_function_results f _ _).2 (Or.inr ⟨k, hsnk, rfl⟩),
      (mem_sub_function_parameters f _ _).2 (Or.inr ⟨k, hsrc, rfl⟩),
      hall i j _ _ hi hj ((sink_mem_sub_function_ops f _ k).2 hsnk)
        ((source_mem_sub_function_ops f _ k).2 hsrc)⟩

/-- C4, on `hybrid_back_and_forth` (`D = A * B`, `E = D + B`, `F = E * C`): the split
has five sub-functions, the one of `A` and `B` first, then those of `D`, of `C` and
`E`, of `F` and of the Result node in turn, and the list is topologically ordered. -/
theorem split_topologically_ordered_witness :
    (placed graph_back_and_forth).WellFormed ∧
    (split_function_by_placement (placed graph_back_and_forth)).sub_functions =
      [{ ops := [0, 1, 7, 9, 13], parameters := [0, 1], results := [7, 9, 13] },
       { ops := [8, 10, 3, 11], parameters := [8, 10], results := [11] },
       { ops := [12, 14, 2, 4, 15, 17], parameters := [2, 12, 14], results := [15, 17] },
       { ops := [16, 18, 5, 19], parameters := [16, 18], results := [19] },
       { ops := [20, 6], parameters := [20], results := [6] }] ∧
    (split_function_by_placement (placed graph_back_and_forth)).map_parameter_to_result =
      [(8, 7), (10, 9), (12, 11), (14, 13), (16, 15), (18, 17), (20, 19)] ∧
    TopologicallyOrdered
      (split_function_by_placement (placed graph_back_and_forth)).sub_functions
      (split_function_by_placement (placed graph_back_and_forth)).map_parameter_to_result :=
  ⟨by decide, by decide, by decide,
    (split_topologically_ordered (placed graph_back_and_forth) (by decide)).1⟩

/-! ## Theorems: the backend cache and the constructor -/

theorem lookup_raw_cache (hb : HybridBackend) (p : Placement) :
    hb.raw_cache.lookup p = (hb.m_cached_backends.lookup p).map some := by
  unfold HybridBackend.raw_cache
  induction hb.m_cached_backends with
  | nil => rfl
  | cons e rest ih =>
    obtain ⟨q, b⟩ := e
    simp only [List.map_cons, List.lookup_cons]
    cases h : (p == q) <;> simp [ih]

/-- The translation with the state kept agrees with `HybridBackend.get_cached_backend`,
whatever the order of the operands. -/
theorem get_cached_backend_outcome_eq {α : Type} (order : OperandOrder) (reg : Registry)
    (hb : HybridBackend) (rt : Runtime α) (p : Placement) :
    (∀ e, hb.get_cached_backend reg rt p = .error e ↔
      (get_cached_backend_outcome order reg hb.raw_cache rt p).1 = .error e) ∧
    (∀ be hb1 rt1, hb.get_cached_backend reg rt p = .ok (be, hb1, rt1) →
      get_cached_backend_outcome order reg hb.raw_cache rt p =
        (.ok (some be), hb1.raw_cache, rt1)) := by
  unfold HybridBackend.get_cached_backend get_cached_backend_outcome
  rw [lookup_raw_cache]
  cases hl : hb.m_cached_backends.lookup p with
  | some b =>
    simp only [Option.map_some']
    refine ⟨fun e => by simp, ?_⟩
    intro be hb1 rt1 h
    simp only [Except.ok.injEq, Prod.mk.injEq] at h
    obtain ⟨rfl, rfl, rfl⟩ := h
    rfl
  | none =>
    simp only [Option.map_none']
    cases order <;>
    · cases hc : (Backend.create reg rt p : Except Error (Backend × Runtime α)) with
      | error e1 => simp
      | ok res =>
        obtain ⟨b, rt2⟩ := res
        simp only
        refine ⟨fun e => by simp, ?_⟩
        intro be hb1 rt1 h
        simp only [Except.ok.injEq, Prod.mk.injEq] at h
        obtain ⟨rfl, rfl, rfl⟩ := h
        rfl

theorem compile_sub_functions_append {α : Type} [Add α] [Mul α] (reg : Registry)
    (nodes : List Node) (pre rest : List SubFunction) :
    ∀ (i : Nat) (hb : HybridBackend) (rt : Runtime α) (hm : List (Nat × Executable α)),
      compile_sub_functions reg nodes i (pre ++ rest) hb rt hm =
        match compile_sub_functions reg nodes i pre hb rt hm with
        | .error e => .error e
        | .ok (hm1, hb1, rt1) =>
          compile_sub_functions reg nodes (i + pre.length) rest hb1 rt1 hm1 := by
  induction pre with
  | nil => intro i hb rt hm; simp [compile_sub_functions]
  | cons s pre ih =>
    intro i hb rt hm
    simp only [List.cons_append, List.length_cons, compile_sub_functions]
    cases hbe : hb.get_cached_backend reg rt (get_colocated_function_placement nodes s) with
    | error e => rfl
    | ok res =>
      obtain ⟨be, hb2, rt2⟩ := res
      simp only
      cases hc : (be.compile reg nodes s : Except Error (Executable α)) with
      | error e => rfl
      | ok handle =>
        simp only
        have h1 := ih (i + 1) hb2 rt2 ((i, handle) :: hm)
        have : i + 1 + pre.length = i + (pre.length + 1) := by omega
        rw [this] at h1
        exact h1

/-- C14: `HybridBackend::compile` either fails or returns a complete executable. If
the loop of the constructor has compiled the sub-functions before `sub` and then
`get_cached_backend` fails for the placement of `sub`, or the backend's `compile` of
`sub` fails, with error `e`, then `HybridBackend::compile` fails with `e` (it yields no
executable). And whenever it yields an executable, the handle map of that executable
has a handle for every one of its sub-functions. -/
theorem compile_fails_or_is_complete {α : Type} [Add α] [Mul α] (reg : Registry)
    (hb : HybridBackend) (rt : Runtime α) (function : Function) :
    (∀ (pre : List SubFunction) (sub : SubFunction) (post : List SubFunction)
        (handles : List (Nat × Executable α)) (hb1 : HybridBackend) (rt1 : Runtime α)
        (e : Error),
      (split_function_by_placement (placed function)).sub_functions = pre ++ sub :: post →
      compile_sub_functions reg (split_function_by_placement (placed function)).nodes 0 pre
        hb rt [] = .ok (handles, hb1, rt1) →
      (hb1.get_cached_backend reg rt1 (get_colocated_function_placement
          (split_function_by_placement (placed function)).nodes sub) = .error e ∨
        ∃ (be : Backend) (hb2 : HybridBackend) (rt2 : Runtime α),
          hb1.get_cached_backend reg rt1 (get_colocated_function_placement
            (split_function_by_placement (placed function)).nodes sub) = .ok (be, hb2, rt2) ∧
          (be.compile reg (split_function_by_placement (placed function)).nodes sub :
            Except Error (Executable α)) = .error e) →
      (hb.compile reg rt function : Except Error (HybridExecutable α × HybridBackend × Runtime α))
        = .error e) ∧
    (∀ (exe : HybridExecutable α) (hb1 : HybridBackend) (rt1 : Runtime α),
      hb.compile reg rt function = .ok (exe, hb1, rt1) →
      ∀ (j : Nat) (sub : SubFunction), exe.m_sub_functions[j]? = some sub →
        ∃ h, exe.m_handle_map.lookup j = some h) := by
  constructor
  · intro pre sub post handles hb1 rt1 e hsplit hpre hfail
    unfold HybridBackend.compile HybridExecutable.new
    have hsplit2 : (split_function_by_placement
        (AssignPlacement.run_on_function int_with_cpu_mul_policy
          (clone_function function))).sub_functions = pre ++ sub :: post := hsplit
    have hpre2 : compile_sub_functions reg (split_function_by_placement
        (AssignPlacement.run_on_function int_with_cpu_mul_policy
          (clone_function function))).nodes 0 pre hb rt [] = .ok (handles, hb1, rt1) := hpre
    rw [hsplit2, compile_sub_functions_append, hpre2]
    simp only
    unfold compile_sub_functions
    rcases hfail with hget | ⟨be, hb2, rt2, hget, hcomp⟩
    · have hget2 : hb1.get_cached_backend reg rt1 (get_colocated_function_placement
          (split_function_by_placement (AssignPlacement.run_on_function int_with_cpu_mul_policy
            (clone_function function))).nodes sub) = .error e := hget
      rw [hget2]
    · have hget2 : hb1.get_cached_backend reg rt1 (get_colocated_function_placement
          (split_function_by_placement (AssignPlacement.run_on_function int_with_cpu_mul_policy
            (clone_function function))).nodes sub) = .ok (be, hb2, rt2) := hget
      have hcomp2 : (be.compile reg (split_function_by_placement
          (AssignPlacement.run_on_function int_with_cpu_mul_policy
            (clone_function function))).nodes sub : Except Error (Executable α)) = .error e :=
        hcomp
      rw [hget2]
      simp only
      rw [hcomp2]
  · intro exe hb1 rt1 h j sub hj
    unfold HybridBackend.compile HybridExecutable.new at h
    cases hc : compile_sub_functions reg (split_function_by_placement
        (AssignPlacement.run_on_function int_with_cpu_mul_policy
          (clone_function function))).nodes 0 (split_function_by_placement
        (AssignPlacement.run_on_function int_with_cpu_mul_policy
          (clone_function function))).sub_functions hb rt ([] : List (Nat × Executable α)) with
    | error e => rw [hc] at h; cases h
    | ok res =>
      obtain ⟨hm, hb2, rt2⟩ := res
      rw [hc] at h
      simp only [Except.ok.injEq, Prod.mk.injEq] at h
      obtain ⟨rfl, _, _⟩ := h
      obtain ⟨_, _, h3⟩ := compile_sub_functions_spec reg _ _ 0 hb rt [] hm hb2 rt2 hc
      obtain ⟨hd, hhd, _⟩ := h3 j sub hj
      exact ⟨hd, by simpa using hhd⟩

/-- C14 on the function of `hybrid_abc`: when the runtime cannot create the `CPU`
backend, or the `CPU` backend cannot compile `Multiply`, the second sub-function fails
and `compile` fails with that error; with every backend at hand the executable has a
handle for its last sub-function. -/
theorem compile_fails_or_is_complete_witness :
    ((HybridBackend.new int_with_cpu_mul_policy).compile registry_without_cpu
        empty_runtime graph_abc :
      Except Error (HybridExecutable Int × HybridBackend × Runtime Int))
      = .error Error.backend_unavailable ∧
    ((HybridBackend.new int_with_cpu_mul_policy).compile registry_without_multiply
        empty_runtime graph_abc :
      Except Error (HybridExecutable Int × HybridBackend × Runtime Int))
      = .error Error.compile_failed ∧
    ∃ (exe : HybridExecutable Int) (hb1 : HybridBackend) (rt1 : Runtime Int),
      (HybridBackend.new int_with_cpu_mul_policy).compile full_registry empty_runtime
        graph_abc = .ok (exe, hb1, rt1) ∧
      ∃ h, exe.m_handle_map.lookup 2 = some h := by
  refine ⟨?_, ?_, _, _, _, rfl, ?_⟩
  · exact (compile_fails_or_is_complete registry_without_cpu
      (HybridBackend.new int_with_cpu_mul_policy) empty_runtime graph_abc).1
      [{ ops := [0, 1, 2, 3, 6, 8], parameters := [0, 1, 2], results := [6, 8] }]
      { ops := [7, 9, 4, 10], parameters := [7, 9], results := [10] }
      [{ ops := [11, 5], parameters := [11], results := [5] }]
      _ _ _ Error.backend_unavailable (by rfl) (by rfl) (Or.inl (by rfl))
  · exact (compile_fails_or_is_complete registry_without_multiply
      (HybridBackend.new int_with_cpu_mul_policy) empty_runtime graph_abc).1
      [{ ops := [0, 1, 2, 3, 6, 8], parameters := [0, 1, 2], results := [6, 8] }]
      { ops := [7, 9, 4, 10], parameters := [7, 9], results := [10] }
      [{ ops := [11, 5], parameters := [11], results := [5] }]
      _ _ _ Error.compile_failed (by rfl) (by rfl) (Or.inr ⟨_, _, _, by rfl, by rfl⟩)
  · exact (compile_fails_or_is_complete full_registry
      (HybridBackend.new int_with_cpu_mul_policy) empty_runtime graph_abc).2 _ _ _ rfl 2
      { ops := [11, 5], parameters := [11], results := [5] } (by rfl)

/-! ## Theorems: the parameter tensors of a sub-function -/

theorem Live.lookup {α : Type} {m : List (Nat × Nat)} {rt : Runtime α} (h : Live m rt)
    {k v : Nat} (hk : m.lookup k = some v) : v < rt.tensors.length := by
  induction m with
  | nil => simp at hk
  | cons e rest ih =>
    obtain ⟨k1, v1⟩ := e
    rw [List.lookup_cons] at hk
    cases hkk : (k == k1)
    · rw [hkk] at hk
      exact ih (fun e he => h e (List.mem_cons_of_mem _ he)) hk
    · rw [hkk] at hk
      simp only [Option.some.injEq] at hk
      subst hk
      exact h (k1, v1) (List.mem_cons_self _ _)

theorem read_vector_ok {α : Type} (rt : Runtime α) (tv : Nat) (data : List α)
    (h : read_vector rt tv = .ok data) :
    ∃ t, rt.tensors[tv]? = some t ∧ t.element_type = ElementType.f32 ∧ data = t.data := by
  unfold read_vector at h
  cases ht : rt.tensors[tv]? with
  | none => rw [ht] at h; cases h
  | some t =>
    rw [ht] at h
    simp only at h
    by_cases hf : t.element_type = ElementType.f32
    · rw [if_pos hf] at h
      simp only [Except.ok.injEq] at h
      exact ⟨t, rfl, hf, h.symm⟩
    · rw [if_neg hf] at h; cases h

theorem copy_data_ok {α : Type} (rt rt2 : Runtime α) (tv : Nat) (data : List α)
    (h : copy_data rt tv data = .ok rt2) :
    ∃ t, rt.tensors[tv]? = some t ∧
      rt2 = { rt with tensors := rt.tensors.set tv { t with data := data } } := by
  unfold copy_data at h
  cases ht : rt.tensors[tv]? with
  | none => rw [ht] at h; cases h
  | some t =>
    rw [ht] at h
    simp only [Except.ok.injEq] at h
    exact ⟨t, rfl, h.symm⟩

/-- The effect of `create_tensor` followed by `copy_data` on the new tensor. -/
theorem create_and_copy {α : Type} [Inhabited α] (backend : Backend) (rt rt2 : Runtime α)
    (element_type : ElementType) (shape : List Nat) (data : List α)
    (h : copy_data (backend.create_tensor rt element_type shape).2
      (backend.create_tensor rt element_type shape).1 data = .ok rt2) :
    rt2 = { rt with tensors := rt.tensors ++
      [{ element_type := element_type, shape := shape, owner := backend, data := data }] } := by
  obtain ⟨t, ht, rfl⟩ := copy_data_ok _ _ _ _ h
  unfold Backend.create_tensor at ht ⊢
  simp only [List.getElem?_concat_length, Option.some.injEq] at ht
  subst ht
  simp

theorem prepare_parameters_append {α : Type} [Inhabited α] (exe : HybridExecutable α)
    (backend : Backend) (ps qs : List Nat) :
    ∀ (m : List (Nat × Nat)) (rt : Runtime α),
      prepare_parameters exe backend (ps ++ qs) m rt =
        match prepare_parameters exe backend ps m rt with
        | .error e => .error e
        | .ok (tvs, m1, rt1) =>
          match prepare_parameters exe backend qs m1 rt1 with
          | .error e => .error e
          | .ok (tvs2, m2, rt2) => .ok (tvs ++ tvs2, m2, rt2) := by
  induction ps with
  | nil =>
    intro m rt
    simp only [List.nil_append, prepare_parameters]
    cases prepare_parameters exe backend qs m rt with
    | error e => rfl
    | ok res => rfl
  | cons p ps ih =>
    intro m rt
    simp only [List.cons_append, prepare_parameters, List.append_eq]
    cases hp : m.lookup p with
    | some tv =>
      simp only
      rw [ih m rt]
      cases h1 : prepare_parameters exe backend ps m rt with
      | error e => rfl
      | ok res =>
        obtain ⟨tvs, m1, rt1⟩ := res
        simp only
        cases h2 : prepare_parameters exe backend qs m1 rt1 with
        | error e => rfl
        | ok res2 => rfl
    | none =>
      simp only
      cases hr : exe.m_map_parameter_to_result.lookup p with
      | none => rfl
      | some r =>
        simp only
        cases hmr : m.lookup r with
        | none => rfl
        | some result_tv =>
          simp only
          cases hread : read_vector (backend.create_tensor rt
              (elementTypeOf exe.m_function.nodes p) (shapeOf exe.m_function.nodes p)).2
              result_tv with
          | error e => rfl
          | ok data =>
            simp only
            cases hcopy : copy_data (backend.create_tensor rt
                (elementTypeOf exe.m_function.nodes p) (shapeOf exe.m_function.nodes p)).2
                (backend.create_tensor rt
                (elementTypeOf exe.m_function.nodes p) (shapeOf exe.m_function.nodes p)).1
                data with
            | error e => rfl
            | ok rt2 =>
              simp only
              rw [ih]
              cases h1 : prepare_parameters exe backend ps
                  ((p, (backend.create_tensor rt
                    (elementTypeOf exe.m_function.nodes p)
                    (shapeOf exe.m_function.nodes p)).1) :: m) rt2 with
              | error e => rfl
              | ok res =>
                obtain ⟨tvs, m1, rt1⟩ := res
                simp only
                cases h2 : prepare_parameters exe backend qs m1 rt1 with
                | error e => rfl
                | ok res2 => rfl

theorem prepare_parameters_frame {α : Type} [Inhabited α] (exe : HybridExecutable α)
    (backend : Backend) (ps : List Nat) :
    ∀ (m : List (Nat × Nat)) (rt : Runtime α) (tvs : List Nat) (m1 : List (Nat × Nat))
      (rt1 : Runtime α), Live m rt →
      prepare_parameters exe backend ps m rt = .ok (tvs, m1, rt1) →
      tvs.length = ps.length ∧ Live m1 rt1 ∧
      (∀ k v, m.lookup k = some v → m1.lookup k = some v) ∧
      rt.tensors.length ≤ rt1.tensors.length ∧
      (∀ i, i < rt.tensors.length → rt1.tensors[i]? = rt.tensors[i]?) := by
  induction ps with
  | nil =>
    intro m rt tvs m1 rt1 hl h
    simp only [prepare_parameters, Except.ok.injEq, Prod.mk.injEq] at h
    obtain ⟨rfl, rfl, rfl⟩ := h
    exact ⟨rfl, hl, fun k v hk => hk, le_refl _, fun i _ => rfl⟩
  | cons p ps ih =>
    intro m rt tvs m1 rt1 hl h
    simp only [prepare_parameters] at h
    cases hp : m.lookup p with
    | some tv =>
      rw [hp] at h
      simp only at h
      cases h1 : prepare_parameters exe backend ps m rt with
      | error e => rw [h1] at h; cases h
      | ok res =>
        obtain ⟨tvs1, m2, rt2⟩ := res
        rw [h1] at h
        simp only [Except.ok.injEq, Prod.mk.injEq] at h
        obtain ⟨rfl, rfl, rfl⟩ := h
        obtain ⟨a, b, c, d, e⟩ := ih m rt tvs1 m2 rt2 hl h1
        exact ⟨by simp [a], b, c, d, e⟩
    | none =>
      rw [hp] at h
      simp only at h
      cases hr : exe.m_map_parameter_to_result.lookup p with
      | none => rw [hr] at h; cases h
      | some r =>
        rw [hr] at h
        simp only at h
        cases hmr : m.lookup r with
        | none => rw [hmr] at h; cases h
        | some result_tv =>
          rw [hmr] at h
          simp only at h
          cases hread : read_vector (backend.create_tensor rt
              (elementTypeOf exe.m_function.nodes p) (shapeOf exe.m_function.nodes p)).2
              result_tv with
          | error e => rw [hread] at h; cases h
          | ok data =>
            rw [hread] at h
            simp only at h
            cases hcopy : copy_data (backend.create_tensor rt
                (elementTypeOf exe.m_function.nodes p) (shapeOf exe.m_function.nodes p)).2
                (backend.create_tensor rt
                (elementTypeOf exe.m_function.nodes p) (shapeOf exe.m_function.nodes p)).1
                data with
            | error e => rw [hcopy] at h; cases h
            | ok rt2 =>
              rw [hcopy] at h
              simp only at h
              have hrt2 := create_and_copy backend rt rt2 _ _ data hcopy
              have hn : (backend.create_tensor rt (elementTypeOf exe.m_function.nodes p)
                  (shapeOf exe.m_function.nodes p)).1 = rt.tensors.length := rfl
              rw [hn] at h
              cases h1 : prepare_parameters exe backend ps
                  ((p, rt.tensors.length) :: m) rt2 with
              | error e => rw [h1] at h; cases h
              | ok res =>
                obtain ⟨tvs1, m2, rt3⟩ := res
                rw [h1] at h
                simp only [Except.ok.injEq, Prod.mk.injEq] at h
                obtain ⟨rfl, rfl, rfl⟩ := h
                have hlen2 : rt2.tensors.length = rt.tensors.length + 1 := by
                  rw [hrt2]; simp
                have hl2 : Live ((p, rt.tensors.length) :: m) rt2 := by
                  intro e he
                  rcases List.mem_cons.1 he with rfl | he
                  · simp only; omega
                  · have := hl e he; omega
                obtain ⟨a, b, c, d, e⟩ := ih _ rt2 tvs1 m2 rt3 hl2 h1
                refine ⟨by simp [a], b, ?_, by omega, ?_⟩
                · intro k v hk
                  apply c
                  rw [List.lookup_cons]
                  have hne : (k == p) = false := by
                    cases hkp : (k == p)
                    · rfl
                    · simp only [beq_iff_eq] at hkp
                      subst hkp
                      rw [hp] at hk; cases hk
                  rw [hne]; exact hk
                · intro i hi
                  rw [e i (by omega), hrt2]
                  simp only
                  rw [List.getElem?_append_left hi]

theorem prepare_parameters_head {α : Type} [Inhabited α] (exe : HybridExecutable α)
    (backend : Backend) (p : Nat) (post : List Nat) (m : List (Nat × Nat)) (rt : Runtime α)
    (tvs : List Nat) (m1 : List (Nat × Nat)) (rt1 : Runtime α) (hl : Live m rt)
    (h : prepare_parameters exe backend (p :: post) m rt = .ok (tvs, m1, rt1)) :
    (∀ tv, m.lookup p = some tv →
      prepare_parameters exe backend [p] m rt = .ok ([tv], m, rt) ∧
      tvs[0]? = some tv ∧ m1.lookup p = some tv ∧ rt1.tensors[tv]? = rt.tensors[tv]?) ∧
    (m.lookup p = none →
      ∃ (r result_tv : Nat) (t : Tensor α),
        exe.m_map_parameter_to_result.lookup p = some r ∧ m.lookup r = some result_tv ∧
        rt.tensors[result_tv]? = some t ∧ t.element_type = ElementType.f32 ∧
        prepare_parameters exe backend [p] m rt =
          .ok ([rt.tensors.length], (p, rt.tensors.length) :: m,
            { rt with tensors := rt.tensors ++
              [{ element_type := elementTypeOf exe.m_function.nodes p,
                 shape := shapeOf exe.m_function.nodes p, owner := backend,
                 data := t.data }] }) ∧
        tvs[0]? = some rt.tensors.length ∧ m1.lookup p = some rt.tensors.length ∧
        rt1.tensors[rt.tensors.length]? =
          some { element_type := elementTypeOf exe.m_function.nodes p,
                 shape := shapeOf exe.m_function.nodes p, owner := backend,
                 data := t.data } ∧
        rt1.tensors[result_tv]? = some t) := by
  simp only [prepare_parameters] at h ⊢
  constructor
  · intro tv hp
    rw [hp] at h ⊢
    simp only at h ⊢
    cases h1 : prepare_parameters exe backend post m rt with
    | error e => rw [h1] at h; cases h
    | ok res =>
      obtain ⟨tvs1, m2, rt2⟩ := res
      rw [h1] at h
      simp only [Except.ok.injEq, Prod.mk.injEq] at h
      obtain ⟨rfl, rfl, rfl⟩ := h
      obtain ⟨_, _, c, _, e⟩ := prepare_parameters_frame exe backend post m rt tvs1 m2 rt2 hl h1
      exact ⟨by simp, by simp, c p tv hp, e tv (hl.lookup hp)⟩
  · intro hp
    rw [hp] at h ⊢
    simp only at h ⊢
    cases hr : exe.m_map_parameter_to_result.lookup p with
    | none => rw [hr] at h; cases h
    | some r =>
      rw [hr] at h
      simp only at h ⊢
      cases hmr : m.lookup r with
      | none => rw [hmr] at h; cases h
      | some result_tv =>
        rw [hmr] at h
        simp only at h ⊢
        cases hread : read_vector (backend.create_tensor rt
            (elementTypeOf exe.m_function.nodes p) (shapeOf exe.m_function.nodes p)).2
            result_tv with
        | error e => rw [hread] at h; cases h
        | ok data =>
          rw [hread] at h
          simp only at h ⊢
          cases hcopy : copy_data (backend.create_tensor rt
              (elementTypeOf exe.m_function.nodes p) (shapeOf exe.m_function.nodes p)).2
              (backend.create_tensor rt
              (elementTypeOf exe.m_function.nodes p) (shapeOf exe.m_function.nodes p)).1
              data with
          | error e => rw [hcopy] at h; cases h
          | ok rt2 =>
            rw [hcopy] at h
            simp only at h ⊢
            have hrt2 := create_and_copy backend rt rt2 _ _ data hcopy
            have hn : (backend.create_tensor rt (elementTypeOf exe.m_function.nodes p)
                (shapeOf exe.m_function.nodes p)).1 = rt.tensors.length := rfl
            rw [hn] at h ⊢
            have hlt : result_tv < rt.tensors.length := hl.lookup hmr
            obtain ⟨t, ht, hf32, hdata⟩ := read_vector_ok _ _ _ hread
            have ht2 : rt.tensors[result_tv]? = some t := by
              unfold Backend.create_tensor at ht
              simp only at ht
              rw [List.getElem?_append_left hlt] at ht
              exact ht
            subst hdata
            cases h1 : prepare_parameters exe backend post
                ((p, rt.tensors.length) :: m) rt2 with
            | error e => rw [h1] at h; cases h
            | ok res =>
              obtain ⟨tvs1, m2, rt3⟩ := res
              rw [h1] at h
              simp only [Except.ok.injEq, Prod.mk.injEq] at h
              obtain ⟨rfl, rfl, rfl⟩ := h
              have hlen2 : rt2.tensors.length = rt.tensors.length + 1 := by
                rw [hrt2]; simp
              have hl2 : Live ((p, rt.tensors.length) :: m) rt2 := by
                intro e he
                rcases List.mem_cons.1 he with rfl | he
                · simp only; omega
                · have := hl e he; omega
              obtain ⟨_, _, c, _, e⟩ := prepare_parameters_frame exe backend post _ rt2
                tvs1 m2 rt3 hl2 h1
              refine ⟨r, result_tv, t, rfl, hmr, ht2, hf32, ?_, by simp, ?_, ?_, ?_⟩
              · rw [hrt2]
              · exact c p _ (by simp)
              · rw [e _ (by omega), hrt2]
                simp
              · rw [e _ (by omega), hrt2]
                simp only
                rw [List.getElem?_append_left hlt]
                exact ht2

theorem prepare_parameters_step_bound {α : Type} [Inhabited α] (exe : HybridExecutable α)
    (backend : Backend) (p tv : Nat) (m : List (Nat × Nat)) (rt : Runtime α)
    (hp : m.lookup p = some tv) :
    prepare_parameters exe backend [p] m rt = .ok ([tv], m, rt) := by
  simp only [prepare_parameters]
  rw [hp]

theorem prepare_parameters_step_unbound {α : Type} [Inhabited α] (exe : HybridExecutable α)
    (backend : Backend) (p r result_tv : Nat) (t : Tensor α) (m : List (Nat × Nat))
    (rt : Runtime α) (hp : m.lookup p = none)
    (hr : exe.m_map_parameter_to_result.lookup p = some r)
    (hmr : m.lookup r = some result_tv) (ht : rt.tensors[result_tv]? = some t)
    (hf : t.element_type = ElementType.f32) :
    prepare_parameters exe backend [p] m rt =
      .ok ([rt.tensors.length], (p, rt.tensors.length) :: m,
        { rt with tensors := rt.tensors ++
          [{ element_type := elementTypeOf exe.m_function.nodes p,
             shape := shapeOf exe.m_function.nodes p, owner := backend,
             data := t.data }] }) := by
  have hlt : result_tv < rt.tensors.length := by
    rcases List.getElem?_eq_some.1 ht with ⟨h1, _⟩
    exact h1
  simp only [prepare_parameters]
  rw [hp]
  simp only
  rw [hr]
  simp only
  rw [hmr]
  simp only
  have hread : read_vector (backend.create_tensor rt
      (elementTypeOf exe.m_function.nodes p) (shapeOf exe.m_function.nodes p)).2 result_tv
      = .ok t.data := by
    unfold read_vector Backend.create_tensor
    simp only
    rw [List.getElem?_append_left hlt, ht]
    simp only
    rw [if_pos hf]
  rw [hread]
  simp only
  have hcopy : copy_data (backend.create_tensor rt
      (elementTypeOf exe.m_function.nodes p) (shapeOf exe.m_function.nodes p)).2
      (backend.create_tensor rt
      (elementTypeOf exe.m_function.nodes p) (shapeOf exe.m_function.nodes p)).1 t.data =
      .ok { rt with tensors := rt.tensors ++
          [{ element_type := elementTypeOf exe.m_function.nodes p,
             shape := shapeOf exe.m_function.nodes p, owner := backend,
             data := t.data }] } := by
    unfold copy_data Backend.create_tensor
    simp
  rw [hcopy]
  rfl

/-- C20 (as amended). Let the loop "Prepare parameter TensorViews" of `execute` have
reached parameter `p` of a sub-function (after the parameters `pre`) with the map `m0`
and the runtime state `rt0`, every pointer of the map being live.
If `p` is bound to `tv`, the step appends `tv` and changes neither the map nor the
runtime state (no tensor is allocated).
If `p` is not bound, the boundary map pairs it with `r`, `r` is bound to `result_tv`
and that tensor `t` has element type `f32`, the step creates one new tensor (pointer
`rt0.tensors.length`) owned by the sub-function's backend with the element type and
shape of `p` and the contents of `t`, binds `p` to it and appends it.
And if the whole loop completes, the tensor at the position of `p` in `parameter_tvs`
(the list handed to the handle) is the one bound to `p`: for a bound `p` the tensor it
had, unchanged; for an unbound `p` the new tensor, whose contents are those of the
`f32` tensor bound to its paired Result, which is unchanged too. -/
theorem prepare_parameter_tensors {α : Type} [Inhabited α] (exe : HybridExecutable α)
    (backend : Backend) (pre : List Nat) (p : Nat) (post : List Nat) (m : List (Nat × Nat))
    (rt : Runtime α) (tvs0 : List Nat) (m0 : List (Nat × Nat)) (rt0 : Runtime α)
    (hl : Live m rt) (h0 : prepare_parameters exe backend pre m rt = .ok (tvs0, m0, rt0)) :
    (∀ tv, m0.lookup p = some tv →
      prepare_parameters exe backend (pre ++ [p]) m rt = .ok (tvs0 ++ [tv], m0, rt0)) ∧
    (∀ (r result_tv : Nat) (t : Tensor α), m0.lookup p = none →
      exe.m_map_parameter_to_result.lookup p = some r → m0.lookup r = some result_tv →
      rt0.tensors[result_tv]? = some t → t.element_type = ElementType.f32 →
      prepare_parameters exe backend (pre ++ [p]) m rt =
        .ok (tvs0 ++ [rt0.tensors.length], (p, rt0.tensors.length) :: m0,
          { rt0 with tensors := rt0.tensors ++
            [{ element_type := elementTypeOf exe.m_function.nodes p,
               shape := shapeOf exe.m_function.nodes p, owner := backend,
               data := t.data }] })) ∧
    (∀ (tvs : List Nat) (m1 : List (Nat × Nat)) (rt1 : Runtime α),
      prepare_parameters exe backend (pre ++ p :: post) m rt = .ok (tvs, m1, rt1) →
      (∀ tv, m0.lookup p = some tv →
        tvs[pre.length]? = some tv ∧ m1.lookup p = some tv ∧
        rt1.tensors[tv]? = rt0.tensors[tv]?) ∧
      (m0.lookup p = none →
        ∃ (r result_tv : Nat) (t : Tensor α),
          exe.m_map_parameter_to_result.lookup p = some r ∧ m0.lookup r = some result_tv ∧
          rt0.tensors[result_tv]? = some t ∧ t.element_type = ElementType.f32 ∧
          tvs[pre.length]? = some rt0.tensors.length ∧
          m1.lookup p = some rt0.tensors.length ∧
          rt1.tensors[rt0.tensors.length]? =
            some { element_type := elementTypeOf exe.m_function.nodes p,
                   shape := shapeOf exe.m_function.nodes p, owner := backend,
                   data := t.data } ∧
          rt1.tensors[result_tv]? = some t)) := by
  refine ⟨?_, ?_, ?_⟩
  · intro tv hp
    rw [prepare_parameters_append, h0]
    simp only
    rw [prepare_parameters_step_bound exe backend p tv m0 rt0 hp]
  · intro r result_tv t hp hr hmr ht hf
    rw [prepare_parameters_append, h0]
    simp only
    rw [prepare_parameters_step_unbound exe backend p r result_tv t m0 rt0 hp hr hmr ht hf]
  · intro tvs m1 rt1 h
    rw [prepare_parameters_append, h0] at h
    simp only at h
    cases h1 : prepare_parameters exe backend (p :: post) m0 rt0 with
    | error e => rw [h1] at h; cases h
    | ok res1 =>
      obtain ⟨tvs1, m2, rt2⟩ := res1
      rw [h1] at h
      simp only [Except.ok.injEq, Prod.mk.injEq] at h
      obtain ⟨rfl, rfl, rfl⟩ := h
      obtain ⟨hlen0, hl0, _, _, _⟩ := prepare_parameters_frame exe backend pre m rt tvs0 m0 rt0
        hl h0
      obtain ⟨hb, hu⟩ := prepare_parameters_head exe backend p post m0 rt0 tvs1 m2 rt2 hl0 h1
      have hpos : (tvs0 ++ tvs1)[pre.length]? = tvs1[0]? := by
        rw [List.getElem?_append_right (by omega)]
        simp [hlen0]
      refine ⟨?_, ?_⟩
      · intro tv hp
        obtain ⟨_, b, c, d⟩ := hb tv hp
        exact ⟨by rw [hpos]; exact b, c, d⟩
      · intro hp
        obtain ⟨r, result_tv, t, a1, a2, a3, a4, _, a6, a7, a8, a9⟩ := hu hp
        exact ⟨r, result_tv, t, a1, a2, a3, a4, by rw [hpos]; exact a6, a7, a8, a9⟩

/-- C20 (as amended) on the partition of `hybrid_abc_manual`, when `execute` reaches
the sub-function `f1` on `CPU`: `P0` (node 7) gets the new tensor 6 with the contents of
`r0`, then `P1` (node 9) gets the new tensor 7 with the contents [[9,10],[11,12]] of
`r1`. -/
theorem prepare_parameter_tensors_witness :
    Live map_after_f0 runtime_after_f0 ∧
    prepare_parameters manual_abc_executable { id := 1, type := .CPU } [7] map_after_f0
      runtime_after_f0 =
      .ok ([6], (7, 6) :: map_after_f0,
        { backends_created := 2,
          tensors := runtime_after_f0.tensors ++
            [{ element_type := .f32, shape := [2, 2], owner := { id := 1, type := .CPU },
               data := [6, 8, 10, 12] }] }) ∧
    prepare_parameters manual_abc_executable { id := 1, type := .CPU } ([7] ++ [9])
      map_after_f0 runtime_after_f0 =
      .ok ([6] ++ [7], (9, 7) :: (7, 6) :: map_after_f0,
        { backends_created := 2,
          tensors := (runtime_after_f0.tensors ++
            [{ element_type := .f32, shape := [2, 2], owner := { id := 1, type := .CPU },
               data := [6, 8, 10, 12] }]) ++
            [{ element_type := .f32, shape := [2, 2], owner := { id := 1, type := .CPU },
               data := [9, 10, 11, 12] }] }) :=
  ⟨by decide, by rfl,
    (prepare_parameter_tensors manual_abc_executable { id := 1, type := .CPU } [7] 9 []
      map_after_f0 runtime_after_f0 [6] ((7, 6) :: map_after_f0)
      { backends_created := 2,
        tensors := runtime_after_f0.tensors ++
          [{ element_type := .f32, shape := [2, 2], owner := { id := 1, type := .CPU },
             data := [6, 8, 10, 12] }] }
      (by decide) (by rfl)).2.1 8 5 (tensor_2x2 [9, 10, 11, 12])
      (by rfl) (by rfl) (by rfl) (by rfl) (by rfl)⟩

/-- C20, as stated, fails for a parameter that is not `f32`: on the partition of
`hybrid_abc_manual` over `i64` nodes and tensors, parameter `P0` (node 7) is unbound
when `f1` is reached and its paired Result `R0` (node 6) is bound, yet
`read_vector<float>` cannot read the `i64` tensor: the loop, and with it `execute`,
ends with an error and no tensor is handed to the handle. -/
theorem copy_fails_for_i64_parameter :
    elementTypeOf manual_abc_executable_i64.m_function.nodes 7 = ElementType.i64 ∧
    map_after_f0.lookup 7 = none ∧
    manual_abc_executable_i64.m_map_parameter_to_result.lookup 7 = some 6 ∧
    map_after_f0.lookup 6 = some 4 ∧
    prepare_parameters manual_abc_executable_i64 { id := 1, type := .CPU } [7, 9]
      map_after_f0
      { backends_created := 2,
        tensors := runtime_after_f0.tensors.map
          (fun t => { t with element_type := ElementType.i64 }) }
      = .error Error.element_type_mismatch ∧
    manual_abc_executable_i64.execute full_registry warm_hybrid_backend runtime_abc_i64
      [3] [0, 1, 2] = .error Error.element_type_mismatch :=
  ⟨by rfl, by rfl, by rfl, by rfl, by rfl, by rfl⟩

/-! ## Theorems: the operation `Pad` -/

theorem subtract_or_zero_product (d p : Nat) :
    subtract_or_zero (d * (p + 1)) p = if d = 0 then 0 else d + (d - 1) * p := by
  unfold subtract_or_zero
  by_cases hd : d = 0
  · subst hd; simp
  · rw [if_neg hd]
    obtain ⟨k, rfl⟩ := Nat.exists_eq_succ_of_ne_zero hd
    have h1 : ¬ (p > (k + 1) * (p + 1)) := by
      have : (k + 1) * (p + 1) = k * (p + 1) + p + 1 := by ring
      omega
    rw [if_neg h1]
    have : (k + 1) * (p + 1) = k * p + k + p + 1 := by ring
    simp only [Nat.succ_eq_add_one, Nat.add_sub_cancel]
    rw [this]
    have h2 : k * p + k + p + 1 - p = k * p + k + 1 := by omega
    rw [h2]
    ring

theorem extent_value (d b a p : Nat) (hmul : d * (p + 1) < 2 ^ 64) :
    wrap_size_t (wrap_size_t (b +
      subtract_or_zero (wrap_size_t (d * wrap_size_t (p + 1))) p) + a) =
    padded_extent d b a p % 2 ^ 64 := by
  unfold wrap_size_t padded_extent
  by_cases hd : d = 0
  · subst hd
    simp [subtract_or_zero]
  · have hp1 : p + 1 < 2 ^ 64 := by
      have h1 : 1 ≤ d := Nat.one_le_iff_ne_zero.2 hd
      calc p + 1 = 1 * (p + 1) := by ring
        _ ≤ d * (p + 1) := Nat.mul_le_mul_right _ h1
        _ < 2 ^ 64 := hmul
    rw [Nat.mod_eq_of_lt hp1, Nat.mod_eq_of_lt hmul, subtract_or_zero_product, if_neg hd,
      if_neg hd, Nat.mod_add_mod]
    congr 1
    ring


theorem result_shape_ok (arg_shape padding_below padding_above padding_interior : List Nat)
    (hb : arg_shape.length = padding_below.length)
    (ha : arg_shape.length = padding_above.length)
    (hi : arg_shape.length = padding_interior.length) (is : List Nat)
    (his : ∀ i ∈ is, i < arg_shape.length) :
    ∃ xs, op.Pad.result_shape arg_shape padding_below padding_above padding_interior is
        = .ok xs ∧ xs.length = is.length ∧
      ∀ (j i : Nat), is[j]? = some i →
        ∃ b d p a, padding_below[i]? = some b ∧ arg_shape[i]? = some d ∧
          padding_interior[i]? = some p ∧ padding_above[i]? = some a ∧
          xs[j]? = some (wrap_size_t (wrap_size_t (b +
            subtract_or_zero (wrap_size_t (d * wrap_size_t (p + 1))) p) + a)) := by
  induction is with
  | nil => exact ⟨[], rfl, rfl, fun j i h => by simp at h⟩
  | cons i rest ih =>
    obtain ⟨xs, hxs, hlen, hval⟩ := ih (fun k hk => his k (List.mem_cons_of_mem _ hk))
    have hlt : i < arg_shape.length := his i (List.mem_cons_self _ _)
    obtain ⟨b, hb1⟩ : ∃ b, padding_below[i]? = some b :=
      ⟨padding_below[i], List.getElem?_eq_getElem (by omega)⟩
    obtain ⟨d, hd1⟩ : ∃ d, arg_shape[i]? = some d :=
      ⟨arg_shape[i], List.getElem?_eq_getElem (by omega)⟩
    obtain ⟨p, hp1⟩ : ∃ p, padding_interior[i]? = some p :=
      ⟨padding_interior[i], List.getElem?_eq_getElem (by omega)⟩
    obtain ⟨a, ha1⟩ : ∃ a, padding_above[i]? = some a :=
      ⟨padding_above[i], List.getElem?_eq_getElem (by omega)⟩
    refine ⟨wrap_size_t (wrap_size_t (b +
      subtract_or_zero (wrap_size_t (d * wrap_size_t (p + 1))) p) + a) :: xs, ?_,
      by simp [hlen], ?_⟩
    · simp only [op.Pad.result_shape, op.Pad.extent, hb1, hd1, hp1, ha1, hxs]
    · intro j k hj
      cases j with
      | zero =>
        simp only [List.getElem?_cons_zero, Option.some.injEq] at hj
        subst hj
        exact ⟨b, d, p, a, hb1, hd1, hp1, ha1, by simp⟩
      | succ j =>
        simp only [List.getElem?_cons_succ] at hj ⊢
        exact hval j k hj

theorem pad_new_of_valid (arg arg_pad_value : ValueType)
    (padding_below padding_above padding_interior : List Nat)
    (h1 : arg.element_type = arg_pad_value.element_type) (h2 : arg_pad_value.shape = [])
    (h3 : arg.shape.length = padding_below.length)
    (h4 : arg.shape.length = padding_above.length)
    (h5 : arg.shape.length = padding_interior.length) :
    ∃ xs, op.Pad.new arg arg_pad_value padding_below padding_above padding_interior =
        .ok { element_type := arg.element_type, shape := xs } ∧
      xs.length = arg.shape.length ∧
      ∀ (i : Nat), i < arg.shape.length →
        ∃ b d p a, padding_below[i]? = some b ∧ arg.shape[i]? = some d ∧
          padding_interior[i]? = some p ∧ padding_above[i]? = some a ∧
          xs[i]? = some (wrap_size_t (wrap_size_t (b +
            subtract_or_zero (wrap_size_t (d * wrap_size_t (p + 1))) p) + a)) := by
  obtain ⟨xs, hxs, hlen, hval⟩ := result_shape_ok arg.shape padding_below padding_above
    padding_interior h3 h4 h5 (List.range arg.shape.length) (fun i hi => by simpa using hi)
  refine ⟨xs, ?_, by simpa using hlen, ?_⟩
  · unfold op.Pad.new
    rw [if_neg (by simpa using h1), if_neg (by simpa using h2), if_neg (by simpa using h3),
      if_neg (by simpa using h4), if_neg (by simpa using h5), hxs]
  · intro i hi
    exact hval i i (by simp [hi])

/-- C17 (as amended). When the constructor of `op::Pad` passes validation, the output
has the element type and the rank of the data argument, and for every axis `i` with
input extent `d`, below `b`, above `a` and interior `p`: the output extent is the value
of `b + subtract_or_zero(d * (p + 1), p) + a` in `size_t` arithmetic; over the natural
numbers that expression equals `padded_extent d b a p` (`b + a` when `d = 0`,
`b + d + (d - 1) * p + a` when `d >= 1`); when `d * (p + 1)` does not overflow, the
output extent is `padded_extent d b a p` modulo 2^64; and it is `padded_extent d b a p`
itself when that sum does not overflow either. -/
theorem pad_output_type (arg arg_pad_value : ValueType)
    (padding_below padding_above padding_interior : List Nat) (out : ValueType)
    (h : op.Pad.new arg arg_pad_value padding_below padding_above padding_interior = .ok out) :
    out.element_type = arg.element_type ∧ out.shape.length = arg.shape.length ∧
    ∀ (i d b a p : Nat), arg.shape[i]? = some d → padding_below[i]? = some b →
      padding_above[i]? = some a → padding_interior[i]? = some p →
      out.shape[i]? = some (wrap_size_t (wrap_size_t (b +
        subtract_or_zero (wrap_size_t (d * wrap_size_t (p + 1))) p) + a)) ∧
      b + subtract_or_zero (d * (p + 1)) p + a = padded_extent d b a p ∧
      (d * (p + 1) < 2 ^ 64 → out.shape[i]? = some (padded_extent d b a p % 2 ^ 64)) ∧
      (d * (p + 1) < 2 ^ 64 → padded_extent d b a p < 2 ^ 64 →
        out.shape[i]? = some (padded_extent d b a p)) := by
  have hv : arg.element_type = arg_pad_value.element_type ∧ arg_pad_value.shape = [] ∧
      arg.shape.length = padding_below.length ∧ arg.shape.length = padding_above.length ∧
      arg.shape.length = padding_interior.length := by
    unfold op.Pad.new at h
    by_cases h1 : arg.element_type ≠ arg_pad_value.element_type
    · rw [if_pos h1] at h; cases h
    rw [if_neg h1] at h
    by_cases h2 : arg_pad_value.shape ≠ []
    · rw [if_pos h2] at h; cases h
    rw [if_neg h2] at h
    by_cases h3 : arg.shape.length ≠ padding_below.length
    · rw [if_pos h3] at h; cases h
    rw [if_neg h3] at h
    by_cases h4 : arg.shape.length ≠ padding_above.length
    · rw [if_pos h4] at h; cases h
    rw [if_neg h4] at h
    by_cases h5 : arg.shape.length ≠ padding_interior.length
    · rw [if_pos h5] at h; cases h
    exact ⟨not_not.1 h1, not_not.1 h2, not_not.1 h3, not_not.1 h4, not_not.1 h5⟩
  obtain ⟨h1, h2, h3, h4, h5⟩ := hv
  obtain ⟨xs, hnew, hlen, hval⟩ := pad_new_of_valid arg arg_pad_value padding_below
    padding_above padding_interior h1 h2 h3 h4 h5
  rw [hnew] at h
  simp only [Except.ok.injEq] at h
  subst h
  refine ⟨rfl, hlen, ?_⟩
  intro i d b a p hd hb ha hp
  have hi : i < arg.shape.length := (List.getElem?_eq_some.1 hd).1
  obtain ⟨b', d', p', a', hb', hd', hp', ha', hx⟩ := hval i hi
  rw [hb] at hb'; rw [hd] at hd'; rw [hp] at hp'; rw [ha] at ha'
  simp only [Option.some.injEq] at hb' hd' hp' ha'
  subst hb' hd' hp' ha'
  have hmath : b + subtract_or_zero (d * (p + 1)) p + a = padded_extent d b a p := by
    rw [subtract_or_zero_product]
    unfold padded_extent
    by_cases hd0 : d = 0
    · simp [hd0]
    · rw [if_neg hd0, if_neg hd0]; ring
  refine ⟨hx, hmath, ?_, ?_⟩
  · intro hmul
    rw [hx, extent_value d b a p hmul]
  · intro hmul hsum
    rw [hx, extent_value d b a p hmul, Nat.mod_eq_of_lt hsum]

/-- C17 (as amended) at the example of the comment in `pad.cpp`: a 2x2 argument padded
by 1 below, above and in the interior has shape 5x5. -/
theorem pad_output_type_witness :
    op.Pad.new { element_type := .f32, shape := [2, 2] } { element_type := .f32, shape := [] }
      [1, 1] [1, 1] [1, 1] = .ok { element_type := .f32, shape := [5, 5] } ∧
    ({ element_type := .f32, shape := [5, 5] } : ValueType).shape[0]? =
      some (padded_extent 2 1 1 1) :=
  ⟨by rfl,
    ((pad_output_type { element_type := .f32, shape := [2, 2] }
      { element_type := .f32, shape := [] } [1, 1] [1, 1] [1, 1]
      { element_type := .f32, shape := [5, 5] } (by rfl)).2.2 0 2 1 1 1 (by rfl) (by rfl)
      (by rfl) (by rfl)).2.2.2 (by decide) (by decide)⟩

/-- C17, as stated, fails when the sum overflows: an axis of extent 0 with
`padding_below = 2^64 - 1`, `padding_above = 1` and no interior padding passes
validation and `0 * (0 + 1)` does not overflow, but the output extent is 0 and not
`b + a = 2^64`. -/
theorem pad_extent_wraps :
    op.Pad.new { element_type := .f32, shape := [0] } { element_type := .f32, shape := [] }
      [2 ^ 64 - 1] [1] [0] = .ok { element_type := .f32, shape := [0] } ∧
    0 * (0 + 1) < 2 ^ 64 ∧ padded_extent 0 (2 ^ 64 - 1) 1 0 = 2 ^ 64 :=
  ⟨by rfl, by decide, by rfl⟩

/-- C18. The constructor of `op::Pad` fails if and only if the element types of the
two arguments differ, or the shape of the padding value is not the empty shape, or the
length of `padding_below`, `padding_above` or `padding_interior` differs from the rank
of the data argument; it never fails by reading past the end of a vector; and when it
yields a node, every index `i` below the rank, which are the indices the loop reads, is
within `padding_below`, `padding_above` and `padding_interior`. -/
theorem pad_validation (arg arg_pad_value : ValueType)
    (padding_below padding_above padding_interior : List Nat) :
    ((∃ e, op.Pad.new arg arg_pad_value padding_below padding_above padding_interior
        = .error e) ↔
      (arg.element_type ≠ arg_pad_value.element_type ∨ arg_pad_value.shape ≠ [] ∨
        padding_below.length ≠ arg.shape.length ∨ padding_above.length ≠ arg.shape.length ∨
        padding_interior.length ≠ arg.shape.length)) ∧
    op.Pad.new arg arg_pad_value padding_below padding_above padding_interior
      ≠ .error PadError.index_out_of_bounds ∧
    ((∃ out, op.Pad.new arg arg_pad_value padding_below padding_above padding_interior
        = .ok out) →
      ∀ i, i < arg.shape.length →
        i < padding_below.length ∧ i < padding_above.length ∧
        i < padding_interior.length) := by
  by_cases h1 : arg.element_type ≠ arg_pad_value.element_type
  · have : op.Pad.new arg arg_pad_value padding_below padding_above padding_interior =
        .error PadError.element_types_do_not_match := by
      unfold op.Pad.new; rw [if_pos h1]
    rw [this]
    exact ⟨⟨fun _ => Or.inl h1, fun _ => ⟨_, rfl⟩⟩, by simp, fun ⟨o, ho⟩ => by cases ho⟩
  by_cases h2 : arg_pad_value.shape ≠ []
  · have : op.Pad.new arg arg_pad_value padding_below padding_above padding_interior =
        .error PadError.padding_value_not_scalar := by
      unfold op.Pad.new; rw [if_neg h1, if_pos h2]
    rw [this]
    exact ⟨⟨fun _ => Or.inr (Or.inl h2), fun _ => ⟨_, rfl⟩⟩, by simp,
      fun ⟨o, ho⟩ => by cases ho⟩
  by_cases h3 : arg.shape.length ≠ padding_below.length
  · have : op.Pad.new arg arg_pad_value padding_below padding_above padding_interior =
        .error PadError.padding_below_rank := by
      unfold op.Pad.new; rw [if_neg h1, if_neg h2, if_pos h3]
    rw [this]
    exact ⟨⟨fun _ => Or.inr (Or.inr (Or.inl (Ne.symm h3))), fun _ => ⟨_, rfl⟩⟩, by simp,
      fun ⟨o, ho⟩ => by cases ho⟩
  by_cases h4 : arg.shape.length ≠ padding_above.length
  · have : op.Pad.new arg arg_pad_value padding_below padding_above padding_interior =
        .error PadError.padding_above_rank := by
      unfold op.Pad.new; rw [if_neg h1, if_neg h2, if_neg h3, if_pos h4]
    rw [this]
    exact ⟨⟨fun _ => Or.inr (Or.inr (Or.inr (Or.inl (Ne.symm h4)))), fun _ => ⟨_, rfl⟩⟩,
      by simp, fun ⟨o, ho⟩ => by cases ho⟩
  by_cases h5 : arg.shape.length ≠ padding_interior.length
  · have : op.Pad.new arg arg_pad_value padding_below padding_above padding_interior =
        .error PadError.padding_interior_rank := by
      unfold op.Pad.new; rw [if_neg h1, if_neg h2, if_neg h3, if_neg h4, if_pos h5]
    rw [this]
    exact ⟨⟨fun _ => Or.inr (Or.inr (Or.inr (Or.inr (Ne.symm h5)))), fun _ => ⟨_, rfl⟩⟩,
      by simp, fun ⟨o, ho⟩ => by cases ho⟩
  have e1 := not_not.1 h1
  have e2 := not_not.1 h2
  have e3 := not_not.1 h3
  have e4 := not_not.1 h4
  have e5 := not_not.1 h5
  obtain ⟨xs, hnew, _, _⟩ := pad_new_of_valid arg arg_pad_value padding_below
    padding_above padding_interior e1 e2 e3 e4 e5
  rw [hnew]
  refine ⟨⟨fun ⟨e, he⟩ => (by cases he), ?_⟩, by simp, fun _ i hi => by omega⟩
  rintro (h | h | h | h | h)
  · exact absurd e1 h
  · exact absurd e2 h
  · exact absurd e3.symm h
  · exact absurd e4.symm h
  · exact absurd e5.symm h

/-- C18 at two inputs: a padding value of another element type is rejected, and for
the 2x2 argument padded by 1 the index 1 is within the three padding vectors. -/
theorem pad_validation_witness :
    (∃ e, op.Pad.new { element_type := .f32, shape := [2, 2] }
      { element_type := .f64, shape := [] } [1, 1] [1, 1] [1, 1] = .error e) ∧
    (1 < [1, 1].length ∧ 1 < [1, 1].length ∧ 1 < [1, 1].length) :=
  ⟨(pad_validation { element_type := .f32, shape := [2, 2] }
      { element_type := .f64, shape := [] } [1, 1] [1, 1] [1, 1]).1.2 (Or.inl (by decide)),
    (pad_validation { element_type := .f32, shape := [2, 2] }
      { element_type := .f32, shape := [] } [1, 1] [1, 1] [1, 1]).2.2 ⟨_, rfl⟩ 1
      (by decide)⟩

/-! ## Theorems: running the placement pass twice, and the split of `hybrid_abc` -/

/-- C11 (as amended). For every function and every policy whose value does not depend
on the placement tag the node carries, running the placement pass twice gives the same
function, so every node has the same placement tag, as running it once. -/
theorem assign_placement_idempotent (policy : Node → Placement) (f : Function)
    (hpure : ∀ (n : Node) (p : Placement), policy (n.set_placement p) = policy n) :
    AssignPlacement.run_on_function policy (AssignPlacement.run_on_function policy f) =
      AssignPlacement.run_on_function policy f ∧
    ∀ i, placementOf
        (AssignPlacement.run_on_function policy (AssignPlacement.run_on_function policy f)).nodes
        i = placementOf (AssignPlacement.run_on_function policy f).nodes i := by
  have hnodes : (AssignPlacement.run_on_function policy
      (AssignPlacement.run_on_function policy f)).nodes =
      (AssignPlacement.run_on_function policy f).nodes := by
    apply List.ext_getElem?
    intro j
    rw [AssignPlacement.run_on_function_getElem?, AssignPlacement.run_on_function_getElem?]
    cases f.nodes[j]? with
    | none => rfl
    | some n =>
      simp only [Option.map_some', Option.some.injEq]
      rw [hpure]
      rfl
  have heq : AssignPlacement.run_on_function policy (AssignPlacement.run_on_function policy f) =
      AssignPlacement.run_on_function policy f := by
    have h1 : ∀ g : Function, (AssignPlacement.run_on_function policy g).parameters
        = g.parameters := fun g => rfl
    have h2 : ∀ g : Function, (AssignPlacement.run_on_function policy g).results
        = g.results := fun g => rfl
    cases hg : AssignPlacement.run_on_function policy
      (AssignPlacement.run_on_function policy f) with
    | mk ns ps rs =>
      cases hf : AssignPlacement.run_on_function policy f with
      | mk ns' ps' rs' =>
        have a := hnodes
        have b := h1 (AssignPlacement.run_on_function policy f)
        have c := h2 (AssignPlacement.run_on_function policy f)
        rw [hg, hf] at a b c
        simp only at a b c
        subst a b c
        rfl
  exact ⟨heq, fun i => by rw [heq]⟩

/-- C11 (as amended) for the two policies of the tests on `D = A + B`, `E = D * C`:
neither reads the tag, and a second run changes nothing. -/
theorem assign_placement_idempotent_witness :
    (∀ (n : Node) (p : Placement),
      int_with_cpu_mul_policy (n.set_placement p) = int_with_cpu_mul_policy n) ∧
    AssignPlacement.run_on_function int_with_cpu_mul_policy
        (AssignPlacement.run_on_function int_with_cpu_mul_policy graph_abc) =
      AssignPlacement.run_on_function int_with_cpu_mul_policy graph_abc ∧
    (AssignPlacement.run_on_function all_cpu_policy
        (AssignPlacement.run_on_function all_cpu_policy graph_abc)).nodes.map
      (fun n => n.placement) = List.replicate 6 Placement.CPU :=
  ⟨fun _ _ => rfl,
    (assign_placement_idempotent int_with_cpu_mul_policy graph_abc (fun _ _ => rfl)).1,
    by decide⟩

/-- C11, as stated, fails for a policy that reads the tag: with `alternating_policy` on
`C = A + B` one run tags node `A` with `CPU`, two runs tag it with `INTERPRETER`. -/
theorem assign_placement_twice_differs :
    placementOf (AssignPlacement.run_on_function alternating_policy graph_no_split).nodes 0
      = Placement.CPU ∧
    placementOf (AssignPlacement.run_on_function alternating_policy
      (AssignPlacement.run_on_function alternating_policy graph_no_split)).nodes 0
      = Placement.INTERPRETER :=
  ⟨by decide, by decide⟩

/-- C16 (as amended). For `D = A + B`, `E = D * C` with result `R` under the
CPU-multiply policy, the split puts the add (node 3), the multiply (node 4) and the
Result `R` (node 5) into three different sub-functions, on `INTERPRETER`, `CPU` and
`INTERPRETER`, joined by exactly three boundary pairs, one for each of the cut edges
`D -> E` (Result 6, Parameter 7), `C -> E` (Result 8, Parameter 9) and `E -> R`
(Result 10, Parameter 11). The hand partition of `hybrid_abc_manual` has the same three
pairs and three sub-functions, and the same arena. -/
theorem split_abc_three_boundary_pairs :
    (split_function_by_placement (placed graph_abc)).sub_functions =
      [{ ops := [0, 1, 2, 3, 6, 8], parameters := [0, 1, 2], results := [6, 8] },
       { ops := [7, 9, 4, 10], parameters := [7, 9], results := [10] },
       { ops := [11, 5], parameters := [11], results := [5] }] ∧
    (split_function_by_placement (placed graph_abc)).map_parameter_to_result =
      [(7, 6), (9, 8), (11, 10)] ∧
    (argsOf (split_function_by_placement (placed graph_abc)).nodes 6 = [3] ∧
      argsOf (split_function_by_placement (placed graph_abc)).nodes 8 = [2] ∧
      argsOf (split_function_by_placement (placed graph_abc)).nodes 10 = [4] ∧
      argsOf (split_function_by_placement (placed graph_abc)).nodes 4 = [7, 9] ∧
      argsOf (split_function_by_placement (placed graph_abc)).nodes 5 = [11]) ∧
    (split_function_by_placement (placed graph_abc)).sub_functions.map
        (get_colocated_function_placement
          (split_function_by_placement (placed graph_abc)).nodes) =
      [Placement.INTERPRETER, Placement.CPU, Placement.INTERPRETER] ∧
    manual_abc_executable.m_sub_functions =
      [{ ops := [0, 1, 2, 3, 6, 8], parameters := [0, 1, 2], results := [6, 8] },
       { ops := [7, 9, 4, 10], parameters := [7, 9], results := [10] },
       { ops := [11, 5], parameters := [11], results := [5] }] ∧
    manual_abc_executable.m_map_parameter_to_result = [(7, 6), (9, 8), (11, 10)] ∧
    (split_function_by_placement (placed graph_abc)).sub_functions =
      manual_abc_executable.m_sub_functions ∧
    (split_function_by_placement (placed graph_abc)).map_parameter_to_result =
      manual_abc_executable.m_map_parameter_to_result ∧
    (split_function_by_placement (placed graph_abc)).nodes = manual_abc_nodes :=
  ⟨by decide, by decide, by decide, by decide, rfl, rfl, by decide, by decide, by decide⟩

/-- C16, as stated, fails: neither the split of the model nor the hand partition of
`hybrid_abc_manual` has two sub-functions and one boundary pair. -/
theorem split_abc_is_not_two_and_one :
    ¬ ((split_function_by_placement (placed graph_abc)).sub_functions.length = 2 ∧
      (split_function_by_placement (placed graph_abc)).map_parameter_to_result.length = 1) ∧
    ¬ (manual_abc_executable.m_sub_functions.length = 2 ∧
      manual_abc_executable.m_map_parameter_to_result.length = 1) :=
  ⟨by decide, by decide⟩

/-! ## Theorems: two runs of `execute` -/

theorem get_cached_backend_tensors {α : Type} (reg : Registry) (hb hb1 : HybridBackend)
    (rt rt1 : Runtime α) (p : Placement) (be : Backend)
    (h : hb.get_cached_backend reg rt p = .ok (be, hb1, rt1)) :
    rt1.tensors = rt.tensors := by
  unfold HybridBackend.get_cached_backend at h
  cases hl : hb.m_cached_backends.lookup p with
  | some b =>
    rw [hl] at h
    simp only [Except.ok.injEq, Prod.mk.injEq] at h
    rw [← h.2.2]
  | none =>
    rw [hl] at h
    simp only at h
    cases hc : (Backend.create reg rt p : Except Error (Backend × Runtime α)) with
    | error e => rw [hc] at h; cases h
    | ok res =>
      obtain ⟨b, rt2⟩ := res
      rw [hc] at h
      simp only [Except.ok.injEq, Prod.mk.injEq] at h
      obtain ⟨_, _, rfl⟩ := h
      unfold Backend.create at hc
      split at hc
      · simp only [Except.ok.injEq, Prod.mk.injEq] at hc
        rw [← hc.2]
      · cases hc

theorem contents_congr {α : Type} (rt rt1 : Runtime α) (h : rt1.tensors = rt.tensors)
    (a : Nat) : contents rt1 a = contents rt a := by
  unfold contents
  rw [h]

theorem contents_copy_data {α : Type} (rt rt2 : Runtime α) (tv : Nat) (d : List α)
    (h : copy_data rt tv d = .ok rt2) :
    rt2.tensors.length = rt.tensors.length ∧
    contents rt2 tv = some d ∧ ∀ a, a ≠ tv → contents rt2 a = contents rt a := by
  unfold copy_data at h
  cases ht : rt.tensors[tv]? with
  | none => rw [ht] at h; cases h
  | some t =>
    rw [ht] at h
    simp only [Except.ok.injEq] at h
    subst h
    have hlt : tv < rt.tensors.length := (List.getElem?_eq_some.1 ht).1
    refine ⟨by simp, ?_, ?_⟩
    · unfold contents
      simp [hlt]
    · intro a ha
      unfold contents
      simp only
      rw [List.getElem?_set_ne (Ne.symm ha)]

theorem contents_create_tensor {α : Type} [Inhabited α] (be : Backend) (rt : Runtime α)
    (et : ElementType) (shape : List Nat) :
    (be.create_tensor rt et shape).1 = rt.tensors.length ∧
    (be.create_tensor rt et shape).2.tensors.length = rt.tensors.length + 1 ∧
    contents (be.create_tensor rt et shape).2 rt.tensors.length =
      some (List.replicate (shape.foldl (fun x y => x * y) 1) default) ∧
    ∀ a, a < rt.tensors.length →
      contents (be.create_tensor rt et shape).2 a = contents rt a := by
  unfold Backend.create_tensor contents
  refine ⟨rfl, by simp, by simp, ?_⟩
  intro a ha
  simp only
  rw [List.getElem?_append_left ha]

theorem read_vector_contents {α : Type} (rt : Runtime α) (tv : Nat) (data : List α)
    (h : read_vector rt tv = .ok data) : contents rt tv = some data := by
  unfold read_vector at h
  unfold contents
  cases ht : rt.tensors[tv]? with
  | none => rw [ht] at h; cases h
  | some t =>
    rw [ht] at h
    simp only at h
    split at h
    · simp only [Except.ok.injEq] at h
      simp [h]
    · cases h

theorem read_vectors_contents {α : Type} (rt : Runtime α) (tvs : List Nat) :
    ∀ (ds : List (List α)), read_vectors rt tvs = .ok ds →
      List.map some ds = tvs.map (contents rt) := by
  induction tvs with
  | nil =>
    intro ds h
    simp only [read_vectors, Except.ok.injEq] at h
    subst h
    rfl
  | cons tv rest ih =>
    intro ds h
    unfold read_vectors at h
    cases h1 : read_tensor rt tv with
    | error e => rw [h1] at h; simp at h
    | ok d =>
      rw [h1] at h
      cases h2 : read_vectors rt rest with
      | error e => rw [h2] at h; simp at h
      | ok ds1 =>
        rw [h2] at h
        simp only [Except.ok.injEq] at h
        subst h
        have hc : contents rt tv = some d := by
          unfold read_tensor at h1
          unfold contents
          cases ht : rt.tensors[tv]? with
          | none => rw [ht] at h1; cases h1
          | some t =>
            rw [ht] at h1
            simp only [Except.ok.injEq] at h1
            simp [h1]
        simp only [List.map_cons, hc, ih ds1 h2]

theorem prepare_parameters_lookups {α : Type} [Inhabited α] (exe : HybridExecutable α)
    (backend : Backend) (ps : List Nat) :
    ∀ (m : List (Nat × Nat)) (rt : Runtime α) (tvs : List Nat) (m1 : List (Nat × Nat))
      (rt1 : Runtime α),
      prepare_parameters exe backend ps m rt = .ok (tvs, m1, rt1) →
      (∀ k v, m.lookup k = some v → m1.lookup k = some v) ∧
      List.map some tvs = ps.map (fun p => m1.lookup p) := by
  induction ps with
  | nil =>
    intro m rt tvs m1 rt1 h
    simp only [prepare_parameters, Except.ok.injEq, Prod.mk.injEq] at h
    obtain ⟨rfl, rfl, rfl⟩ := h
    exact ⟨fun k v hk => hk, rfl⟩
  | cons p ps ih =>
    intro m rt tvs m1 rt1 h
    simp only [prepare_parameters] at h
    cases hp : m.lookup p with
    | some tv =>
      rw [hp] at h
      simp only at h
      cases h1 : prepare_parameters exe backend ps m rt with
      | error e => rw [h1] at h; cases h
      | ok res =>
        obtain ⟨tvs1, m2, rt2⟩ := res
        rw [h1] at h
        simp only [Except.ok.injEq, Prod.mk.injEq] at h
        obtain ⟨rfl, rfl, rfl⟩ := h
        obtain ⟨a, b⟩ := ih m rt tvs1 m2 rt2 h1
        refine ⟨a, ?_⟩
        simp only [List.map_cons, b, a p tv hp]
    | none =>
      rw [hp] at h
      simp only at h
      cases hr : exe.m_map_parameter_to_result.lookup p with
      | none => rw [hr] at h; cases h
      | some r =>
        rw [hr] at h
        simp only at h
        cases hmr : m.lookup r with
        | none => rw [hmr] at h; cases h
        | some result_tv =>
          rw [hmr] at h
          simp only at h
          cases hread : read_vector (backend.create_tensor rt
              (elementTypeOf exe.m_function.nodes p) (shapeOf exe.m_function.nodes p)).2
              result_tv with
          | error e => rw [hread] at h; cases h
          | ok data =>
            rw [hread] at h
            simp only at h
            cases hcopy : copy_data (backend.create_tensor rt
                (elementTypeOf exe.m_function.nodes p) (shapeOf exe.m_function.nodes p)).2
                (backend.create_tensor rt
                (elementTypeOf exe.m_function.nodes p) (shapeOf exe.m_function.nodes p)).1
                data with
            | error e => rw [hcopy] at h; cases h
            | ok rt2 =>
              rw [hcopy] at h
              simp only at h
              cases h1 : prepare_parameters exe backend ps
                  ((p, (backend.create_tensor rt (elementTypeOf exe.m_function.nodes p)
                    (shapeOf exe.m_function.nodes p)).1) :: m) rt2 with
              | error e => rw [h1] at h; cases h
              | ok res =>
                obtain ⟨tvs1, m2, rt3⟩ := res
                rw [h1] at h
                simp only [Except.ok.injEq, Prod.mk.injEq] at h
                obtain ⟨rfl, rfl, rfl⟩ := h
                obtain ⟨a, b⟩ := ih _ rt2 tvs1 m2 rt3 h1
                have hpn : m2.lookup p = some (backend.create_tensor rt
                    (elementTypeOf exe.m_function.nodes p)
                    (shapeOf exe.m_function.nodes p)).1 := a p _ (by simp)
                refine ⟨?_, ?_⟩
                · intro k v hk
                  apply a
                  rw [List.lookup_cons]
                  have hne : (k == p) = false := by
                    cases hkp : (k == p)
                    · rfl
                    · simp only [beq_iff_eq] at hkp
                      subst hkp
                      rw [hp] at hk; cases hk
                  rw [hne]; exact hk
                · simp only [List.map_cons, b, hpn]

theorem prepare_results_lookups {α : Type} [Inhabited α] (exe : HybridExecutable α)
    (backend : Backend) (rs : List Nat) :
    ∀ (m : List (Nat × Nat)) (rt : Runtime α),
      (∀ k v, m.lookup k = some v →
        (prepare_results exe backend rs m rt).2.1.lookup k = some v) ∧
      List.map some (prepare_results exe backend rs m rt).1 =
        rs.map (fun r => (prepare_results exe backend rs m rt).2.1.lookup r) := by
  induction rs with
  | nil => intro m rt; exact ⟨fun k v hk => hk, rfl⟩
  | cons r rs ih =>
    intro m rt
    simp only [prepare_results]
    cases hr : m.lookup r with
    | some tv =>
      simp only
      obtain ⟨a, b⟩ := ih m rt
      refine ⟨a, ?_⟩
      simp only [List.map_cons, b, a r tv hr]
    | none =>
      simp only
      obtain ⟨a, b⟩ := ih ((r, (backend.create_tensor rt
        (elementTypeOf exe.m_function.nodes r) (shapeOf exe.m_function.nodes r)).1) :: m)
        (backend.create_tensor rt
        (elementTypeOf exe.m_function.nodes r) (shapeOf exe.m_function.nodes r)).2
      have hrn := a r (backend.create_tensor rt
        (elementTypeOf exe.m_function.nodes r) (shapeOf exe.m_function.nodes r)).1
        (by rw [List.lookup_cons]; simp)
      refine ⟨?_, ?_⟩
      · intro k v hk
        apply a
        rw [List.lookup_cons]
        have hne : (k == r) = false := by
          cases hkp : (k == r)
          · rfl
          · simp only [beq_iff_eq] at hkp
            subst hkp
            rw [hr] at hk; cases hk
        rw [hne]; exact hk
      · simp only [List.map_cons, b, hrn]

theorem contents_append_left {α : Type} (rt rt2 : Runtime α) (t : Tensor α)
    (h : rt2.tensors = rt.tensors ++ [t]) (a : Nat) (ha : a < rt.tensors.length) :
    contents rt2 a = contents rt a := by
  unfold contents
  rw [h, List.getElem?_append_left ha]

theorem contents_append_new {α : Type} (rt rt2 : Runtime α) (t : Tensor α)
    (h : rt2.tensors = rt.tensors ++ [t]) :
    contents rt2 rt.tensors.length = some t.data := by
  unfold contents
  rw [h]
  simp

/-- Binding a node to a new tensor in both runs keeps the states corresponding, when the
two new tensors have equal contents. -/
theorem Corresponds.bind_new {α : Type} {R : List (Nat × Nat)} {G : Nat → Prop}
    {m m' : List (Nat × Nat)} {rt rt' : Runtime α} (h : Corresponds R G m m' rt rt')
    (rt2 rt2' : Runtime α) (t t' : Tensor α) (k : Nat)
    (h2 : rt2.tensors = rt.tensors ++ [t]) (h2' : rt2'.tensors = rt'.tensors ++ [t'])
    (hd : t.data = t'.data) :
    Corresponds ((rt.tensors.length, rt'.tensors.length) :: R) G
      ((k, rt.tensors.length) :: m) ((k, rt'.tensors.length) :: m') rt2 rt2' := by
  have hlen : rt2.tensors.length = rt.tensors.length + 1 := by rw [h2]; simp
  have hlen' : rt2'.tensors.length = rt'.tensors.length + 1 := by rw [h2']; simp
  constructor
  · intro q
    simp only [List.lookup_cons]
    cases hq : (q == k)
    · rcases h.lookups q with hn | ⟨a, a', e1, e2, e3⟩
      · exact Or.inl hn
      · exact Or.inr ⟨a, a', e1, e2, List.mem_cons_of_mem _ e3⟩
    · exact Or.inr ⟨_, _, rfl, rfl, List.mem_cons_self _ _⟩
  · intro x hx y hy
    rcases List.mem_cons.1 hx with rfl | hx <;> rcases List.mem_cons.1 hy with rfl | hy
    · simp
    · have := h.live y hy
      simp only
      constructor <;> intro e <;> omega
    · have := h.live x hx
      simp only
      constructor <;> intro e <;> omega
    · exact h.matching x hx y hy
  · intro x hx
    rcases List.mem_cons.1 hx with rfl | hx
    · simp only; omega
    · have := h.live x hx; omega
  · intro q a a' ha ha' hg
    simp only [List.lookup_cons] at ha ha'
    cases hq : (q == k)
    · rw [hq] at ha ha'
      rcases h.lookups q with ⟨hn, _⟩ | ⟨b, b', e1, e2, e3⟩
      · rw [hn] at ha; cases ha
      · rw [e1] at ha; rw [e2] at ha'
        simp only [Option.some.injEq] at ha ha'
        subst ha ha'
        have hl := h.live _ e3
        rw [contents_append_left rt rt2 t h2 _ hl.1, contents_append_left rt' rt2' t' h2' _ hl.2]
        exact h.agree q _ _ e1 e2 hg
    · rw [hq] at ha ha'
      simp only [Option.some.injEq] at ha ha'
      subst ha ha'
      rw [contents_append_new rt rt2 t h2, contents_append_new rt' rt2' t' h2', hd]

theorem Corresponds.weaken {α : Type} {R : List (Nat × Nat)} {G G' : Nat → Prop}
    {m m' : List (Nat × Nat)} {rt rt' : Runtime α} (h : Corresponds R G m m' rt rt')
    (hg : ∀ k, G' k → G k) : Corresponds R G' m m' rt rt' :=
  ⟨h.lookups, h.matching, h.live, fun k a a' ha ha' hk => h.agree k a a' ha ha' (hg k hk)⟩

theorem Corresponds.congr {α : Type} {R : List (Nat × Nat)} {G : Nat → Prop}
    {m m' : List (Nat × Nat)} {rt rt' : Runtime α} (h : Corresponds R G m m' rt rt')
    (rt1 rt1' : Runtime α) (h1 : rt1.tensors = rt.tensors) (h1' : rt1'.tensors = rt'.tensors) :
    Corresponds R G m m' rt1 rt1' := by
  refine ⟨h.lookups, h.matching, ?_, ?_⟩
  · intro x hx
    rw [h1, h1']
    exact h.live x hx
  · intro k a a' ha ha' hk
    rw [contents_congr rt rt1 h1, contents_congr rt' rt1' h1']
    exact h.agree k a a' ha ha' hk

theorem prepare_parameters_rel {α : Type} [Inhabited α] (exe : HybridExecutable α)
    (b b' : Backend) (G : Nat → Prop) (ps : List Nat) :
    (∀ p ∈ ps, ∀ r, exe.m_map_parameter_to_result.lookup p = some r → G r) →
    ∀ (R : List (Nat × Nat)) (m m' : List (Nat × Nat)) (rt rt' : Runtime α)
      (tvs : List Nat) (m1 : List (Nat × Nat)) (rt1 : Runtime α)
      (tvs' : List Nat) (m1' : List (Nat × Nat)) (rt1' : Runtime α),
      Corresponds R G m m' rt rt' →
      prepare_parameters exe b ps m rt = .ok (tvs, m1, rt1) →
      prepare_parameters exe b' ps m' rt' = .ok (tvs', m1', rt1') →
      ∃ R1, Corresponds R1 G m1 m1' rt1 rt1' := by
  induction ps with
  | nil =>
    intro _ R m m' rt rt' tvs m1 rt1 tvs' m1' rt1' hc h h'
    simp only [prepare_parameters, Except.ok.injEq, Prod.mk.injEq] at h h'
    obtain ⟨_, rfl, rfl⟩ := h
    obtain ⟨_, rfl, rfl⟩ := h'
    exact ⟨R, hc⟩
  | cons p ps ih =>
    intro hG R m m' rt rt' tvs m1 rt1 tvs' m1' rt1' hc h h'
    have hG2 : ∀ q ∈ ps, ∀ r, exe.m_map_parameter_to_result.lookup q = some r → G r :=
      fun q hq => hG q (List.mem_cons_of_mem _ hq)
    simp only [prepare_parameters] at h h'
    rcases hc.lookups p with ⟨hn, hn'⟩ | ⟨a, a', ha, ha', _⟩
    · rw [hn] at h
      rw [hn'] at h'
      simp only at h h'
      cases hr : exe.m_map_parameter_to_result.lookup p with
      | none => rw [hr] at h; cases h
      | some r =>
        rw [hr] at h h'
        simp only at h h'
        rcases hc.lookups r with ⟨hrn, _⟩ | ⟨c, c', hc1, hc2, hc3⟩
        · rw [hrn] at h; cases h
        · rw [hc1] at h
          rw [hc2] at h'
          simp only at h h'
          cases hread : read_vector (b.create_tensor rt
              (elementTypeOf exe.m_function.nodes p) (shapeOf exe.m_function.nodes p)).2 c with
          | error e => rw [hread] at h; cases h
          | ok data =>
            cases hread' : read_vector (b'.create_tensor rt'
                (elementTypeOf exe.m_function.nodes p) (shapeOf exe.m_function.nodes p)).2
                c' with
            | error e => rw [hread'] at h'; cases h'
            | ok data' =>
              rw [hread] at h
              rw [hread'] at h'
              simp only at h h'
              cases hcopy : copy_data (b.create_tensor rt
                  (elementTypeOf exe.m_function.nodes p) (shapeOf exe.m_function.nodes p)).2
                  (b.create_tensor rt
                  (elementTypeOf exe.m_function.nodes p) (shapeOf exe.m_function.nodes p)).1
                  data with
              | error e => rw [hcopy] at h; cases h
              | ok rt2 =>
                cases hcopy' : copy_data (b'.create_tensor rt'
                    (elementTypeOf exe.m_function.nodes p) (shapeOf exe.m_function.nodes p)).2
                    (b'.create_tensor rt'
                    (elementTypeOf exe.m_function.nodes p) (shapeOf exe.m_function.nodes p)).1
                    data' with
                | error e => rw [hcopy'] at h'; cases h'
                | ok rt2' =>
                  rw [hcopy] at h
                  rw [hcopy'] at h'
                  simp only at h h'
                  have hl := hc.live _ hc3
                  have hd : data = data' := by
                    have e1 := read_vector_contents _ _ _ hread
                    have e2 := read_vector_contents _ _ _ hread'
                    rw [(contents_create_tensor b rt _ _).2.2.2 c hl.1] at e1
                    rw [(contents_create_tensor b' rt' _ _).2.2.2 c' hl.2] at e2
                    have e3 := hc.agree r c c' hc1 hc2 (hG p (List.mem_cons_self _ _) r hr)
                    rw [e1, e2] at e3
                    exact Option.some.inj e3
                  subst hd
                  have hrt2 := create_and_copy b rt rt2 _ _ data hcopy
                  have hrt2' := create_and_copy b' rt' rt2' _ _ data hcopy'
                  have hnew := hc.bind_new rt2 rt2'
                    { element_type := elementTypeOf exe.m_function.nodes p,
                      shape := shapeOf exe.m_function.nodes p, owner := b, data := data }
                    { element_type := elementTypeOf exe.m_function.nodes p,
                      shape := shapeOf exe.m_function.nodes p, owner := b', data := data } p
                    (by rw [hrt2]) (by rw [hrt2']) rfl
                  have hn1 : (b.create_tensor rt (elementTypeOf exe.m_function.nodes p)
                      (shapeOf exe.m_function.nodes p)).1 = rt.tensors.length := rfl
                  have hn2 : (b'.create_tensor rt' (elementTypeOf exe.m_function.nodes p)
                      (shapeOf exe.m_function.nodes p)).1 = rt'.tensors.length := rfl
                  rw [hn1] at h
                  rw [hn2] at h'
                  cases h1 : prepare_parameters exe b ps ((p, rt.tensors.length) :: m) rt2 with
                  | error e => rw [h1] at h; cases h
                  | ok res =>
                    cases h1' : prepare_parameters exe b' ps
                        ((p, rt'.tensors.length) :: m') rt2' with
                    | error e => rw [h1'] at h'; cases h'
                    | ok res' =>
                      obtain ⟨t1, m2, rt3⟩ := res
                      obtain ⟨t1', m2', rt3'⟩ := res'
                      rw [h1] at h
                      rw [h1'] at h'
                      simp only [Except.ok.injEq, Prod.mk.injEq] at h h'
                      obtain ⟨_, rfl, rfl⟩ := h
                      obtain ⟨_, rfl, rfl⟩ := h'
                      exact ih hG2 _ _ _ _ _ _ _ _ _ _ _ hnew h1 h1'
    · rw [ha] at h
      rw [ha'] at h'
      simp only at h h'
      cases h1 : prepare_parameters exe b ps m rt with
      | error e => rw [h1] at h; cases h
      | ok res =>
        cases h1' : prepare_parameters exe b' ps m' rt' with
        | error e => rw [h1'] at h'; cases h'
        | ok res' =>
          obtain ⟨t1, m2, rt3⟩ := res
          obtain ⟨t1', m2', rt3'⟩ := res'
          rw [h1] at h
          rw [h1'] at h'
          simp only [Except.ok.injEq, Prod.mk.injEq] at h h'
          obtain ⟨_, rfl, rfl⟩ := h
          obtain ⟨_, rfl, rfl⟩ := h'
          exact ih hG2 _ _ _ _ _ _ _ _ _ _ _ hc h1 h1'

theorem prepare_results_rel {α : Type} [Inhabited α] (exe : HybridExecutable α)
    (b b' : Backend) (G : Nat → Prop) (rs : List Nat) :
    ∀ (R : List (Nat × Nat)) (m m' : List (Nat × Nat)) (rt rt' : Runtime α),
      Corresponds R G m m' rt rt' →
      ∃ R1, Corresponds R1 G (prepare_results exe b rs m rt).2.1
        (prepare_results exe b' rs m' rt').2.1 (prepare_results exe b rs m rt).2.2
        (prepare_results exe b' rs m' rt').2.2 := by
  induction rs with
  | nil => intro R m m' rt rt' hc; exact ⟨R, hc⟩
  | cons r rs ih =>
    intro R m m' rt rt' hc
    simp only [prepare_results]
    rcases hc.lookups r with ⟨hn, hn'⟩ | ⟨a, a', ha, ha', _⟩
    · rw [hn, hn']
      simp only
      have hnew := hc.bind_new (b.create_tensor rt (elementTypeOf exe.m_function.nodes r)
          (shapeOf exe.m_function.nodes r)).2
        (b'.create_tensor rt' (elementTypeOf exe.m_function.nodes r)
          (shapeOf exe.m_function.nodes r)).2 _ _ r rfl rfl rfl
      exact ih _ _ _ _ _ hnew
    · rw [ha, ha']
      simp only
      exact ih _ _ _ _ _ hc

theorem write_vectors_rel {α : Type} (R : List (Nat × Nat)) (hm : Matching R)
    (tvs : List Nat) :
    ∀ (tvs' : List Nat) (ds : List (List α)) (rt rt' rt1 rt1' : Runtime α),
      tvs.length = tvs'.length →
      (∀ x ∈ List.zip tvs tvs', x ∈ R) →
      write_vectors rt tvs ds = .ok rt1 → write_vectors rt' tvs' ds = .ok rt1' →
      rt1.tensors.length = rt.tensors.length ∧ rt1'.tensors.length = rt'.tensors.length ∧
      ∀ x ∈ R, (contents rt x.1 = contents rt' x.2 ∨ x.1 ∈ tvs) →
        contents rt1 x.1 = contents rt1' x.2 := by
  induction tvs with
  | nil =>
    intro tvs' ds rt rt' rt1 rt1' hlen hz h h'
    cases tvs' with
    | cons _ _ => simp at hlen
    | nil =>
      simp only [write_vectors, Except.ok.injEq] at h h'
      subst h h'
      refine ⟨rfl, rfl, ?_⟩
      intro x _ hx
      rcases hx with hx | hx
      · exact hx
      · simp at hx
  | cons tv rest ih =>
    intro tvs' ds rt rt' rt1 rt1' hlen hz h h'
    cases tvs' with
    | nil => simp at hlen
    | cons tv' rest' =>
      cases ds with
      | nil => simp [write_vectors] at h
      | cons d ds =>
        simp only [write_vectors] at h h'
        cases hc : copy_data rt tv d with
        | error e => rw [hc] at h; cases h
        | ok rt2 =>
          cases hc' : copy_data rt' tv' d with
          | error e => rw [hc'] at h'; cases h'
          | ok rt2' =>
            rw [hc] at h
            rw [hc'] at h'
            simp only at h h'
            obtain ⟨l1, c1, o1⟩ := contents_copy_data rt rt2 tv d hc
            obtain ⟨l1', c1', o1'⟩ := contents_copy_data rt' rt2' tv' d hc'
            have hpair : (tv, tv') ∈ R := hz (tv, tv') (by simp)
            obtain ⟨l2, l2', hrec⟩ := ih rest' ds rt2 rt2' rt1 rt1'
              (by simpa using hlen)
              (fun x hx => hz x (by
                simp only [List.zip_cons_cons]
                exact List.mem_cons_of_mem _ hx)) h h'
            refine ⟨by omega, by omega, ?_⟩
            intro x hx hcond
            apply hrec x hx
            have hiff := hm x hx (tv, tv') hpair
            simp only at hiff
            by_cases hxt : x.1 = tv
            · left
              have hxt' : x.2 = tv' := hiff.1 hxt
              rw [hxt, hxt', c1, c1']
            · have hxt' : x.2 ≠ tv' := fun e => hxt (hiff.2 e)
              rcases hcond with hcond | hcond
              · left
                rw [o1 _ hxt, o1' _ hxt', hcond]
              · right
                rcases List.mem_cons.1 hcond with e | e
                · exact absurd e hxt
                · exact e

/-- The tensors two corresponding states bind to the nodes of a list are pairs of `R`. -/
theorem Corresponds.pairs {α : Type} {R : List (Nat × Nat)} {G : Nat → Prop}
    {m m' : List (Nat × Nat)} {rt rt' : Runtime α} (h : Corresponds R G m m' rt rt')
    (ks : List Nat) :
    ∀ (tvs tvs' : List Nat), List.map some tvs = ks.map (fun k => m.lookup k) →
      List.map some tvs' = ks.map (fun k => m'.lookup k) →
      tvs.length = tvs'.length ∧ (∀ x ∈ List.zip tvs tvs', x ∈ R) ∧
      ((∀ k ∈ ks, G k) → tvs.map (contents rt) = tvs'.map (contents rt')) ∧
      (∀ k ∈ ks, ∀ a, m.lookup k = some a → a ∈ tvs) := by
  induction ks with
  | nil =>
    intro tvs tvs' e e'
    simp only [List.map_nil, List.map_eq_nil_iff] at e e'
    subst e e'
    exact ⟨rfl, by simp, fun _ => rfl, by simp⟩
  | cons k ks ih =>
    intro tvs tvs' e e'
    cases tvs with
    | nil => simp at e
    | cons a tvs =>
      cases tvs' with
      | nil => simp at e'
      | cons a' tvs' =>
        simp only [List.map_cons, List.cons.injEq] at e e'
        obtain ⟨i1, i2, i3, i4⟩ := ih tvs tvs' e.2 e'.2
        have hpair : (a, a') ∈ R := by
          rcases h.lookups k with ⟨hn, _⟩ | ⟨c, c', hc1, hc2, hc3⟩
          · rw [hn] at e; cases e.1
          · rw [hc1] at e; rw [hc2] at e'
            have e1 := e.1
            have e2 := e'.1
            simp only [Option.some.injEq] at e1 e2
            subst e1 e2
            exact hc3
        refine ⟨by simp [i1], ?_, ?_, ?_⟩
        · intro x hx
          simp only [List.zip_cons_cons] at hx
          rcases List.mem_cons.1 hx with rfl | hx
          · exact hpair
          · exact i2 x hx
        · intro hg
          simp only [List.map_cons]
          rw [i3 (fun q hq => hg q (List.mem_cons_of_mem _ hq)),
            h.agree k a a' e.1.symm e'.1.symm (hg k (List.mem_cons_self _ _))]
        · intro q hq c hqc
          rcases List.mem_cons.1 hq with rfl | hq
          · rw [hqc] at e
            have e1 := e.1
            simp only [Option.some.injEq] at e1
            subst e1
            exact List.mem_cons_self _ _
          · exact List.mem_cons_of_mem _ (i4 q hq c hqc)

theorem lookups_transfer (ks : List Nat) (m m1 : List (Nat × Nat))
    (hpres : ∀ k v, m.lookup k = some v → m1.lookup k = some v) :
    ∀ (tvs : List Nat), List.map some tvs = ks.map (fun k => m.lookup k) →
      List.map some tvs = ks.map (fun k => m1.lookup k) := by
  induction ks with
  | nil => intro tvs e; exact e
  | cons k ks ih =>
    intro tvs e
    cases tvs with
    | nil => simp at e
    | cons a tvs =>
      simp only [List.map_cons, List.cons.injEq] at e ⊢
      exact ⟨(hpres k a e.1.symm).symm, ih tvs e.2⟩

theorem call_handle_rel {α : Type} (exe : HybridExecutable α) (i : Nat)
    (R : List (Nat × Nat)) (hm : Matching R) (result_tvs parameter_tvs : List Nat)
    (result_tvs' parameter_tvs' : List Nat) (rt rt' rt1 rt1' : Runtime α)
    (hin : parameter_tvs.map (contents rt) = parameter_tvs'.map (contents rt'))
    (hlen : result_tvs.length = result_tvs'.length)
    (hz : ∀ x ∈ List.zip result_tvs result_tvs', x ∈ R)
    (h : call_handle exe i result_tvs parameter_tvs rt = .ok rt1)
    (h' : call_handle exe i result_tvs' parameter_tvs' rt' = .ok rt1') :
    rt1.tensors.length = rt.tensors.length ∧ rt1'.tensors.length = rt'.tensors.length ∧
    ∀ x ∈ R, (contents rt x.1 = contents rt' x.2 ∨ x.1 ∈ result_tvs) →
      contents rt1 x.1 = contents rt1' x.2 := by
  unfold call_handle at h h'
  cases hh : exe.m_handle_map.lookup i with
  | none => rw [hh] at h; cases h
  | some handle =>
    rw [hh] at h h'
    simp only at h h'
    cases hr : read_vectors rt parameter_tvs with
    | error e => rw [hr] at h; cases h
    | ok inputs =>
      cases hr' : read_vectors rt' parameter_tvs' with
      | error e => rw [hr'] at h'; cases h'
      | ok inputs' =>
        rw [hr] at h
        rw [hr'] at h'
        simp only at h h'
        have e1 := read_vectors_contents rt parameter_tvs inputs hr
        have e2 := read_vectors_contents rt' parameter_tvs' inputs' hr'
        have e3 : List.map some inputs = List.map some inputs' := by rw [e1, e2, hin]
        have e4 : inputs = inputs' :=
          List.map_injective_iff.2 (Option.some_injective _) e3
        subst e4
        cases hc : handle.call inputs with
        | none => rw [hc] at h; cases h
        | some outputs =>
          rw [hc] at h h'
          simp only at h h'
          exact write_vectors_rel R hm result_tvs result_tvs' outputs.2 rt rt' rt1 rt1' hlen hz h h'

theorem call_sub_functions_rel {α : Type} [Inhabited α] (reg reg' : Registry)
    (exe : HybridExecutable α) (hV1 : exe.TopologicallyOrdered)
    (hV4 : ∀ s ∈ exe.m_sub_functions, ∀ p ∈ s.parameters, p ∉ exe.m_function.results)
    (rest : List SubFunction) :
    ∀ (i : Nat), exe.m_sub_functions.drop i = rest →
    ∀ (R : List (Nat × Nat)) (hb hb' : HybridBackend) (m m' : List (Nat × Nat))
      (rt rt' : Runtime α) (hb1 : HybridBackend) (m1 : List (Nat × Nat)) (rt1 : Runtime α)
      (hb1' : HybridBackend) (m1' : List (Nat × Nat)) (rt1' : Runtime α),
      Corresponds R (Produced exe i) m m' rt rt' →
      call_sub_functions reg exe i rest hb m rt = .ok (hb1, m1, rt1) →
      call_sub_functions reg' exe i rest hb' m' rt' = .ok (hb1', m1', rt1') →
      ∃ R1, Corresponds R1 (Produced exe exe.m_sub_functions.length) m1 m1' rt1 rt1' := by
  induction rest with
  | nil =>
    intro i hdrop R hb hb' m m' rt rt' hb1 m1 rt1 hb1' m1' rt1' hc h h'
    simp only [call_sub_functions, Except.ok.injEq, Prod.mk.injEq] at h h'
    obtain ⟨_, rfl, rfl⟩ := h
    obtain ⟨_, rfl, rfl⟩ := h'
    have hle : exe.m_sub_functions.length ≤ i := List.drop_eq_nil_iff.1 hdrop
    refine ⟨R, hc.weaken ?_⟩
    intro k hk
    rcases hk with hk | ⟨j, hj, s, hs, hks⟩
    · exact Or.inl hk
    · exact Or.inr ⟨j, by omega, s, hs, hks⟩
  | cons s rest ih =>
    intro i hdrop R hb hb' m m' rt rt' hb1 m1 rt1 hb1' m1' rt1' hc h h'
    have hi : exe.m_sub_functions[i]? = some s := by
      have := congrArg (fun l => l[0]?) hdrop
      simpa using this
    have hilt : i < exe.m_sub_functions.length := (List.getElem?_eq_some.1 hi).1
    have hdrop2 : exe.m_sub_functions.drop (i + 1) = rest := by
      have := congrArg List.tail hdrop
      simpa using this
    have hsmem : s ∈ exe.m_sub_functions := by
      obtain ⟨hlt, he⟩ := List.getElem?_eq_some.1 hi
      rw [← he]
      exact List.getElem_mem _
    simp only [call_sub_functions] at h h'
    cases hg : hb.get_cached_backend reg rt
        (get_colocated_function_placement exe.m_function.nodes s) with
    | error e => rw [hg] at h; cases h
    | ok res =>
      cases hg' : hb'.get_cached_backend reg' rt'
          (get_colocated_function_placement exe.m_function.nodes s) with
      | error e => rw [hg'] at h'; cases h'
      | ok res' =>
        obtain ⟨be, hb2, rta⟩ := res
        obtain ⟨be', hb2', rta'⟩ := res'
        rw [hg] at h
        rw [hg'] at h'
        simp only at h h'
        have hca := hc.congr rta rta' (get_cached_backend_tensors _ _ _ _ _ _ _ hg)
          (get_cached_backend_tensors _ _ _ _ _ _ _ hg')
        cases hp : prepare_parameters exe be s.parameters m rta with
        | error e => rw [hp] at h; cases h
        | ok resp =>
          cases hp' : prepare_parameters exe be' s.parameters m' rta' with
          | error e => rw [hp'] at h'; cases h'
          | ok resp' =>
            obtain ⟨ptvs, m2, rt2⟩ := resp
            obtain ⟨ptvs', m2', rt2'⟩ := resp'
            rw [hp] at h
            rw [hp'] at h'
            simp only at h h'
            have hGr : ∀ p ∈ s.parameters, ∀ r,
                exe.m_map_parameter_to_result.lookup p = some r → Produced exe i r := by
              intro p hpm r hr
              have := hV1 i (List.mem_range.2 hilt) p (by
                rw [List.getD_eq_getElem?_getD, hi]; exact hpm) r (by rw [hr]; simp)
              obtain ⟨s0, hs0, hrs0⟩ := this
              obtain ⟨j, hj, hjs⟩ := List.getElem_of_mem hs0
              rw [List.length_take] at hj
              refine Or.inr ⟨j, by omega, s0, ?_, hrs0⟩
              rw [List.getElem_take] at hjs
              rw [List.getElem?_eq_getElem (by omega), hjs]
            have hGp : ∀ p ∈ s.parameters, Produced exe i p :=
              fun p hpm => Or.inl (hV4 s hsmem p hpm)
            obtain ⟨R2, hc2⟩ := prepare_parameters_rel exe be be' (Produced exe i) s.parameters
              hGr R m m' rta rta' ptvs m2 rt2 ptvs' m2' rt2' hca hp hp'
            obtain ⟨R3, hc3⟩ := prepare_results_rel exe be be' (Produced exe i) s.results
              R2 m2 m2' rt2 rt2' hc2
            obtain ⟨_, hpl⟩ := prepare_parameters_lookups exe be s.parameters m rta ptvs m2 rt2 hp
            obtain ⟨_, hpl'⟩ := prepare_parameters_lookups exe be' s.parameters m' rta' ptvs'
              m2' rt2' hp'
            obtain ⟨hrp, hrl⟩ := prepare_results_lookups exe be s.results m2 rt2
            obtain ⟨hrp', hrl'⟩ := prepare_results_lookups exe be' s.results m2' rt2'
            have hpl3 := lookups_transfer s.parameters m2 _ hrp ptvs hpl
            have hpl3' := lookups_transfer s.parameters m2' _ hrp' ptvs' hpl'
            obtain ⟨_, _, hpc, _⟩ := hc3.pairs s.parameters ptvs ptvs' hpl3 hpl3'
            obtain ⟨hrlen, hrz, _, hrmem⟩ := hc3.pairs s.results _ _ hrl hrl'
            generalize hpr : prepare_results exe be s.results m2 rt2 = pr at *
            generalize hpr' : prepare_results exe be' s.results m2' rt2' = pr' at *
            obtain ⟨rtvs, m3, rt3⟩ := pr
            obtain ⟨rtvs', m3', rt3'⟩ := pr'
            simp only at h h' hc3 hrlen hrz hrmem hpc
            cases hch : call_handle exe i rtvs ptvs rt3 with
            | error e => rw [hch] at h; cases h
            | ok rt4 =>
              cases hch' : call_handle exe i rtvs' ptvs' rt3' with
              | error e => rw [hch'] at h'; cases h'
              | ok rt4' =>
                rw [hch] at h
                rw [hch'] at h'
                simp only at h h'
                obtain ⟨l4, l4', hw⟩ := call_handle_rel exe i R3 hc3.matching rtvs ptvs rtvs'
                  ptvs' rt3 rt3' rt4 rt4' (hpc hGp) hrlen hrz hch hch'
                have hc4 : Corresponds R3 (Produced exe (i + 1)) m3 m3' rt4 rt4' := by
                  refine ⟨hc3.lookups, hc3.matching, ?_, ?_⟩
                  · intro x hx
                    have := hc3.live x hx
                    omega
                  · intro k a a' ha ha' hk
                    have hpair : (a, a') ∈ R3 := by
                      rcases hc3.lookups k with ⟨hn, _⟩ | ⟨c, c', e1, e2, e3⟩
                      · rw [hn] at ha; cases ha
                      · rw [e1] at ha; rw [e2] at ha'
                        simp only [Option.some.injEq] at ha ha'
                        subst ha ha'
                        exact e3
                    apply hw (a, a') hpair
                    rcases hk with hk | ⟨j, hj, s0, hs0, hks0⟩
                    · exact Or.inl (hc3.agree k a a' ha ha' (Or.inl hk))
                    · by_cases hji : j < i
                      · exact Or.inl (hc3.agree k a a' ha ha' (Or.inr ⟨j, hji, s0, hs0, hks0⟩))
                      · have hje : j = i := by omega
                        subst hje
                        rw [hi] at hs0
                        simp only [Option.some.injEq] at hs0
                        subst hs0
                        exact Or.inr (hrmem k hks0 a ha)
                exact ih (i + 1) hdrop2 R3 hb2 hb2' m3 m3' rt4 rt4' hb1 m1 rt1 hb1' m1' rt1'
                  hc4 h h'

theorem bind_tensors_rel (R : List (Nat × Nat)) (ns : List Nat) :
    ∀ (ts ts' : List Nat) (m m' m1 m1' : List (Nat × Nat)), ts.length = ts'.length →
      (∀ x ∈ List.zip ts ts', x ∈ R) →
      (∀ k, (m.lookup k = none ∧ m'.lookup k = none) ∨
        ∃ a a', m.lookup k = some a ∧ m'.lookup k = some a' ∧ (a, a') ∈ R) →
      bind_tensors ns ts m = .ok m1 → bind_tensors ns ts' m' = .ok m1' →
      ∀ k, (m1.lookup k = none ∧ m1'.lookup k = none) ∨
        ∃ a a', m1.lookup k = some a ∧ m1'.lookup k = some a' ∧ (a, a') ∈ R := by
  induction ns with
  | nil =>
    intro ts ts' m m' m1 m1' hlen hz hl h h'
    cases ts with
    | cons _ _ => simp [bind_tensors] at h
    | nil =>
      cases ts' with
      | cons _ _ => simp at hlen
      | nil =>
        simp only [bind_tensors, Except.ok.injEq] at h h'
        subst h h'
        exact hl
  | cons n ns ih =>
    intro ts ts' m m' m1 m1' hlen hz hl h h'
    cases ts with
    | nil =>
      cases ts' with
      | cons _ _ => simp at hlen
      | nil =>
        simp only [bind_tensors, Except.ok.injEq] at h h'
        subst h h'
        exact hl
    | cons t ts =>
      cases ts' with
      | nil => simp at hlen
      | cons t' ts' =>
        simp only [bind_tensors] at h h'
        refine ih ts ts' _ _ m1 m1' (by simpa using hlen)
          (fun x hx => hz x (by
            simp only [List.zip_cons_cons]
            exact List.mem_cons_of_mem _ hx)) ?_ h h'
        intro k
        simp only [List.lookup_cons]
        cases hk : (k == n)
        · exact hl k
        · exact Or.inr ⟨t, t', rfl, rfl, hz (t, t') (by simp)⟩

theorem bind_tensors_lookup_of_not_mem (ns : List Nat) :
    ∀ (ts : List Nat) (m m1 : List (Nat × Nat)) (k : Nat), bind_tensors ns ts m = .ok m1 →
      k ∉ ns → m1.lookup k = m.lookup k := by
  induction ns with
  | nil =>
    intro ts m m1 k h _
    cases ts with
    | cons _ _ => simp [bind_tensors] at h
    | nil =>
      simp only [bind_tensors, Except.ok.injEq] at h
      rw [h]
  | cons n ns ih =>
    intro ts m m1 k h hk
    cases ts with
    | nil =>
      simp only [bind_tensors, Except.ok.injEq] at h
      rw [h]
    | cons t ts =>
      simp only [bind_tensors] at h
      rw [ih ts _ m1 k h (fun hm => hk (List.mem_cons_of_mem _ hm)), List.lookup_cons]
      have : (k == n) = false := by
        simp only [beq_eq_false_iff_ne, ne_eq]
        intro e
        exact hk (by rw [e]; exact List.mem_cons_self _ _)
      rw [this]

theorem bind_tensors_lookup_of_nodup (ns : List Nat) :
    ∀ (ts : List Nat) (m m1 : List (Nat × Nat)) (j r a : Nat),
      bind_tensors ns ts m = .ok m1 → ns.Nodup → ns[j]? = some r → ts[j]? = some a →
      m1.lookup r = some a := by
  induction ns with
  | nil => intro ts m m1 j r a _ _ hr; simp at hr
  | cons n ns ih =>
    intro ts m m1 j r a h hnd hr ha
    cases ts with
    | nil => simp at ha
    | cons t ts =>
      simp only [bind_tensors] at h
      cases j with
      | zero =>
        simp only [List.getElem?_cons_zero, Option.some.injEq] at hr ha
        subst hr ha
        rw [bind_tensors_lookup_of_not_mem ns ts _ m1 n h (List.nodup_cons.1 hnd).1]
        simp
      | succ j =>
        simp only [List.getElem?_cons_succ] at hr ha
        exact ih ts _ m1 j r a h (List.nodup_cons.1 hnd).2 hr ha

theorem bind_tensors_length (ns : List Nat) :
    ∀ (ts : List Nat) (m m1 : List (Nat × Nat)), bind_tensors ns ts m = .ok m1 →
      ts.length ≤ ns.length := by
  induction ns with
  | nil =>
    intro ts m m1 h
    cases ts with
    | cons _ _ => simp [bind_tensors] at h
    | nil => simp
  | cons n ns ih =>
    intro ts m m1 h
    cases ts with
    | nil => simp
    | cons t ts =>
      simp only [bind_tensors] at h
      have := ih ts _ m1 h
      simp only [List.length_cons]
      omega

theorem call_sub_functions_lookups {α : Type} [Inhabited α] (reg : Registry)
    (exe : HybridExecutable α) (rest : List SubFunction) :
    ∀ (i : Nat) (hb : HybridBackend) (m : List (Nat × Nat)) (rt : Runtime α)
      (hb1 : HybridBackend) (m1 : List (Nat × Nat)) (rt1 : Runtime α),
      call_sub_functions reg exe i rest hb m rt = .ok (hb1, m1, rt1) →
      ∀ k v, m.lookup k = some v → m1.lookup k = some v := by
  induction rest with
  | nil =>
    intro i hb m rt hb1 m1 rt1 h
    simp only [call_sub_functions, Except.ok.injEq, Prod.mk.injEq] at h
    obtain ⟨_, rfl, _⟩ := h
    exact fun k v hk => hk
  | cons s rest ih =>
    intro i hb m rt hb1 m1 rt1 h
    simp only [call_sub_functions] at h
    cases hg : hb.get_cached_backend reg rt
        (get_colocated_function_placement exe.m_function.nodes s) with
    | error e => rw [hg] at h; cases h
    | ok res =>
      obtain ⟨be, hb2, rta⟩ := res
      rw [hg] at h
      simp only at h
      cases hp : prepare_parameters exe be s.parameters m rta with
      | error e => rw [hp] at h; cases h
      | ok resp =>
        obtain ⟨ptvs, m2, rt2⟩ := resp
        rw [hp] at h
        simp only at h
        obtain ⟨hpp, _⟩ := prepare_parameters_lookups exe be s.parameters m rta ptvs m2 rt2 hp
        obtain ⟨hrp, _⟩ := prepare_results_lookups exe be s.results m2 rt2
        generalize hpr : prepare_results exe be s.results m2 rt2 = pr at *
        obtain ⟨rtvs, m3, rt3⟩ := pr
        simp only at h hrp
        cases hch : call_handle exe i rtvs ptvs rt3 with
        | error e => rw [hch] at h; cases h
        | ok rt4 =>
          rw [hch] at h
          simp only at h
          intro k v hk
          exact ih (i + 1) hb2 m3 rt4 hb1 m1 rt1 h k v (hrp k v (hpp k v hk))

theorem mem_zip_getElem? (l l' : List Nat) (x : Nat × Nat) (hx : x ∈ List.zip l l') :
    ∃ j : Nat, l[j]? = some x.1 ∧ l'[j]? = some x.2 := by
  obtain ⟨j, hj, he⟩ := List.getElem_of_mem hx
  refine ⟨j, ?_, ?_⟩
  · have := List.getElem?_zip_eq_some.1 (by rw [List.getElem?_eq_getElem hj, he] :
      (List.zip l l')[j]? = some x)
    exact this.1
  · have := List.getElem?_zip_eq_some.1 (by rw [List.getElem?_eq_getElem hj, he] :
      (List.zip l l')[j]? = some x)
    exact this.2

/-- C15 (as amended). Let the executable be well formed: its sub-functions are
topologically ordered with respect to the boundary map, the results of the original
function are pairwise distinct, each is a result of a sub-function and none is a
parameter of a sub-function. Take two calls of `execute` on it, in any two states of
the hybrid backend and of the runtime, with as many inputs and as many outputs in one
call as in the other, all of them live tensors, the two calls aliasing their tensors
alike (`Matching`), and with equal contents in corresponding input tensors. If both
calls return, they return the same `rc` and leave equal contents in corresponding
output tensors, whatever the output tensors and the other tensors held before. -/
theorem execute_deterministic {α : Type} [Inhabited α] (reg reg' : Registry)
    (exe : HybridExecutable α) (hb hb' : HybridBackend) (rt rt' : Runtime α)
    (outputs inputs outputs' inputs' : List Nat) (rc rc' : Bool)
    (hb1 hb1' : HybridBackend) (rt1 rt1' : Runtime α)
    (hordered : exe.TopologicallyOrdered) (hproduced : exe.ResultsProduced)
    (hin_len : inputs.length = inputs'.length) (hout_len : outputs.length = outputs'.length)
    (hmatch : Matching (List.zip (inputs ++ outputs) (inputs' ++ outputs')))
    (hlive : ∀ tv ∈ inputs ++ outputs, tv < rt.tensors.length)
    (hlive' : ∀ tv ∈ inputs' ++ outputs', tv < rt'.tensors.length)
    (hcontents : ∀ x ∈ List.zip inputs inputs', contents rt x.1 = contents rt' x.2)
    (h : exe.execute reg hb rt outputs inputs = .ok (rc, hb1, rt1))
    (h' : exe.execute reg' hb' rt' outputs' inputs' = .ok (rc', hb1', rt1')) :
    rc = rc' ∧ ∀ x ∈ List.zip outputs outputs', contents rt1 x.1 = contents rt1' x.2 := by
  obtain ⟨hnd, hres, hpar⟩ := hproduced
  unfold HybridExecutable.execute at h h'
  cases hb1e : bind_tensors exe.m_function.parameters inputs [] with
  | error e => rw [hb1e] at h; cases h
  | ok ma =>
    cases hb1e' : bind_tensors exe.m_function.parameters inputs' [] with
    | error e => rw [hb1e'] at h'; cases h'
    | ok ma' =>
      rw [hb1e] at h
      rw [hb1e'] at h'
      simp only at h h'
      cases hb2e : bind_tensors exe.m_function.results outputs ma with
      | error e => rw [hb2e] at h; cases h
      | ok mb =>
        cases hb2e' : bind_tensors exe.m_function.results outputs' ma' with
        | error e => rw [hb2e'] at h'; cases h'
        | ok mb' =>
          rw [hb2e] at h
          rw [hb2e'] at h'
          simp only at h h'
          cases hcs : call_sub_functions reg exe 0 exe.m_sub_functions hb mb rt with
          | error e => rw [hcs] at h; cases h
          | ok res =>
            cases hcs' : call_sub_functions reg' exe 0 exe.m_sub_functions hb' mb' rt' with
            | error e => rw [hcs'] at h'; cases h'
            | ok res' =>
              obtain ⟨hbf, mf, rtf⟩ := res
              obtain ⟨hbf', mf', rtf'⟩ := res'
              rw [hcs] at h
              rw [hcs'] at h'
              simp only [Except.ok.injEq, Prod.mk.injEq] at h h'
              obtain ⟨rfl, _, rfl⟩ := h
              obtain ⟨rfl, _, rfl⟩ := h'
              refine ⟨rfl, ?_⟩
              have hzip : List.zip (inputs ++ outputs) (inputs' ++ outputs') =
                  List.zip inputs inputs' ++ List.zip outputs outputs' :=
                List.zip_append hin_len
              have hl_in : ∀ k, (ma.lookup k = none ∧ ma'.lookup k = none) ∨
                  ∃ a a', ma.lookup k = some a ∧ ma'.lookup k = some a' ∧
                    (a, a') ∈ List.zip inputs inputs' :=
                bind_tensors_rel _ _ inputs inputs' [] [] ma ma' hin_len (fun x hx => hx)
                  (fun k => Or.inl ⟨rfl, rfl⟩) hb1e hb1e'
              have hl_a : ∀ k, (ma.lookup k = none ∧ ma'.lookup k = none) ∨
                  ∃ a a', ma.lookup k = some a ∧ ma'.lookup k = some a' ∧
                    (a, a') ∈ List.zip (inputs ++ outputs) (inputs' ++ outputs') := by
                intro k
                rcases hl_in k with hn | ⟨a, a', e1, e2, e3⟩
                · exact Or.inl hn
                · exact Or.inr ⟨a, a', e1, e2, by rw [hzip]; exact List.mem_append_left _ e3⟩
              have hl_b := bind_tensors_rel (List.zip (inputs ++ outputs) (inputs' ++ outputs'))
                _ outputs outputs' ma ma' mb mb' hout_len
                (fun x hx => by rw [hzip]; exact List.mem_append_right _ hx) hl_a hb2e hb2e'
              have hc0 : Corresponds (List.zip (inputs ++ outputs) (inputs' ++ outputs'))
                  (Produced exe 0) mb mb' rt rt' := by
                refine ⟨hl_b, hmatch, ?_, ?_⟩
                · intro x hx
                  obtain ⟨j, e1, e2⟩ := mem_zip_getElem? _ _ x hx
                  have m1 : x.1 ∈ inputs ++ outputs := by
                    obtain ⟨hlt, he⟩ := List.getElem?_eq_some.1 e1
                    rw [← he]; exact List.getElem_mem _
                  have m2 : x.2 ∈ inputs' ++ outputs' := by
                    obtain ⟨hlt, he⟩ := List.getElem?_eq_some.1 e2
                    rw [← he]; exact List.getElem_mem _
                  exact ⟨hlive _ m1, hlive' _ m2⟩
                · intro k a a' ha ha' hk
                  rcases hk with hk | ⟨j, hj, _⟩
                  · rw [bind_tensors_lookup_of_not_mem _ outputs ma mb k hb2e hk] at ha
                    rw [bind_tensors_lookup_of_not_mem _ outputs' ma' mb' k hb2e' hk] at ha'
                    rcases hl_in k with ⟨hn, _⟩ | ⟨c, c', e1, e2, e3⟩
                    · rw [hn] at ha; cases ha
                    · rw [e1] at ha; rw [e2] at ha'
                      simp only [Option.some.injEq] at ha ha'
                      subst ha ha'
                      exact hcontents _ e3
                  · omega
              obtain ⟨R1, hcf⟩ := call_sub_functions_rel reg reg' exe hordered hpar
                exe.m_sub_functions 0 rfl _ hb hb' mb mb' rt rt' hbf mf rtf hbf' mf' rtf' hc0
                hcs hcs'
              intro x hx
              obtain ⟨j, e1, e2⟩ := mem_zip_getElem? _ _ x hx
              have hjlt : j < outputs.length := (List.getElem?_eq_some.1 e1).1
              have hle := bind_tensors_length _ outputs ma mb hb2e
              have hr : exe.m_function.results[j]? = some exe.m_function.results[j] :=
                List.getElem?_eq_getElem (by omega)
              have hrmem : exe.m_function.results[j] ∈ exe.m_function.results :=
                List.getElem_mem _
              have k1 := bind_tensors_lookup_of_nodup _ outputs ma mb j _ x.1 hb2e hnd hr e1
              have k2 := bind_tensors_lookup_of_nodup _ outputs' ma' mb' j _ x.2 hb2e' hnd hr e2
              have f1 := call_sub_functions_lookups reg exe _ 0 hb mb rt hbf mf rtf hcs _ _ k1
              have f2 := call_sub_functions_lookups reg' exe _ 0 hb' mb' rt' hbf' mf' rtf' hcs'
                _ _ k2
              obtain ⟨s, hs, hrs⟩ := hres _ hrmem
              obtain ⟨i, hi, hie⟩ := List.getElem_of_mem hs
              exact hcf.agree _ _ _ f1 f2
                (Or.inr ⟨i, hi, s, by rw [List.getElem?_eq_getElem hi, hie], hrs⟩)

/-- C15 (as amended) on the partition of `hybrid_abc_manual`: a first call leaves
[[54,80],[110,144]] in the output tensor and six boundary tensors in the runtime; a
second call with the same tensors in that state leaves the same contents in the output
tensor. -/
theorem execute_deterministic_witness :
    manual_abc_executable.TopologicallyOrdered ∧ manual_abc_executable.ResultsProduced ∧
    Matching (List.zip ([0, 1, 2] ++ [3]) ([0, 1, 2] ++ [3])) ∧
    (∀ x ∈ List.zip [0, 1, 2] [0, 1, 2],
      contents runtime_abc x.1 = contents runtime_abc_second x.2) ∧
    runtime_abc_second.tensors.length = 10 ∧
    contents runtime_abc_second 3 = some [54, 80, 110, 144] ∧
    contents runtime_abc_second 3 =
      contents (state_after runtime_abc_second
        (manual_abc_executable.execute full_registry warm_hybrid_backend runtime_abc_second
          [3] [0, 1, 2])) 3 :=
  ⟨by decide, by decide, by decide, by decide, by decide, by decide,
    (execute_deterministic full_registry full_registry manual_abc_executable
      warm_hybrid_backend warm_hybrid_backend runtime_abc runtime_abc_second
      [3] [0, 1, 2] [3] [0, 1, 2] true true warm_hybrid_backend warm_hybrid_backend
      runtime_abc_second
      (state_after runtime_abc_second
        (manual_abc_executable.execute full_registry warm_hybrid_backend runtime_abc_second
          [3] [0, 1, 2]))
      (by decide) (by decide) rfl rfl (by decide) (by decide) (by decide) (by decide)
      (by rfl) (by rfl)).2 (3, 3) (by simp)⟩

/-- C15, as stated, fails when the two calls alias their tensors differently: on a
function with the results `A + B` and `A + A`, with the same input tensors of the same
contents, the first output tensor holds `A + B` after a call with two output tensors
and `A + A` after a call that passes one tensor for both outputs. -/
theorem execute_outputs_differ_when_aliased :
    two_results_executable.TopologicallyOrdered ∧ two_results_executable.ResultsProduced ∧
    outcome 2 (two_results_executable.execute full_registry warm_hybrid_backend runtime_abc
      [2, 3] [0, 1]) = .ok (true, some [6, 8, 10, 12]) ∧
    outcome 2 (two_results_executable.execute full_registry warm_hybrid_backend runtime_abc
      [2, 2] [0, 1]) = .ok (true, some [2, 4, 6, 8]) :=
  ⟨by decide, by decide, by rfl, by rfl⟩

/-! ## Theorems: the return value of `execute` -/

theorem lookup_with_handle_results {α : Type} (rc : Nat → List (List α) → Bool)
    (hm : List (Nat × Executable α)) (i : Nat) :
    (hm.map (fun e => (e.1, e.2.returning (rc e.1)))).lookup i =
      (hm.lookup i).map (fun h => h.returning (rc i)) := by
  induction hm with
  | nil => rfl
  | cons e hm ih =>
    obtain ⟨k, h⟩ := e
    simp only [List.map_cons, List.lookup_cons]
    by_cases hk : i = k
    · subst hk; simp
    · have : (i == k) = false := by simpa using hk
      rw [this]
      exact ih

theorem call_handle_with_handle_results {α : Type} (exe : HybridExecutable α)
    (rc : Nat → List (List α) → Bool) (i : Nat) (result_tvs parameter_tvs : List Nat)
    (rt : Runtime α) :
    call_handle (exe.with_handle_results rc) i result_tvs parameter_tvs rt =
      call_handle exe i result_tvs parameter_tvs rt := by
  unfold call_handle
  simp only [HybridExecutable.with_handle_results, lookup_with_handle_results]
  cases exe.m_handle_map.lookup i with
  | none => rfl
  | some handle =>
    simp only [Option.map_some']
    cases read_vectors rt parameter_tvs with
    | error e => rfl
    | ok inputs =>
      simp only [Executable.returning]
      cases handle.call inputs with
      | none => rfl
      | some r => rfl

theorem prepare_parameters_with_handle_results {α : Type} [Inhabited α]
    (exe : HybridExecutable α) (rc : Nat → List (List α) → Bool) (backend : Backend)
    (ps : List Nat) :
    ∀ (m : List (Nat × Nat)) (rt : Runtime α),
      prepare_parameters (exe.with_handle_results rc) backend ps m rt =
        prepare_parameters exe backend ps m rt := by
  induction ps with
  | nil => intro m rt; rfl
  | cons p ps ih =>
    intro m rt
    simp only [prepare_parameters, ih]
    rfl

theorem prepare_results_with_handle_results {α : Type} [Inhabited α]
    (exe : HybridExecutable α) (rc : Nat → List (List α) → Bool) (backend : Backend)
    (rs : List Nat) :
    ∀ (m : List (Nat × Nat)) (rt : Runtime α),
      prepare_results (exe.with_handle_results rc) backend rs m rt =
        prepare_results exe backend rs m rt := by
  induction rs with
  | nil => intro m rt; rfl
  | cons r rs ih =>
    intro m rt
    simp only [prepare_results, ih]
    rfl

theorem call_sub_functions_with_handle_results {α : Type} [Inhabited α] (reg : Registry)
    (exe : HybridExecutable α) (rc : Nat → List (List α) → Bool) (rest : List SubFunction) :
    ∀ (i : Nat) (hb : HybridBackend) (m : List (Nat × Nat)) (rt : Runtime α),
      call_sub_functions reg (exe.with_handle_results rc) i rest hb m rt =
        call_sub_functions reg exe i rest hb m rt := by
  induction rest with
  | nil => intro i hb m rt; rfl
  | cons sub rest ih =>
    intro i hb m rt
    simp only [call_sub_functions, ih, prepare_parameters_with_handle_results,
      prepare_results_with_handle_results, call_handle_with_handle_results]
    rfl

/-- C29: whenever `HybridExecutable::execute` returns normally, it returns `true`; and
the Booleans that the `validate_and_execute` calls of the sub-function handles return
have no influence on the call: an executable whose handles return any other Booleans
`rc` has the same outcome, state for state. -/
theorem execute_returns_true {α : Type} [Inhabited α] (reg : Registry)
    (exe : HybridExecutable α) (hb : HybridBackend) (rt : Runtime α)
    (outputs inputs : List Nat) :
    (∀ (rc : Bool) (hb1 : HybridBackend) (rt1 : Runtime α),
      exe.execute reg hb rt outputs inputs = .ok (rc, hb1, rt1) → rc = true) ∧
    (∀ (rc : Nat → List (List α) → Bool),
      (exe.with_handle_results rc).execute reg hb rt outputs inputs =
        exe.execute reg hb rt outputs inputs) := by
  constructor
  · intro rc hb1 rt1 h
    unfold HybridExecutable.execute at h
    split at h
    · cases h
    · split at h
      · cases h
      · split at h
        · cases h
        · simp only [Except.ok.injEq, Prod.mk.injEq] at h
          exact h.1.symm
  · intro rc
    unfold HybridExecutable.execute
    simp only [call_sub_functions_with_handle_results]
    rfl

/-- C29 on the executable of `hybrid_abc_manual`: the call returns `true` with the
expected contents of the output tensor, also when every handle returns `false`. -/
theorem execute_returns_true_witness :
    outcome 3 ((manual_abc_executable.with_handle_results (fun _ _ => false)).execute
      full_registry warm_hybrid_backend runtime_abc [3] [0, 1, 2]) =
      .ok (true, some [54, 80, 110, 144]) ∧
    (∀ (rc : Bool) (hb1 : HybridBackend) (rt1 : Runtime Int),
      manual_abc_executable.execute full_registry warm_hybrid_backend runtime_abc [3]
        [0, 1, 2] = .ok (rc, hb1, rt1) → rc = true) ∧
    (manual_abc_executable.with_handle_results (fun _ _ => false)).execute
      full_registry warm_hybrid_backend runtime_abc [3] [0, 1, 2] =
      manual_abc_executable.execute full_registry warm_hybrid_backend runtime_abc [3]
        [0, 1, 2] :=
  ⟨by rfl,
   (execute_returns_true full_registry manual_abc_executable warm_hybrid_backend
      runtime_abc [3] [0, 1, 2]).1,
   (execute_returns_true full_registry manual_abc_executable warm_hybrid_backend
      runtime_abc [3] [0, 1, 2]).2 (fun _ _ => false)⟩

/-! ## Theorems: the handle map of a compiled executable -/

theorem compile_sub_functions_handles {α : Type} [Add α] [Mul α] (reg : Registry)
    (nodes : List Node) (subs : List SubFunction) :
    ∀ (i : Nat) (hb : HybridBackend) (rt : Runtime α) (hm : List (Nat × Executable α))
      (hm1 : List (Nat × Executable α)) (hb1 : HybridBackend) (rt1 : Runtime α),
      compile_sub_functions reg nodes i subs hb rt hm = .ok (hm1, hb1, rt1) →
      (∀ p b, hb.m_cached_backends.lookup p = some b →
        hb1.m_cached_backends.lookup p = some b) ∧
      (∀ j, j < i → hm1.lookup j = hm.lookup j) ∧
      (∀ j sub, subs[j]? = some sub → ∃ (h : Executable α) (be : Backend),
        hm1.lookup (i + j) = some h ∧
        hb1.m_cached_backends.lookup (get_colocated_function_placement nodes sub) = some be ∧
        be.compile reg nodes sub = .ok h) := by
  induction subs with
  | nil =>
    intro i hb rt hm hm1 hb1 rt1 h
    unfold compile_sub_functions at h
    simp only [Except.ok.injEq, Prod.mk.injEq] at h
    obtain ⟨rfl, rfl, _⟩ := h
    exact ⟨fun p b hp => hp, fun j _ => rfl, fun j sub hj => by simp at hj⟩
  | cons sub rest ih =>
    intro i hb rt hm hm1 hb1 rt1 h
    unfold compile_sub_functions at h
    cases hbe : hb.get_cached_backend reg rt
        (get_colocated_function_placement nodes sub) with
    | error e => rw [hbe] at h; cases h
    | ok res =>
      obtain ⟨be, hb2, rt2⟩ := res
      rw [hbe] at h
      simp only at h
      cases hc : (be.compile reg nodes sub : Except Error (Executable α)) with
      | error e => rw [hc] at h; cases h
      | ok handle =>
        rw [hc] at h
        simp only at h
        obtain ⟨c1, c2, c3⟩ := ih (i + 1) hb2 rt2 ((i, handle) :: hm) hm1 hb1 rt1 h
        obtain ⟨g1, g2⟩ := get_cached_backend_ok reg hb hb2 rt rt2 _ be hbe
        refine ⟨fun p b hp => c1 p b (g2 p b hp), ?_, ?_⟩
        · intro j hj
          rw [c2 j (by omega), List.lookup_cons]
          have : (j == i) = false := by simpa using (by omega : j ≠ i)
          rw [this]
        · intro j s hj
          cases j with
          | zero =>
            simp only [List.getElem?_cons_zero, Option.some.injEq] at hj
            subst hj
            refine ⟨handle, be, ?_, c1 _ _ g1, hc⟩
            rw [Nat.add_zero, c2 i (by omega), List.lookup_cons]
            simp
          | succ j =>
            simp only [List.getElem?_cons_succ] at hj
            obtain ⟨h1, be1, e1, e2, e3⟩ := c3 j s hj
            refine ⟨h1, be1, ?_, e2, e3⟩
            rw [← e1]
            congr 1
            omega

theorem compile_sub_functions_keys {α : Type} [Add α] [Mul α] (reg : Registry)
    (nodes : List Node) (subs : List SubFunction) :
    ∀ (i : Nat) (hb : HybridBackend) (rt : Runtime α) (hm : List (Nat × Executable α))
      (hm1 : List (Nat × Executable α)) (hb1 : HybridBackend) (rt1 : Runtime α),
      compile_sub_functions reg nodes i subs hb rt hm = .ok (hm1, hb1, rt1) →
      hm1.length = hm.length + subs.length ∧
      ∀ e ∈ hm1, e ∈ hm ∨ (i ≤ e.1 ∧ e.1 < i + subs.length) := by
  induction subs with
  | nil =>
    intro i hb rt hm hm1 hb1 rt1 h
    unfold compile_sub_functions at h
    simp only [Except.ok.injEq, Prod.mk.injEq] at h
    obtain ⟨rfl, rfl, _⟩ := h
    exact ⟨rfl, fun e he => Or.inl he⟩
  | cons sub rest ih =>
    intro i hb rt hm hm1 hb1 rt1 h
    unfold compile_sub_functions at h
    cases hbe : hb.get_cached_backend reg rt
        (get_colocated_function_placement nodes sub) with
    | error e => rw [hbe] at h; cases h
    | ok res =>
      obtain ⟨be, hb2, rt2⟩ := res
      rw [hbe] at h
      simp only at h
      cases hc : (be.compile reg nodes sub : Except Error (Executable α)) with
      | error e => rw [hc] at h; cases h
      | ok handle =>
        rw [hc] at h
        simp only at h
        obtain ⟨c1, c2⟩ := ih (i + 1) hb2 rt2 ((i, handle) :: hm) hm1 hb1 rt1 h
        refine ⟨by rw [c1]; simp only [List.length_cons]; omega, ?_⟩
        intro e he
        rcases c2 e he with h1 | h1
        · rcases List.mem_cons.1 h1 with h2 | h2
          · right
            rw [h2]
            simp only [List.length_cons]
            omega
          · exact Or.inl h2
        · right
          simp only [List.length_cons]
          omega

theorem copy_data_error {α : Type} (rt : Runtime α) (tv : Nat) (data : List α) (e : Error)
    (h : copy_data rt tv data = .error e) : e = Error.invalid_tensor := by
  unfold copy_data at h
  split at h
  · cases h
  · simp only [Except.error.injEq] at h
    exact h.symm

theorem read_vector_error {α : Type} (rt : Runtime α) (tv : Nat) (e : Error)
    (h : read_vector rt tv = .error e) :
    e = Error.invalid_tensor ∨ e = Error.element_type_mismatch := by
  unfold read_vector at h
  split at h
  · split at h
    · cases h
    · simp only [Except.error.injEq] at h
      exact Or.inr h.symm
  · simp only [Except.error.injEq] at h
    exact Or.inl h.symm

theorem write_vectors_handle_found {α : Type} (tvs : List Nat) :
    ∀ (ds : List (List α)) (rt : Runtime α),
      write_vectors rt tvs ds ≠ .error Error.handle_not_found := by
  induction tvs with
  | nil => intro ds rt h; simp [write_vectors] at h
  | cons tv tvs ih =>
    intro ds rt h
    cases ds with
    | nil => simp [write_vectors] at h
    | cons d ds =>
      unfold write_vectors at h
      cases hc : copy_data rt tv d with
      | ok rt1 => rw [hc] at h; exact ih ds rt1 h
      | error e1 =>
        rw [hc] at h
        simp only [Except.error.injEq] at h
        have := copy_data_error rt tv d e1 hc
        rw [this] at h
        cases h

theorem prepare_parameters_handle_found {α : Type} [Inhabited α] (exe : HybridExecutable α)
    (backend : Backend) (ps : List Nat) :
    ∀ (m : List (Nat × Nat)) (rt : Runtime α),
      prepare_parameters exe backend ps m rt ≠ .error Error.handle_not_found := by
  induction ps with
  | nil => intro m rt h; simp [prepare_parameters] at h
  | cons p ps ih =>
    intro m rt h
    unfold prepare_parameters at h
    split at h
    · split at h
      · cases h
      · rename_i e he
        simp only [Except.error.injEq] at h
        subst h
        exact ih _ _ he
    · split at h
      · cases h
      · split at h
        · cases h
        · split at h
          split at h
          · rename_i e he
            simp only [Except.error.injEq] at h
            subst h
            rcases read_vector_error _ _ _ he with h1 | h1 <;> cases h1
          · split at h
            · rename_i e he
              simp only [Except.error.injEq] at h
              subst h
              have := copy_data_error _ _ _ _ he
              cases this
            · split at h
              · cases h
              · rename_i e he
                simp only [Except.error.injEq] at h
                subst h
                exact ih _ _ he

theorem call_handle_found {α : Type} (exe : HybridExecutable α) (i : Nat)
    (result_tvs parameter_tvs : List Nat) (rt : Runtime α) (handle : Executable α)
    (hh : exe.m_handle_map.lookup i = some handle) :
    call_handle exe i result_tvs parameter_tvs rt ≠ .error Error.handle_not_found := by
  intro h
  unfold call_handle at h
  rw [hh] at h
  simp only at h
  cases hr : read_vectors rt parameter_tvs with
  | error e1 =>
    rw [hr] at h
    simp only [Except.error.injEq] at h
    subst h
    have := read_vectors_error _ _ _ hr
    cases this
  | ok inputs =>
    rw [hr] at h
    simp only at h
    cases hc : handle.call inputs with
    | none => rw [hc] at h; cases h
    | some outputs => rw [hc] at h; exact write_vectors_handle_found _ _ _ h

theorem call_sub_functions_handle_found {α : Type} [Inhabited α] (reg : Registry)
    (exe : HybridExecutable α) (rest : List SubFunction) :
    ∀ (i : Nat) (hb : HybridBackend) (m : List (Nat × Nat)) (rt : Runtime α),
      (∀ j, j < rest.length → ∃ handle, exe.m_handle_map.lookup (i + j) = some handle) →
      call_sub_functions reg exe i rest hb m rt ≠ .error Error.handle_not_found := by
  induction rest with
  | nil => intro i hb m rt _ h; simp [call_sub_functions] at h
  | cons sub rest ih =>
    intro i hb m rt hall h
    unfold call_sub_functions at h
    cases hbe : hb.get_cached_backend reg rt
        (get_colocated_function_placement exe.m_function.nodes sub) with
    | error e =>
      rw [hbe] at h
      simp only [Except.error.injEq] at h
      subst h
      have := get_cached_backend_error _ _ _ _ _ hbe
      cases this
    | ok res =>
      obtain ⟨be, hb1, rt1⟩ := res
      rw [hbe] at h
      simp only at h
      cases hp : prepare_parameters exe be sub.parameters m rt1 with
      | error e =>
        rw [hp] at h
        simp only [Except.error.injEq] at h
        subst h
        exact prepare_parameters_handle_found _ _ _ _ _ hp
      | ok res2 =>
        obtain ⟨parameter_tvs, m2, rt2⟩ := res2
        rw [hp] at h
        simp only at h
        obtain ⟨handle, hh⟩ := hall 0 (by simp)
        cases hc : call_handle exe i (prepare_results exe be sub.results m2 rt2).1
            parameter_tvs (prepare_results exe be sub.results m2 rt2).2.2 with
        | error e =>
          rw [hc] at h
          simp only [Except.error.injEq] at h
          subst h
          exact call_handle_found exe i _ _ _ handle (by simpa using hh) hc
        | ok rt4 =>
          rw [hc] at h
          simp only at h
          refine ih (i + 1) hb1 _ rt4 ?_ h
          intro j hj
          obtain ⟨h2, hh2⟩ := hall (j + 1) (by simp only [List.length_cons]; omega)
          exact ⟨h2, by rw [← hh2]; congr 1; omega⟩

theorem bind_tensors_error (ns : List Nat) :
    ∀ (ts : List Nat) (m : List (Nat × Nat)) (e : Error),
      bind_tensors ns ts m = .error e → e = Error.index_out_of_bounds := by
  induction ns with
  | nil =>
    intro ts m e h
    cases ts with
    | nil => simp [bind_tensors] at h
    | cons t ts => simp only [bind_tensors, Except.error.injEq] at h; exact h.symm
  | cons n ns ih =>
    intro ts m e h
    cases ts with
    | nil => simp [bind_tensors] at h
    | cons t ts => simp only [bind_tensors] at h; exact ih ts _ e h

theorem execute_handle_found {α : Type} [Inhabited α] (reg : Registry)
    (exe : HybridExecutable α) (hb : HybridBackend) (rt : Runtime α)
    (outputs inputs : List Nat)
    (hall : ∀ j, j < exe.m_sub_functions.length →
      ∃ handle, exe.m_handle_map.lookup j = some handle) :
    exe.execute reg hb rt outputs inputs ≠ .error Error.handle_not_found := by
  intro h
  unfold HybridExecutable.execute at h
  cases h1 : bind_tensors exe.m_function.parameters inputs [] with
  | error e =>
    rw [h1] at h
    simp only [Except.error.injEq] at h
    subst h
    have := bind_tensors_error _ _ _ _ h1
    cases this
  | ok m1 =>
    rw [h1] at h
    simp only at h
    cases h2 : bind_tensors exe.m_function.results outputs m1 with
    | error e =>
      rw [h2] at h
      simp only [Except.error.injEq] at h
      subst h
      have := bind_tensors_error _ _ _ _ h2
      cases this
    | ok m2 =>
      rw [h2] at h
      simp only at h
      cases h3 : call_sub_functions reg exe 0 exe.m_sub_functions hb m2 rt with
      | error e =>
        rw [h3] at h
        simp only [Except.error.injEq] at h
        subst h
        exact call_sub_functions_handle_found reg exe _ 0 hb m2 rt
          (fun j hj => by simpa using hall j hj) h3
      | ok res => rw [h3] at h; cases h

/-- C21: when `HybridBackend::compile` (the constructor of `HybridExecutable`) returns
an executable, (1) every sub-function of `m_sub_functions` has an entry in the handle
map, and that handle is what the backend cached for the sub-function's placement
returned from `compile`; (2) the handle map has no other entry: its keys are positions
of `m_sub_functions` and it has as many entries as there are sub-functions; (3)
consequently no call of `execute` on the executable fails at
`m_handle_map.at(sub_function)`, whatever the state it is called in. -/
theorem compile_handle_map_exact {α : Type} [Inhabited α] [Add α] [Mul α] (reg : Registry)
    (hb : HybridBackend) (rt : Runtime α) (function : Function) (exe : HybridExecutable α)
    (hb1 : HybridBackend) (rt1 : Runtime α)
    (h : hb.compile reg rt function = .ok (exe, hb1, rt1)) :
    (∀ (j : Nat) (sub : SubFunction), exe.m_sub_functions[j]? = some sub →
      ∃ (handle : Executable α) (be : Backend),
        exe.m_handle_map.lookup j = some handle ∧
        hb1.m_cached_backends.lookup
          (get_colocated_function_placement exe.m_function.nodes sub) = some be ∧
        be.compile reg exe.m_function.nodes sub = .ok handle) ∧
    (∀ e ∈ exe.m_handle_map, e.1 < exe.m_sub_functions.length) ∧
    exe.m_handle_map.length = exe.m_sub_functions.length ∧
    (∀ (reg2 : Registry) (hb2 : HybridBackend) (rt2 : Runtime α) (outputs inputs : List Nat),
      exe.execute reg2 hb2 rt2 outputs inputs ≠ .error Error.handle_not_found) := by
  unfold HybridBackend.compile HybridExecutable.new at h
  split at h
  · cases h
  · rename_i handle_map hb2 rt2 hc
    simp only [Except.ok.injEq, Prod.mk.injEq] at h
    obtain ⟨rfl, rfl, rfl⟩ := h
    obtain ⟨_, _, c3⟩ := compile_sub_functions_handles reg _ _ 0 hb rt [] _ _ _ hc
    obtain ⟨k1, k2⟩ := compile_sub_functions_keys reg _ _ 0 hb rt [] _ _ _ hc
    have hall : ∀ (j : Nat) (sub : SubFunction),
        (split_function_by_placement (AssignPlacement.run_on_function
          int_with_cpu_mul_policy (clone_function function))).sub_functions[j]? = some sub →
        ∃ (handle : Executable α) (be : Backend),
          handle_map.lookup j = some handle ∧
          hb2.m_cached_backends.lookup (get_colocated_function_placement
            (split_function_by_placement (AssignPlacement.run_on_function
              int_with_cpu_mul_policy (clone_function function))).nodes sub) = some be ∧
          be.compile reg (split_function_by_placement (AssignPlacement.run_on_function
              int_with_cpu_mul_policy (clone_function function))).nodes sub = .ok handle := by
      intro j sub hj
      obtain ⟨hd, be, e1, e2, e3⟩ := c3 j sub hj
      exact ⟨hd, be, by simpa using e1, e2, e3⟩
    refine ⟨hall, ?_, by simpa using k1, ?_⟩
    · intro e he
      rcases k2 e he with h1 | h1
      · cases h1
      · simpa using h1.2
    · intro reg2 hb3 rt3 outputs inputs
      apply execute_handle_found
      intro j hj
      obtain ⟨sub, hsub⟩ : ∃ sub, (split_function_by_placement
          (AssignPlacement.run_on_function int_with_cpu_mul_policy
            (clone_function function))).sub_functions[j]? = some sub :=
        ⟨_, List.getElem?_eq_getElem hj⟩
      obtain ⟨hd, _, e1, _⟩ := hall j sub hsub
      exact ⟨hd, e1⟩

/-- C21 on the function of `hybrid_abc`: `compile` succeeds, so the executable has its
three handles and `execute` on the tensors of the test does not fail at the handle
lookup. -/
theorem compile_handle_map_exact_witness :
    ∃ (exe : HybridExecutable Int) (hb1 : HybridBackend) (rt1 : Runtime Int),
      (HybridBackend.new int_with_cpu_mul_policy).compile full_registry empty_runtime
        graph_abc = .ok (exe, hb1, rt1) ∧
      exe.m_handle_map.length = exe.m_sub_functions.length ∧
      exe.execute full_registry hb1 runtime_abc [3] [0, 1, 2] ≠
        .error Error.handle_not_found :=
  ⟨_, _, _, rfl,
    (compile_handle_map_exact full_registry (HybridBackend.new int_with_cpu_mul_policy)
      empty_runtime graph_abc _ _ _ (by rfl)).2.2.1,
    (compile_handle_map_exact full_registry (HybridBackend.new int_with_cpu_mul_policy)
      empty_runtime graph_abc _ _ _ (by rfl)).2.2.2 full_registry _ runtime_abc [3] [0, 1, 2]⟩

/-! ## Theorems: the placement policy of the hybrid backend -/

theorem get_cached_backend_with_policy {α : Type} (reg : Registry) (hb : HybridBackend)
    (policy : Node → Placement) (rt : Runtime α) (placement : Placement) :
    (hb.with_policy policy).get_cached_backend reg rt placement =
      (hb.get_cached_backend reg rt placement).map
        (fun r => (r.1, r.2.1.with_policy policy, r.2.2)) := by
  unfold HybridBackend.get_cached_backend
  simp only [HybridBackend.with_policy]
  cases hb.m_cached_backends.lookup placement with
  | some be => rfl
  | none =>
    simp only
    cases (Backend.create reg rt placement : Except Error (Backend × Runtime α)) with
    | error e => rfl
    | ok res => rfl

theorem compile_sub_functions_with_policy {α : Type} [Add α] [Mul α] (reg : Registry)
    (nodes : List Node) (policy : Node → Placement) (subs : List SubFunction) :
    ∀ (i : Nat) (hb : HybridBackend) (rt : Runtime α) (hm : List (Nat × Executable α)),
      compile_sub_functions reg nodes i subs (hb.with_policy policy) rt hm =
        (compile_sub_functions reg nodes i subs hb rt hm).map
          (fun r => (r.1, r.2.1.with_policy policy, r.2.2)) := by
  induction subs with
  | nil => intro i hb rt hm; rfl
  | cons sub rest ih =>
    intro i hb rt hm
    simp only [compile_sub_functions, get_cached_backend_with_policy]
    cases hb.get_cached_backend reg rt (get_colocated_function_placement nodes sub) with
    | error e => rfl
    | ok res =>
      obtain ⟨be, hb1, rt1⟩ := res
      simp only [Except.map]
      cases (be.compile reg nodes sub : Except Error (Executable α)) with
      | error e => rfl
      | ok handle =>
        simp only
        rw [ih]
        rfl

theorem call_sub_functions_with_policy {α : Type} [Inhabited α] (reg : Registry)
    (exe : HybridExecutable α) (policy : Node → Placement) (rest : List SubFunction) :
    ∀ (i : Nat) (hb : HybridBackend) (m : List (Nat × Nat)) (rt : Runtime α),
      call_sub_functions reg exe i rest (hb.with_policy policy) m rt =
        (call_sub_functions reg exe i rest hb m rt).map
          (fun r => (r.1.with_policy policy, r.2)) := by
  induction rest with
  | nil => intro i hb m rt; rfl
  | cons sub rest ih =>
    intro i hb m rt
    simp only [call_sub_functions, get_cached_backend_with_policy]
    cases hb.get_cached_backend reg rt
        (get_colocated_function_placement exe.m_function.nodes sub) with
    | error e => rfl
    | ok res =>
      obtain ⟨be, hb1, rt1⟩ := res
      simp only [Except.map]
      cases prepare_parameters exe be sub.parameters m rt1 with
      | error e => rfl
      | ok res2 =>
        obtain ⟨parameter_tvs, m2, rt2⟩ := res2
        simp only
        cases call_handle exe i (prepare_results exe be sub.results m2 rt2).1
            parameter_tvs (prepare_results exe be sub.results m2 rt2).2.2 with
        | error e => rfl
        | ok rt4 =>
          simp only
          rw [ih]
          rfl

theorem compile_with_policy {α : Type} [Add α] [Mul α] (reg : Registry)
    (hb : HybridBackend) (policy : Node → Placement) (rt : Runtime α) (function : Function) :
    ((hb.with_policy policy).compile reg rt function :
        Except Error (HybridExecutable α × HybridBackend × Runtime α)) =
      (hb.compile reg rt function).map
        (fun r => (r.1, r.2.1.with_policy policy, r.2.2)) := by
  unfold HybridBackend.compile HybridExecutable.new
  rw [compile_sub_functions_with_policy]
  cases compile_sub_functions reg
      (split_function_by_placement (AssignPlacement.run_on_function
        int_with_cpu_mul_policy (clone_function function))).nodes 0
      (split_function_by_placement (AssignPlacement.run_on_function
        int_with_cpu_mul_policy (clone_function function))).sub_functions hb rt
      ([] : List (Nat × Executable α)) with
  | error e => rfl
  | ok res => rfl

theorem execute_with_policy {α : Type} [Inhabited α] (reg : Registry)
    (exe : HybridExecutable α) (hb : HybridBackend) (policy : Node → Placement)
    (rt : Runtime α) (outputs inputs : List Nat) :
    exe.execute reg (hb.with_policy policy) rt outputs inputs =
      (exe.execute reg hb rt outputs inputs).map
        (fun r => (r.1, r.2.1.with_policy policy, r.2.2)) := by
  unfold HybridExecutable.execute
  cases bind_tensors exe.m_function.parameters inputs [] with
  | error e => rfl
  | ok m1 =>
    simp only
    cases bind_tensors exe.m_function.results outputs m1 with
    | error e => rfl
    | ok m2 =>
      simp only
      rw [call_sub_functions_with_policy]
      cases call_sub_functions reg exe 0 exe.m_sub_functions hb m2 rt with
      | error e => rfl
      | ok res => rfl

theorem compiled_tags {α : Type} [Add α] [Mul α] (reg : Registry)
    (hb : HybridBackend) (rt : Runtime α) (function : Function) (exe : HybridExecutable α)
    (hb1 : HybridBackend) (rt1 : Runtime α)
    (h : hb.compile reg rt function = .ok (exe, hb1, rt1))
    (i : Nat) (n : Node) (hn : function.nodes[i]? = some n) :
    placementOf exe.m_function.nodes i = int_with_cpu_mul_policy n := by
  unfold HybridBackend.compile at h
  obtain ⟨h1, _, _, _⟩ := compiled_backend_is_cached reg hb rt function exe hb1 rt1 h
  rw [h1]
  have hlen : i < function.nodes.length := by
    rcases List.getElem?_eq_some.1 hn with ⟨hi, _⟩
    exact hi
  have hp := AssignPlacement.run_on_function_getElem? int_with_cpu_mul_policy function i
  have hlen2 : i < (placed (clone_function function)).nodes.length := by
    by_contra hcon
    have : (placed (clone_function function)).nodes[i]? = none :=
      List.getElem?_eq_none (by omega)
    unfold placed clone_function at this
    rw [hp, hn] at this
    cases this
  unfold split_function_by_placement
  simp only
  rw [placementOf_split_original _ i hlen2]
  unfold placementOf placed clone_function
  rw [hp, hn]
  rfl

/-- C28: what `HybridBackend::compile` produces does not depend on the placement policy
given to the constructor of `HybridBackend`. For any two policies `p1`, `p2` and every
function, the two backends' `compile` fail alike or yield the same executable (the same
tagged nodes, sub-functions, boundary map and handles) and the same cache, the states
differing in the stored policy only; a call of `execute` on the executable has the same
outcome in states that differ in the stored policy only; and in the executable every
node of the function is tagged `CPU` when its description is "Multiply" and
`INTERPRETER` otherwise. -/
theorem compile_independent_of_policy {α : Type} [Inhabited α] [Add α] [Mul α]
    (reg : Registry) (rt : Runtime α) (function : Function) (p1 p2 : Node → Placement) :
    ((HybridBackend.new p1).compile reg rt function :
        Except Error (HybridExecutable α × HybridBackend × Runtime α)) =
      ((HybridBackend.new p2).compile reg rt function).map
        (fun r => (r.1, r.2.1.with_policy p1, r.2.2)) ∧
    (∀ (exe : HybridExecutable α) (hb1 : HybridBackend) (rt1 : Runtime α),
      (HybridBackend.new p1).compile reg rt function = .ok (exe, hb1, rt1) →
      (∀ (i : Nat) (n : Node), function.nodes[i]? = some n →
        placementOf exe.m_function.nodes i =
          if n.description = "Multiply" then Placement.CPU else Placement.INTERPRETER) ∧
      (∀ (rt2 : Runtime α) (outputs inputs : List Nat),
        exe.execute reg (hb1.with_policy p2) rt2 outputs inputs =
          (exe.execute reg hb1 rt2 outputs inputs).map
            (fun r => (r.1, r.2.1.with_policy p2, r.2.2)))) := by
  refine ⟨compile_with_policy reg (HybridBackend.new p2) p1 rt function, ?_⟩
  intro exe hb1 rt1 h
  refine ⟨fun i n hn => ?_, fun rt2 outputs inputs => execute_with_policy _ _ _ _ _ _ _⟩
  rw [compiled_tags reg _ rt function exe hb1 rt1 h i n hn]
  rfl

/-- C28 on the function of `hybrid_abc`: a backend constructed with the all-`CPU` policy
compiles it to the executable of the backend constructed with the test's policy, and
tags the `Add` node `INTERPRETER` and the `Multiply` node `CPU`. -/
theorem compile_independent_of_policy_witness :
    ∃ (exe : HybridExecutable Int) (hb1 : HybridBackend) (rt1 : Runtime Int),
      (HybridBackend.new all_cpu_policy).compile full_registry empty_runtime graph_abc =
        .ok (exe, hb1, rt1) ∧
      ((HybridBackend.new all_cpu_policy).compile full_registry empty_runtime graph_abc :
          Except Error (HybridExecutable Int × HybridBackend × Runtime Int)) =
        ((HybridBackend.new int_with_cpu_mul_policy).compile full_registry empty_runtime
          graph_abc).map (fun r => (r.1, r.2.1.with_policy all_cpu_policy, r.2.2)) ∧
      placementOf exe.m_function.nodes 3 = Placement.INTERPRETER ∧
      placementOf exe.m_function.nodes 4 = Placement.CPU :=
  ⟨_, _, _, rfl,
    (compile_independent_of_policy full_registry empty_runtime graph_abc all_cpu_policy
      int_with_cpu_mul_policy).1,
    ((compile_independent_of_policy full_registry empty_runtime graph_abc all_cpu_policy
      int_with_cpu_mul_policy).2 _ _ _ (by rfl)).1 3 (add_2x2 0 1) (by rfl),
    ((compile_independent_of_policy full_registry empty_runtime graph_abc all_cpu_policy
      int_with_cpu_mul_policy).2 _ _ _ (by rfl)).1 4 (multiply_2x2 3 2) (by rfl)⟩

/-! ## Theorems: splitting one edge -/

theorem insert_result_parameter_split_getElem? (nodes : List Node) (src_node dst_node : Nat)
    (c : Nat) (n : Node) (hn : nodes[c]? = some n) :
    (insert_result_parameter_split nodes src_node dst_node).1[c]? =
      some (if c = dst_node then
        { n with args := n.args.map (fun a => if a = src_node then nodes.length + 1 else a) }
      else n) := by
  have hc : c < nodes.length := (List.getElem?_eq_some.1 hn).1
  unfold insert_result_parameter_split
  simp only
  rw [List.getElem?_append_left (by simpa using hc), List.getElem?_mapIdx, hn]
  rfl

theorem eval_node_relinked {α : Type} [Add α] [Mul α] (nodes nodes1 : List Node)
    (dst_node : Nat) (n : Node) (r : Nat → Nat) (env env1 : List (Nat × List α))
    (hn : nodes[dst_node]? = some n)
    (hn1 : nodes1[dst_node]? = some { n with args := n.args.map r })
    (hop : n.op ≠ OpKind.Parameter)
    (henv : ∀ a ∈ n.args, env1.lookup (r a) = env.lookup a) :
    eval_node nodes1 env1 dst_node = eval_node nodes env dst_node := by
  unfold eval_node
  rw [hn, hn1]
  obtain ⟨op, args, et, sh, pl⟩ := n
  simp only at hop henv ⊢
  cases op with
  | Parameter => exact absurd rfl hop
  | Add =>
    match args, henv with
    | [], _ => rfl
    | [a], _ => rfl
    | [a, b], henv =>
      simp only [List.map_cons, List.map_nil]
      rw [henv a (by simp), henv b (by simp)]
    | _ :: _ :: _ :: _, _ => rfl
  | Multiply =>
    match args, henv with
    | [], _ => rfl
    | [a], _ => rfl
    | [a, b], henv =>
      simp only [List.map_cons, List.map_nil]
      rw [henv a (by simp), henv b (by simp)]
    | _ :: _ :: _ :: _, _ => rfl
  | Result =>
    match args, henv with
    | [], _ => rfl
    | [a], henv =>
      simp only [List.map_cons, List.map_nil]
      rw [henv a (by simp)]
    | _ :: _ :: _, _ => rfl

/-- C22: for every edge `src -> dst` of a graph (`dst` a node of the arena that reads
`src`), `insert_result_parameter_split(src, dst)` returns a pair (R, P) of two new nodes
such that R is a Result node whose input is `src`, P is a Parameter node with the
element type and shape of `src`, the inputs of `dst` that read `src` now read P (and
none reads `src`), its other inputs and every other node of the graph are unchanged;
so R evaluates to the value of `src`, and when P is bound to that value `dst` computes
the value it computed before. -/
theorem insert_result_parameter_split_spec {α : Type} [Add α] [Mul α] (nodes : List Node)
    (src_node dst_node : Nat) (n : Node)
    (hdst : nodes[dst_node]? = some n) (hsrc : src_node ∈ n.args)
    (hop : n.op ≠ OpKind.Parameter) (hlt : src_node < nodes.length) :
    (insert_result_parameter_split nodes src_node dst_node).2.1 = nodes.length ∧
    (insert_result_parameter_split nodes src_node dst_node).2.2 = nodes.length + 1 ∧
    (∃ res_node : Node,
      (insert_result_parameter_split nodes src_node dst_node).1[nodes.length]? =
        some res_node ∧
      res_node.op = OpKind.Result ∧ res_node.args = [src_node]) ∧
    (∃ par_node : Node,
      (insert_result_parameter_split nodes src_node dst_node).1[nodes.length + 1]? =
        some par_node ∧
      par_node.op = OpKind.Parameter ∧ par_node.args = [] ∧
      par_node.element_type = elementTypeOf nodes src_node ∧
      par_node.shape = shapeOf nodes src_node) ∧
    (insert_result_parameter_split nodes src_node dst_node).1.length = nodes.length + 2 ∧
    ((insert_result_parameter_split nodes src_node dst_node).1[dst_node]? =
      some ({ n with
        args := n.args.map (fun a => if a = src_node then nodes.length + 1 else a) }) ∧
      nodes.length + 1 ∈
        argsOf (insert_result_parameter_split nodes src_node dst_node).1 dst_node ∧
      src_node ∉ argsOf (insert_result_parameter_split nodes src_node dst_node).1 dst_node) ∧
    (∀ (c : Nat) (m : Node), c ≠ dst_node → nodes[c]? = some m →
      (insert_result_parameter_split nodes src_node dst_node).1[c]? = some m) ∧
    (∀ (env : List (Nat × List α)),
      eval_node (insert_result_parameter_split nodes src_node dst_node).1 env nodes.length =
        env.lookup src_node) ∧
    (∀ (env env1 : List (Nat × List α)),
      env1.lookup (nodes.length + 1) = env.lookup src_node →
      (∀ a ∈ n.args, a ≠ src_node → env1.lookup a = env.lookup a) →
      eval_node (insert_result_parameter_split nodes src_node dst_node).1 env1 dst_node =
        eval_node nodes env dst_node) := by
  have hd := insert_result_parameter_split_getElem? nodes src_node dst_node dst_node n hdst
  rw [if_pos rfl] at hd
  have hlen : (nodes.mapIdx (fun i n =>
      if i = dst_node then
        { n with args := n.args.map (fun a => if a = src_node then nodes.length + 1 else a) }
      else n)).length = nodes.length := by simp
  have hR : (insert_result_parameter_split nodes src_node dst_node).1[nodes.length]? =
      some { op := .Result, args := [src_node], element_type := elementTypeOf nodes src_node,
             shape := shapeOf nodes src_node, placement := placementOf nodes src_node } := by
    unfold insert_result_parameter_split
    simp only
    rw [List.getElem?_append_right (by rw [hlen]), hlen]
    simp
  have hP : (insert_result_parameter_split nodes src_node dst_node).1[nodes.length + 1]? =
      some { op := .Parameter, args := [], element_type := elementTypeOf nodes src_node,
             shape := shapeOf nodes src_node, placement := placementOf nodes dst_node } := by
    unfold insert_result_parameter_split
    simp only
    rw [List.getElem?_append_right (by rw [hlen]; omega), hlen]
    simp
  refine ⟨rfl, rfl, ⟨_, hR, rfl, rfl⟩, ⟨_, hP, rfl, rfl, rfl, rfl⟩, ?_, ⟨hd, ?_, ?_⟩, ?_, ?_, ?_⟩
  · unfold insert_result_parameter_split
    simp
  · unfold argsOf
    rw [hd]
    simp only [List.mem_map]
    exact ⟨src_node, hsrc, by simp⟩
  · unfold argsOf
    rw [hd]
    simp only [List.mem_map, not_exists, not_and]
    intro a _ h
    split at h
    · omega
    · rename_i hne
      exact hne h
  · intro c m hc hm
    rw [insert_result_parameter_split_getElem? nodes src_node dst_node c m hm, if_neg hc]
  · intro env
    unfold eval_node
    rw [hR]
  · intro env env1 h1 h2
    refine eval_node_relinked nodes _ dst_node n _ env env1 hdst hd hop ?_
    intro a ha
    by_cases hsa : a = src_node
    · rw [if_pos hsa, h1, hsa]
    · rw [if_neg hsa]
      exact h2 a ha hsa

/-- C22 on the graph of `hybrid_abc_manual`: the edge D -> E of `D = A + B`, `E = D * C`
is split into R0 (node 6) and P0 (node 7); the three splits D -> E, C -> E, E -> R give
the arena of the manual partition, and running its three pieces in sequence, each fed
with the results of the one before, yields [[54,80],[110,144]]. -/
theorem insert_result_parameter_split_spec_witness :
    (insert_result_parameter_split (placed graph_abc).nodes 3 4).2 = (6, 7) ∧
    argsOf (insert_result_parameter_split (placed graph_abc).nodes 3 4).1 4 = [7, 2] ∧
    (∀ (env env1 : List (Nat × List Int)),
      env1.lookup 7 = env.lookup 3 →
      (∀ a ∈ [3, 2], a ≠ 3 → env1.lookup a = env.lookup a) →
      eval_node (insert_result_parameter_split (placed graph_abc).nodes 3 4).1 env1 4 =
        eval_node (placed graph_abc).nodes env 4) ∧
    manual_split_nodes = manual_abc_nodes ∧
    SubFunction.call manual_split_nodes
      { ops := [0, 1, 2, 3, 6, 8], parameters := [0, 1, 2], results := [6, 8] }
      [[1, 2, 3, 4], [5, 6, 7, 8], [9, 10, 11, 12]] =
      some [[(6 : Int), 8, 10, 12], [9, 10, 11, 12]] ∧
    SubFunction.call manual_split_nodes
      { ops := [7, 9, 4, 10], parameters := [7, 9], results := [10] }
      [[6, 8, 10, 12], [9, 10, 11, 12]] = some [[(54 : Int), 80, 110, 144]] ∧
    SubFunction.call manual_split_nodes
      { ops := [11, 5], parameters := [11], results := [5] }
      [[54, 80, 110, 144]] = some [[(54 : Int), 80, 110, 144]] :=
  ⟨by decide, by decide,
    (@insert_result_parameter_split_spec Int _ _ (placed graph_abc).nodes 3 4
      ((multiply_2x2 3 2).set_placement .CPU) (by decide) (by decide) (by decide)
      (by decide)).2.2.2.2.2.2.2.2,
    by decide, by decide, by decide, by decide⟩

/-! ## Theorems: the caller's function -/

theorem store_length_of_frame (store store1 : List Node) (k : Nat) (hk : k ≤ store.length)
    (h : ∀ a, a < k → store1[a]? = store[a]?) : k ≤ store1.length := by
  cases k with
  | zero => omega
  | succ k =>
    have h1 := h k (by omega)
    have h2 : store[k]? = some (store[k]) := List.getElem?_eq_getElem (by omega)
    rw [h2] at h1
    have := (List.getElem?_eq_some.1 h1).1
    omega

theorem compile_sub_functions_shared_frame {α : Type} (lib : GraphLibrary α)
    (hlib : lib.Framed) (reg : Registry) (k : Nat) (subs : List SubFunction) :
    ∀ (i : Nat) (store : List Node) (hb : HybridBackend) (rt : Runtime α)
      (hm : List (Nat × Executable α)),
      k ≤ store.length →
      (∀ sub ∈ subs, ∀ a ∈ sub.ops, k ≤ a) →
      ∀ a, a < k →
        (compile_sub_functions_shared lib reg i subs store hb rt hm).1[a]? = store[a]? := by
  induction subs with
  | nil => intro i store hb rt hm _ _ a _; rfl
  | cons sub rest ih =>
    intro i store hb rt hm hk hsubs a ha
    unfold compile_sub_functions_shared
    cases hb.get_cached_backend reg rt (get_colocated_function_placement store sub) with
    | error e => rfl
    | ok res =>
      obtain ⟨be, hb1, rt1⟩ := res
      simp only
      have hframe : ∀ b, b < k → (lib.compile be store sub).1[b]? = store[b]? := by
        intro b hb
        refine hlib.compile_frame be store sub b (by omega) ?_
        intro hmem
        have := hsubs sub (by simp) b hmem
        omega
      cases hc : lib.compile be store sub with
      | mk store1 r =>
        rw [hc] at hframe
        simp only at hframe
        cases r with
        | error e => exact hframe a ha
        | ok h =>
          simp only
          rw [ih (i + 1) store1 hb1 rt1 _ (store_length_of_frame store store1 k hk hframe)
            (fun s hs => hsubs s (List.mem_cons_of_mem _ hs)) a ha]
          exact hframe a ha

theorem new_shared_store {α : Type} (lib : GraphLibrary α) (reg : Registry)
    (hb : HybridBackend) (rt : Runtime α) (store : List Node) (func : SubFunction) :
    (HybridExecutable.new_shared lib reg hb rt store func).1 =
      (compile_sub_functions_shared lib reg 0
        (lib.split_function_by_placement
          (lib.run_passes int_with_cpu_mul_policy (lib.clone_function store func).1
            (lib.clone_function store func).2) (lib.clone_function store func).2).2.1
        (lib.split_function_by_placement
          (lib.run_passes int_with_cpu_mul_policy (lib.clone_function store func).1
            (lib.clone_function store func).2) (lib.clone_function store func).2).1
        hb rt []).1 ∨
    (HybridExecutable.new_shared lib reg hb rt store func).1 =
      lib.set_parameters_and_results
        (compile_sub_functions_shared lib reg 0
          (lib.split_function_by_placement
            (lib.run_passes int_with_cpu_mul_policy (lib.clone_function store func).1
              (lib.clone_function store func).2) (lib.clone_function store func).2).2.1
          (lib.split_function_by_placement
            (lib.run_passes int_with_cpu_mul_policy (lib.clone_function store func).1
              (lib.clone_function store func).2) (lib.clone_function store func).2).1
          hb rt []).1 (lib.clone_function store func).2 := by
  unfold HybridExecutable.new_shared
  simp only
  split
  · rename_i heq
    left
    rw [heq]
  · rename_i heq
    right
    rw [heq]

/-- C30: `HybridBackend::compile` leaves the caller's function unchanged. With a graph
library that meets its frame conditions (`clone_function` returns new node objects;
the pass manager, the splitter and the backends write only to the nodes of the function
they are given and to new ones), every node object that exists before the call, so
every node of the caller's function, is after the call the node it was: it has the
placement tag and the input edges it had. This holds whether the call returns or
throws. -/
theorem compile_leaves_function_unchanged {α : Type} (lib : GraphLibrary α)
    (hlib : lib.Framed) (reg : Registry) (hb : HybridBackend) (rt : Runtime α)
    (store : List Node) (function : SubFunction) (a : Nat) (n : Node)
    (hn : store[a]? = some n) :
    (hb.compile_shared lib reg rt store function).1[a]? = some n ∧
    placementOf (hb.compile_shared lib reg rt store function).1 a = n.placement ∧
    argsOf (hb.compile_shared lib reg rt store function).1 a = n.args := by
  have ha : a < store.length := (List.getElem?_eq_some.1 hn).1
  have key : (hb.compile_shared lib reg rt store function).1[a]? = some n := by
    rw [← hn]
    unfold HybridBackend.compile_shared
    have f1 : ∀ b, b < store.length → (lib.clone_function store function).1[b]? = store[b]? :=
      fun b hb => hlib.clone_frame store function b hb
    have l1 := store_length_of_frame store _ store.length (le_refl _) f1
    have g1 := hlib.clone_fresh store function
    have f2 : ∀ b, b < store.length →
        (lib.run_passes int_with_cpu_mul_policy (lib.clone_function store function).1
          (lib.clone_function store function).2)[b]? = store[b]? := by
      intro b hb
      rw [hlib.pass_frame _ _ _ b (by omega) (fun hmem => by have := g1 b hmem; omega)]
      exact f1 b hb
    have l2 := store_length_of_frame store _ store.length (le_refl _) f2
    have f3 : ∀ b, b < store.length →
        (lib.split_function_by_placement
          (lib.run_passes int_with_cpu_mul_policy (lib.clone_function store function).1
            (lib.clone_function store function).2)
          (lib.clone_function store function).2).1[b]? = store[b]? := by
      intro b hb
      rw [hlib.split_frame _ _ b (by omega) (fun hmem => by have := g1 b hmem; omega)]
      exact f2 b hb
    have l3 := store_length_of_frame store _ store.length (le_refl _) f3
    have g3 := hlib.split_nodes
      (lib.run_passes int_with_cpu_mul_policy (lib.clone_function store function).1
        (lib.clone_function store function).2) (lib.clone_function store function).2
    have f4 : ∀ b, b < store.length →
        (compile_sub_functions_shared lib reg 0
          (lib.split_function_by_placement
            (lib.run_passes int_with_cpu_mul_policy (lib.clone_function store function).1
              (lib.clone_function store function).2)
            (lib.clone_function store function).2).2.1
          (lib.split_function_by_placement
            (lib.run_passes int_with_cpu_mul_policy (lib.clone_function store function).1
              (lib.clone_function store function).2)
            (lib.clone_function store function).2).1 hb rt []).1[b]? = store[b]? := by
      intro b hb1
      rw [compile_sub_functions_shared_frame lib hlib reg store.length _ 0 _ hb rt [] l3
        (fun sub hs c hc => by
          rcases g3 sub hs c hc with h1 | h1
          · exact g1 c h1
          · omega) b hb1]
      exact f3 b hb1
    have l4 := store_length_of_frame store _ store.length (le_refl _) f4
    rcases new_shared_store lib reg hb rt store function with h5 | h5
    · rw [h5]
      exact f4 a ha
    · rw [h5, hlib.bookkeeping_frame _ _ a (by omega)
        (fun hmem => by have := g1 a hmem; omega)]
      exact f4 a ha
  refine ⟨key, ?_, ?_⟩
  · unfold placementOf
    rw [key]
  · unfold argsOf
    rw [key]

theorem foldl_run_on_node_frame (policy : Node → Placement) (ops : List Nat) :
    ∀ (store : List Node) (a : Nat), a ∉ ops →
      (ops.foldl (AssignPlacement.run_on_node policy) store)[a]? = store[a]? := by
  induction ops with
  | nil => intro store a _; rfl
  | cons i ops ih =>
    intro store a ha
    simp only [List.foldl_cons]
    rw [ih _ a (fun h => ha (List.mem_cons_of_mem _ h)),
      AssignPlacement.run_on_node_getElem?, if_neg (fun h => ha (by simp [h]))]

theorem reference_library_framed (reg : Registry) : (reference_library reg).Framed where
  clone_frame := by
    intro store f a ha
    simp only [reference_library]
    exact List.getElem?_append_left ha
  clone_fresh := by
    intro store f a ha
    simp only [reference_library, List.mem_map] at ha
    obtain ⟨b, _, rfl⟩ := ha
    omega
  pass_frame := by
    intro policy store g a _ ha
    exact foldl_run_on_node_frame policy g.ops store a ha
  split_frame := by intro store g a _ _; rfl
  split_nodes := by
    intro store g sub hs a ha
    simp only [reference_library, List.mem_singleton] at hs
    subst hs
    exact Or.inl ha
  compile_frame := by intro be store sub a _ _; rfl
  bookkeeping_frame := by intro store g a _ _; rfl

/-- C30 on the function of `hybrid_abc`, all of whose nodes are `DEFAULT`: after
`compile` the six nodes of the caller's function are the nodes they were, while the
copy of the `Multiply` node (node 10 of the store) is tagged `CPU`. -/
theorem compile_leaves_function_unchanged_witness :
    ((HybridBackend.new int_with_cpu_mul_policy).compile_shared
      (reference_library full_registry) full_registry empty_runtime graph_abc.nodes
      graph_abc_object).1.take 6 = graph_abc.nodes ∧
    placementOf ((HybridBackend.new int_with_cpu_mul_policy).compile_shared
      (reference_library full_registry) full_registry empty_runtime graph_abc.nodes
      graph_abc_object).1 10 = Placement.CPU ∧
    placementOf ((HybridBackend.new int_with_cpu_mul_policy).compile_shared
      (reference_library full_registry) full_registry empty_runtime graph_abc.nodes
      graph_abc_object).1 4 = Placement.DEFAULT ∧
    argsOf ((HybridBackend.new int_with_cpu_mul_policy).compile_shared
      (reference_library full_registry) full_registry empty_runtime graph_abc.nodes
      graph_abc_object).1 4 = [3, 2] :=
  ⟨by decide, by decide,
    (compile_leaves_function_unchanged (reference_library full_registry)
      (reference_library_framed full_registry) full_registry
      (HybridBackend.new int_with_cpu_mul_policy) empty_runtime graph_abc.nodes
      graph_abc_object 4 (multiply_2x2 3 2) (by decide)).2.1,
    (compile_leaves_function_unchanged (reference_library full_registry)
      (reference_library_framed full_registry) full_registry
      (HybridBackend.new int_with_cpu_mul_policy) empty_runtime graph_abc.nodes
      graph_abc_object 4 (multiply_2x2 3 2) (by decide)).2.2⟩

/-! ## Theorems: ONNXIFI weights -/

theorem get_type_error (K : onnxifi.Constants) (type : Nat) (e : onnxifi.Status)
    (h : onnxifi.Weight._get_type K type = .error e) :
    type ∉ K.supported_datatypes ∧
    e = if type ∈ K.invalid_datatypes then onnxifi.Status.invalid_datatype
      else onnxifi.Status.unsupported_datatype := by
  unfold onnxifi.Weight._get_type at h
  by_cases h1 : type = K.ONNXIFI_DATATYPE_FLOAT32
  · rw [if_pos h1] at h; cases h
  rw [if_neg h1] at h
  by_cases h2 : type = K.ONNXIFI_DATATYPE_FLOAT64
  · rw [if_pos h2] at h; cases h
  rw [if_neg h2] at h
  by_cases h3 : type = K.ONNXIFI_DATATYPE_INT8
  · rw [if_pos h3] at h; cases h
  rw [if_neg h3] at h
  by_cases h4 : type = K.ONNXIFI_DATATYPE_INT16
  · rw [if_pos h4] at h; cases h
  rw [if_neg h4] at h
  by_cases h5 : type = K.ONNXIFI_DATATYPE_INT32
  · rw [if_pos h5] at h; cases h
  rw [if_neg h5] at h
  by_cases h6 : type = K.ONNXIFI_DATATYPE_INT64
  · rw [if_pos h6] at h; cases h
  rw [if_neg h6] at h
  by_cases h7 : type = K.ONNXIFI_DATATYPE_UINT8
  · rw [if_pos h7] at h; cases h
  rw [if_neg h7] at h
  by_cases h8 : type = K.ONNXIFI_DATATYPE_UINT16
  · rw [if_pos h8] at h; cases h
  rw [if_neg h8] at h
  by_cases h9 : type = K.ONNXIFI_DATATYPE_UINT32
  · rw [if_pos h9] at h; cases h
  rw [if_neg h9] at h
  by_cases h10 : type = K.ONNXIFI_DATATYPE_UINT64
  · rw [if_pos h10] at h; cases h
  rw [if_neg h10] at h
  constructor
  · simp only [onnxifi.Constants.supported_datatypes, List.mem_cons, List.mem_singleton,
      List.not_mem_nil, or_false, not_or]
    exact ⟨h1, h2, h3, h4, h5, h6, h7, h8, h9, h10⟩
  · simp only [onnxifi.Constants.invalid_datatypes, List.mem_cons, List.mem_singleton,
      List.not_mem_nil, or_false]
    split_ifs at h ⊢ <;> simp only [Except.error.injEq] at h <;> exact h.symm

theorem get_type_ok (K : onnxifi.Constants) (type : Nat) (ty : ElementType)
    (h : onnxifi.Weight._get_type K type = .ok ty) : type ∈ K.supported_datatypes := by
  by_contra hs
  simp only [onnxifi.Constants.supported_datatypes, List.mem_cons, List.mem_singleton,
    List.not_mem_nil, or_false, not_or] at hs
  obtain ⟨h1, h2, h3, h4, h5, h6, h7, h8, h9, h10⟩ := hs
  unfold onnxifi.Weight._get_type at h
  rw [if_neg h1, if_neg h2, if_neg h3, if_neg h4, if_neg h5, if_neg h6, if_neg h7, if_neg h8,
    if_neg h9, if_neg h10] at h
  split_ifs at h

theorem get_type_cases (K : onnxifi.Constants) (hK : K.Distinct) (type : Nat) :
    (type ∈ K.invalid_datatypes ∧
      onnxifi.Weight._get_type K type = .error onnxifi.Status.invalid_datatype) ∨
    (type ∉ K.invalid_datatypes ∧ type ∈ K.supported_datatypes ∧
      ∃ ty, onnxifi.Weight._get_type K type = .ok ty) ∨
    (type ∉ K.invalid_datatypes ∧ type ∉ K.supported_datatypes ∧
      onnxifi.Weight._get_type K type = .error onnxifi.Status.unsupported_datatype) := by
  have hdis : ∀ x, x ∈ K.supported_datatypes → x ∉ K.invalid_datatypes := by
    intro x h1 h2
    exact (List.nodup_append.1 hK.1).2.2 h1 h2
  cases hg : onnxifi.Weight._get_type K type with
  | ok ty =>
    have hs := get_type_ok K type ty hg
    exact Or.inr (Or.inl ⟨hdis type hs, hs, ty, rfl⟩)
  | error e =>
    obtain ⟨hs, he⟩ := get_type_error K type e hg
    by_cases hi : type ∈ K.invalid_datatypes
    · rw [if_pos hi] at he
      exact Or.inl ⟨hi, by rw [he]⟩
    · rw [if_neg hi] at he
      exact Or.inr (Or.inr ⟨hi, hs, by rw [he]⟩)

theorem switch_memory_type_eq (K : onnxifi.Constants) (hK : K.Distinct) (memoryType : Nat) :
    onnxifi.Weight.switch_memory_type K memoryType =
      if memoryType ∈ K.invalid_memory_types then some onnxifi.Status.invalid_memory_type
      else if memoryType = K.ONNXIFI_MEMORY_TYPE_CPU then none
      else some onnxifi.Status.unsupported_memory_type := by
  have hcpu : K.ONNXIFI_MEMORY_TYPE_CPU ∉ K.invalid_memory_types :=
    (List.nodup_cons.1 hK.2).1
  unfold onnxifi.Weight.switch_memory_type
  by_cases h : memoryType = K.ONNXIFI_MEMORY_TYPE_CPU
  · rw [if_pos h, h, if_neg hcpu, if_pos rfl]
  · rw [if_neg h]
    simp only [onnxifi.Constants.invalid_memory_types, List.mem_cons, List.mem_singleton,
      List.not_mem_nil, or_false, h, if_false]

theorem read_shape_eq (l : List Nat) :
    ∀ (m_shape : List Nat) (m_size : Nat),
      onnxifi.Weight.read_shape l m_shape m_size =
        if 0 ∈ l then .error onnxifi.Status.invalid_shape
        else .ok (m_shape ++ l, l.foldl (fun s v => wrap_size_t (s * v)) m_size) := by
  induction l with
  | nil => intro m_shape m_size; simp [onnxifi.Weight.read_shape]
  | cons v l ih =>
    intro m_shape m_size
    unfold onnxifi.Weight.read_shape
    by_cases hv : v = 0
    · simp [hv]
    · rw [if_neg hv, ih]
      have : (0 ∈ v :: l) ↔ 0 ∈ l := by
        simp only [List.mem_cons]
        constructor
        · rintro (h | h)
          · exact absurd h.symm hv
          · exact h
        · exact Or.inr
      simp only [this, List.append_assoc, List.singleton_append, List.foldl_cons]

theorem foldl_wrap_size_t (l : List Nat) :
    ∀ (m_size : Nat),
      l.foldl (fun s v => wrap_size_t (s * v)) (wrap_size_t m_size) =
        wrap_size_t (m_size * l.prod) := by
  induction l with
  | nil => intro m_size; simp
  | cons v l ih =>
    intro m_size
    simp only [List.foldl_cons, List.prod_cons]
    rw [ih]
    unfold wrap_size_t
    rw [Nat.mul_assoc, Nat.mul_mod, Nat.mod_mod, ← Nat.mul_mod]

theorem weight_new_checked (K : onnxifi.Constants) (hK : K.Distinct)
    (element_size : ElementType → Nat) (weight : onnxTensorDescriptorV1) (name : String)
    (hname : weight.name = some name) :
    match onnxifi.Weight.first_failing_check K weight with
    | some s => onnxifi.Weight.new K element_size weight = .error (onnxifi.Failure.status s)
    | none => ∃ w, onnxifi.Weight.new K element_size weight = .ok w := by
  unfold onnxifi.Weight.first_failing_check onnxifi.Weight.checks onnxifi.Weight.new
  rw [hname]
  simp only [Option.isNone_some, List.findSome?_cons, id]
  rcases get_type_cases K hK weight.dataType with ⟨h1, h2⟩ | ⟨h1, h2, ty, h3⟩ | ⟨h1, h2, h3⟩
  · simp [h1, h2]
  · rw [h3, switch_memory_type_eq K hK]
    simp only [h1, h2, if_false, if_true]
    by_cases htag : weight.tag = K.ONNXIFI_TAG_TENSOR_DESCRIPTOR_V1
    · simp only [htag, ne_eq, not_true_eq_false, if_false]
      by_cases hm1 : weight.memoryType ∈ K.invalid_memory_types
      · simp [hm1]
      · simp only [hm1, if_false]
        by_cases hm2 : weight.memoryType = K.ONNXIFI_MEMORY_TYPE_CPU
        · simp only [hm2, if_true]
          cases hshape : weight.shape with
          | none =>
            by_cases hd : weight.dimensions = 0
            · cases hbuf : weight.buffer with
              | none => simp [hd, onnxifi.Weight.build_shape, hshape, hbuf]
              | some buffer => simp [hd, onnxifi.Weight.build_shape, hshape, hbuf]
            · simp [hd]
          | some shape =>
            by_cases hd : weight.dimensions = 0
            · simp [hd]
            · by_cases h0 : 0 ∈ List.map shape (List.range weight.dimensions)
              · simp [hd, onnxifi.Weight.build_shape, hshape, read_shape_eq, h0]
              · cases hbuf : weight.buffer with
                | none => simp [hd, onnxifi.Weight.build_shape, hshape, read_shape_eq, h0, hbuf]
                | some buffer =>
                  simp [hd, onnxifi.Weight.build_shape, hshape, read_shape_eq, h0, hbuf]
        · simp [hm2]
    · simp [htag]
  · simp [h1, h2, h3]

theorem weight_new_ok (K : onnxifi.Constants) (element_size : ElementType → Nat)
    (weight : onnxTensorDescriptorV1) (w : onnxifi.Weight)
    (h : onnxifi.Weight.new K element_size weight = .ok w) :
    weight.name = some w.m_name ∧
    onnxifi.Weight._get_type K weight.dataType = .ok w.m_type ∧
    onnxifi.Weight.build_shape weight = .ok (w.m_shape, w.m_size) ∧
    ∃ buffer, weight.buffer = some buffer ∧
      w.m_buffer = (List.range (wrap_size_t (w.m_size * element_size w.m_type))).map buffer := by
  unfold onnxifi.Weight.new at h
  split at h
  · cases h
  · rename_i nm hnm
    split at h
    · cases h
    · rename_i ty hty
      split at h
      · cases h
      · split at h
        · cases h
        · split at h
          · cases h
          · split at h
            · cases h
            · split at h
              · cases h
              · split at h
                · cases h
                · rename_i m_shape m_size hsh
                  split at h
                  · cases h
                  · rename_i buffer hbuf
                    simp only [Except.ok.injEq] at h
                    subst h
                    exact ⟨hnm, hty, hsh, buffer, hbuf, rfl⟩

theorem weight_new_not_invalid_name (K : onnxifi.Constants)
    (element_size : ElementType → Nat) (weight : onnxTensorDescriptorV1) :
    onnxifi.Weight.new K element_size weight ≠
      .error (onnxifi.Failure.status onnxifi.Status.invalid_name) := by
  intro h
  unfold onnxifi.Weight.new at h
  split at h
  · cases h
  · rename_i nm hnm
    split at h
    · rename_i s hs
      have := (get_type_error K _ s hs).2
      simp only [Except.error.injEq, onnxifi.Failure.status.injEq] at h
      rw [h] at this
      split_ifs at this
    · split at h
      · cases h
      · split at h
        · rename_i hdead
          rw [hnm] at hdead
          cases hdead
        · split at h
          · rename_i s hs
            simp only [Except.error.injEq, onnxifi.Failure.status.injEq] at h
            rw [h] at hs
            unfold onnxifi.Weight.switch_memory_type at hs
            split_ifs at hs <;> cases hs
          · split at h
            · cases h
            · split at h
              · cases h
              · split at h
                · rename_i s hs
                  simp only [Except.error.injEq, onnxifi.Failure.status.injEq] at h
                  rw [h] at hs
                  unfold onnxifi.Weight.build_shape at hs
                  split at hs
                  · cases hs
                  · rw [read_shape_eq] at hs
                    split_ifs at hs
                    cases hs
                · split at h
                  · cases h
                  · cases h

/-- C24: the order of the checks of the constructor of `onnxifi::Weight`. For a
descriptor whose `name` is not null the constructor succeeds if and only if every check
passes, and otherwise raises the status of the first failing check in the order data
type, tag, name, memory type, dimensions without shape, shape without dimensions, zero
extent, null buffer. For a descriptor whose `name` is null the constructor does not
reach any check: the member initialiser `m_name{weight.name}` constructs a
`std::string` from the null pointer first, so `invalid_name` is never raised. (The
`case` labels of the two `switch` statements are pairwise distinct.) -/
theorem weight_constructor_check_order (K : onnxifi.Constants) (hK : K.Distinct)
    (element_size : ElementType → Nat) (weight : onnxTensorDescriptorV1) :
    (weight.name = none →
      onnxifi.Weight.new K element_size weight = .error onnxifi.Failure.string_from_null) ∧
    onnxifi.Weight.new K element_size weight ≠
      .error (onnxifi.Failure.status onnxifi.Status.invalid_name) ∧
    (∀ name, weight.name = some name →
      (∀ s, onnxifi.Weight.first_failing_check K weight = some s →
        onnxifi.Weight.new K element_size weight = .error (onnxifi.Failure.status s)) ∧
      ((∃ w, onnxifi.Weight.new K element_size weight = .ok w) ↔
        onnxifi.Weight.first_failing_check K weight = none)) := by
  have hsome : ∀ name, weight.name = some name →
      (∀ s, onnxifi.Weight.first_failing_check K weight = some s →
        onnxifi.Weight.new K element_size weight = .error (onnxifi.Failure.status s)) ∧
      ((∃ w, onnxifi.Weight.new K element_size weight = .ok w) ↔
        onnxifi.Weight.first_failing_check K weight = none) := by
    intro name hname
    have h := weight_new_checked K hK element_size weight name hname
    cases hf : onnxifi.Weight.first_failing_check K weight with
    | none =>
      rw [hf] at h
      exact ⟨fun s hs => (by cases hs), fun _ => rfl, fun _ => h⟩
    | some s =>
      rw [hf] at h
      simp only at h
      refine ⟨?_, ?_, ?_⟩
      · intro s1 hs
        cases hs
        exact h
      · intro hex
        obtain ⟨w, hw⟩ := hex
        rw [h] at hw
        cases hw
      · intro hn
        cases hn
  have hnone : weight.name = none →
      onnxifi.Weight.new K element_size weight = .error onnxifi.Failure.string_from_null := by
    intro hname
    unfold onnxifi.Weight.new
    rw [hname]
  exact ⟨hnone, weight_new_not_invalid_name K element_size weight, hsome⟩

/-- C24 at three descriptors, with the constants of `onnxifi.h`: a 2x3 `FLOAT32`
descriptor is accepted; the same descriptor with a null `name` is not rejected with
`invalid_name`, which is the first check that fails on it: the constructor has
undefined behaviour; a descriptor with an unknown tag and data type `FLOAT16` is
rejected with `invalid_datatype`, the earlier of its two failing checks. -/
theorem weight_constructor_check_order_witness :
    onnxifi.header.Distinct ∧
    (∃ w, onnxifi.Weight.new onnxifi.header element_byte_size descriptor_2x3 = .ok w) ∧
    onnxifi.Weight.first_failing_check onnxifi.header descriptor_null_name =
      some onnxifi.Status.invalid_name ∧
    onnxifi.Weight.new onnxifi.header element_byte_size descriptor_null_name =
      .error onnxifi.Failure.string_from_null ∧
    onnxifi.Weight.new onnxifi.header element_byte_size
      { descriptor_2x3 with tag := 0, dataType := 10 } =
      .error (onnxifi.Failure.status onnxifi.Status.invalid_datatype) :=
  ⟨by decide,
    ((weight_constructor_check_order onnxifi.header (by decide) element_byte_size
      descriptor_2x3).2.2 "w" rfl).2.2 (by decide),
    by decide,
    (weight_constructor_check_order onnxifi.header (by decide) element_byte_size
      descriptor_null_name).1 rfl,
    ((weight_constructor_check_order onnxifi.header (by decide) element_byte_size
      { descriptor_2x3 with tag := 0, dataType := 10 }).2.2 "w" rfl).1 _ (by decide)⟩

/-- C25: for every tensor descriptor that the constructor of `onnxifi::Weight` accepts:
if the descriptor's shape pointer is null the weight has shape [1] and size 1;
otherwise its shape is the descriptor's extents in order, every extent is non-zero, and
`size()` is the product of the extents modulo 2^64; in both cases `data()` holds the
first `size() * (element byte size of the mapped type)` modulo 2^64 bytes of the
descriptor's buffer, and `type()` is the type `_get_type` maps the data type to. -/
theorem weight_shape_size_data (K : onnxifi.Constants) (element_size : ElementType → Nat)
    (weight : onnxTensorDescriptorV1) (w : onnxifi.Weight)
    (h : onnxifi.Weight.new K element_size weight = .ok w) :
    (weight.shape.isNone = true → w.shape = [1] ∧ w.size = 1) ∧
    (∀ shape, weight.shape = some shape →
      w.shape = (List.range weight.dimensions).map shape ∧
      (∀ v ∈ w.shape, v ≠ 0) ∧
      w.size = w.shape.prod % 2 ^ 64) ∧
    (∃ buffer, weight.buffer = some buffer ∧
      w.data = (List.range ((w.size * element_size w.type) % 2 ^ 64)).map buffer) ∧
    w.data.length = (w.size * element_size w.type) % 2 ^ 64 ∧
    onnxifi.Weight._get_type K weight.dataType = .ok w.type := by
  obtain ⟨_, hty, hsh, buffer, hbuf, hdata⟩ := weight_new_ok K element_size weight w h
  unfold onnxifi.Weight.build_shape at hsh
  refine ⟨?_, ?_, ⟨buffer, hbuf, hdata⟩, ?_, hty⟩
  · intro hnone
    cases hshape : weight.shape with
    | none =>
      rw [hshape] at hsh
      simp only [Except.ok.injEq, Prod.mk.injEq] at hsh
      exact ⟨hsh.1.symm, hsh.2.symm⟩
    | some shape => rw [hshape] at hnone; cases hnone
  · intro shape hshape
    rw [hshape] at hsh
    simp only [read_shape_eq] at hsh
    split_ifs at hsh with h0
    simp only [List.nil_append, Except.ok.injEq, Prod.mk.injEq] at hsh
    obtain ⟨e1, e2⟩ := hsh
    refine ⟨e1.symm, ?_, ?_⟩
    · intro v hv hv0
      apply h0
      show 0 ∈ List.map shape (List.range weight.dimensions)
      rw [e1, ← hv0]
      exact hv
    · show w.m_size = w.m_shape.prod % 2 ^ 64
      rw [← e2, ← e1]
      have := foldl_wrap_size_t (List.map shape (List.range weight.dimensions)) 1
      rw [show wrap_size_t 1 = 1 from rfl, Nat.one_mul] at this
      exact this
  · show w.m_buffer.length = _
    rw [hdata, List.length_map, List.length_range]
    rfl

/-- C25 at a 2x3 `FLOAT32` descriptor: the weight has shape [2, 3], size 6 and the first
24 bytes of the buffer. -/
theorem weight_shape_size_data_witness :
    ∃ w, onnxifi.Weight.new onnxifi.header element_byte_size descriptor_2x3 = .ok w ∧
      w.shape = [2, 3] ∧ w.size = 6 ∧ w.type = ElementType.f32 ∧
      w.data = List.range 24 ∧
      w.data.length = (w.size * element_byte_size w.type) % 2 ^ 64 :=
  ⟨{ m_name := "w", m_shape := [2, 3], m_size := 6, m_type := ElementType.f32,
     m_buffer := List.range 24 },
    by rfl, by decide, by decide, by decide, by decide,
    (weight_shape_size_data onnxifi.header element_byte_size descriptor_2x3
      { m_name := "w", m_shape := [2, 3], m_size := 6, m_type := ElementType.f32,
        m_buffer := List.range 24 } (by rfl)).2.2.2.1⟩

/-- C25, as stated, fails when the byte count wraps: the descriptor with the single
extent 2^61 and data type `FLOAT64` is accepted, the weight has size 2^61 and elements
of 8 bytes, and `data()` is empty, not `size() * 8` bytes long. -/
theorem weight_data_shorter_than_size :
    ∃ w, onnxifi.Weight.new onnxifi.header element_byte_size descriptor_huge = .ok w ∧
      w.shape = [2 ^ 61] ∧ w.size = 2 ^ 61 ∧ element_byte_size w.type = 8 ∧
      w.data = [] ∧ w.data.length ≠ w.size * element_byte_size w.type :=
  ⟨{ m_name := "w", m_shape := [2 ^ 61], m_size := 2 ^ 61, m_type := ElementType.f64,
     m_buffer := [] },
    by rfl, by decide, by decide, by decide, by decide, by decide⟩

/-! ## Theorems: the ONNXIFI backend -/

/-- C26: for an `onnxifi::Backend`, `compile` and `call` raise
`status::backend_unavailable` exactly when the object holds no runtime backend, and
otherwise forward to the runtime backend held (`call` passes `outputs` before
`inputs`); `init_handle` on an object that holds a backend returns `m_handle` and
leaves the object and the runtime as they are, and on an object that holds none it
creates one; so after an `init_handle` that returned, the object holds a backend, and a
second `init_handle` returns the same handle without creating another backend. -/
theorem backend_unavailable_iff_no_backend {σ : Type} (R : onnxifi.Runtime σ)
    (b : onnxifi.Backend) (s : σ) :
    (∀ function,
      (b.compile R function s =
          .error (onnxifi.Failure.status onnxifi.Status.backend_unavailable) ↔
        b.m_backend = none)) ∧
    (∀ handle inputs outputs,
      (b.call R handle inputs outputs s =
          .error (onnxifi.Failure.status onnxifi.Status.backend_unavailable) ↔
        b.m_backend = none)) ∧
    (∀ backend, b.m_backend = some backend →
      (∀ function, b.compile R function s =
        match R.compile backend function s with
        | .error what => .error (onnxifi.Failure.runtime_error what)
        | .ok r => .ok r) ∧
      (∀ handle inputs outputs, b.call R handle inputs outputs s =
        match R.call backend handle outputs inputs s with
        | .error what => .error (onnxifi.Failure.runtime_error what)
        | .ok r => .ok r) ∧
      b.init_handle R s = .ok (b.m_handle, b, s)) ∧
    (b.m_backend = none →
      b.init_handle R s =
        match R.create b.m_type s with
        | .error what => .error (onnxifi.Failure.runtime_error what)
        | .ok (backend, s1) =>
          .ok (some backend.address,
            { m_type := b.m_type, m_backend := some backend,
              m_handle := some backend.address }, s1)) ∧
    (∀ handle b1 s1, b.init_handle R s = .ok (handle, b1, s1) →
      b1.m_backend ≠ none ∧ b1.get_handle = handle ∧
      ∀ s2, b1.init_handle R s2 = .ok (handle, b1, s2)) := by
  refine ⟨?_, ?_, ?_, ?_, ?_⟩
  · intro function
    unfold onnxifi.Backend.compile onnxifi.Backend.get
    cases hb : b.m_backend with
    | none => simp
    | some backend =>
      simp only
      cases R.compile backend function s with
      | error what => simp
      | ok r => simp
  · intro handle inputs outputs
    unfold onnxifi.Backend.call onnxifi.Backend.get
    cases hb : b.m_backend with
    | none => simp
    | some backend =>
      simp only
      cases R.call backend handle outputs inputs s with
      | error what => simp
      | ok r => simp
  · intro backend hb
    refine ⟨?_, ?_, ?_⟩
    · intro function
      unfold onnxifi.Backend.compile onnxifi.Backend.get
      rw [hb]
    · intro handle inputs outputs
      unfold onnxifi.Backend.call onnxifi.Backend.get
      rw [hb]
    · unfold onnxifi.Backend.init_handle
      rw [hb]
  · intro hb
    unfold onnxifi.Backend.init_handle
    rw [hb]
  · intro handle b1 s1 h
    unfold onnxifi.Backend.init_handle at h
    cases hb : b.m_backend with
    | none =>
      rw [hb] at h
      simp only at h
      cases hc : R.create b.m_type s with
      | error what => rw [hc] at h; cases h
      | ok r =>
        obtain ⟨backend, s3⟩ := r
        rw [hc] at h
        simp only [Except.ok.injEq, Prod.mk.injEq] at h
        obtain ⟨rfl, rfl, rfl⟩ := h
        exact ⟨by simp, rfl, fun s2 => rfl⟩
    | some backend =>
      rw [hb] at h
      simp only [Except.ok.injEq, Prod.mk.injEq] at h
      obtain ⟨rfl, rfl, rfl⟩ := h
      refine ⟨by simp [hb], rfl, fun s2 => ?_⟩
      unfold onnxifi.Backend.init_handle
      rw [hb]

/-- C26 on a backend of type "CPU": before `init_handle` both `compile` and `call` raise
`backend_unavailable`; `init_handle` returns the address 4096 of the backend it creates;
a second `init_handle` returns 4096 again and the runtime has still created one
backend; `compile` is then forwarded. -/
theorem backend_unavailable_iff_no_backend_witness :
    (onnxifi.Backend.new "CPU").compile onnxifi.test_runtime 7 0 =
      .error (onnxifi.Failure.status onnxifi.Status.backend_unavailable) ∧
    (onnxifi.Backend.new "CPU").call onnxifi.test_runtime 7 [1] [2] 0 =
      .error (onnxifi.Failure.status onnxifi.Status.backend_unavailable) ∧
    (onnxifi.Backend.new "CPU").init_handle onnxifi.test_runtime 0 =
      .ok (some 4096, onnxifi.initialised_backend, 1) ∧
    (∀ s2, onnxifi.initialised_backend.init_handle onnxifi.test_runtime s2 =
      .ok (some 4096, onnxifi.initialised_backend, s2)) ∧
    onnxifi.initialised_backend.compile onnxifi.test_runtime 7 1 = .ok (7, 1) :=
  ⟨((backend_unavailable_iff_no_backend onnxifi.test_runtime (onnxifi.Backend.new "CPU")
      0).1 7).2 rfl,
    ((backend_unavailable_iff_no_backend onnxifi.test_runtime (onnxifi.Backend.new "CPU")
      0).2.1 7 [1] [2]).2 rfl,
    by rfl,
    ((backend_unavailable_iff_no_backend onnxifi.test_runtime (onnxifi.Backend.new "CPU")
      0).2.2.2.2 (some 4096) onnxifi.initialised_backend 1 (by rfl)).2.2,
    by rfl⟩

theorem backend_held_invariant {σ : Type} (R : onnxifi.Runtime σ) (s0 : σ)
    (objects : List onnxifi.Backend) (s : σ)
    (hr : onnxifi.Backend.Reachable R s0 objects s) :
    ∀ b ∈ objects, ∀ backend, b.m_backend = some backend →
      b.m_handle = some backend.address := by
  induction hr with
  | start => intro b hb; cases hb
  | construct objects s type _ ih =>
    intro b hb backend hbe
    rcases List.mem_append.1 hb with h | h
    · exact ih b h backend hbe
    · simp only [List.mem_singleton] at h
      subst h
      cases hbe
  | init_handle objects s i b b1 handle s1 _ hi hinit ih =>
    intro c hc backend hbe
    rcases List.mem_or_eq_of_mem_set hc with h | h
    · exact ih c h backend hbe
    · subst h
      have hb : b ∈ objects := by
        rcases List.getElem?_eq_some.1 hi with ⟨hlt, he⟩
        rw [← he]
        exact List.getElem_mem hlt
      unfold onnxifi.Backend.init_handle at hinit
      cases hm : b.m_backend with
      | none =>
        rw [hm] at hinit
        simp only at hinit
        cases hc2 : R.create b.m_type s with
        | error what => rw [hc2] at hinit; cases hinit
        | ok r =>
          obtain ⟨be, s3⟩ := r
          rw [hc2] at hinit
          simp only [Except.ok.injEq, Prod.mk.injEq] at hinit
          obtain ⟨_, rfl, _⟩ := hinit
          simp only [Option.some.injEq] at hbe
          subst hbe
          rfl
      | some be =>
        rw [hm] at hinit
        simp only [Except.ok.injEq, Prod.mk.injEq] at hinit
        obtain ⟨_, rfl, _⟩ := hinit
        exact ih _ hb backend hbe
  | move objects s j other residue _ hj ih =>
    intro c hc backend hbe
    have ho : other ∈ objects := by
      rcases List.getElem?_eq_some.1 hj with ⟨hlt, he⟩
      rw [← he]
      exact List.getElem_mem hlt
    rcases List.mem_append.1 hc with h | h
    · rcases List.mem_or_eq_of_mem_set h with h1 | h1
      · exact ih c h1 backend hbe
      · subst h1
        cases hbe
    · simp only [List.mem_singleton] at h
      subst h
      exact ih other ho backend hbe
  | move_assign objects s i j this other residue _ hi hj _ ih =>
    intro c hc backend hbe
    have ho : other ∈ objects := by
      rcases List.getElem?_eq_some.1 hj with ⟨hlt, he⟩
      rw [← he]
      exact List.getElem_mem hlt
    rcases List.mem_or_eq_of_mem_set hc with h | h
    · rcases List.mem_or_eq_of_mem_set h with h1 | h1
      · exact ih c h1 backend hbe
      · subst h1
        exact ih other ho backend hbe
    · subst h
      cases hbe

/-- C27: in every state reachable through the constructor from a type string,
`init_handle`, the move constructor and the move assignment, an object that holds a
runtime backend returns the address of that backend from `get_handle()` and compares
equal (`operator==(onnxBackend)`) to its own `get_handle()`. The handle is the address
held, or null when none is held, after the constructor, after an `init_handle` that
returns, and in the target of a move from an object for which this is so; the two are
equivalent to the object comparing equal to its own `get_handle()`. The object moved
from holds no backend and keeps its handle, so for it this is so only when its handle
was null. -/
theorem get_handle_of_held_backend {σ : Type} (R : onnxifi.Runtime σ) (s0 : σ) :
    (∀ (objects : List onnxifi.Backend) (s : σ), onnxifi.Backend.Reachable R s0 objects s →
      ∀ b ∈ objects,
        (∀ backend, b.m_backend = some backend →
          b.get_handle = some backend.address ∧ b.eq_handle b.get_handle = true) ∧
        (∀ handle b1 s1, b.init_handle R s = .ok (handle, b1, s1) → b1.Consistent)) ∧
    (∀ b : onnxifi.Backend, b.Consistent ↔ b.eq_handle b.get_handle = true) ∧
    (∀ type, (onnxifi.Backend.new type).Consistent) ∧
    (∀ this other : onnxifi.Backend, other.Consistent →
      other.move.Consistent ∧ (this.move_assign other).Consistent) ∧
    (∀ (other : onnxifi.Backend) (residue : String),
      (other.moved_from residue).m_backend = none ∧
      (other.moved_from residue).get_handle = other.get_handle ∧
      ((other.moved_from residue).Consistent ↔ other.get_handle = none)) := by
  refine ⟨?_, ?_, ?_, ?_, ?_⟩
  · intro objects s hr b hb
    have hinv := backend_held_invariant R s0 objects s hr b hb
    refine ⟨?_, ?_⟩
    · intro backend hbe
      have h1 := hinv backend hbe
      refine ⟨h1, ?_⟩
      unfold onnxifi.Backend.eq_handle onnxifi.Backend.get_handle
      rw [hbe, h1]
      simp
    · intro handle b1 s1 hinit
      unfold onnxifi.Backend.init_handle at hinit
      cases hm : b.m_backend with
      | none =>
        rw [hm] at hinit
        simp only at hinit
        cases hc2 : R.create b.m_type s with
        | error what => rw [hc2] at hinit; cases hinit
        | ok r =>
          obtain ⟨be, s3⟩ := r
          rw [hc2] at hinit
          simp only [Except.ok.injEq, Prod.mk.injEq] at hinit
          obtain ⟨_, rfl, _⟩ := hinit
          rfl
      | some be =>
        rw [hm] at hinit
        simp only [Except.ok.injEq, Prod.mk.injEq] at hinit
        obtain ⟨_, rfl, _⟩ := hinit
        unfold onnxifi.Backend.Consistent onnxifi.Backend.get_handle
        rw [hm, hinv be hm]
        rfl
  · intro b
    unfold onnxifi.Backend.Consistent onnxifi.Backend.eq_handle
    simp only [decide_eq_true_eq]
    exact eq_comm
  · intro type
    rfl
  · intro this other h
    exact ⟨h, h⟩
  · intro other residue
    refine ⟨rfl, rfl, ?_⟩
    unfold onnxifi.Backend.Consistent onnxifi.Backend.moved_from onnxifi.Backend.get_handle
    simp

/-- C27 on a backend of type "CPU" after `init_handle`: it is reachable, holds the
backend at address 4096, returns 4096 from `get_handle()` and compares equal to it; and
the target of a move from it does so too. -/
theorem get_handle_of_held_backend_witness :
    onnxifi.Backend.Reachable onnxifi.test_runtime 0 [onnxifi.initialised_backend] 1 ∧
    onnxifi.initialised_backend.get_handle = some 4096 ∧
    onnxifi.initialised_backend.eq_handle onnxifi.initialised_backend.get_handle = true ∧
    onnxifi.initialised_backend.move.Consistent :=
  have hr : onnxifi.Backend.Reachable onnxifi.test_runtime 0 [onnxifi.initialised_backend] 1 :=
    onnxifi.Backend.Reachable.init_handle [onnxifi.Backend.new "CPU"] 0 0
      (onnxifi.Backend.new "CPU") onnxifi.initialised_backend (some 4096) 1
      (onnxifi.Backend.Reachable.construct [] 0 "CPU" onnxifi.Backend.Reachable.start)
      rfl (by rfl)
  ⟨hr,
    (((get_handle_of_held_backend onnxifi.test_runtime 0).1 _ _ hr
      onnxifi.initialised_backend (by simp)).1 { address := 4096 } rfl).1,
    (((get_handle_of_held_backend onnxifi.test_runtime 0).1 _ _ hr
      onnxifi.initialised_backend (by simp)).1 { address := 4096 } rfl).2,
    ((get_handle_of_held_backend onnxifi.test_runtime 0).2.2.2.1
      onnxifi.initialised_backend onnxifi.initialised_backend (by decide)).1⟩

/-- C27, as stated, fails for the object moved from: after the constructor from "CPU",
`init_handle` and a move construction from the object, the object is in a reachable
state in which it holds no runtime backend, yet `get_handle()` returns the address 4096
of the backend it held, and the object does not compare equal to its own
`get_handle()`. -/
theorem moved_from_backend_keeps_handle :
    onnxifi.Backend.Reachable onnxifi.test_runtime 0
      [onnxifi.initialised_backend.moved_from "", onnxifi.initialised_backend.move] 1 ∧
    (onnxifi.initialised_backend.moved_from "").m_backend = none ∧
    (onnxifi.initialised_backend.moved_from "").get_handle = some 4096 ∧
    (onnxifi.initialised_backend.moved_from "").eq_handle
      (onnxifi.initialised_backend.moved_from "").get_handle = false :=
  ⟨onnxifi.Backend.Reachable.move [onnxifi.initialised_backend] 1 0
      onnxifi.initialised_backend ""
      (onnxifi.Backend.Reachable.init_handle [onnxifi.Backend.new "CPU"] 0 0
        (onnxifi.Backend.new "CPU") onnxifi.initialised_backend (some 4096) 1
        (onnxifi.Backend.Reachable.construct [] 0 "CPU" onnxifi.Backend.Reachable.start)
        rfl (by rfl))
      rfl,
    rfl, rfl, by decide⟩

/-! ## Theorems: the CPU builder of `op::Lstm` -/

/-- C23: the CPU builder of `op::Lstm` raises `ngraph_error` whenever the node is not
selected for an MKLDNN kernel, whatever the number of arguments (that check is made
first), and raises `ngraph_error` whenever the number of arguments is not 5; when
neither holds, the two outputs of the node are passed in `out` and the emitter
succeeds, it appends exactly one functor to the functor list of the external function
and leaves the functors before it as they are. -/
theorem build_lstm_outcomes (ctx : LstmBuildContext) (functors : List LstmFunctor)
    (args out : List TensorViewWrapper) :
    (ctx.use_mkldnn_kernel = false →
      build_lstm ctx functors args out = .error (BuildFailure.ngraph_error
        "Lstm is supported only through MKLDNN and doesnt have reference INTERPRETER implementation")) ∧
    (args.length ≠ 5 → ∃ what,
      build_lstm ctx functors args out = .error (BuildFailure.ngraph_error what)) ∧
    (ctx.use_mkldnn_kernel = true → args.length ≠ 5 →
      build_lstm ctx functors args out = .error (BuildFailure.ngraph_error
        "Lstm op doesnt have the required number of inputs to create MKLDNN kernel")) ∧
    (ctx.use_mkldnn_kernel = true → args.length = 5 → 2 ≤ out.length →
      ∀ lstm_index, ctx.build_rnn args out = .ok lstm_index →
        ∃ functor : LstmFunctor,
          build_lstm ctx functors args out = .ok (functors ++ [functor]) ∧
          functor.lstm_index = lstm_index ∧
          functor.deps = ctx.get_primitive_deps lstm_index) := by
  refine ⟨?_, ?_, ?_, ?_⟩
  · intro h
    unfold build_lstm
    rw [h]
    rfl
  · intro h
    unfold build_lstm
    cases hm : ctx.use_mkldnn_kernel with
    | false => exact ⟨_, rfl⟩
    | true =>
      simp only [Bool.not_true, Bool.false_eq_true, if_false, h, ne_eq, not_false_eq_true,
        if_true]
      exact ⟨_, rfl⟩
  · intro hm h
    unfold build_lstm
    rw [hm]
    simp only [Bool.not_true, Bool.false_eq_true, if_false, h, ne_eq, not_false_eq_true,
      if_true]
  · intro hm h hout lstm_index hb
    unfold build_lstm
    rw [hm]
    simp only [Bool.not_true, Bool.false_eq_true, if_false, h, ne_eq, not_true_eq_false]
    match args, out, h, hout, hb with
    | [a0, a1, a2, a3, a4], o0 :: o1 :: rest, _, _, hb =>
      simp only [hb]
      exact ⟨_, rfl, rfl, rfl⟩
    | _, [], _, hout, _ => simp at hout
    | _, [_], _, hout, _ => simp at hout

/-- C23 at concrete calls: a node that is not selected for MKLDNN is rejected also with
five arguments; four arguments are rejected; five arguments and two outputs append one
functor to a list of no functors. -/
theorem build_lstm_outcomes_witness :
    build_lstm { lstm_context with use_mkldnn_kernel := false } [] lstm_args lstm_out =
      .error (BuildFailure.ngraph_error
        "Lstm is supported only through MKLDNN and doesnt have reference INTERPRETER implementation") ∧
    build_lstm lstm_context [] (lstm_args.take 4) lstm_out =
      .error (BuildFailure.ngraph_error
        "Lstm op doesnt have the required number of inputs to create MKLDNN kernel") ∧
    ∃ functor : LstmFunctor,
      build_lstm lstm_context [] lstm_args lstm_out = .ok ([] ++ [functor]) ∧
      functor.lstm_index = 3 ∧ functor.deps = lstm_context.get_primitive_deps 3 :=
  ⟨(build_lstm_outcomes { lstm_context with use_mkldnn_kernel := false } [] lstm_args
      lstm_out).1 rfl,
    (build_lstm_outcomes lstm_context [] (lstm_args.take 4) lstm_out).2.2.1 rfl (by decide),
    (build_lstm_outcomes lstm_context [] lstm_args lstm_out).2.2.2 rfl (by decide)
      (by decide) 3 rfl⟩

/-! ## Theorems: the hybrid backend evaluates the function -/

theorem lookup_cons_self_value {β : Type} (k : Nat) (v : β) (m : List (Nat × β)) :
    List.lookup k ((k, v) :: m) = some v := by
  simp [List.lookup_cons]

theorem lookup_cons_of_ne_value {β : Type} (k a : Nat) (v : β) (m : List (Nat × β))
    (h : k ≠ a) : List.lookup k ((a, v) :: m) = List.lookup k m := by
  rw [List.lookup_cons]
  have : (k == a) = false := by simpa using h
  rw [this]

theorem contents_eq_of_getElem? {α : Type} (rt rt1 : Runtime α) (a : Nat)
    (h : rt1.tensors[a]? = rt.tensors[a]?) : contents rt1 a = contents rt a := by
  unfold contents
  rw [h]

/-- The loop over the parameters of a sub-function succeeds when every unbound parameter
is paired with a result whose tensor is bound and holds `f32` elements; a parameter it
binds gets a new tensor with the contents of the tensor of the paired result. -/
theorem prepare_parameters_effect {α : Type} [Inhabited α] (exe : HybridExecutable α)
    (backend : Backend) (ps : List Nat) :
    ∀ (m : List (Nat × Nat)) (rt : Runtime α), Live m rt →
      (∀ p ∈ ps, m.lookup p = none → ∃ r rtv t,
        exe.m_map_parameter_to_result.lookup p = some r ∧ m.lookup r = some rtv ∧
        rt.tensors[rtv]? = some t ∧ t.element_type = ElementType.f32) →
      ∃ tvs m1 rt1, prepare_parameters exe backend ps m rt = .ok (tvs, m1, rt1) ∧
        ∀ k v, m1.lookup k = some v → m.lookup k = some v ∨
          (m.lookup k = none ∧ k ∈ ps ∧ rt.tensors.length ≤ v ∧
            ∃ r rtv, exe.m_map_parameter_to_result.lookup k = some r ∧
              m1.lookup r = some rtv ∧ contents rt1 v = contents rt1 rtv) := by
  induction ps with
  | nil =>
    intro m rt _ _
    exact ⟨[], m, rt, rfl, fun k v hk => Or.inl hk⟩
  | cons p ps ih =>
    intro m rt hl hH
    have hsplit : p :: ps = [p] ++ ps := rfl
    cases hp : m.lookup p with
    | some tv =>
      obtain ⟨tvs, m1, rt1, hprep, hnew⟩ := ih m rt hl
        (fun q hq hqn => hH q (List.mem_cons_of_mem _ hq) hqn)
      refine ⟨tv :: tvs, m1, rt1, ?_, ?_⟩
      · rw [hsplit, prepare_parameters_append,
          prepare_parameters_step_bound exe backend p tv m rt hp]
        simp only [hprep, List.singleton_append]
      · intro k v hk
        rcases hnew k v hk with h | ⟨h1, h2, h3, h4⟩
        · exact Or.inl h
        · exact Or.inr ⟨h1, List.mem_cons_of_mem _ h2, h3, h4⟩
    | none =>
      obtain ⟨r, rtv, t, hr, hmr, ht, hf⟩ := hH p (List.mem_cons_self _ _) hp
      have hrtv : rtv < rt.tensors.length := (List.getElem?_eq_some.1 ht).1
      have hstep := prepare_parameters_step_unbound exe backend p r rtv t m rt hp hr hmr ht hf
      have hl2 : Live ((p, rt.tensors.length) :: m)
          ({ rt with tensors := rt.tensors ++
            [{ element_type := elementTypeOf exe.m_function.nodes p,
               shape := shapeOf exe.m_function.nodes p, owner := backend,
               data := t.data }] } : Runtime α) := by
        intro e he
        rcases List.mem_cons.1 he with rfl | he
        · simp
        · have := hl e he
          simp only [List.length_append, List.length_cons, List.length_nil]
          omega
      have hrp : ∀ x, m.lookup x ≠ none → x ≠ p := by
        intro x hx hxp
        rw [hxp] at hx
        exact hx hp
      obtain ⟨tvs, m1, rt1, hprep, hnew⟩ := ih _ _ hl2 (by
        intro q hq hqn
        have hqp : q ≠ p := by
          intro h
          rw [h, lookup_cons_self_value] at hqn
          cases hqn
        rw [lookup_cons_of_ne_value q p _ m hqp] at hqn
        obtain ⟨r2, rtv2, t2, hr2, hmr2, ht2, hf2⟩ := hH q (List.mem_cons_of_mem _ hq) hqn
        refine ⟨r2, rtv2, t2, hr2, ?_, ?_, hf2⟩
        · rw [lookup_cons_of_ne_value r2 p _ m (hrp r2 (by rw [hmr2]; simp))]
          exact hmr2
        · simp only
          rw [List.getElem?_append_left (List.getElem?_eq_some.1 ht2).1]
          exact ht2)
      obtain ⟨_, _, hkeep, _, hframe⟩ := prepare_parameters_frame exe backend ps _ _ tvs m1 rt1
        hl2 hprep
      refine ⟨rt.tensors.length :: tvs, m1, rt1, ?_, ?_⟩
      · rw [hsplit, prepare_parameters_append, hstep]
        simp only [hprep, List.singleton_append]
      · intro k v hk
        rcases hnew k v hk with h | ⟨h1, h2, h3, h4⟩
        · by_cases hkp : k = p
          · subst hkp
            rw [lookup_cons_self_value] at h
            simp only [Option.some.injEq] at h
            subst h
            refine Or.inr ⟨hp, List.mem_cons_self _ _, le_refl _, r, rtv, hr, ?_, ?_⟩
            · apply hkeep
              rw [lookup_cons_of_ne_value r k _ m (hrp r (by rw [hmr]; simp))]
              exact hmr
            · have h1 := hframe rt.tensors.length (by simp)
              have h2 := hframe rtv (by
                simp only [List.length_append, List.length_cons, List.length_nil]
                omega)
              simp only at h1 h2
              rw [List.getElem?_append_right (le_refl _)] at h1
              rw [List.getElem?_append_left hrtv, ht] at h2
              simp only [Nat.sub_self, List.getElem?_cons_zero] at h1
              unfold contents
              rw [h1, h2]
              rfl
          · rw [lookup_cons_of_ne_value k p _ m hkp] at h
            exact Or.inl h
        · have hkp : k ≠ p := by
            intro h
            rw [h, lookup_cons_self_value] at h1
            cases h1
          rw [lookup_cons_of_ne_value k p _ m hkp] at h1
          refine Or.inr ⟨h1, List.mem_cons_of_mem _ h2, ?_, h4⟩
          simp only [List.length_append, List.length_cons, List.length_nil] at h3
          omega

/-- The loop over the results of a sub-function: what was bound stays bound and every
tensor there was keeps its place; every result is bound afterwards; and a result the
loop binds gets a new tensor of the element type of the node, which no other node is
bound to. -/
theorem prepare_results_effect {α : Type} [Inhabited α] (exe : HybridExecutable α)
    (backend : Backend) (rs : List Nat) :
    ∀ (m : List (Nat × Nat)) (rt : Runtime α) (tvs : List Nat) (m1 : List (Nat × Nat))
      (rt1 : Runtime α), Live m rt →
      prepare_results exe backend rs m rt = (tvs, m1, rt1) →
      Live m1 rt1 ∧ rt.tensors.length ≤ rt1.tensors.length ∧
      (∀ i, i < rt.tensors.length → rt1.tensors[i]? = rt.tensors[i]?) ∧
      (∀ r ∈ rs, ∃ tv, m1.lookup r = some tv) ∧
      (∀ k v, m1.lookup k = some v → m.lookup k = some v ∨
        (m.lookup k = none ∧ k ∈ rs ∧ rt.tensors.length ≤ v ∧
          (∃ t, rt1.tensors[v]? = some t ∧
            t.element_type = elementTypeOf exe.m_function.nodes k) ∧
          ∀ k2, m1.lookup k2 = some v → k2 = k)) := by
  induction rs with
  | nil =>
    intro m rt tvs m1 rt1 hl h
    simp only [prepare_results, Prod.mk.injEq] at h
    obtain ⟨rfl, rfl, rfl⟩ := h
    exact ⟨hl, le_refl _, fun i _ => rfl, fun r hr => absurd hr (List.not_mem_nil _),
      fun k v hk => Or.inl hk⟩
  | cons r rs ih =>
    intro m rt tvs m1 rt1 hl h
    simp only [prepare_results] at h
    cases hr : m.lookup r with
    | some tv =>
      rw [hr] at h
      simp only at h
      rcases hrest : prepare_results exe backend rs m rt with ⟨tvs2, m2, rt2⟩
      · rw [hrest] at h
        simp only [Prod.mk.injEq] at h
        obtain ⟨rfl, rfl, rfl⟩ := h
        obtain ⟨a, b, c, d, e⟩ := ih m rt tvs2 m2 rt2 hl hrest
        have hkeep := (prepare_results_lookups exe backend rs m rt).1
        rw [hrest] at hkeep
        refine ⟨a, b, c, ?_, ?_⟩
        · intro x hx
          rcases List.mem_cons.1 hx with rfl | hx
          · exact ⟨tv, hkeep _ _ hr⟩
          · exact d x hx
        · intro k v hk
          rcases e k v hk with h | ⟨h1, h2, h3, h4⟩
          · exact Or.inl h
          · exact Or.inr ⟨h1, List.mem_cons_of_mem _ h2, h3, h4⟩
    | none =>
      rw [hr] at h
      simp only at h
      have hn : (backend.create_tensor rt (elementTypeOf exe.m_function.nodes r)
          (shapeOf exe.m_function.nodes r)).1 = rt.tensors.length := rfl
      have hlen : (backend.create_tensor rt (elementTypeOf exe.m_function.nodes r)
          (shapeOf exe.m_function.nodes r)).2.tensors.length = rt.tensors.length + 1 := by
        simp [Backend.create_tensor]
      have hnew : (backend.create_tensor rt (elementTypeOf exe.m_function.nodes r)
          (shapeOf exe.m_function.nodes r)).2.tensors[rt.tensors.length]? =
          some { element_type := elementTypeOf exe.m_function.nodes r,
                 shape := shapeOf exe.m_function.nodes r, owner := backend,
                 data := List.replicate
                   ((shapeOf exe.m_function.nodes r).foldl (fun x y => x * y) 1) default } := by
        simp [Backend.create_tensor]
      have hold : ∀ i, i < rt.tensors.length →
          (backend.create_tensor rt (elementTypeOf exe.m_function.nodes r)
            (shapeOf exe.m_function.nodes r)).2.tensors[i]? = rt.tensors[i]? := by
        intro i hi
        simp only [Backend.create_tensor]
        rw [List.getElem?_append_left hi]
      rw [hn] at h
      rcases hrest : prepare_results exe backend rs ((r, rt.tensors.length) :: m)
          (backend.create_tensor rt (elementTypeOf exe.m_function.nodes r)
            (shapeOf exe.m_function.nodes r)).2 with ⟨tvs2, m2, rt2⟩
      · rw [hrest] at h
        simp only [Prod.mk.injEq] at h
        obtain ⟨rfl, rfl, rfl⟩ := h
        have hl2 : Live ((r, rt.tensors.length) :: m)
            (backend.create_tensor rt (elementTypeOf exe.m_function.nodes r)
              (shapeOf exe.m_function.nodes r)).2 := by
          intro e he
          rcases List.mem_cons.1 he with rfl | he
          · simp only; omega
          · have := hl e he; omega
        obtain ⟨a, b, c, d, e⟩ := ih _ _ tvs2 m2 rt2 hl2 hrest
        have hkeep := (prepare_results_lookups exe backend rs ((r, rt.tensors.length) :: m)
          (backend.create_tensor rt (elementTypeOf exe.m_function.nodes r)
            (shapeOf exe.m_function.nodes r)).2).1
        rw [hrest] at hkeep
        simp only at hkeep
        have hrb : m2.lookup r = some rt.tensors.length := hkeep _ _ (lookup_cons_self_value _ _ _)
        refine ⟨a, by omega, ?_, ?_, ?_⟩
        · intro i hi
          rw [c i (by omega), hold i hi]
        · intro x hx
          rcases List.mem_cons.1 hx with rfl | hx
          · exact ⟨_, hrb⟩
          · exact d x hx
        · intro k v hk
          have hfresh : ∀ k2, m2.lookup k2 = some rt.tensors.length → k2 = r := by
            intro k2 hk2
            by_contra hne
            rcases e k2 _ hk2 with h | ⟨_, _, h3, _⟩
            · rw [lookup_cons_of_ne_value k2 r _ m hne] at h
              have := Live.lookup hl h
              omega
            · omega
          rcases e k v hk with h | ⟨h1, h2, h3, h4, h5⟩
          · by_cases hkr : k = r
            · subst hkr
              rw [lookup_cons_self_value] at h
              simp only [Option.some.injEq] at h
              subst h
              refine Or.inr ⟨hr, List.mem_cons_self _ _, le_refl _, ?_, hfresh⟩
              exact ⟨_, by rw [c _ (by omega), hnew], rfl⟩
            · rw [lookup_cons_of_ne_value k r _ m hkr] at h
              exact Or.inl h
          · have hkr : k ≠ r := by
              intro h
              rw [h, lookup_cons_self_value] at h1
              cases h1
            rw [lookup_cons_of_ne_value k r _ m hkr] at h1
            exact Or.inr ⟨h1, List.mem_cons_of_mem _ h2, by omega, h4, h5⟩

theorem read_vectors_of_contents {α : Type} (rt : Runtime α) (tvs : List Nat) :
    ∀ (ds : List (List α)), List.map some ds = tvs.map (contents rt) →
      read_vectors rt tvs = .ok ds := by
  induction tvs with
  | nil =>
    intro ds h
    cases ds with
    | nil => rfl
    | cons d ds => simp at h
  | cons tv tvs ih =>
    intro ds h
    cases ds with
    | nil => simp at h
    | cons d ds =>
      simp only [List.map_cons, List.cons.injEq] at h
      obtain ⟨h1, h2⟩ := h
      unfold read_vectors
      rw [ih ds h2]
      unfold contents at h1
      unfold read_tensor
      cases ht : rt.tensors[tv]? with
      | none => rw [ht] at h1; cases h1
      | some t =>
        rw [ht] at h1
        simp only [Option.map_some', Option.some.injEq] at h1
        simp only [h1]

/-- Storing one list of contents per tensor into pairwise distinct live tensors leaves
each of these contents in its tensor and changes nothing else. -/
theorem write_vectors_effect {α : Type} (tvs : List Nat) :
    ∀ (ds : List (List α)) (rt : Runtime α), tvs.Nodup → ds.length = tvs.length →
      (∀ tv ∈ tvs, tv < rt.tensors.length) →
      ∃ rt1, write_vectors rt tvs ds = .ok rt1 ∧
        rt1.tensors.length = rt.tensors.length ∧
        (∀ (i tv : Nat) (d : List α), tvs[i]? = some tv → ds[i]? = some d →
          contents rt1 tv = some d) ∧
        (∀ a : Nat, a ∉ tvs → rt1.tensors[a]? = rt.tensors[a]?) ∧
        (∀ (a : Nat) (t : Tensor α), rt.tensors[a]? = some t →
          ∃ t1 : Tensor α, rt1.tensors[a]? = some t1 ∧ t1.element_type = t.element_type) := by
  induction tvs with
  | nil =>
    intro ds rt _ _ _
    exact ⟨rt, rfl, rfl, fun i tv d h => by simp at h, fun a _ => rfl,
      fun a t h => ⟨t, h, rfl⟩⟩
  | cons tv tvs ih =>
    intro ds rt hnd hlen hlive
    cases ds with
    | nil => simp at hlen
    | cons d ds =>
      have htv : tv < rt.tensors.length := hlive tv (List.mem_cons_self _ _)
      obtain ⟨t0, ht0⟩ : ∃ t0, rt.tensors[tv]? = some t0 :=
        ⟨_, List.getElem?_eq_getElem htv⟩
      obtain ⟨rt0, hcopy, hrt0⟩ : ∃ rt0, copy_data rt tv d = .ok rt0 ∧
          rt0.tensors = rt.tensors.set tv { t0 with data := d } := by
        unfold copy_data
        rw [ht0]
        exact ⟨_, rfl, rfl⟩
      obtain ⟨hlen2, hc1, hc2⟩ := contents_copy_data rt _ tv d hcopy
      rw [List.nodup_cons] at hnd
      obtain ⟨rt1, hw, hl1, hset, hother, htype⟩ := ih ds rt0 hnd.2
        (by simpa using hlen)
        (fun x hx => by rw [hlen2]; exact hlive x (List.mem_cons_of_mem _ hx))
      refine ⟨rt1, ?_, by rw [hl1, hlen2], ?_, ?_, ?_⟩
      · unfold write_vectors
        rw [hcopy]
        exact hw
      · intro i x dx hi hdx
        cases i with
        | zero =>
          simp only [List.getElem?_cons_zero, Option.some.injEq] at hi hdx
          subst hi hdx
          rw [contents_eq_of_getElem? _ _ _ (hother _ hnd.1)]
          exact hc1
        | succ i =>
          rw [List.getElem?_cons_succ] at hi hdx
          exact hset i x dx hi hdx
      · intro a ha
        rw [List.mem_cons, not_or] at ha
        rw [hother a ha.2, hrt0, List.getElem?_set_ne (Ne.symm ha.1)]
      · intro a t ha
        by_cases hat : a = tv
        · subst hat
          have h0 : rt0.tensors[a]? = some { t0 with data := d } := by
            rw [hrt0, List.getElem?_set_self htv]
          obtain ⟨t1, ht1, hty⟩ := htype a _ h0
          refine ⟨t1, ht1, ?_⟩
          rw [hty]
          rw [ht0] at ha
          simp only [Option.some.injEq] at ha
          rw [← ha]
        · have h0 : rt0.tensors[a]? = some t := by
            rw [hrt0, List.getElem?_set_ne (Ne.symm hat)]
            exact ha
          exact htype a t h0

theorem map_some_eq_map (l : List Nat) (f : Nat → Option Nat) :
    ∀ (tvs : List Nat), List.map some tvs = l.map f →
      tvs = l.map (fun x => (f x).getD 0) ∧ ∀ x ∈ l, f x = some ((f x).getD 0) := by
  induction l with
  | nil =>
    intro tvs h
    cases tvs with
    | nil => exact ⟨rfl, fun x hx => absurd hx (List.not_mem_nil _)⟩
    | cons a b => simp at h
  | cons x l ih =>
    intro tvs h
    cases tvs with
    | nil => simp at h
    | cons a b =>
      simp only [List.map_cons, List.cons.injEq] at h
      obtain ⟨h1, h2⟩ := h
      obtain ⟨ih1, ih2⟩ := ih b h2
      refine ⟨?_, ?_⟩
      · simp only [List.map_cons, ← h1, Option.getD_some, List.cons.injEq, true_and]
        exact ih1
      · intro y hy
        rcases List.mem_cons.1 hy with rfl | hy
        · rw [← h1]; rfl
        · exact ih2 y hy

/-- The loop over the parameters of the sub-function at position `j` succeeds and keeps
the state. -/
theorem prepare_parameters_state {α : Type} [Inhabited α] (exe : HybridExecutable α)
    (W : Nat → List α) (hC : exe.Computes W) (outputs : List Nat) (backend : Backend)
    (j : Nat) (s : SubFunction) (hs : exe.m_sub_functions[j]? = some s)
    (m : List (Nat × Nat)) (rt : Runtime α) (hI : ExecuteState exe W outputs j m rt) :
    ∃ ptvs m2 rt2, prepare_parameters exe backend s.parameters m rt = .ok (ptvs, m2, rt2) ∧
      ExecuteState exe W outputs j m2 rt2 ∧
      ptvs = s.parameters.map (fun p => (m2.lookup p).getD 0) ∧
      ∀ p ∈ s.parameters, m2.lookup p = some ((m2.lookup p).getD 0) := by
  have hsmem : s ∈ exe.m_sub_functions := by
    obtain ⟨hlt, hget⟩ := List.getElem?_eq_some.1 hs
    rw [← hget]
    exact List.getElem_mem hlt
  have hbound : ∀ p ∈ s.parameters, m.lookup p = none →
      ∃ r, exe.m_map_parameter_to_result.lookup p = some r ∧ W p = W r ∧
        elementTypeOf exe.m_function.nodes r = ElementType.f32 ∧
        r ∉ exe.m_function.results ∧ exe.Done j r := by
    intro p hp hnone
    apply hC.boundary j s hs p hp
    intro hmem
    obtain ⟨tv, htv⟩ := hI.parameters_bound p hmem
    rw [htv] at hnone
    cases hnone
  obtain ⟨ptvs, m2, rt2, hprep, hnew⟩ := prepare_parameters_effect exe backend s.parameters m rt
    hI.live (by
      intro p hp hnone
      obtain ⟨r, hr, _, hty, hnr, hdone⟩ := hbound p hp hnone
      obtain ⟨rtv, hrtv⟩ := hI.done_bound r hdone
      obtain ⟨i, si, _, hsi, hri⟩ := hdone
      obtain ⟨t, ht, htt⟩ := hI.typed r rtv hrtv ⟨i, si, hsi, hri⟩ hnr
      exact ⟨r, rtv, t, hr, hrtv, ht, by rw [htt, hty]⟩)
  obtain ⟨_, hlive2, hkeep, hlen, hframe⟩ := prepare_parameters_frame exe backend s.parameters
    m rt ptvs m2 rt2 hI.live hprep
  obtain ⟨_, hptvs⟩ := prepare_parameters_lookups exe backend s.parameters m rt ptvs m2 rt2 hprep
  obtain ⟨hp1, hp2⟩ := map_some_eq_map s.parameters (fun p => m2.lookup p) ptvs hptvs
  have hold : ∀ tv, tv < rt.tensors.length → contents rt2 tv = contents rt tv :=
    fun tv htv => contents_eq_of_getElem? _ _ tv (hframe tv htv)
  refine ⟨ptvs, m2, rt2, hprep, ?_, hp1, hp2⟩
  constructor
  · exact hlive2
  · intro tv htv
    have := hI.outputs_live tv htv
    omega
  · intro p hp
    obtain ⟨tv, htv⟩ := hI.parameters_bound p hp
    exact ⟨tv, hkeep p tv htv⟩
  · intro i r hr
    obtain ⟨tv, h1, h2⟩ := hI.results_bound i r hr
    exact ⟨tv, h1, hkeep r tv h2⟩
  · intro y hy
    obtain ⟨tv, htv⟩ := hI.done_bound y hy
    exact ⟨tv, hkeep y tv htv⟩
  · intro y hy hnd hnr
    cases hl : m2.lookup y with
    | none => rfl
    | some v =>
      exfalso
      rcases hnew y v hl with h | ⟨_, hmem, _⟩
      · rw [hI.pending_unbound y hy hnd hnr] at h
        cases h
      · exact hC.sub_parameters_apart s hsmem y hmem hy
  · intro y tv hl hnr
    rcases hnew y tv hl with h | ⟨_, _, hge, _⟩
    · exact hI.apart y tv h hnr
    · intro hmem
      have := hI.outputs_live tv hmem
      omega
  · intro y tv hl hy hnr
    rcases hnew y tv hl with h | ⟨_, hmem, _⟩
    · obtain ⟨t, ht, htt⟩ := hI.typed y tv h hy hnr
      exact ⟨t, by rw [hframe tv (List.getElem?_eq_some.1 ht).1]; exact ht, htt⟩
    · exact absurd hy (hC.sub_parameters_apart s hsmem y hmem)
  · intro y tv hl hdone
    rcases hnew y tv hl with h | ⟨hnone, hmem, _, r, rtv, hr, hrtv, hcont⟩
    · rw [hold tv (Live.lookup hI.live h)]
      exact hI.holds y tv h hdone
    · obtain ⟨r2, hr2, hW, _, _, hd⟩ := hbound y hmem hnone
      rw [hr] at hr2
      cases hr2
      obtain ⟨rtv0, hrtv0⟩ := hI.done_bound r hd
      have := hkeep r rtv0 hrtv0
      rw [hrtv] at this
      cases this
      rw [hcont, hold rtv (Live.lookup hI.live hrtv0), hW]
      exact hI.holds r rtv hrtv0 (fun _ => hd)

theorem getElem?_of_mem_nat (l : List Nat) (x : Nat) (hx : x ∈ l) : ∃ i : Nat, l[i]? = some x := by
  obtain ⟨i, hi, hget⟩ := List.getElem_of_mem hx
  exact ⟨i, by rw [List.getElem?_eq_getElem hi, hget]⟩

/-- The loop over the results of the sub-function at position `j`, the call of its
handle and the storing of the outputs bring the state to position `j + 1`. -/
theorem call_handle_state {α : Type} [Inhabited α] (exe : HybridExecutable α)
    (W : Nat → List α) (hC : exe.Computes W) (outputs : List Nat) (hnodup : outputs.Nodup)
    (backend : Backend) (j : Nat) (s : SubFunction) (hs : exe.m_sub_functions[j]? = some s)
    (ptvs : List Nat) (m2 : List (Nat × Nat)) (rt2 : Runtime α)
    (hI : ExecuteState exe W outputs j m2 rt2)
    (hptvs : ptvs = s.parameters.map (fun p => (m2.lookup p).getD 0))
    (hpb : ∀ p ∈ s.parameters, m2.lookup p = some ((m2.lookup p).getD 0)) :
    ∃ rtvs m3 rt3 rt4, prepare_results exe backend s.results m2 rt2 = (rtvs, m3, rt3) ∧
      call_handle exe j rtvs ptvs rt3 = .ok rt4 ∧
      ExecuteState exe W outputs (j + 1) m3 rt4 := by
  have hsmem : s ∈ exe.m_sub_functions := by
    obtain ⟨hlt, hget⟩ := List.getElem?_eq_some.1 hs
    rw [← hget]
    exact List.getElem_mem hlt
  rcases hpr : prepare_results exe backend s.results m2 rt2 with ⟨rtvs, m3, rt3⟩
  obtain ⟨hlive3, hlen3, hframe3, hrb, hnew⟩ := prepare_results_effect exe backend s.results
    m2 rt2 rtvs m3 rt3 hI.live hpr
  have hlk := prepare_results_lookups exe backend s.results m2 rt2
  rw [hpr] at hlk
  obtain ⟨hkeep, hrtvs0⟩ := hlk
  obtain ⟨hrtvs, hrsome⟩ := map_some_eq_map s.results (fun r => m3.lookup r) rtvs hrtvs0
  have hold3 : ∀ tv, tv < rt2.tensors.length → contents rt3 tv = contents rt2 tv :=
    fun tv htv => contents_eq_of_getElem? _ _ tv (hframe3 tv htv)
  -- a result of this sub-function is not done yet
  have hpending : ∀ r ∈ s.results, ¬ exe.Done j r := by
    rintro r hr ⟨i, si, hi, hsi, hri⟩
    have := hC.sub_results_apart i j si s hsi hs r hri hr
    omega
  have hisres : ∀ r ∈ s.results, exe.IsResult r := fun r hr => ⟨j, s, hs, hr⟩
  -- a result bound before the loop is a result of the function
  have hofold : ∀ r ∈ s.results, ∀ v, m2.lookup r = some v →
      ∃ a : Nat, exe.m_function.results[a]? = some r ∧ outputs[a]? = some v := by
    intro r hr v hv
    have hmem : r ∈ exe.m_function.results := by
      by_contra hnr
      rw [hI.pending_unbound r (hisres r hr) (hpending r hr) hnr] at hv
      cases hv
    obtain ⟨a, ha⟩ := getElem?_of_mem_nat _ r hmem
    obtain ⟨tv, h1, h2⟩ := hI.results_bound a r ha
    rw [hv] at h2
    cases h2
    exact ⟨a, ha, h1⟩
  have hout_inj : ∀ (a b : Nat) (v : Nat), outputs[a]? = some v → outputs[b]? = some v →
      a = b := by
    intro a b v ha hb
    obtain ⟨ha1, ha2⟩ := List.getElem?_eq_some.1 ha
    obtain ⟨hb1, hb2⟩ := List.getElem?_eq_some.1 hb
    exact (List.Nodup.getElem_inj_iff hnodup).1 (ha2.trans hb2.symm)
  -- the tensors of the results are pairwise distinct
  have hinj : ∀ x ∈ s.results, ∀ y ∈ s.results,
      (m3.lookup x).getD 0 = (m3.lookup y).getD 0 → x = y := by
    intro x hx y hy hxy
    have hxl := hrsome x hx
    have hyl := hrsome y hy
    rw [← hxy] at hyl
    rcases hnew x _ hxl with h1 | ⟨_, _, _, _, huniq⟩
    · rcases hnew y _ hyl with h2 | ⟨_, _, _, _, huniq⟩
      · obtain ⟨a, ha1, ha2⟩ := hofold x hx _ h1
        obtain ⟨b, hb1, hb2⟩ := hofold y hy _ h2
        have := hout_inj a b _ ha2 hb2
        subst this
        rw [ha1] at hb1
        exact Option.some.inj hb1
      · exact huniq x hxl
    · exact (huniq y hyl).symm
  have hrnodup : rtvs.Nodup := by
    rw [hrtvs]
    exact List.Nodup.map_on hinj (hC.sub_results_nodup s hsmem)
  have hrlen : rtvs.length = s.results.length := by
    rw [hrtvs, List.length_map]
  have hrlive : ∀ tv ∈ rtvs, tv < rt3.tensors.length := by
    intro tv htv
    rw [hrtvs] at htv
    obtain ⟨r, hr, rfl⟩ := List.mem_map.1 htv
    exact Live.lookup hlive3 (hrsome r hr)
  -- the inputs of the handle
  have hread : read_vectors rt3 ptvs = .ok (s.parameters.map W) := by
    apply read_vectors_of_contents
    rw [hptvs, List.map_map, List.map_map]
    apply List.map_congr_left
    intro p hp
    simp only [Function.comp]
    have hl := hpb p hp
    rw [hold3 _ (Live.lookup hI.live hl)]
    exact (hI.holds p _ hl
      (fun h => absurd h (hC.sub_parameters_apart s hsmem p hp))).symm
  obtain ⟨h, rc, hh, hcall⟩ := hC.handles j s hs
  obtain ⟨rt4, hwrite, hlen4, hset, hother, htype⟩ := write_vectors_effect rtvs
    (s.results.map W) rt3 hrnodup (by rw [hrlen, List.length_map]) hrlive
  have hch : call_handle exe j rtvs ptvs rt3 = .ok rt4 := by
    unfold call_handle
    rw [hh]
    simp only [hread, hcall]
    exact hwrite
  -- a tensor bound before the loop to a node outside the results is not written
  have hnotwritten : ∀ y tv, m2.lookup y = some tv → y ∉ s.results → tv ∉ rtvs := by
    intro y tv hy hys hmem
    rw [hrtvs] at hmem
    obtain ⟨r, hr, hrv⟩ := List.mem_map.1 hmem
    have hrl := hrsome r hr
    rw [hrv] at hrl
    rcases hnew r tv hrl with h1 | ⟨_, _, hge, _⟩
    · obtain ⟨a, ha1, ha2⟩ := hofold r hr tv h1
      by_cases hyr : y ∈ exe.m_function.results
      · obtain ⟨b, hb⟩ := getElem?_of_mem_nat _ y hyr
        obtain ⟨tv2, hb1, hb2⟩ := hI.results_bound b y hb
        rw [hy] at hb2
        cases hb2
        have := hout_inj a b _ ha2 hb1
        subst this
        rw [ha1] at hb
        cases hb
        exact hys hr
      · obtain ⟨hlt, hget⟩ := List.getElem?_eq_some.1 ha2
        exact hI.apart y tv hy hyr (by rw [← hget]; exact List.getElem_mem hlt)
    · have := Live.lookup hI.live hy
      omega
  have hdone_split : ∀ y, exe.Done (j + 1) y → exe.Done j y ∨ y ∈ s.results := by
    rintro y ⟨i, si, hi, hsi, hyi⟩
    by_cases hij : i = j
    · subst hij
      rw [hs] at hsi
      cases hsi
      exact Or.inr hyi
    · exact Or.inl ⟨i, si, by omega, hsi, hyi⟩
  refine ⟨rtvs, m3, rt3, rt4, rfl, hch, ?_⟩
  constructor
  · intro e he
    rw [hlen4]
    exact hlive3 e he
  · intro tv htv
    have := hI.outputs_live tv htv
    omega
  · intro p hp
    obtain ⟨tv, htv⟩ := hI.parameters_bound p hp
    exact ⟨tv, hkeep p tv htv⟩
  · intro i r hr
    obtain ⟨tv, h1, h2⟩ := hI.results_bound i r hr
    exact ⟨tv, h1, hkeep r tv h2⟩
  · intro y hy
    rcases hdone_split y hy with h | h
    · obtain ⟨tv, htv⟩ := hI.done_bound y h
      exact ⟨tv, hkeep y tv htv⟩
    · exact hrb y h
  · intro y hy hnd hnr
    cases hl : m3.lookup y with
    | none => rfl
    | some v =>
      exfalso
      rcases hnew y v hl with h | ⟨_, hmem, _⟩
      · rw [hI.pending_unbound y hy
          (fun ⟨i, si, hi, hsi, hyi⟩ => hnd ⟨i, si, by omega, hsi, hyi⟩) hnr] at h
        cases h
      · exact hnd ⟨j, s, by omega, hs, hmem⟩
  · intro y tv hl hnr
    rcases hnew y tv hl with h | ⟨_, _, hge, _⟩
    · exact hI.apart y tv h hnr
    · intro hmem
      have := hI.outputs_live tv hmem
      omega
  · intro y tv hl hy hnr
    have h3 : ∃ t, rt3.tensors[tv]? = some t ∧
        t.element_type = elementTypeOf exe.m_function.nodes y := by
      rcases hnew y tv hl with h | ⟨_, _, _, ht, _⟩
      · obtain ⟨t, ht, htt⟩ := hI.typed y tv h hy hnr
        exact ⟨t, by rw [hframe3 tv (List.getElem?_eq_some.1 ht).1]; exact ht, htt⟩
      · exact ht
    obtain ⟨t, ht, htt⟩ := h3
    obtain ⟨t1, ht1, htt1⟩ := htype tv t ht
    exact ⟨t1, ht1, by rw [htt1, htt]⟩
  · intro y tv hl hdone
    by_cases hys : y ∈ s.results
    · obtain ⟨i, hi⟩ := getElem?_of_mem_nat _ y hys
      have hrt : rtvs[i]? = some tv := by
        rw [hrtvs, List.getElem?_map, hi]
        simp only [Option.map_some', hl, Option.getD_some]
      exact hset i tv (W y) hrt (by rw [List.getElem?_map, hi]; rfl)
    · have hl2 : m2.lookup y = some tv := by
        rcases hnew y tv hl with h | ⟨_, hmem, _⟩
        · exact h
        · exact absurd hmem hys
      rw [contents_eq_of_getElem? _ _ tv (hother tv (hnotwritten y tv hl2 hys)),
        hold3 tv (Live.lookup hI.live hl2)]
      apply hI.holds y tv hl2
      intro hy
      rcases hdone_split y (hdone hy) with h | h
      · exact h
      · exact absurd h hys

theorem bind_tensors_lookup_mem (ns : List Nat) :
    ∀ (ts : List Nat) (m m1 : List (Nat × Nat)) (k v : Nat),
      bind_tensors ns ts m = .ok m1 → m1.lookup k = some v →
      m.lookup k = some v ∨ ∃ i : Nat, ns[i]? = some k ∧ ts[i]? = some v := by
  induction ns with
  | nil =>
    intro ts m m1 k v h hk
    cases ts with
    | nil =>
      simp only [bind_tensors, Except.ok.injEq] at h
      subst h
      exact Or.inl hk
    | cons t ts => simp [bind_tensors] at h
  | cons n ns ih =>
    intro ts m m1 k v h hk
    cases ts with
    | nil =>
      simp only [bind_tensors, Except.ok.injEq] at h
      subst h
      exact Or.inl hk
    | cons t ts =>
      simp only [bind_tensors] at h
      rcases ih ts _ m1 k v h hk with h1 | ⟨i, h1, h2⟩
      · by_cases hkn : k = n
        · subst hkn
          rw [lookup_cons_self_value] at h1
          cases h1
          exact Or.inr ⟨0, by simp, by simp⟩
        · rw [lookup_cons_of_ne_value k n _ m hkn] at h1
          exact Or.inl h1
      · exact Or.inr ⟨i + 1, by simpa using h1, by simpa using h2⟩

theorem bind_tensors_ok (ns : List Nat) :
    ∀ (ts : List Nat) (m : List (Nat × Nat)), ts.length ≤ ns.length →
      ∃ m1, bind_tensors ns ts m = .ok m1 := by
  induction ns with
  | nil =>
    intro ts m h
    cases ts with
    | nil => exact ⟨m, rfl⟩
    | cons t ts => simp at h
  | cons n ns ih =>
    intro ts m h
    cases ts with
    | nil => exact ⟨m, rfl⟩
    | cons t ts =>
      simp only [bind_tensors]
      exact ih ts _ (by simpa using h)

theorem bind_tensors_bound (ns : List Nat) :
    ∀ (ts : List Nat) (m m1 : List (Nat × Nat)), bind_tensors ns ts m = .ok m1 →
      (∀ k v, m.lookup k = some v → ∃ v1, m1.lookup k = some v1) ∧
      (ts.length = ns.length → ∀ k ∈ ns, ∃ v1, m1.lookup k = some v1) := by
  induction ns with
  | nil =>
    intro ts m m1 h
    cases ts with
    | nil =>
      simp only [bind_tensors, Except.ok.injEq] at h
      subst h
      exact ⟨fun k v hk => ⟨v, hk⟩, fun _ k hk => absurd hk (List.not_mem_nil _)⟩
    | cons t ts => simp [bind_tensors] at h
  | cons n ns ih =>
    intro ts m m1 h
    cases ts with
    | nil =>
      simp only [bind_tensors, Except.ok.injEq] at h
      subst h
      exact ⟨fun k v hk => ⟨v, hk⟩, fun hlen => by simp at hlen⟩
    | cons t ts =>
      simp only [bind_tensors] at h
      obtain ⟨h1, h2⟩ := ih ts _ m1 h
      refine ⟨?_, ?_⟩
      · intro k v hk
        by_cases hkn : k = n
        · subst hkn
          exact h1 k t (lookup_cons_self_value _ _ _)
        · exact h1 k v (by rw [lookup_cons_of_ne_value k n _ m hkn]; exact hk)
      · intro hlen k hk
        rcases List.mem_cons.1 hk with rfl | hk
        · exact h1 k t (lookup_cons_self_value _ _ _)
        · exact h2 (by simpa using hlen) k hk

/-- The loop over the sub-functions, started in the state of position `j`, runs to its
end and ends in the state of the position after the last sub-function. -/
theorem call_sub_functions_state {α : Type} [Inhabited α] (reg : Registry)
    (exe : HybridExecutable α) (W : Nat → List α) (hC : exe.Computes W)
    (outputs : List Nat) (hnodup : outputs.Nodup) (hb : HybridBackend)
    (hcache : ∀ s ∈ exe.m_sub_functions, ∃ be, hb.m_cached_backends.lookup
      (get_colocated_function_placement exe.m_function.nodes s) = some be)
    (rest : List SubFunction) :
    ∀ (j : Nat) (m : List (Nat × Nat)) (rt : Runtime α),
      j ≤ exe.m_sub_functions.length → exe.m_sub_functions.drop j = rest →
      ExecuteState exe W outputs j m rt →
      ∃ m1 rt1, call_sub_functions reg exe j rest hb m rt = .ok (hb, m1, rt1) ∧
        ExecuteState exe W outputs exe.m_sub_functions.length m1 rt1 := by
  induction rest with
  | nil =>
    intro j m rt hj hdrop hI
    have hlen : exe.m_sub_functions.length ≤ j := List.drop_eq_nil_iff.1 hdrop
    have : j = exe.m_sub_functions.length := by omega
    subst this
    exact ⟨m, rt, rfl, hI⟩
  | cons s rest ih =>
    intro j m rt hj hdrop hI
    have hjlt : j < exe.m_sub_functions.length := by
      by_contra hge
      rw [List.drop_eq_nil_iff.2 (by omega)] at hdrop
      cases hdrop
    have hs : exe.m_sub_functions[j]? = some s := by
      have := List.getElem?_drop exe.m_sub_functions j 0
      rw [hdrop] at this
      simpa using this.symm
    have hrest : exe.m_sub_functions.drop (j + 1) = rest := by
      rw [← List.drop_drop, hdrop]
      rfl
    have hsmem : s ∈ exe.m_sub_functions := by
      obtain ⟨hlt, hget⟩ := List.getElem?_eq_some.1 hs
      rw [← hget]
      exact List.getElem_mem hlt
    obtain ⟨be, hbe⟩ := hcache s hsmem
    obtain ⟨ptvs, m2, rt2, hprep, hI2, hptvs, hpb⟩ :=
      prepare_parameters_state exe W hC outputs be j s hs m rt hI
    obtain ⟨rtvs, m3, rt3, rt4, hres, hcall, hI3⟩ :=
      call_handle_state exe W hC outputs hnodup be j s hs ptvs m2 rt2 hI2 hptvs hpb
    obtain ⟨m1, rt1, hloop, hI1⟩ := ih (j + 1) m3 rt4 (by omega) hrest hI3
    refine ⟨m1, rt1, ?_, hI1⟩
    simp only [call_sub_functions]
    rw [get_cached_backend_hit reg hb rt _ be hbe]
    simp only [hprep, hres, hcall]
    exact hloop

/-- The call `execute(outputs, inputs)` of a hybrid executable whose sub-functions
compute the values `W`, with the backends of the sub-functions in the cache, one input
tensor per parameter holding the value of the parameter, and one output tensor per
result, the output tensors being live, pairwise distinct and none of them an input
tensor: the call returns `true` and leaves in every output tensor the value of its
result. -/
theorem execute_computes {α : Type} [Inhabited α] (reg : Registry)
    (exe : HybridExecutable α) (W : Nat → List α) (hC : exe.Computes W) (hb : HybridBackend)
    (hcache : ∀ s ∈ exe.m_sub_functions, ∃ be, hb.m_cached_backends.lookup
      (get_colocated_function_placement exe.m_function.nodes s) = some be)
    (rt : Runtime α) (outputs inputs : List Nat)
    (hin : inputs.length = exe.m_function.parameters.length)
    (hout : outputs.length = exe.m_function.results.length)
    (hinW : ∀ (i p tv : Nat), exe.m_function.parameters[i]? = some p → inputs[i]? = some tv →
      contents rt tv = some (W p))
    (hlive : ∀ tv ∈ outputs, tv < rt.tensors.length) (hnodup : outputs.Nodup)
    (hdisj : ∀ tv ∈ outputs, tv ∉ inputs) :
    ∃ rt1, exe.execute reg hb rt outputs inputs = .ok (true, hb, rt1) ∧
      ∀ (i r tv : Nat), exe.m_function.results[i]? = some r → outputs[i]? = some tv →
        contents rt1 tv = some (W r) := by
  obtain ⟨m1, hm1⟩ := bind_tensors_ok exe.m_function.parameters inputs [] (by omega)
  obtain ⟨m2, hm2⟩ := bind_tensors_ok exe.m_function.results outputs m1 (by omega)
  have hnot_result : ∀ p ∈ exe.m_function.parameters, p ∉ exe.m_function.results :=
    fun p hp hr => hC.parameters_apart p hp (hC.results_produced p hr)
  have hfrom1 : ∀ k v, m1.lookup k = some v →
      ∃ i : Nat, exe.m_function.parameters[i]? = some k ∧ inputs[i]? = some v := by
    intro k v hk
    rcases bind_tensors_lookup_mem _ _ _ _ k v hm1 hk with h | h
    · simp at h
    · exact h
  have hmem_input : ∀ (i v : Nat), inputs[i]? = some v → v ∈ inputs := by
    intro i v hi
    obtain ⟨hlt, hget⟩ := List.getElem?_eq_some.1 hi
    rw [← hget]
    exact List.getElem_mem hlt
  have hmem_output : ∀ (i v : Nat), outputs[i]? = some v → v ∈ outputs := by
    intro i v hi
    obtain ⟨hlt, hget⟩ := List.getElem?_eq_some.1 hi
    rw [← hget]
    exact List.getElem_mem hlt
  have hI : ExecuteState exe W outputs 0 m2 rt := by
    constructor
    · intro e he
      have hmem : e.2 ∈ inputs ∨ e.2 ∈ outputs := by
        have key : ∀ (ns ts : List Nat) (m ma : List (Nat × Nat)),
            bind_tensors ns ts m = .ok ma → ∀ x ∈ ma, x ∈ m ∨ x.2 ∈ ts := by
          intro ns
          induction ns with
          | nil =>
            intro ts m ma h x hx
            cases ts with
            | nil =>
              simp only [bind_tensors, Except.ok.injEq] at h
              subst h
              exact Or.inl hx
            | cons t ts => simp [bind_tensors] at h
          | cons n ns ih =>
            intro ts m ma h x hx
            cases ts with
            | nil =>
              simp only [bind_tensors, Except.ok.injEq] at h
              subst h
              exact Or.inl hx
            | cons t ts =>
              simp only [bind_tensors] at h
              rcases ih ts _ ma h x hx with h1 | h1
              · rcases List.mem_cons.1 h1 with rfl | h1
                · exact Or.inr (List.mem_cons_self _ _)
                · exact Or.inl h1
              · exact Or.inr (List.mem_cons_of_mem _ h1)
        rcases key _ _ _ _ hm2 e he with h | h
        · rcases key _ _ _ _ hm1 e h with h0 | h0
          · cases h0
          · exact Or.inl h0
        · exact Or.inr h
      rcases hmem with h | h
      · obtain ⟨i, hi⟩ := getElem?_of_mem_nat _ _ h
        have hilt : i < exe.m_function.parameters.length := by
          have := (List.getElem?_eq_some.1 hi).1
          omega
        have hc := hinW i _ e.2 (List.getElem?_eq_getElem hilt) hi
        unfold contents at hc
        cases ht : rt.tensors[e.2]? with
        | none => rw [ht] at hc; cases hc
        | some t => exact (List.getElem?_eq_some.1 ht).1
      · exact hlive _ h
    · exact hlive
    · intro p hp
      obtain ⟨v1, hv1⟩ := (bind_tensors_bound _ _ _ _ hm1).2 hin p hp
      exact (bind_tensors_bound _ _ _ _ hm2).1 p v1 hv1
    · intro i r hr
      have hilt : i < outputs.length := by
        have := (List.getElem?_eq_some.1 hr).1
        omega
      exact ⟨outputs[i], List.getElem?_eq_getElem hilt,
        bind_tensors_lookup_of_nodup _ _ _ _ i r _ hm2 hC.results_nodup hr
          (List.getElem?_eq_getElem hilt)⟩
    · rintro y ⟨i, si, hi, _⟩
      omega
    · intro y hy _ hnr
      rw [bind_tensors_lookup_of_not_mem _ _ _ _ y hm2 hnr]
      cases hl : m1.lookup y with
      | none => rfl
      | some v =>
        obtain ⟨i, hi, _⟩ := hfrom1 y v hl
        obtain ⟨hlt, hget⟩ := List.getElem?_eq_some.1 hi
        exact absurd hy (hC.parameters_apart y (by rw [← hget]; exact List.getElem_mem hlt))
    · intro y tv hl hnr hmem
      rw [bind_tensors_lookup_of_not_mem _ _ _ _ y hm2 hnr] at hl
      obtain ⟨i, _, hi⟩ := hfrom1 y tv hl
      exact hdisj tv hmem (hmem_input i tv hi)
    · intro y tv hl hy hnr
      exfalso
      rw [bind_tensors_lookup_of_not_mem _ _ _ _ y hm2 hnr] at hl
      obtain ⟨i, hi, _⟩ := hfrom1 y tv hl
      obtain ⟨hlt, hget⟩ := List.getElem?_eq_some.1 hi
      exact hC.parameters_apart y (by rw [← hget]; exact List.getElem_mem hlt) hy
    · intro y tv hl hdone
      have hnr : y ∉ exe.m_function.results := by
        intro hr
        obtain ⟨i, si, hi, _⟩ := hdone (hC.results_produced y hr)
        omega
      rw [bind_tensors_lookup_of_not_mem _ _ _ _ y hm2 hnr] at hl
      obtain ⟨i, hi1, hi2⟩ := hfrom1 y tv hl
      exact hinW i y tv hi1 hi2
  obtain ⟨m3, rt1, hloop, hI1⟩ := call_sub_functions_state reg exe W hC outputs hnodup hb hcache
    exe.m_sub_functions 0 m2 rt (Nat.zero_le _) rfl hI
  refine ⟨rt1, ?_, ?_⟩
  · unfold HybridExecutable.execute
    simp only [hm1, hm2, hloop]
  · intro i r tv hr htv
    obtain ⟨tv2, h1, h2⟩ := hI1.results_bound i r hr
    rw [htv] at h1
    cases h1
    apply hI1.holds r tv h2
    intro hres
    obtain ⟨k, s, hs, hrs⟩ := hres
    exact ⟨k, s, (List.getElem?_eq_some.1 hs).1, hs, hrs⟩

theorem eval_node_transfer {α : Type} [Add α] [Mul α] (nodes nodes1 : List Node)
    (i : Nat) (n n1 : Node) (r : Nat → Nat) (env env1 : List (Nat × List α))
    (hn : nodes[i]? = some n) (hn1 : nodes1[i]? = some n1)
    (hop : n1.op = n.op) (hargs : n1.args = n.args.map r)
    (henv : ∀ a ∈ n.args, env1.lookup (r a) = env.lookup a)
    (hpar : n.op = OpKind.Parameter → env1.lookup i = env.lookup i) :
    eval_node nodes1 env1 i = eval_node nodes env i := by
  unfold eval_node
  rw [hn, hn1]
  obtain ⟨op, args, et, sh, pl⟩ := n
  obtain ⟨op1, args1, et1, sh1, pl1⟩ := n1
  simp only at hop hargs henv hpar ⊢
  subst hop hargs
  cases op1 with
  | Parameter => exact hpar rfl
  | Add =>
    match args, henv with
    | [], _ => rfl
    | [a], _ => rfl
    | [a, b], henv =>
      simp only [List.map_cons, List.map_nil]
      rw [henv a (by simp), henv b (by simp)]
    | _ :: _ :: _ :: _, _ => rfl
  | Multiply =>
    match args, henv with
    | [], _ => rfl
    | [a], _ => rfl
    | [a, b], henv =>
      simp only [List.map_cons, List.map_nil]
      rw [henv a (by simp), henv b (by simp)]
    | _ :: _ :: _ :: _, _ => rfl
  | Result =>
    match args, henv with
    | [], _ => rfl
    | [a], henv =>
      simp only [List.map_cons, List.map_nil]
      rw [henv a (by simp)]
    | _ :: _ :: _, _ => rfl

/-- Evaluating the nodes `s`, ..., `s + len - 1` of a well-formed arena in turn: the
environment keeps the value of every other node; every node evaluated has a value, which
is what `eval_node` computes for it from the final environment; and a `Parameter` node
keeps the value it was bound to. -/
theorem eval_ops_range {α : Type} [Add α] [Mul α] (nodes : List Node)
    (hw : ∀ (c : Nat) (n : Node), nodes[c]? = some n → ∀ o ∈ n.args, o < c) :
    ∀ (len s : Nat) (env0 env : List (Nat × List α)),
      eval_ops nodes (List.range' s len) env0 = some env →
      (∀ y, y < s ∨ s + len ≤ y → env.lookup y = env0.lookup y) ∧
      (∀ x, s ≤ x → x < s + len →
        ∃ v, env.lookup x = some v ∧ eval_node nodes env x = some v) ∧
      (∀ x n, s ≤ x → x < s + len → nodes[x]? = some n → n.op = OpKind.Parameter →
        env0.lookup x = env.lookup x) := by
  intro len
  induction len with
  | zero =>
    intro s env0 env h
    simp only [List.range'_zero, eval_ops, Option.some.injEq] at h
    subst h
    exact ⟨fun y _ => rfl, fun x h1 h2 => by omega, fun x n h1 h2 => by omega⟩
  | succ len ih =>
    intro s env0 env h
    rw [List.range'_succ] at h
    simp only [eval_ops] at h
    cases hv : eval_node nodes env0 s with
    | none => rw [hv] at h; cases h
    | some v =>
      rw [hv] at h
      simp only at h
      obtain ⟨ha, hb, hc⟩ := ih (s + 1) ((s, v) :: env0) env h
      have hkeep : ∀ y, y < s ∨ s + (len + 1) ≤ y → env.lookup y = env0.lookup y := by
        intro y hy
        rw [ha y (by omega), lookup_cons_of_ne_value y s v env0 (by omega)]
      have hs : env.lookup s = some v := by
        rw [ha s (by omega), lookup_cons_self_value]
      refine ⟨hkeep, ?_, ?_⟩
      · intro x h1 h2
        by_cases hxs : x = s
        · subst hxs
          refine ⟨v, hs, ?_⟩
          rw [← hv]
          unfold eval_node at hv
          cases hn : nodes[x]? with
          | none => rw [hn] at hv; cases hv
          | some n =>
            apply eval_node_transfer nodes nodes x n n id env0 env hn hn rfl (by simp)
            · intro a ha2
              exact hkeep a (Or.inl (hw x n hn a ha2))
            · intro hop
              rw [hn] at hv
              simp only [hop] at hv
              rw [hs, hv]
        · exact hb x (by omega) (by omega)
      · intro x n h1 h2 hn hop
        by_cases hxs : x = s
        · subst hxs
          rw [hs]
          unfold eval_node at hv
          rw [hn] at hv
          simp only [hop] at hv
          exact hv
        · rw [← hc x n (by omega) (by omega) hn hop, lookup_cons_of_ne_value x s v env0 hxs]

theorem lookup_zip_map {β : Type} (W : Nat → β) (l : List Nat) (y : Nat) (hy : y ∈ l) :
    (List.zip l (l.map W)).lookup y = some (W y) := by
  induction l with
  | nil => cases hy
  | cons x l ih =>
    simp only [List.map_cons, List.zip_cons_cons]
    by_cases hyx : y = x
    · subst hyx
      exact lookup_cons_self_value _ _ _
    · rw [lookup_cons_of_ne_value y x _ _ hyx]
      rcases List.mem_cons.1 hy with h | h
      · exact absurd h hyx
      · exact ih h

theorem mem_of_lookup_zip {β : Type} (l : List Nat) :
    ∀ (d : List β) (y : Nat) (v : β), (List.zip l d).lookup y = some v → y ∈ l := by
  induction l with
  | nil => intro d y v h; simp at h
  | cons x l ih =>
    intro d y v h
    cases d with
    | nil => simp at h
    | cons a d =>
      simp only [List.zip_cons_cons] at h
      by_cases hyx : y = x
      · subst hyx
        exact List.mem_cons_self _ _
      · rw [lookup_cons_of_ne_value y x _ _ hyx] at h
        exact List.mem_cons_of_mem _ (ih d y v h)

theorem lookup_zip_of_nodup {β : Type} (l : List Nat) :
    ∀ (d : List β) (i y : Nat) (v : β), l.Nodup → l[i]? = some y → d[i]? = some v →
      (List.zip l d).lookup y = some v := by
  induction l with
  | nil => intro d i y v _ h; simp at h
  | cons x l ih =>
    intro d i y v hnd hy hv
    cases d with
    | nil => simp at hv
    | cons a d =>
      simp only [List.zip_cons_cons]
      rw [List.nodup_cons] at hnd
      cases i with
      | zero =>
        simp only [List.getElem?_cons_zero, Option.some.injEq] at hy hv
        subst hy hv
        exact lookup_cons_self_value _ _ _
      | succ i =>
        rw [List.getElem?_cons_succ] at hy hv
        have hyl : y ∈ l := by
          obtain ⟨hlt, hget⟩ := List.getElem?_eq_some.1 hy
          rw [← hget]
          exact List.getElem_mem hlt
        have hyx : y ≠ x := fun h => hnd.1 (h ▸ hyl)
        rw [lookup_cons_of_ne_value y x _ _ hyx]
        exact ih d i y v hnd.2 hy hv

/-- Evaluating a list of nodes succeeds, and leaves the values `W` in the environment,
when every node of the list evaluates to its value `W` in any environment that holds the
values `W` of the nodes `pre` and of the nodes of the list before it. -/
theorem eval_ops_of_step {α : Type} [Add α] [Mul α] (nodes : List Node)
    (W : Nat → List α) (ops : List Nat) :
    ∀ (pre : List Nat) (env : List (Nat × List α)),
      (∀ y ∈ pre, env.lookup y = some (W y)) →
      (∀ (done rest : List Nat) (x : Nat), ops = done ++ x :: rest →
        ∀ env1 : List (Nat × List α), (∀ y ∈ pre ++ done, env1.lookup y = some (W y)) →
          eval_node nodes env1 x = some (W x)) →
      ∃ env1, eval_ops nodes ops env = some env1 ∧
        ∀ y ∈ pre ++ ops, env1.lookup y = some (W y) := by
  induction ops with
  | nil =>
    intro pre env hpre _
    exact ⟨env, rfl, by simpa using hpre⟩
  | cons x ops ih =>
    intro pre env hpre hstep
    have hx : eval_node nodes env x = some (W x) :=
      hstep [] ops x rfl env (by simpa using hpre)
    obtain ⟨env1, h1, h2⟩ := ih (pre ++ [x]) ((x, W x) :: env) (by
      intro y hy
      by_cases hyx : y = x
      · subst hyx
        exact lookup_cons_self_value _ _ _
      · rw [lookup_cons_of_ne_value y x _ _ hyx]
        rcases List.mem_append.1 hy with h | h
        · exact hpre y h
        · exact absurd (List.mem_singleton.1 h) hyx) (by
      intro done rest x2 hops env2 henv2
      apply hstep (x :: done) rest x2 (by rw [hops]; rfl) env2
      intro y hy
      apply henv2
      simpa [List.append_assoc] using hy)
    refine ⟨env1, ?_, ?_⟩
    · simp only [eval_ops, hx]
      exact h1
    · intro y hy
      apply h2
      simpa [List.append_assoc] using hy

theorem read_results_of_lookup {α : Type} (W : Nat → List α) (env : List (Nat × List α))
    (rs : List Nat) (h : ∀ r ∈ rs, env.lookup r = some (W r)) :
    read_results env rs = some (rs.map W) := by
  induction rs with
  | nil => rfl
  | cons r rs ih =>
    simp only [read_results, h r (List.mem_cons_self _ _),
      ih (fun x hx => h x (List.mem_cons_of_mem _ hx)), List.map_cons]

theorem read_results_values {α : Type} (env : List (Nat × List α)) (rs : List Nat) :
    ∀ (vals : List (List α)), read_results env rs = some vals →
      vals = rs.map (fun r => (env.lookup r).getD []) := by
  induction rs with
  | nil =>
    intro vals h
    simp only [read_results, Option.some.injEq] at h
    rw [← h]
    rfl
  | cons r rs ih =>
    intro vals h
    simp only [read_results] at h
    cases hr : env.lookup r with
    | none => rw [hr] at h; cases h
    | some v =>
      cases hrest : read_results env rs with
      | none => rw [hr, hrest] at h; cases h
      | some vs =>
        rw [hr, hrest] at h
        simp only [Option.some.injEq] at h
        rw [← h, List.map_cons, ← ih vs hrest, hr]
        rfl

theorem split_value_original {α : Type} (nodes : List Node) (env : List (Nat × List α))
    (x : Nat) (v : List α) (hx : x < nodes.length) (hv : env.lookup x = some v) :
    split_value nodes env x = v := by
  unfold split_value
  rw [if_pos hx, hv]
  rfl

theorem split_value_source {α : Type} (nodes : List Node) (env : List (Nat × List α))
    (k : Nat) (key : Nat × Placement) (hk : (boundary_keys nodes)[k]? = some key)
    (hlt : key.1 < nodes.length) :
    split_value nodes env (source_id nodes.length k) = split_value nodes env key.1 := by
  have h1 : ¬ source_id nodes.length k < nodes.length := by unfold source_id; omega
  have h2 : (source_id nodes.length k - nodes.length) / 2 = k := by unfold source_id; omega
  unfold split_value
  rw [if_neg h1, if_pos hlt, h2, List.getD_eq_getElem?_getD, hk]
  rfl

theorem split_value_sink {α : Type} (nodes : List Node) (env : List (Nat × List α))
    (k : Nat) (key : Nat × Placement) (hk : (boundary_keys nodes)[k]? = some key)
    (hlt : key.1 < nodes.length) :
    split_value nodes env (sink_id nodes.length k) = split_value nodes env key.1 := by
  have h1 : ¬ sink_id nodes.length k < nodes.length := by unfold sink_id; omega
  have h2 : (sink_id nodes.length k - nodes.length) / 2 = k := by unfold sink_id; omega
  unfold split_value
  rw [if_neg h1, if_pos hlt, h2, List.getD_eq_getElem?_getD, hk]
  rfl

/-- In the list of operations of a sub-function an original node is preceded by the
synthetic Parameters and by the original nodes before it only. -/
theorem pairwise_sub_function_ops (f : Function) (r : Nat) :
    (sub_function_of f r).ops.Pairwise (fun u v => v < f.nodes.length →
      (f.nodes.length ≤ u ∧ (u - f.nodes.length) % 2 = 1) ∨ u < v) := by
  unfold sub_function_of
  simp only
  rw [List.pairwise_append, List.pairwise_append]
  refine ⟨⟨?_, ?_, ?_⟩, ?_, ?_⟩
  · rw [List.pairwise_map]
    apply List.pairwise_of_forall
    intro u v _
    exact Or.inl ⟨by unfold source_id; omega, by unfold source_id; omega⟩
  · apply List.Pairwise.filter
    exact List.Pairwise.imp (fun h _ => Or.inr h) (List.pairwise_lt_range _)
  · intro u hu v _ _
    obtain ⟨k, _, rfl⟩ := List.mem_map.1 hu
    exact Or.inl ⟨by unfold source_id; omega, by unfold source_id; omega⟩
  · rw [List.pairwise_map]
    apply List.pairwise_of_forall
    intro u v hv
    unfold sink_id at hv
    omega
  · intro u _ v hv hlt
    obtain ⟨k, _, rfl⟩ := List.mem_map.1 hv
    unfold sink_id at hlt
    omega

theorem mem_done_of_pairwise (ops done rest : List Nat) (x a n : Nat)
    (hp : ops.Pairwise (fun u v => v < n → (n ≤ u ∧ (u - n) % 2 = 1) ∨ u < v))
    (hops : ops = done ++ x :: rest) (ha : a ∈ ops) (han : a < n)
    (hx : a < x ∧ x < n ∨ (n ≤ x ∧ (x - n) % 2 = 0)) : a ∈ done := by
  rw [hops] at ha hp
  rcases List.mem_append.1 ha with h | h
  · exact h
  · exfalso
    rcases List.mem_cons.1 h with h | h
    · omega
    · have := (List.pairwise_cons.1 (List.pairwise_append.1 hp).2.1).1 a h han
      omega

/-- The call of a sub-function returned by the splitter, on the values of its
parameters, returns the values of its results. -/
theorem sub_function_call_values {α : Type} [Add α] [Mul α] (f : Function)
    (hw : f.WellFormed) (env : List (Nat × List α))
    (henv : ∀ x, x < f.nodes.length →
      ∃ v, env.lookup x = some v ∧ eval_node f.nodes env x = some v)
    (hpar : ∀ x n, f.nodes[x]? = some n → n.op = OpKind.Parameter → x ∈ f.parameters)
    (r : Nat) (hr : r ∈ groups f.nodes) :
    SubFunction.call (split_nodes f.nodes) (sub_function_of f r)
      ((sub_function_of f r).parameters.map (split_value f.nodes env)) =
      some ((sub_function_of f r).results.map (split_value f.nodes env)) := by
  have hval : ∀ x, x < f.nodes.length →
      env.lookup x = some (split_value f.nodes env x) := by
    intro x hx
    obtain ⟨v, hv, _⟩ := henv x hx
    rw [split_value_original f.nodes env x v hx hv]
    exact hv
  have hevalx : ∀ x, x < f.nodes.length →
      eval_node f.nodes env x = some (split_value f.nodes env x) := by
    intro x hx
    obtain ⟨v, hv, he⟩ := henv x hx
    rw [split_value_original f.nodes env x v hx hv]
    exact he
  have hpairs := pairwise_sub_function_ops f r
  obtain ⟨env1, heval, hlook⟩ := eval_ops_of_step (split_nodes f.nodes)
    (split_value f.nodes env) (sub_function_of f r).ops (sub_function_of f r).parameters
    (List.zip (sub_function_of f r).parameters
      ((sub_function_of f r).parameters.map (split_value f.nodes env)))
    (fun y hy => lookup_zip_map _ _ y hy) (by
      intro done rest x hops env2 henv2
      have hxmem : x ∈ (sub_function_of f r).ops := by rw [hops]; simp
      have horig : ∀ a, a < f.nodes.length → group_of f.nodes a = r →
          (a < x ∧ x < f.nodes.length ∨
            (f.nodes.length ≤ x ∧ (x - f.nodes.length) % 2 = 0)) →
          env2.lookup a = some (split_value f.nodes env a) := by
        intro a ha hga hx
        apply henv2
        apply List.mem_append_right
        exact mem_done_of_pairwise _ done rest x a f.nodes.length hpairs hops
          ((original_mem_sub_function_ops f r a ha).2 hga) ha hx
      have hsource : ∀ k, k ∈ sources_of f.nodes r →
          env2.lookup (source_id f.nodes.length k) =
            some (split_value f.nodes env (source_id f.nodes.length k)) := by
        intro k hk
        apply henv2
        apply List.mem_append_left
        exact (mem_sub_function_parameters f r _).2 (Or.inr ⟨k, hk, rfl⟩)
      rcases (mem_sub_function_ops f r x).1 hxmem with ⟨k, hk, rfl⟩ | ⟨hx, hgx⟩ | ⟨k, hk, rfl⟩
      · -- a synthetic Parameter
        obtain ⟨o, c, _, _, hkey, _⟩ := (mem_sources_of f.nodes r k).1 hk
        unfold eval_node
        rw [getElem?_split_nodes_source f.nodes k _ hkey]
        exact hsource k hk
      · -- an original node
        have hget : f.nodes[x]? = some f.nodes[x] := List.getElem?_eq_getElem hx
        rw [← hevalx x hx]
        apply eval_node_transfer f.nodes (split_nodes f.nodes) x f.nodes[x]
          (relink_node f.nodes (boundary_keys f.nodes) x f.nodes[x])
          (fun o => if is_split_edge f.nodes (o, x) then
            source_id f.nodes.length
              (key_index (o, placementOf f.nodes x) (boundary_keys f.nodes))
            else o) env env2 hget
          (by rw [getElem?_split_nodes_original f.nodes x hx, hget]; rfl) rfl rfl
        · intro a ha
          have hax : a < x := hw x _ hget a ha
          rw [hval a (by omega)]
          by_cases hsplit : is_split_edge f.nodes (a, x) = true
          · rw [if_pos hsplit]
            have hpl : placementOf f.nodes x = f.nodes[x].placement := by
              unfold placementOf; rw [hget]
            obtain ⟨hidx, hkey⟩ := boundary_key_of_split_input f x _ hget a ha hsplit
            rw [← hpl] at hkey hidx
            have hk : key_index (a, placementOf f.nodes x) (boundary_keys f.nodes) ∈
                sources_of f.nodes r :=
              (mem_sources_of f.nodes r _).2
                ⟨a, x, (mem_edges f.nodes a x).2 ⟨_, hget, ha⟩, hsplit, hkey, hgx⟩
            rw [hsource _ hk, split_value_source f.nodes env _ _ hkey (by simp only; omega)]
          · rw [if_neg hsplit]
            unfold is_split_edge at hsplit
            simp only [ne_eq, decide_eq_true_eq, not_not] at hsplit
            exact horig a (by omega) (by rw [hsplit]; exact hgx) (Or.inl ⟨hax, hx⟩)
        · intro hop
          rw [hval x hx]
          apply henv2
          apply List.mem_append_left
          exact (mem_sub_function_parameters f r x).2 (Or.inl ⟨hpar x _ hget hop, hgx⟩)
      · -- a synthetic Result
        obtain ⟨key, hkey, hgk⟩ := (mem_sinks_of f.nodes r k).1 hk
        have hklt := key_producer_lt f hw k key hkey
        unfold eval_node
        rw [getElem?_split_nodes_sink f.nodes k _ hkey]
        simp only
        rw [split_value_sink f.nodes env k key hkey hklt]
        exact horig key.1 hklt hgk
          (Or.inr ⟨by unfold sink_id; omega, by unfold sink_id; omega⟩))
  unfold SubFunction.call
  rw [if_pos (by rw [List.length_map]), heval]
  simp only
  apply read_results_of_lookup
  intro y hy
  apply hlook
  rcases (mem_sub_function_results f r y).1 hy with ⟨_, hgy⟩ | ⟨k, hk, rfl⟩
  · exact List.mem_append_right _ ((mem_sub_function_ops f r y).2
      (Or.inr (Or.inl ⟨group_of_eq_lt f.nodes y r hr hgy, hgy⟩)))
  · exact List.mem_append_right _ ((mem_sub_function_ops f r _).2 (Or.inr (Or.inr ⟨k, hk, rfl⟩)))

theorem getElem?_of_mem_sub_function (l : List SubFunction) (x : SubFunction) (hx : x ∈ l) :
    ∃ i : Nat, l[i]? = some x := by
  obtain ⟨i, hi, hget⟩ := List.getElem_of_mem hx
  exact ⟨i, by rw [List.getElem?_eq_getElem hi, hget]⟩

/-- The sub-function at a position of the list the splitter returns is the sub-function
of the group at that position of the sorted groups. -/
theorem split_sub_function_at (f : Function) (j : Nat) (s : SubFunction)
    (hs : (split_function_by_placement f).sub_functions[j]? = some s) :
    ∃ r, (sort_components (dependencies f.nodes) (groups f.nodes).length
        (groups f.nodes) [])[j]? = some r ∧ s = sub_function_of f r ∧ r ∈ groups f.nodes := by
  have hperm := sort_components_perm (dependencies f.nodes) (groups f.nodes).length
    (groups f.nodes) []
  rw [List.nil_append] at hperm
  have hsubs : (split_function_by_placement f).sub_functions =
      (sort_components (dependencies f.nodes) (groups f.nodes).length
        (groups f.nodes) []).map (sub_function_of f) := rfl
  rw [hsubs, List.getElem?_map, Option.map_eq_some'] at hs
  obtain ⟨r, hr, hsr⟩ := hs
  refine ⟨r, hr, hsr.symm, hperm.mem_iff.1 ?_⟩
  obtain ⟨hlt, hget⟩ := List.getElem?_eq_some.1 hr
  rw [← hget]
  exact List.getElem_mem hlt

theorem split_sub_function_of_group (f : Function) (r : Nat) (hr : r ∈ groups f.nodes) :
    ∃ j : Nat, (split_function_by_placement f).sub_functions[j]? =
      some (sub_function_of f r) :=
  getElem?_of_mem_sub_function _ _ ((mem_split_sub_functions f _).2 ⟨r, hr, rfl⟩)

theorem split_position_unique (f : Function) (i j : Nat) (r : Nat)
    (hi : (sort_components (dependencies f.nodes) (groups f.nodes).length
        (groups f.nodes) [])[i]? = some r)
    (hj : (sort_components (dependencies f.nodes) (groups f.nodes).length
        (groups f.nodes) [])[j]? = some r) : i = j := by
  have hperm := sort_components_perm (dependencies f.nodes) (groups f.nodes).length
    (groups f.nodes) []
  rw [List.nil_append] at hperm
  have hnodup := hperm.nodup_iff.2 (nodup_groups f.nodes)
  obtain ⟨hil, hig⟩ := List.getElem?_eq_some.1 hi
  obtain ⟨hjl, hjg⟩ := List.getElem?_eq_some.1 hj
  exact (List.Nodup.getElem_inj_iff hnodup).1 (hig.trans hjg.symm)

/-- A sub-function that reads the synthetic Parameter of a boundary pair stands after a
sub-function that has the synthetic Result of the pair among its results. -/
theorem sink_before_source (f : Function) (hw : f.WellFormed) (j : Nat) (s : SubFunction)
    (hs : (split_function_by_placement f).sub_functions[j]? = some s) (k : Nat)
    (hk : source_id f.nodes.length k ∈ s.parameters) :
    ∃ (i : Nat) (si : SubFunction), i < j ∧
      (split_function_by_placement f).sub_functions[i]? = some si ∧
      sink_id f.nodes.length k ∈ si.results := by
  obtain ⟨rj, hrj, rfl, hrjg⟩ := split_sub_function_at f j s hs
  have hksrc : k ∈ sources_of f.nodes rj := by
    rcases (mem_sub_function_parameters f rj _).1 hk with ⟨_, hg⟩ | ⟨k2, hk2, h⟩
    · exfalso
      rw [group_of_ge f.nodes _ (by unfold source_id; omega)] at hg
      obtain ⟨x, hx, hxg⟩ := (mem_groups_iff f.nodes rj).1 hrjg
      have := (group_of_spec f.nodes x hx).1
      unfold source_id at hg
      omega
    · have : k = k2 := by unfold source_id at h; omega
      rw [this]
      exact hk2
  obtain ⟨o, c, he, hsplit, hkey, hc⟩ := (mem_sources_of f.nodes rj k).1 hksrc
  have hdep : group_of f.nodes o ∈ dependencies f.nodes rj := by
    unfold dependencies
    exact List.mem_map.2 ⟨k, hksrc, by rw [hkey]⟩
  have hsorted := sorted_groups_dependenciesFirst f hw
  obtain ⟨i, hi, hget⟩ := List.mem_take_iff_getElem.1 (hsorted j rj hrj _ hdep)
  have hilt : i < j := (lt_min_iff.1 hi).1
  have hils := (lt_min_iff.1 hi).2
  refine ⟨i, sub_function_of f (group_of f.nodes o), hilt, ?_, ?_⟩
  · have hsubs : (split_function_by_placement f).sub_functions =
        (sort_components (dependencies f.nodes) (groups f.nodes).length
          (groups f.nodes) []).map (sub_function_of f) := rfl
    rw [hsubs, List.getElem?_map, List.getElem?_eq_getElem hils, hget]
    rfl
  · exact (mem_sub_function_results f _ _).2
      (Or.inr ⟨k, (mem_sinks_of f.nodes _ k).2 ⟨_, hkey, rfl⟩, rfl⟩)

theorem nodup_sinks_of (nodes : List Node) (r : Nat) : (sinks_of nodes r).Nodup := by
  unfold sinks_of
  exact List.Nodup.filter _ (List.nodup_range _)

theorem valid_lt (f : Function) (x : Nat) (op : OpKind)
    (h : (f.nodes[x]?).map (fun n => n.op) = some op) : x < f.nodes.length := by
  cases hx : f.nodes[x]? with
  | none => rw [hx] at h; cases h
  | some n => exact (List.getElem?_eq_some.1 hx).1

/-- The executable made of the split of a well-formed, valid function of element type
`f32` and of handles that evaluate the sub-functions computes the values of the
nodes. -/
theorem split_computes {α : Type} [Add α] [Mul α] (f : Function) (hw : f.WellFormed)
    (hvalid : f.Valid) (hf32 : ∀ nd ∈ f.nodes, nd.element_type = ElementType.f32)
    (env : List (Nat × List α))
    (henv : ∀ x, x < f.nodes.length →
      ∃ v, env.lookup x = some v ∧ eval_node f.nodes env x = some v)
    (hpar : ∀ x n, f.nodes[x]? = some n → n.op = OpKind.Parameter → x ∈ f.parameters)
    (exe : HybridExecutable α)
    (hnodes : exe.m_function.nodes = (split_function_by_placement f).nodes)
    (hparams : exe.m_function.parameters = f.parameters)
    (hresults : exe.m_function.results = f.results)
    (hsubs : exe.m_sub_functions = (split_function_by_placement f).sub_functions)
    (hmap : exe.m_map_parameter_to_result =
      (split_function_by_placement f).map_parameter_to_result)
    (hhandles : ∀ (j : Nat) (s : SubFunction), exe.m_sub_functions[j]? = some s →
      ∃ h : Executable α, exe.m_handle_map.lookup j = some h ∧
        h.call = SubFunction.validate_and_execute exe.m_function.nodes s) :
    exe.Computes (split_value f.nodes env) := by
  obtain ⟨hpn, hrn, hpop, hrop⟩ := hvalid
  have hsplitnodes : (split_function_by_placement f).nodes = split_nodes f.nodes := rfl
  have hsplitmap : (split_function_by_placement f).map_parameter_to_result =
      boundary_map f.nodes.length (boundary_keys f.nodes) := rfl
  have hplt : ∀ p ∈ f.parameters, p < f.nodes.length :=
    fun p hp => valid_lt f p _ (hpop p hp)
  have hrlt : ∀ r ∈ f.results, r < f.nodes.length :=
    fun r hr => valid_lt f r _ (hrop r hr)
  -- results of a sub-function
  have hres_cases : ∀ (j : Nat) (s : SubFunction) (y : Nat),
      (split_function_by_placement f).sub_functions[j]? = some s → y ∈ s.results →
      ∃ rj, (sort_components (dependencies f.nodes) (groups f.nodes).length
          (groups f.nodes) [])[j]? = some rj ∧
        ((y ∈ f.results ∧ y < f.nodes.length ∧ group_of f.nodes y = rj) ∨
          ∃ k key, y = sink_id f.nodes.length k ∧ (boundary_keys f.nodes)[k]? = some key ∧
            group_of f.nodes key.1 = rj) := by
    intro j s y hs hy
    obtain ⟨rj, hrj, rfl, _⟩ := split_sub_function_at f j s hs
    refine ⟨rj, hrj, ?_⟩
    rcases (mem_sub_function_results f rj y).1 hy with ⟨h1, h2⟩ | ⟨k, hk, rfl⟩
    · exact Or.inl ⟨h1, hrlt y h1, h2⟩
    · obtain ⟨key, hkey, hg⟩ := (mem_sinks_of f.nodes rj k).1 hk
      exact Or.inr ⟨k, key, rfl, hkey, hg⟩
  have hisres : ∀ y, exe.IsResult y →
      (y ∈ f.results ∧ y < f.nodes.length) ∨ ∃ k, y = sink_id f.nodes.length k := by
    rintro y ⟨j, s, hs, hy⟩
    rw [hsubs] at hs
    obtain ⟨rj, _, h | ⟨k, _, h, _⟩⟩ := hres_cases j s y hs hy
    · exact Or.inl ⟨h.1, h.2.1⟩
    · exact Or.inr ⟨k, h⟩
  have hpar_not : ∀ p ∈ f.parameters, ¬ exe.IsResult p := by
    intro p hp hres
    rcases hisres p hres with ⟨h, _⟩ | ⟨k, h⟩
    · have h1 := hpop p hp
      rw [hrop p h] at h1
      cases h1
    · have := hplt p hp
      unfold sink_id at h
      omega
  constructor
  · rw [hresults]; exact hrn
  · intro r hr
    rw [hresults] at hr
    obtain ⟨j, hj⟩ := split_sub_function_of_group f (group_of f.nodes r)
      ((mem_groups_iff f.nodes _).2 ⟨r, hrlt r hr, rfl⟩)
    exact ⟨j, _, by rw [hsubs]; exact hj, (mem_sub_function_results f _ r).2 (Or.inl ⟨hr, rfl⟩)⟩
  · intro p hp
    rw [hparams] at hp
    exact hpar_not p hp
  · intro s hs p hp hres
    rw [hsubs] at hs
    obtain ⟨r, _, rfl⟩ := (mem_split_sub_functions f s).1 hs
    rcases (mem_sub_function_parameters f r p).1 hp with ⟨h, _⟩ | ⟨k, _, rfl⟩
    · exact hpar_not p h hres
    · rcases hisres _ hres with ⟨_, h⟩ | ⟨k2, h⟩
      · unfold source_id at h; omega
      · unfold source_id sink_id at h; omega
  · intro s hs
    rw [hsubs] at hs
    obtain ⟨r, _, rfl⟩ := (mem_split_sub_functions f s).1 hs
    unfold sub_function_of
    simp only
    apply List.Nodup.append (List.Nodup.filter _ hrn)
    · apply List.Nodup.map _ (nodup_sinks_of f.nodes r)
      intro a b hab
      unfold sink_id at hab
      omega
    · intro x hx1 hx2
      have := hrlt x (List.mem_filter.1 hx1).1
      obtain ⟨k, _, rfl⟩ := List.mem_map.1 hx2
      unfold sink_id at this
      omega
  · intro i j si sj hi hj r hri hrj
    rw [hsubs] at hi hj
    obtain ⟨ri, hri2, hci⟩ := hres_cases i si r hi hri
    obtain ⟨rj, hrj2, hcj⟩ := hres_cases j sj r hj hrj
    have : ri = rj := by
      rcases hci with ⟨_, h1, h2⟩ | ⟨k1, key1, h1, h2, h3⟩
      · rcases hcj with ⟨_, _, h4⟩ | ⟨k2, key2, h4, _, _⟩
        · rw [← h2, ← h4]
        · unfold sink_id at h4; omega
      · rcases hcj with ⟨_, h4, _⟩ | ⟨k2, key2, h4, h5, h6⟩
        · unfold sink_id at h1; omega
        · have : k1 = k2 := by unfold sink_id at h1 h4; omega
          subst this
          rw [h2] at h5
          cases h5
          rw [← h3, ← h6]
    subst this
    exact split_position_unique f i j ri hri2 hrj2
  · intro j s hs p hp hpn2
    rw [hsubs] at hs
    rw [hparams] at hpn2
    obtain ⟨rj, hrj, hsr, hrjg⟩ := split_sub_function_at f j s hs
    have hp2 := hp
    rw [hsr] at hp2
    rcases (mem_sub_function_parameters f rj p).1 hp2 with ⟨h, _⟩ | ⟨k, hk, rfl⟩
    · exact absurd h hpn2
    · obtain ⟨o, c, he, _, hkey, _⟩ := (mem_sources_of f.nodes rj k).1 hk
      have holt : o < f.nodes.length := by
        have := edge_bounds f hw o c he
        omega
      obtain ⟨i, si, hij, hsi, hsink⟩ := sink_before_source f hw j s hs k hp
      refine ⟨sink_id f.nodes.length k, ?_, ?_, ?_, ?_, ?_⟩
      · rw [hmap, hsplitmap]
        exact lookup_boundary_map_source _ _ k (List.getElem?_eq_some.1 hkey).1
      · rw [split_value_source f.nodes env k _ hkey holt,
          split_value_sink f.nodes env k _ hkey holt]
      · rw [hnodes, hsplitnodes]
        unfold elementTypeOf
        rw [getElem?_split_nodes_sink f.nodes k _ hkey]
        simp only
        unfold elementTypeOf
        rw [List.getElem?_eq_getElem holt]
        exact hf32 _ (List.getElem_mem holt)
      · rw [hresults]
        intro h
        have := hrlt _ h
        unfold sink_id at this
        omega
      · exact ⟨i, si, hij, by rw [hsubs]; exact hsi, hsink⟩
  · intro j s hs
    obtain ⟨h, hh, hcall⟩ := hhandles j s hs
    rw [hsubs] at hs
    obtain ⟨rj, _, rfl, hrjg⟩ := split_sub_function_at f j s hs
    refine ⟨h, true, hh, ?_⟩
    rw [hcall, hnodes, hsplitnodes]
    unfold SubFunction.validate_and_execute
    rw [sub_function_call_values f hw env henv hpar rj hrjg]
    rfl

theorem placed_getElem? (f : Function) (j : Nat) :
    (placed f).nodes[j]? =
      (f.nodes[j]?).map (fun n => n.set_placement (int_with_cpu_mul_policy n)) :=
  AssignPlacement.run_on_function_getElem? int_with_cpu_mul_policy f j

theorem placed_length (f : Function) : (placed f).nodes.length = f.nodes.length := by
  have h1 := placed_getElem? f f.nodes.length
  have h2 := placed_getElem? f (placed f).nodes.length
  rw [List.getElem?_eq_none (le_refl _)] at h1 h2
  simp only [Option.map_none'] at h1
  have h3 := List.getElem?_eq_none_iff.1 h1
  have h4 : f.nodes[(placed f).nodes.length]? = none := by
    cases h : f.nodes[(placed f).nodes.length]? with
    | none => rfl
    | some n => rw [h] at h2; cases h2
  have h5 := List.getElem?_eq_none_iff.1 h4
  omega

theorem placed_node (f : Function) (x : Nat) (n1 : Node) (h : (placed f).nodes[x]? = some n1) :
    ∃ n, f.nodes[x]? = some n ∧ n1.op = n.op ∧ n1.args = n.args ∧
      n1.element_type = n.element_type := by
  rw [placed_getElem?] at h
  cases hn : f.nodes[x]? with
  | none => rw [hn] at h; cases h
  | some n =>
    rw [hn] at h
    simp only [Option.map_some', Option.some.injEq] at h
    subst h
    exact ⟨n, rfl, rfl, rfl, rfl⟩

theorem placed_wellFormed (f : Function) (hw : f.WellFormed) : (placed f).WellFormed := by
  intro c n1 hc o ho
  obtain ⟨n, hn, _, hargs, _⟩ := placed_node f c n1 hc
  rw [hargs] at ho
  exact hw c n hn o ho

theorem placed_valid (f : Function) (hv : f.Valid) : (placed f).Valid := by
  obtain ⟨h1, h2, h3, h4⟩ := hv
  refine ⟨h1, h2, ?_, ?_⟩
  · intro p hp
    have := h3 p hp
    rw [placed_getElem?]
    cases hn : f.nodes[p]? with
    | none => rw [hn] at this; cases this
    | some n => rw [hn] at this; exact this
  · intro r hr
    have := h4 r hr
    rw [placed_getElem?]
    cases hn : f.nodes[r]? with
    | none => rw [hn] at this; cases this
    | some n => rw [hn] at this; exact this

theorem eval_node_placed {α : Type} [Add α] [Mul α] (f : Function)
    (env : List (Nat × List α)) (x : Nat) :
    eval_node (placed f).nodes env x = eval_node f.nodes env x := by
  cases hn1 : (placed f).nodes[x]? with
  | none =>
    have : f.nodes[x]? = none := by
      rw [placed_getElem?] at hn1
      cases h : f.nodes[x]? with
      | none => rfl
      | some n => rw [h] at hn1; cases hn1
    unfold eval_node
    rw [hn1, this]
  | some n1 =>
    obtain ⟨n, hn, hop, hargs, _⟩ := placed_node f x n1 hn1
    exact eval_node_transfer f.nodes (placed f).nodes x n n1 id env env hn hn1 hop
      (by rw [hargs, List.map_id]) (fun _ _ => rfl) (fun _ => rfl)

/-- What a successful `compile` leaves in the executable: the split of the placed
function, and for every sub-function a handle that evaluates it, compiled by a backend
that is in the cache. -/
theorem compile_fields {α : Type} [Add α] [Mul α] (reg : Registry) (hb : HybridBackend)
    (rt : Runtime α) (f : Function) (exe : HybridExecutable α) (hb1 : HybridBackend)
    (rt1 : Runtime α) (h : hb.compile reg rt f = .ok (exe, hb1, rt1)) :
    exe.m_function.nodes = (split_function_by_placement (placed f)).nodes ∧
    exe.m_function.parameters = f.parameters ∧
    exe.m_function.results = f.results ∧
    exe.m_sub_functions = (split_function_by_placement (placed f)).sub_functions ∧
    exe.m_map_parameter_to_result =
      (split_function_by_placement (placed f)).map_parameter_to_result ∧
    (∀ (j : Nat) (s : SubFunction), exe.m_sub_functions[j]? = some s →
      ∃ handle : Executable α, exe.m_handle_map.lookup j = some handle ∧
        handle.call = SubFunction.validate_and_execute exe.m_function.nodes s) ∧
    (∀ s ∈ exe.m_sub_functions, ∃ be, hb1.m_cached_backends.lookup
      (get_colocated_function_placement exe.m_function.nodes s) = some be) := by
  unfold HybridBackend.compile HybridExecutable.new at h
  cases hc : compile_sub_functions reg
      (split_function_by_placement
        (AssignPlacement.run_on_function int_with_cpu_mul_policy (clone_function f))).nodes
      0
      (split_function_by_placement
        (AssignPlacement.run_on_function int_with_cpu_mul_policy
          (clone_function f))).sub_functions
      hb rt ([] : List (Nat × Executable α)) with
  | error e => rw [hc] at h; cases h
  | ok res =>
    obtain ⟨hm1, hb2, rt2⟩ := res
    rw [hc] at h
    simp only [Except.ok.injEq, Prod.mk.injEq] at h
    obtain ⟨rfl, rfl, rfl⟩ := h
    obtain ⟨_, _, h3⟩ := compile_sub_functions_handles reg _ _ 0 hb rt [] hm1 hb2 rt2 hc
    refine ⟨rfl, rfl, rfl, rfl, rfl, ?_, ?_⟩
    · intro j s hs
      obtain ⟨handle, be, hl, _, hcomp⟩ := h3 j s hs
      rw [Nat.zero_add] at hl
      refine ⟨handle, hl, ?_⟩
      unfold Backend.compile at hcomp
      split at hcomp
      · simp only [Except.ok.injEq] at hcomp
        rw [← hcomp]
      · cases hcomp
    · intro s hs
      obtain ⟨j, hj⟩ := getElem?_of_mem_sub_function _ s hs
      obtain ⟨_, be, _, hbe, _⟩ := h3 j s hj
      exact ⟨be, hbe⟩

/-- C1 (as amended). Let `f` be a well-formed function whose parameters are pairwise
distinct `Parameter` nodes, whose results are pairwise distinct `Result` nodes and whose
nodes all have element type `f32`, and let `compile` have returned an executable for it.
Then every call `execute(outputs, inputs)` of the executable, in a state whose cache
still has the backends of the compilation, with one input tensor per parameter and one
output tensor per result, the output tensors being live, pairwise distinct and none of
them an input tensor, returns `true` and leaves in the output tensors exactly the values
that the original, unsplit graph of `f` has on the contents of the input tensors. -/
theorem hybrid_execute_evaluates {α : Type} [Inhabited α] [Add α] [Mul α] (reg : Registry)
    (hb : HybridBackend) (rt : Runtime α) (f : Function) (exe : HybridExecutable α)
    (hb1 : HybridBackend) (rt1 : Runtime α) (hw : f.WellFormed) (hvalid : f.Valid)
    (hf32 : ∀ nd ∈ f.nodes, nd.element_type = ElementType.f32)
    (hcompile : hb.compile reg rt f = .ok (exe, hb1, rt1))
    (hb2 : HybridBackend)
    (hcache : ∀ p be, hb1.m_cached_backends.lookup p = some be →
      ∃ be2, hb2.m_cached_backends.lookup p = some be2)
    (rt2 : Runtime α) (outputs inputs : List Nat) (data vals : List (List α))
    (hdata : read_vectors rt2 inputs = .ok data)
    (heval : f.evaluate data = some vals)
    (hout : outputs.length = f.results.length)
    (hlive : ∀ tv ∈ outputs, tv < rt2.tensors.length) (hnodup : outputs.Nodup)
    (hdisj : ∀ tv ∈ outputs, tv ∉ inputs) :
    ∃ rt3, exe.execute reg hb2 rt2 outputs inputs = .ok (true, hb2, rt3) ∧
      outputs.map (contents rt3) = vals.map some := by
  obtain ⟨hnodes, hparams, hresults, hsubs, hmap, hhandles, hcached⟩ :=
    compile_fields reg hb rt f exe hb1 rt1 hcompile
  -- the evaluation of the unsplit graph
  unfold Function.evaluate SubFunction.call at heval
  simp only at heval
  have hlen : data.length = f.parameters.length := by
    by_contra hne
    rw [if_neg hne] at heval
    cases heval
  rw [if_pos hlen] at heval
  cases hev : eval_ops f.nodes f.get_ordered_ops (List.zip f.parameters data) with
  | none => rw [hev] at heval; cases heval
  | some env =>
    rw [hev] at heval
    simp only at heval
    unfold Function.get_ordered_ops at hev
    rw [List.range_eq_range'] at hev
    obtain ⟨_, hE1, hE2⟩ := eval_ops_range f.nodes hw f.nodes.length 0 _ env hev
    have hplen := placed_length f
    have henvF : ∀ x, x < (placed f).nodes.length →
        ∃ v, env.lookup x = some v ∧ eval_node (placed f).nodes env x = some v := by
      intro x hx
      obtain ⟨v, h1, h2⟩ := hE1 x (Nat.zero_le _) (by omega)
      exact ⟨v, h1, by rw [eval_node_placed]; exact h2⟩
    have hparF : ∀ x n, (placed f).nodes[x]? = some n → n.op = OpKind.Parameter →
        x ∈ (placed f).parameters := by
      intro x n1 hn1 hop
      obtain ⟨n, hn, hop2, _, _⟩ := placed_node f x n1 hn1
      have hx : x < f.nodes.length := (List.getElem?_eq_some.1 hn).1
      have h1 := hE2 x n (Nat.zero_le _) (by omega) hn (by rw [← hop2]; exact hop)
      obtain ⟨v, hv, _⟩ := hE1 x (Nat.zero_le _) (by omega)
      rw [hv] at h1
      exact mem_of_lookup_zip f.parameters data x v h1
    have hf32F : ∀ nd ∈ (placed f).nodes, nd.element_type = ElementType.f32 := by
      intro nd hnd
      obtain ⟨i, hi, hget⟩ := List.getElem_of_mem hnd
      obtain ⟨n, hn, _, _, hty⟩ := placed_node f i nd
        (by rw [List.getElem?_eq_getElem hi, hget])
      rw [hty]
      obtain ⟨hlt, hget2⟩ := List.getElem?_eq_some.1 hn
      exact hf32 n (by rw [← hget2]; exact List.getElem_mem hlt)
    have hC := split_computes (placed f) (placed_wellFormed f hw) (placed_valid f hvalid)
      hf32F env henvF hparF exe hnodes hparams hresults hsubs hmap hhandles
    -- the values of the parameters and of the results
    have hWorig : ∀ x, x < f.nodes.length →
        env.lookup x = some (split_value (placed f).nodes env x) := by
      intro x hx
      obtain ⟨v, hv, _⟩ := hE1 x (Nat.zero_le _) (by omega)
      rw [split_value_original _ env x v (by omega) hv]
      exact hv
    have hcont := read_vectors_contents rt2 inputs data hdata
    obtain ⟨rt3, hexec, hvalues⟩ := execute_computes reg exe _ hC hb2
      (by
        intro s hs
        obtain ⟨be, hbe⟩ := hcached s hs
        exact hcache _ be hbe)
      rt2 outputs inputs
      (by
        have := congrArg List.length hcont
        simp only [List.length_map] at this
        rw [hparams]
        omega)
      (by rw [hresults]; exact hout)
      (by
        intro i p tv hp htv
        rw [hparams] at hp
        have hpm : p ∈ f.parameters := by
          obtain ⟨hlt, hget⟩ := List.getElem?_eq_some.1 hp
          rw [← hget]
          exact List.getElem_mem hlt
        have hplt : p < f.nodes.length := valid_lt f p _ (hvalid.2.2.1 p hpm)
        have hd : List.map some data = inputs.map (contents rt2) := hcont
        have hdi : (data[i]?).map some = (inputs[i]?).map (contents rt2) := by
          rw [← List.getElem?_map, ← List.getElem?_map, hd]
        rw [htv] at hdi
        cases hdv : data[i]? with
        | none => rw [hdv] at hdi; cases hdi
        | some d =>
          rw [hdv] at hdi
          simp only [Option.map_some', Option.some.injEq] at hdi
          rw [← hdi]
          congr 1
          have hzip := lookup_zip_of_nodup f.parameters data i p d hvalid.1 hp hdv
          have hop := hvalid.2.2.1 p hpm
          cases hn : f.nodes[p]? with
          | none => rw [hn] at hop; cases hop
          | some n =>
            rw [hn] at hop
            simp only [Option.map_some', Option.some.injEq] at hop
            have h1 := hE2 p n (Nat.zero_le _) (by omega) hn hop
            rw [hzip, hWorig p hplt] at h1
            exact Option.some.inj h1)
      hlive hnodup hdisj
    refine ⟨rt3, hexec, ?_⟩
    have hvals := read_results_values env f.results vals heval
    apply List.ext_getElem?
    intro i
    rw [List.getElem?_map, List.getElem?_map, hvals, List.getElem?_map]
    cases ho : outputs[i]? with
    | none =>
      have : f.results[i]? = none := by
        rw [List.getElem?_eq_none_iff] at ho ⊢
        omega
      rw [this]
      rfl
    | some tv =>
      have hilt : i < f.results.length := by
        have := (List.getElem?_eq_some.1 ho).1
        omega
      have hr : f.results[i]? = some f.results[i] := List.getElem?_eq_getElem hilt
      rw [hr]
      simp only [Option.map_some']
      rw [hvalues i f.results[i] tv (by rw [hresults]; exact hr) ho]
      have hrlt : f.results[i] < f.nodes.length :=
        valid_lt f _ _ (hvalid.2.2.2 _ (List.getElem_mem hilt))
      rw [hWorig _ hrlt]
      rfl

/-- C1 (as amended), on the functions of `hybrid_abc` and of `hybrid_back_and_forth`
with the inputs of the tests: `compile` returns an executable, and `execute` leaves
[[54,80],[110,144]] and [[90,180],[308,480]] in the output tensor. -/
theorem hybrid_execute_evaluates_witness :
    (∃ (exe : HybridExecutable Int) (hb1 : HybridBackend) (rt1 : Runtime Int),
      (HybridBackend.new int_with_cpu_mul_policy).compile full_registry empty_runtime
        graph_abc = .ok (exe, hb1, rt1) ∧
      ∃ rt3, exe.execute full_registry hb1 runtime_abc [3] [0, 1, 2] = .ok (true, hb1, rt3) ∧
        [3].map (contents rt3) = [some [54, 80, 110, 144]]) ∧
    (∃ (exe : HybridExecutable Int) (hb1 : HybridBackend) (rt1 : Runtime Int),
      (HybridBackend.new int_with_cpu_mul_policy).compile full_registry empty_runtime
        graph_back_and_forth = .ok (exe, hb1, rt1) ∧
      ∃ rt3, exe.execute full_registry hb1 runtime_abc [3] [0, 1, 2] = .ok (true, hb1, rt3) ∧
        [3].map (contents rt3) = [some [90, 180, 308, 480]]) :=
  ⟨⟨_, _, _, rfl,
      hybrid_execute_evaluates full_registry (HybridBackend.new int_with_cpu_mul_policy)
        empty_runtime graph_abc _ _ _ (by decide) (by decide) (by decide) rfl _
        (fun _ be h => ⟨be, h⟩) runtime_abc [3] [0, 1, 2]
        [[1, 2, 3, 4], [5, 6, 7, 8], [9, 10, 11, 12]] [[54, 80, 110, 144]] (by rfl) (by decide)
        (by rfl) (by decide) (by decide) (by decide)⟩,
    ⟨_, _, _, rfl,
      hybrid_execute_evaluates full_registry (HybridBackend.new int_with_cpu_mul_policy)
        empty_runtime graph_back_and_forth _ _ _ (by decide) (by decide) (by decide) rfl _
        (fun _ be h => ⟨be, h⟩) runtime_abc [3] [0, 1, 2]
        [[1, 2, 3, 4], [5, 6, 7, 8], [9, 10, 11, 12]] [[90, 180, 308, 480]] (by rfl)
        (by decide) (by rfl) (by decide) (by decide) (by decide)⟩⟩

/-- C1, as stated, fails. For `D = A + B`, `E = D * C` over parameters of element type
`i64` the unsplit graph evaluates to [[54,80],[110,144]], but `execute` ends at the first
boundary copy, which reads the tensor as a vector of floats. And for the function with
the results `A + B` and `A + A`, called with the same tensor for both outputs, that
tensor ends with the value [[2,4],[6,8]] of the second result, not with the value
[[6,8],[10,12]] of the first. -/
theorem hybrid_execute_fails :
    (@Function.evaluate Int _ _ graph_abc_i64
        [[1, 2, 3, 4], [5, 6, 7, 8], [9, 10, 11, 12]] = some [[54, 80, 110, 144]] ∧
      ∃ (exe : HybridExecutable Int) (hb1 : HybridBackend) (rt1 : Runtime Int),
        (HybridBackend.new int_with_cpu_mul_policy).compile full_registry empty_runtime
          graph_abc_i64 = .ok (exe, hb1, rt1) ∧
        exe.execute full_registry hb1 runtime_abc_i64 [3] [0, 1, 2] =
          .error Error.element_type_mismatch) ∧
    (@Function.evaluate Int _ _ graph_two_results [[1, 2, 3, 4], [5, 6, 7, 8]] =
        some [[6, 8, 10, 12], [2, 4, 6, 8]] ∧
      ∃ (exe : HybridExecutable Int) (hb1 : HybridBackend) (rt1 : Runtime Int),
        (HybridBackend.new int_with_cpu_mul_policy).compile full_registry empty_runtime
          graph_two_results = .ok (exe, hb1, rt1) ∧
        outcome 2 (exe.execute full_registry hb1 runtime_two_results [2, 2] [0, 1]) =
          .ok (true, some [2, 4, 6, 8])) :=
  ⟨⟨by decide, _, _, _, rfl, by rfl⟩, ⟨by decide, _, _, _, rfl, by rfl⟩⟩

end ngraph
